import Mathlib

/-! The scheduling core of cyberbrain: a shallow embedding.

The development follows the Go sources of the scheduling core
(`cerebrum/demultiplexer.go`, `cerebrum/scheduler.go`, `cerebrum/types.go`), of
the observer (`observer/observer.go`), of the configuration builder
(`configBuilder/configBuilder.go`) and of the archivist (`archivist/archivist.go`).

Conventions of the embedding:

* A Go `map[string]string` is an association list read with `mapGet` / `mapHas`;
  a `nil` map and an empty map are both the empty list, and iteration follows
  the list order (Go leaves the order unspecified).
* A Go slice is a `List`; a `nil` slice and an empty slice are both `[]`.
* The field `Type` of the Go structs is called `Typ` (`Type` is reserved).
* Log calls of the scheduler and the observer have no effect on their results and
  are left out.
-/

namespace Cyberbrain

/-! ## The transport data model (`gits/src/transport`) -/

/-- A Go `map[string]string`. -/
abbrev StringMap := List (String × String)

/-- Go `m[k]`: the value stored under `k`, or the empty string. -/
def mapGet (m : StringMap) (k : String) : String :=
  match m.lookup k with
  | some v => v
  | none => ""

/-- Go `_, ok := m[k]`. -/
def mapHas (m : StringMap) (k : String) : Bool :=
  match m.lookup k with
  | some _ => true
  | none => false

mutual
/-- The `transport.TransportEntity` struct: the fields the scheduling core reads. -/
inductive TransportEntity where
  | mk (Typ : String) (ID : Int) (Value : String) (Context : String)
      (Properties : StringMap)
      (ChildRelations : List TransportRelation)
      (ParentRelations : List TransportRelation)
/-- The `transport.TransportRelation` struct: the fields the scheduling core reads. -/
inductive TransportRelation where
  | mk (Context : String) (Properties : StringMap) (Target : TransportEntity)
end

/-- Field `Type`. -/
def TransportEntity.Typ : TransportEntity → String
  | .mk t _ _ _ _ _ _ => t

/-- Field `ID`. -/
def TransportEntity.ID : TransportEntity → Int
  | .mk _ i _ _ _ _ _ => i

/-- Field `Value`. -/
def TransportEntity.Value : TransportEntity → String
  | .mk _ _ v _ _ _ _ => v

/-- Field `Context`. -/
def TransportEntity.Context : TransportEntity → String
  | .mk _ _ _ c _ _ _ => c

/-- Field `Properties`. -/
def TransportEntity.Properties : TransportEntity → StringMap
  | .mk _ _ _ _ p _ _ => p

/-- Field `ChildRelations`. -/
def TransportEntity.ChildRelations : TransportEntity → List TransportRelation
  | .mk _ _ _ _ _ c _ => c

/-- Field `ParentRelations`. -/
def TransportEntity.ParentRelations : TransportEntity → List TransportRelation
  | .mk _ _ _ _ _ _ p => p

/-- Field `Context` of a relation. -/
def TransportRelation.Context : TransportRelation → String
  | .mk c _ _ => c

/-- Field `Properties` of a relation. -/
def TransportRelation.Properties : TransportRelation → StringMap
  | .mk _ p _ => p

/-- Field `Target` of a relation. -/
def TransportRelation.Target : TransportRelation → TransportEntity
  | .mk _ _ t => t

/-- The method `Children()`: the targets of the child relations, in order. -/
def TransportEntity.Children (e : TransportEntity) : List TransportEntity :=
  e.ChildRelations.map TransportRelation.Target

/-- The method `Parents()`: the targets of the parent relations, in order. -/
def TransportEntity.Parents (e : TransportEntity) : List TransportEntity :=
  e.ParentRelations.map TransportRelation.Target

/-- The zero value `transport.TransportEntity{}`. -/
def TransportEntity.zero : TransportEntity := .mk "" 0 "" "" [] [] []

/-! ## Demultiplexer (`cerebrum/demultiplexer.go`) -/

/-- Modelled from the spec: `util.CopyStringStringMap` is not among the sources;
the spec says "Properties maps are copied", so the copy holds the same pairs. -/
def CopyStringStringMap (m : StringMap) : StringMap := m

mutual
/-- `Demultiplexer.deepCopyEntity`. -/
def deepCopyEntity : TransportEntity → TransportEntity
  | .mk t i v c p crs prs =>
    .mk t i v c (CopyStringStringMap p) (deepCopyRelations crs) (deepCopyRelations prs)
/-- One iteration of the two relation loops of `deepCopyEntity`. -/
def deepCopyRelation : TransportRelation → TransportRelation
  | .mk c p t => .mk c (CopyStringStringMap p) (deepCopyEntity t)
/-- The relation loops of `deepCopyEntity`. -/
def deepCopyRelations : List TransportRelation → List TransportRelation
  | [] => []
  | r :: rs => deepCopyRelation r :: deepCopyRelations rs
end

/-- `Demultiplexer.generateRecombinations`. -/
def generateRecombinations {α : Type} : List (List α) → List (List α)
  | [] => []
  | firstRow :: rest =>
    let remainingRows := generateRecombinations rest
    if remainingRows.length = 0 then
      firstRow.map (fun val => [val])
    else
      firstRow.flatMap (fun val => remainingRows.map (fun comb => val :: comb))

/-- One step of the grouping loop of `Parse`: `x` of type `t` joins the group of
`t` when `typeLookup` knows `t`, and opens a new last group otherwise. -/
def groupInsert {α : Type} (t : String) (x : α) :
    List (String × List α) → List (String × List α)
  | [] => [(t, [x])]
  | (t', xs) :: rest =>
    if t' = t then (t', xs ++ [x]) :: rest else (t', xs) :: groupInsert t x rest

/-- The grouping loop of `Parse` (`typeLookup` and `typePointer` together): the
groups are in the order in which their type first appears, and every group keeps
the source order. -/
def groupByType {α : Type} (l : List (String × α)) : List (String × List α) :=
  l.foldl (fun acc p => groupInsert p.1 p.2 acc) []

/-- The relation `Parse` builds around a copied target: only `Target` is set. -/
def demuxRelation (x : TransportEntity) : TransportRelation :=
  .mk "" [] (deepCopyEntity x)

mutual
/-- `Demultiplexer.Parse`. The recursive calls are made child by child
(`parseRelations`) before the grouping; `Parse` is pure, so this is the same as
grouping the children first and parsing each member of a group
(see `demux_rows_eq`). -/
def Parse : TransportEntity → List TransportEntity
  | .mk t i v c p crs prs =>
    match crs with
    | [] => [deepCopyEntity (.mk t i v c p [] prs)]
    | r :: rs =>
      let demultiplexedTypePointer :=
        (groupByType (parseRelation r :: parseRelations rs)).map (fun g => g.2.flatten)
      (generateRecombinations demultiplexedTypePointer).map (fun recombinationSet =>
        .mk t i v c (CopyStringStringMap p) (recombinationSet.map demuxRelation) [])
/-- The type of a child and its demultiplexed forms. -/
def parseRelation : TransportRelation → String × List TransportEntity
  | .mk _ _ tgt => (tgt.Typ, Parse tgt)
/-- The demultiplexed forms of every child, in source order. -/
def parseRelations : List TransportRelation → List (String × List TransportEntity)
  | [] => []
  | r :: rs => parseRelation r :: parseRelations rs
end

/-- The `typePointer` table of `Parse`: the child targets grouped by type. -/
def typePointer (e : TransportEntity) : List (List TransportEntity) :=
  (groupByType (e.ChildRelations.map (fun r => (r.Target.Typ, r.Target)))).map (fun g => g.2)

/-! ## String helpers (Go `strings`, `strconv`) -/

/-- Go `a < b` on strings. Go compares the UTF-8 bytes, which orders strings as
their code points do. -/
def goStringLess (a b : String) : Bool := decide (a.toList < b.toList)

/-- Go `strings.HasPrefix(s, p)`. -/
def startsWith (s p : String) : Bool := p.toList.isPrefixOf s.toList

/-- Go `strings.HasSuffix(s, p)`. -/
def endsWith (s p : String) : Bool := p.toList.reverse.isPrefixOf s.toList.reverse

/-- Go `strings.TrimPrefix(s, p)`. -/
def trimStart (s p : String) : String :=
  if startsWith s p then String.mk (s.toList.drop p.toList.length) else s

/-- Splitting a list of characters at every occurrence of `c`. -/
def splitChars (c : Char) : List Char → List (List Char)
  | [] => [[]]
  | x :: xs =>
    if x = c then [] :: splitChars c xs
    else
      match splitChars c xs with
      | [] => [[x]]
      | p :: ps => (x :: p) :: ps

/-- Go `strings.Split(s, sep)` for a separator of one character. -/
def splitOnChar (s : String) (c : Char) : List String :=
  (splitChars c s.toList).map String.mk

/-- Go `unicode.IsSpace`. -/
def isGoSpace (c : Char) : Bool :=
  let n := c.toNat
  (9 ≤ n && n ≤ 13) || n == 32 || n == 133 || n == 160 || n == 5760 ||
  (8192 ≤ n && n ≤ 8202) || n == 8232 || n == 8233 || n == 8239 || n == 8287 || n == 12288

/-- Go `strings.TrimSpace`. -/
def trimSpace (s : String) : String :=
  String.mk ((s.toList.dropWhile isGoSpace).reverse.dropWhile isGoSpace).reverse

/-- Go `strconv.Itoa`. -/
def Itoa (i : Int) : String := toString i

/-- Writing `m[k] = v` into a Go map: an existing key keeps its place. -/
def mapSet {β : Type} (m : List (String × β)) (k : String) (v : β) : List (String × β) :=
  match m with
  | [] => [(k, v)]
  | (k', v') :: rest => if k' = k then (k, v) :: rest else (k', v') :: mapSet rest k v

/-! ## Compiled patterns (`cerebrum/types.go`, `cerebrum/scheduler.go`) -/

/-- A filter record `[3]string`: Field, Operator, Value. -/
abbrev FilterRec := String × String × String

/-- The `PatternNode` struct. -/
inductive PatternNode where
  | mk (Alias : String) (Typ : String) (Mode : String)
      (Filters : List (String × FilterRec))
      (Children : List PatternNode)
      (NormalizedFilterFields : StringMap)

/-- Field `Alias`. -/
def PatternNode.Alias : PatternNode → String
  | .mk a _ _ _ _ _ => a

/-- Field `Type`. -/
def PatternNode.Typ : PatternNode → String
  | .mk _ t _ _ _ _ => t

/-- Field `Mode`. -/
def PatternNode.Mode : PatternNode → String
  | .mk _ _ m _ _ _ => m

/-- Field `Filters`. -/
def PatternNode.Filters : PatternNode → List (String × FilterRec)
  | .mk _ _ _ f _ _ => f

/-- Field `Children`. -/
def PatternNode.Children : PatternNode → List PatternNode
  | .mk _ _ _ _ c _ => c

/-- Field `NormalizedFilterFields`. -/
def PatternNode.NormalizedFilterFields : PatternNode → StringMap
  | .mk _ _ _ _ _ n => n

/-- Go `filters[name]` on a `map[string][3]string`: the zero record when absent. -/
def filterGet (m : List (String × FilterRec)) (k : String) : FilterRec :=
  match m.lookup k with
  | some r => r
  | none => ("", "", "")

/-- The body of the property loop of `compilePatternNode` for one pair `k, v`,
acting on `(filters, normalized)`. -/
def compileFilterStep (acc : List (String × FilterRec) × StringMap) (kv : String × String) :
    List (String × FilterRec) × StringMap :=
  let k := kv.1
  let v := kv.2
  if startsWith k "Filter." then
    match splitOnChar k '.' with
    | [_, name, kind] =>
      let rec0 := filterGet acc.1 name
      if kind = "Field" then
        let normalized :=
          if startsWith v "Properties." then
            let trimmed := trimStart v "Properties."
            if trimmed ≠ "" then mapSet acc.2 trimmed v else acc.2
          else acc.2
        (mapSet acc.1 name (v, rec0.2.1, rec0.2.2), normalized)
      else if kind = "Operator" then
        (mapSet acc.1 name (rec0.1, v, rec0.2.2), acc.2)
      else if kind = "Value" then
        (mapSet acc.1 name (rec0.1, rec0.2.1, v), acc.2)
      else
        (mapSet acc.1 name rec0, acc.2)
    | _ => acc
  else acc

/-- The property loop of `compilePatternNode`: `(filters, normalized)`. -/
def compileFilters (props : StringMap) : List (String × FilterRec) × StringMap :=
  props.foldl compileFilterStep ([], [])

/-- The local struct `childWithIdx` of `compilePatternNode`. -/
structure childWithIdx where
  /-- The child Structure node. -/
  e : TransportEntity
  /-- Its index among the children as authored. -/
  idx : Nat

/-- The less function handed to `sort.SliceStable` in `compilePatternNode`. -/
def childLess (ci cj : childWithIdx) : Bool :=
  let ai := mapGet ci.e.Properties "Alias"
  let aj := mapGet cj.e.Properties "Alias"
  if (ai == "") != (aj == "") then
    aj == "" && ai != ""
  else if ai != aj then
    goStringLess ai aj
  else if ci.e.Value != cj.e.Value then
    goStringLess ci.e.Value cj.e.Value
  else
    decide (ci.idx < cj.idx)

/-- Go `sort.SliceStable(xs, less)`: the stable sort of `xs` by `less`, here as
the insertion sort that puts an element before the first one it is not
greater than. -/
def sortSliceStable {α : Type} (less : α → α → Bool) (xs : List α) : List α :=
  List.insertionSort (fun a b => less b a = false) xs

/-- The loop `for i, ch := range n.Children()` of `compilePatternNode`, from
index `i` on. -/
def withIdx (i : Nat) : List TransportEntity → List childWithIdx
  | [] => []
  | e :: es => ⟨e, i⟩ :: withIdx (i + 1) es

/-- The children of a node in the order `compilePatternNode` gives them. -/
def sortedChildren (n : TransportEntity) : List childWithIdx :=
  sortSliceStable childLess (withIdx 0 n.Children)

mutual
/-- `Scheduler.compilePatternNode`. Every child is compiled where it stands and
sorted together with its compiled form; compilation is pure, so this is the same
as sorting first and compiling each sorted child
(see `compilePatternNode_children`). -/
def compilePatternNode : TransportEntity → PatternNode
  | .mk _ _ v _ p crs _ =>
    let fn := compileFilters p
    let compiled := compileRelations 0 crs
    let sorted := sortSliceStable (fun a b => childLess a.1 b.1) compiled
    .mk (mapGet p "Alias") v (mapGet p "Mode") fn.1 (sorted.map (fun cw => cw.2)) fn.2
/-- Every child with its index and its compiled form. -/
def compileRelations : Nat → List TransportRelation → List (childWithIdx × PatternNode)
  | _, [] => []
  | i, (.mk _ _ tgt) :: rs => (⟨tgt, i⟩, compilePatternNode tgt) :: compileRelations (i + 1) rs
end

/-! ## The collaborators of the scheduler

The graph store (`gits`), its query builder, the mapper, the job factory, the
action registry and `util.GenerateSignature` are not part of the scheduling core.
The scheduler is embedded over an arbitrary state `W` of the store and arbitrary
behaviour of these collaborators. -/

/-- A query of the `gits` query builder, as far as the scheduler builds it:
`New().<Method>(Pool)`, the conditions added by `Match`, and the sub-queries
added by `To` and `From`. -/
inductive Query where
  | mk (Method : String) (Pool : String) (Conditions : List (String × String × String))
      (To : List Query) (From : List Query)

/-- `query.New().Read(pool)`. -/
def Query.Read (pool : String) : Query := .mk "Read" pool [] [] []

/-- `query.New().Find(pool)`. -/
def Query.Find (pool : String) : Query := .mk "Find" pool [] [] []

/-- `query.New().Link(pool)`. -/
def Query.Link (pool : String) : Query := .mk "Link" pool [] [] []

/-- `q.Match(alpha, operator, beta)`. -/
def Query.Match : Query → String → String → String → Query
  | .mk m p cs t f, a, o, b => .mk m p (cs ++ [(a, o, b)]) t f

/-- `q.To(sub)`. -/
def Query.To : Query → Query → Query
  | .mk m p cs t f, sub => .mk m p cs (t ++ [sub]) f

/-- `q.From(sub)`. -/
def Query.From : Query → Query → Query
  | .mk m p cs t f, sub => .mk m p cs t (f ++ [sub])

/-- The result of `Query().Execute`. -/
structure QueryResult where
  /-- Field `Amount`. -/
  Amount : Int
  /-- Field `Entities`. -/
  Entities : List TransportEntity

/-- What the scheduler calls outside the scheduling core, over a store state `W`. -/
structure Collaborators (W : Type) where
  /-- `s.memory.Gits.Query().Execute(q)`. -/
  Execute : W → Query → W × QueryResult
  /-- `s.memory.Mapper.MapTransportDataWithContext(entity, context)`. -/
  MapTransportDataWithContext : W → TransportEntity → String → W × TransportEntity
  /-- `NewJob(s.memory, s.log).Create(action, requirement, input)`. -/
  JobCreate : W → String → String → TransportEntity → W
  /-- `cortex.GetAction(action)` followed by `GetDependencyByName(dependency)`. -/
  GetDependencyByName : String → String → TransportEntity
  /-- `cortex.GetAction(action)` followed by `GetName()`. -/
  GetName : String → String
  /-- `util.GenerateSignature(input)`. -/
  GenerateSignature : TransportEntity → String
  /-- The hexadecimal SHA-1 digest: `hex.EncodeToString(sha1.Sum([]byte(s)))`. -/
  sha1Hex : String → String

/-- A job handed to `Job.Create`: the three arguments of the call, and, for the
record, the anchor and the digest of the witness under which the scheduler
created it. -/
structure Job where
  /-- The action name. -/
  Action : String
  /-- The dependency name. -/
  Requirement : String
  /-- The input sub-graph. -/
  Input : TransportEntity
  /-- The anchor that `isDuplicateByWitness` selected for the input. -/
  WitnessAnchor : TransportEntity
  /-- The digest `sigHex` that `isDuplicateByWitness` computed for the input. -/
  WitnessDigest : String

/-- The `Scheduler` struct: the fields that carry state. -/
structure Scheduler where
  /-- Compiled patterns, keyed by `action|depID`. -/
  patternCache : List (String × PatternNode)
  /-- Cache hits so far. -/
  patternHits : Nat
  /-- Cache misses so far. -/
  patternMisses : Nat
  /-- Keys whose summary was logged. -/
  patternSummarized : List (String × Bool)

/-- `NewScheduler`. -/
def NewScheduler : Scheduler := ⟨[], 0, 0, []⟩

/-! ## Scheduler (`cerebrum/scheduler.go`) -/

/-- The map `map[string][2]*transport.TransportEntity` of new relation structures:
signature, parent, child. -/
abbrev RelationStructures := List (String × TransportEntity × TransportEntity)

mutual
/-- `Scheduler.rFilterRelationStructures`. Every iteration of the loop has its own
`childRelation` (the loop-variable semantics of Go 1.22), so the recorded child
is the target of the relation that carried the marker. -/
def rFilterRelationStructures :
    TransportEntity → RelationStructures → RelationStructures
  | .mk t i v c p crs prs, relationStructures =>
    rFilterRelationLoop (.mk t i v c p crs prs) crs relationStructures
/-- The loop over `entity.ChildRelations` of `rFilterRelationStructures`. -/
def rFilterRelationLoop :
    TransportEntity → List TransportRelation → RelationStructures → RelationStructures
  | _, [], relationStructures => relationStructures
  | entity, (.mk _ rp tgt) :: rest, relationStructures =>
    let tmpRelString := entity.Typ ++ "-" ++ tgt.Typ
    let known :=
      if mapHas rp "bMap" && mapGet rp "bMap" == "" then
        if relationStructures.any (fun kv => kv.1 == tmpRelString) then relationStructures
        else relationStructures ++ [(tmpRelString, entity, tgt)]
      else relationStructures
    rFilterRelationLoop entity rest (rFilterRelationStructures tgt known)
end

/-- The `lookup` map and the `pointer` table of the scheduler. -/
abbrev LookupPointer := List (String × Nat) × List (List TransportEntity)

/-- Go `_, ok := lookup[k]` on a `map[string]int`. -/
def lookupHas (lookup : List (String × Nat)) (k : String) : Bool :=
  (lookup.lookup k).isSome

/-- Go `lookup[k]` on a `map[string]int`. -/
def lookupGet (lookup : List (String × Nat)) (k : String) : Nat :=
  (lookup.lookup k).getD 0

mutual
/-- `Scheduler.rEnrichLookupAndPointer`. -/
def rEnrichLookupAndPointer : TransportEntity → LookupPointer → LookupPointer
  | .mk t i v c p crs prs, lp =>
    let lp1 :=
      if mapHas p "bMap" then
        if lookupHas lp.1 t then lp
        else (mapSet lp.1 t lp.2.length, lp.2 ++ [[.mk t i v c p crs prs]])
      else lp
    rEnrichLoop crs lp1
/-- The loop over `entity.ChildRelations` of `rEnrichLookupAndPointer`. -/
def rEnrichLoop : List TransportRelation → LookupPointer → LookupPointer
  | [], lp => lp
  | (.mk _ _ tgt) :: rest, lp => rEnrichLoop rest (rEnrichLookupAndPointer tgt lp)
end

/-- The result loop shared by `retrieveActionsByType` and
`retrieveActionsByRelationStructure`. -/
def actionsOfResult (result : QueryResult) : List (String × String) :=
  match result.Entities with
  | [] => []
  | first :: _ =>
    first.Children.flatMap (fun dependencyEntity =>
      dependencyEntity.Parents.map (fun actionEntity =>
        (actionEntity.Value, dependencyEntity.Value)))

/-- The query of `retrieveActionsByType` and `retrieveActionsByRelationStructure`. -/
def lookupQuery (pool value : String) : Query :=
  ((Query.Read pool).Match "Value" "==" value).To
    ((Query.Read "Dependency").From (Query.Read "Action"))

/-- `Scheduler.retrieveActionsByType`. -/
def retrieveActionsByType {W : Type} (C : Collaborators W) (w : W) (entityType : String) :
    W × List (String × String) :=
  let r := C.Execute w (lookupQuery "DependencyEntityLookup" entityType)
  (r.1, actionsOfResult r.2)

/-- `Scheduler.retrieveActionsByRelationStructure`. -/
def retrieveActionsByRelationStructure {W : Type} (C : Collaborators W) (w : W)
    (relationStructure : String) : W × List (String × String) :=
  let r := C.Execute w (lookupQuery "DependencyRelationLookup" relationStructure)
  (r.1, actionsOfResult r.2)

/-- The inner loops of `enrichActionsAndDependenciesByNewRelationStructures`: an
action is appended unless the pair is already listed. -/
def appendNewActions (actionsAndDependencies actions : List (String × String)) :
    List (String × String) :=
  actions.foldl (fun acc action =>
    if acc.any (fun val => val.1 == action.1 && val.2 == action.2) then acc
    else acc ++ [action]) actionsAndDependencies

/-- `Scheduler.enrichActionsAndDependenciesByNewRelationStructures`. -/
def enrichActionsAndDependenciesByNewRelationStructures {W : Type} (C : Collaborators W)
    (w : W) (newRelationStructures : RelationStructures)
    (actionsAndDependencies : List (String × String)) : W × List (String × String) :=
  newRelationStructures.foldl (fun acc kv =>
    let r := retrieveActionsByRelationStructure C acc.1 kv.1
    (r.1, appendNewActions acc.2 r.2)) (w, actionsAndDependencies)

mutual
/-- `Scheduler.findNodeByValue`. -/
def findNodeByValue : TransportEntity → String → Option TransportEntity
  | .mk t i v c p crs prs, typeName =>
    if v = typeName then some (.mk t i v c p crs prs)
    else findNodeByValueLoop crs typeName
/-- The loop over `root.Children()` of `findNodeByValue`. -/
def findNodeByValueLoop : List TransportRelation → String → Option TransportEntity
  | [], _ => none
  | (.mk _ _ tgt) :: rest, typeName =>
    match findNodeByValue tgt typeName with
    | some hit => some hit
    | none => findNodeByValueLoop rest typeName
end

mutual
/-- `Scheduler.rWalkInput`, as the list of the nodes in the order in which `fn`
is invoked on them: the node, its child relations, its parent relations. -/
def rWalkInput : TransportEntity → List TransportEntity
  | .mk t i v c p crs prs =>
    .mk t i v c p crs prs :: (rWalkInputLoop crs ++ rWalkInputLoop prs)
/-- The relation loops of `rWalkInput`. -/
def rWalkInputLoop : List TransportRelation → List TransportEntity
  | [] => []
  | (.mk _ _ tgt) :: rest => rWalkInput tgt ++ rWalkInputLoop rest
end

mutual
/-- The walk over child relations only, used by `collectUpdatedEntityIDs` and
`inputContainsUpdated`: the nodes in visiting order. -/
def walkChildren : TransportEntity → List TransportEntity
  | .mk t i v c p crs prs => .mk t i v c p crs prs :: walkChildrenLoop crs
/-- The loop over the child relations of `walkChildren`. -/
def walkChildrenLoop : List TransportRelation → List TransportEntity
  | [] => []
  | (.mk _ _ tgt) :: rest => walkChildren tgt ++ walkChildrenLoop rest
end

/-- `Scheduler.extractBatchAnchors`. The walk visits the nodes as `rWalkInput`
does. -/
def extractBatchAnchors (entity : TransportEntity) (relationStructures : RelationStructures) :
    List TransportEntity :=
  (rWalkInput entity).filter (fun e => mapHas e.Properties "bMap") ++
    relationStructures.map (fun kv => kv.2.2)

/-- `Scheduler.collectUpdatedEntityIDs`: the keys of the returned set. -/
def collectUpdatedEntityIDs (entity : TransportEntity)
    (newRelationStructures : RelationStructures) : List Int :=
  ((walkChildren entity).filter (fun e => mapHas e.Properties "bMap")).map (fun e => e.ID) ++
    newRelationStructures.map (fun kv => kv.2.2.ID)

/-- `Scheduler.inputContainsUpdated`. -/
def inputContainsUpdated (input : TransportEntity) (updated : List Int) : Bool :=
  (walkChildren input).any (fun e => updated.contains e.ID)

/-- `Scheduler.inputContainsEntity`. -/
def inputContainsEntity (input : TransportEntity) (t : String) (id : Int) : Bool :=
  (rWalkInput input).any (fun e => e.Typ == t && e.ID == id)

/-- `Scheduler.findFirstInInputByType`. -/
def findFirstInInputByType (root : TransportEntity) (t : String) : Option TransportEntity :=
  (rWalkInput root).find? (fun e => e.Typ == t && decide (e.ID > 0))

/-- The root Structure that `getOrCompilePattern` and `selectAnchorForInput` take
from a dependency: its first child, or the node itself. -/
def dependencyRoot (dep : TransportEntity) : TransportEntity :=
  if dep.Typ = "Dependency" then
    match dep.Children with
    | first :: _ => first
    | [] => dep
  else dep

/-- The cache key of `getOrCompilePattern` and `InvalidatePattern`. -/
def patternKey (actionName : String) (depID : Int) : String :=
  actionName ++ "|" ++ Itoa depID

/-- `Scheduler.getOrCompilePattern`: the pattern and the scheduler afterwards. -/
def getOrCompilePattern (s : Scheduler) (actionName : String) (dep : TransportEntity) :
    PatternNode × Scheduler :=
  let key := patternKey actionName dep.ID
  match s.patternCache.lookup key with
  | some pn => (pn, { s with patternHits := s.patternHits + 1 })
  | none =>
    let compiled := compilePatternNode (dependencyRoot dep)
    (compiled,
      { s with
        patternMisses := s.patternMisses + 1
        patternCache := mapSet s.patternCache key compiled
        patternSummarized :=
          if (s.patternSummarized.lookup key).getD false then s.patternSummarized
          else mapSet s.patternSummarized key true })

mutual
/-- The closure `has` of `patternContainsType`. -/
def patternHasType : PatternNode → String → Bool
  | .mk _ t _ _ children _, typeName =>
    if t = typeName then true else patternHasTypeLoop children typeName
/-- The loop over `n.Children` of `has`. -/
def patternHasTypeLoop : List PatternNode → String → Bool
  | [], _ => false
  | ch :: rest, typeName =>
    if patternHasType ch typeName then true else patternHasTypeLoop rest typeName
end

/-- `Scheduler.patternContainsType`: the answer and the scheduler afterwards. -/
def patternContainsType (s : Scheduler) (actionName : String) (dep : TransportEntity)
    (typeName : String) : Bool × Scheduler :=
  let r := getOrCompilePattern s actionName dep
  (patternHasType r.1 typeName, r.2)

/-- The property loop of `rCollectFilters`: the keys set in `filters`. -/
def collectFilterStep (filters : List String) (kv : String × String) : List String :=
  if startsWith kv.1 "Filter." && endsWith kv.1 ".Field" then
    let filters1 := filters ++ [kv.2]
    if startsWith kv.2 "Properties." then
      let trimmed := trimStart kv.2 "Properties."
      if trimmed ≠ "" then filters1 ++ [trimmed] else filters1
    else filters1
  else filters

mutual
/-- `Scheduler.rCollectFilters`: the keys of `filters` afterwards. -/
def rCollectFilters : TransportEntity → List String → List String
  | .mk _ _ _ _ p crs prs, filters =>
    rCollectFiltersLoop prs (rCollectFiltersLoop crs (p.foldl collectFilterStep filters))
/-- The relation loops of `rCollectFilters`. -/
def rCollectFiltersLoop : List TransportRelation → List String → List String
  | [], filters => filters
  | (.mk _ _ tgt) :: rest, filters => rCollectFiltersLoop rest (rCollectFilters tgt filters)
end

/-- `Scheduler.hasRelevantFilter`. -/
def hasRelevantFilter (requirement : TransportEntity) (updatedKeys : String) : Bool :=
  let filters := rCollectFilters requirement []
  (splitOnChar updatedKeys ',').any (fun key => filters.contains (trimSpace key))

/-- The property loop of `enrichQueryFilters` for one pair `name, val`. -/
def queryFilterStep (filters : List (String × FilterRec)) (kv : String × String) :
    List (String × FilterRec) :=
  if decide (kv.1.length > 6) && startsWith kv.1 "Filter" then
    match splitOnChar kv.1 '.' with
    | [_, key, typ] =>
      let rec0 := filterGet filters key
      if typ = "Field" then mapSet filters key (kv.2, rec0.2.1, rec0.2.2)
      else if typ = "Operator" then mapSet filters key (rec0.1, kv.2, rec0.2.2)
      else if typ = "Value" then mapSet filters key (rec0.1, rec0.2.1, kv.2)
      else mapSet filters key rec0
    | _ => filters
  else filters

/-- `Scheduler.enrichQueryFilters`. -/
def enrichQueryFilters (query : Query) (requirement : TransportEntity) : Query :=
  (requirement.Properties.foldl queryFilterStep []).foldl
    (fun q val => q.Match val.2.1 val.2.2.1 val.2.2.2) query

/-- The entity `pointer[lookup[t]][0]` that pins the ID of a query node. -/
def pinnedEntity (lp : LookupPointer) (t : String) : TransportEntity :=
  match lp.2.getD (lookupGet lp.1 t) [] with
  | first :: _ => first
  | [] => TransportEntity.zero

mutual
/-- `Scheduler.rBuildQuery`. -/
def rBuildQuery : TransportEntity → LookupPointer → Query
  | .mk t i v c p crs prs, lp =>
    let qry := Query.Read v
    let qry1 :=
      if lookupHas lp.1 v then qry.Match "ID" "==" (Itoa (pinnedEntity lp v).ID) else qry
    let qry2 :=
      if mapGet p "Mode" = "Match" then enrichQueryFilters qry1 (.mk t i v c p crs prs)
      else qry1
    rBuildQueryLoop crs lp qry2
/-- The loop over `requirement.ChildRelations` of `rBuildQuery`. -/
def rBuildQueryLoop : List TransportRelation → LookupPointer → Query → Query
  | [], _, qry => qry
  | (.mk _ _ tgt) :: rest, lp, qry => rBuildQueryLoop rest lp (qry.To (rBuildQuery tgt lp))
end

/-- `Scheduler.buildInputData`. -/
def buildInputData {W : Type} (C : Collaborators W) (w : W) (requirement : TransportEntity)
    (lp : LookupPointer) : W × List TransportEntity :=
  let r := C.Execute w (rBuildQuery requirement lp)
  if 0 < r.2.Amount then (r.1, r.2.Entities.flatMap Parse) else (r.1, [])

mutual
/-- The closure `walkReq` of `selectAnchorForInput`: the Primary types found. -/
def walkReq : TransportEntity → List String
  | .mk t _ v _ p crs _ =>
    (if t = "Structure" ∧ mapGet p "Type" = "Primary" then [v] else []) ++ walkReqLoop crs
/-- The loop over `n.Children()` of `walkReq`. -/
def walkReqLoop : List TransportRelation → List String
  | [] => []
  | (.mk _ _ tgt) :: rest => walkReq tgt ++ walkReqLoop rest
end

/-- The fallback of `selectAnchorForInput`: one call of the closure handed to
`rWalkInput`. -/
def smallestStep (best e : TransportEntity) : TransportEntity :=
  if e.ID > 0 then
    if goStringLess e.Typ best.Typ || (e.Typ == best.Typ && decide (e.ID < best.ID)) then e
    else best
  else best

/-- `Scheduler.selectAnchorForInput`. -/
def selectAnchorForInput (input requirement : TransportEntity) : TransportEntity :=
  let primaryTypes := walkReq (dependencyRoot requirement)
  match primaryTypes.findSome? (fun pt => findFirstInInputByType input pt) with
  | some hit => hit
  | none =>
    if input.ID > 0 then input
    else (rWalkInput input).foldl smallestStep input

/-- `Scheduler.buildWitnessSignatureString`. -/
def buildWitnessSignatureString {W : Type} (C : Collaborators W) (actionName depName : String)
    (anchor input : TransportEntity) : String :=
  actionName ++ "|" ++ depName ++ "|" ++ anchor.Typ ++ ":" ++ Itoa anchor.ID ++ "|" ++
    C.GenerateSignature input

/-- `Scheduler.linkAnchorToMemory`. -/
def linkAnchorToMemory {W : Type} (C : Collaborators W) (w : W)
    (anchor memoryNode : TransportEntity) : W :=
  if anchor.ID ≤ 0 ∨ memoryNode.ID ≤ 0 then w
  else
    (C.Execute w
      (((Query.Link anchor.Typ).Match "ID" "==" (Itoa anchor.ID)).To
        ((Query.Find "Memory").Match "ID" "==" (Itoa memoryNode.ID)))).1

/-- The digest `sigHex` that `isDuplicateByWitness` computes for an input. -/
def witnessDigest {W : Type} (C : Collaborators W) (actionName depName : String)
    (input requirement : TransportEntity) : String :=
  C.sha1Hex (buildWitnessSignatureString C actionName depName
    (selectAnchorForInput input requirement) input)

/-- The Memory entity that `isDuplicateByWitness` hands to the mapper. -/
def witnessEntity {W : Type} (C : Collaborators W) (actionName depName : String)
    (input requirement : TransportEntity) : TransportEntity :=
  .mk "Memory" (-2) (witnessDigest C actionName depName input requirement)
    ("Exec:" ++ actionName ++ ":" ++ depName) [] [] []

/-- The store, the scheduler, and the record of what the scheduler calls have done
so far. -/
structure RunState (W : Type) where
  /-- The store. -/
  world : W
  /-- The scheduler. -/
  sched : Scheduler
  /-- The jobs created, oldest first. -/
  jobs : List Job
  /-- The Memory entities handed to the mapper, oldest first. -/
  witnesses : List TransportEntity
  /-- Whether a call has panicked (an index out of range); nothing runs after
  a panic. -/
  panicked : Bool

/-- A scheduler `s` on a store `w`, before any call. -/
def RunState.init {W : Type} (s : Scheduler) (w : W) : RunState W := ⟨w, s, [], [], false⟩

/-- `Scheduler.isDuplicateByWitness`: the state afterwards and the answer. -/
def isDuplicateByWitness {W : Type} (C : Collaborators W) (st : RunState W)
    (actionName depName : String) (input requirement : TransportEntity) :
    RunState W × Bool :=
  let anchor := selectAnchorForInput input requirement
  let mem := witnessEntity C actionName depName input requirement
  let r := C.MapTransportDataWithContext st.world mem "System"
  let st1 := { st with world := r.1, witnesses := st.witnesses ++ [mem] }
  if mapHas r.2.Properties "bMap" then
    ({ st1 with world := linkAnchorToMemory C r.1 anchor r.2 }, false)
  else (st1, true)

/-- The body of the loop over `inputs` in `overlayProcessAnchors`. -/
def processInput {W : Type} (C : Collaborators W) (updatedIDs : List Int)
    (anchor : TransportEntity) (ad : String × String) (requirement : TransportEntity)
    (st : RunState W) (input : TransportEntity) : RunState W :=
  if !inputContainsEntity input anchor.Typ anchor.ID then st
  else if !inputContainsUpdated input updatedIDs then st
  else
    let r := isDuplicateByWitness C st (C.GetName ad.1) ad.2 input requirement
    if r.2 then r.1
    else
      { r.1 with
        world := C.JobCreate r.1.world (C.GetName ad.1) ad.2 input
        jobs := r.1.jobs ++ [⟨C.GetName ad.1, ad.2, input,
          selectAnchorForInput input requirement,
          witnessDigest C (C.GetName ad.1) ad.2 input requirement⟩] }

/-- The body of the loop over `actionsAndDependencies` in `overlayProcessAnchors`.
A panic (`requirement.Children()[0]` on a dependency without child) stops the
call: nothing is done once `panicked` is set. -/
def processCandidate {W : Type} (C : Collaborators W) (batchBMapValue : String)
    (updatedIDs : List Int) (anchor : TransportEntity) (lp : LookupPointer)
    (st : RunState W) (ad : String × String) : RunState W :=
  if st.panicked then st
  else
    let requirement := C.GetDependencyByName ad.1 ad.2
    let r := patternContainsType st.sched (C.GetName ad.1) requirement anchor.Typ
    let st1 := { st with sched := r.2 }
    if !r.1 then st1
    else if batchBMapValue ≠ "" ∧ hasRelevantFilter requirement batchBMapValue = false then st1
    else
      match requirement.Children with
      | [] => { st1 with panicked := true }
      | root :: _ =>
        let inputs := buildInputData C st1.world root lp
        inputs.2.foldl (processInput C updatedIDs anchor ad requirement)
          { st1 with world := inputs.1 }

/-- The body of the loop over `anchors` in `overlayProcessAnchors`. -/
def processAnchor {W : Type} (C : Collaborators W) (batchBMapValue : String)
    (updatedIDs : List Int) (actionsAndDependencies : List (String × String))
    (st : RunState W) (anchor : TransportEntity) : RunState W :=
  let lp := rEnrichLookupAndPointer anchor ([], [])
  actionsAndDependencies.foldl (processCandidate C batchBMapValue updatedIDs anchor lp) st

/-- `Scheduler.overlayProcessAnchors`. -/
def overlayProcessAnchors {W : Type} (C : Collaborators W) (st : RunState W)
    (anchors : List TransportEntity) (actionsAndDependencies : List (String × String))
    (batch : TransportEntity) (newRelationStructures : RelationStructures) : RunState W :=
  let updatedIDs := collectUpdatedEntityIDs batch newRelationStructures
  let batchBMapValue := mapGet batch.Properties "bMap"
  anchors.foldl (processAnchor C batchBMapValue updatedIDs actionsAndDependencies) st

/-- The candidate discovery of `Run`: the loop over `lookup` calling
`retrieveActionsByType`, then the enrichment by new relation structures. -/
def discoverCandidates {W : Type} (C : Collaborators W) (w : W) (data : TransportEntity) :
    W × List (String × String) :=
  let newRelationStructures := rFilterRelationStructures data []
  let lp := rEnrichLookupAndPointer data ([], [])
  let byType := lp.1.foldl (fun acc kv =>
    let r := retrieveActionsByType C acc.1 kv.1
    (r.1, acc.2 ++ r.2)) (w, [])
  if 0 < newRelationStructures.length then
    enrichActionsAndDependenciesByNewRelationStructures C byType.1 newRelationStructures byType.2
  else byType

/-- The loop of `Run` that fills `allowed`: the child types allowed below the
batch root, or `none` when `req.Children()[0]` panics. -/
def allowedChildTypes {W : Type} (C : Collaborators W) (data : TransportEntity) :
    List (String × String) → Option (List String)
  | [] => some []
  | ad :: rest =>
    match (C.GetDependencyByName ad.1 ad.2).Children with
    | [] => none
    | root :: _ =>
      match allowedChildTypes C data rest with
      | none => none
      | some allowed =>
        match findNodeByValue root data.Typ with
        | some node => some (node.Children.map (fun ch => ch.Value) ++ allowed)
        | none => some allowed

/-- The anchors `Run` hands to `overlayProcessAnchors`. -/
def runAnchors (data : TransportEntity) : List TransportEntity :=
  let anchors := extractBatchAnchors data (rFilterRelationStructures data [])
  if anchors.length = 0 then anchors ++ [data] else anchors

/-- `Scheduler.Run` on the batch `data`, from the state `st` of the scheduler and
the store. The copy `filtered` of the batch that `Run` builds from `allowed` is
never read and is left out. -/
def Run {W : Type} (C : Collaborators W) (st : RunState W) (data : TransportEntity) :
    RunState W :=
  if st.panicked then st
  else
    let newRelationStructures := rFilterRelationStructures data []
    let cands := discoverCandidates C st.world data
    match allowedChildTypes C data cands.2 with
    | none => { st with world := cands.1, panicked := true }
    | some _ =>
      overlayProcessAnchors C { st with world := cands.1 } (runAnchors data) cands.2 data
        newRelationStructures

/-- A sequence of `Run` calls, one per batch, on one scheduler and one store. -/
def RunAll {W : Type} (C : Collaborators W) (st : RunState W) (batches : List TransportEntity) :
    RunState W :=
  batches.foldl (Run C) st

/-! ## The demultiplexer with the identity of maps and slices

Go maps and slices are references: two entity values may share one map or one
backing array, and a write through one of them is seen through the other. To
speak of sharing, an entity is given here together with the address of the storage
behind each of its maps and slices, and the demultiplexer is given with the
allocations it makes: `n` is the next free address, and every `make`, every first
`append` to a nil slice and every map copy takes one. -/

mutual
/-- A `transport.TransportEntity` with the address of its Properties map and of
the backing arrays of its relation slices (`none` for nil). -/
inductive StoredEntity where
  | mk (Typ : String) (ID : Int) (Value : String) (Context : String)
      (PropertiesAt : Option Nat) (Properties : StringMap)
      (ChildRelationsAt : Option Nat) (ChildRelations : List StoredRelation)
      (ParentRelationsAt : Option Nat) (ParentRelations : List StoredRelation)
/-- A `transport.TransportRelation` with the address of its Properties map. -/
inductive StoredRelation where
  | mk (Context : String) (PropertiesAt : Option Nat) (Properties : StringMap)
      (Target : StoredEntity)
end

/-- Field `Target` of a stored relation. -/
def StoredRelation.Target : StoredRelation → StoredEntity
  | .mk _ _ _ t => t

/-- Field `Type` of a stored entity. -/
def StoredEntity.Typ : StoredEntity → String
  | .mk t _ _ _ _ _ _ _ _ _ => t

/-- Field `ChildRelations` of a stored entity. -/
def StoredEntity.ChildRelations : StoredEntity → List StoredRelation
  | .mk _ _ _ _ _ _ _ c _ _ => c

mutual
/-- The entity value, without the addresses. -/
def StoredEntity.erase : StoredEntity → TransportEntity
  | .mk t i v c _ p _ crs _ prs => .mk t i v c p (eraseRelations crs) (eraseRelations prs)
/-- The relation value, without the addresses. -/
def StoredRelation.erase : StoredRelation → TransportRelation
  | .mk c _ p t => .mk c p t.erase
/-- The relation values, without the addresses. -/
def eraseRelations : List StoredRelation → List TransportRelation
  | [] => []
  | r :: rs => r.erase :: eraseRelations rs
end

mutual
/-- The addresses of all maps and backing arrays reachable from an entity. -/
def StoredEntity.cells : StoredEntity → List Nat
  | .mk _ _ _ _ pa _ ca crs qa prs =>
    pa.toList ++ (ca.toList ++ (cellsOfRelations crs ++ (qa.toList ++ cellsOfRelations prs)))
/-- The addresses reachable from a relation. -/
def StoredRelation.cells : StoredRelation → List Nat
  | .mk _ pa _ t => pa.toList ++ t.cells
/-- The addresses reachable from a list of relations. -/
def cellsOfRelations : List StoredRelation → List Nat
  | [] => []
  | r :: rs => r.cells ++ cellsOfRelations rs
end

mutual
/-- A write into the map at address `a`, which then holds `m`, as seen through an
entity: every map at `a` reads `m`. -/
def StoredEntity.writeMap (a : Nat) (m : StringMap) : StoredEntity → StoredEntity
  | .mk t i v c pa p ca crs qa prs =>
    .mk t i v c pa (if pa = some a then m else p) ca (writeMapRelations a m crs) qa
      (writeMapRelations a m prs)
/-- A write into the map at `a`, seen through a relation. -/
def StoredRelation.writeMap (a : Nat) (m : StringMap) : StoredRelation → StoredRelation
  | .mk c pa p t => .mk c pa (if pa = some a then m else p) (t.writeMap a m)
/-- A write into the map at `a`, seen through a list of relations. -/
def writeMapRelations (a : Nat) (m : StringMap) : List StoredRelation → List StoredRelation
  | [] => []
  | r :: rs => r.writeMap a m :: writeMapRelations a m rs
end

mutual
/-- A write into the backing array at address `a`, which then holds `rels`, as seen
through an entity: every relation slice at `a` reads `rels`. -/
def StoredEntity.writeSlice (a : Nat) (rels : List StoredRelation) :
    StoredEntity → StoredEntity
  | .mk t i v c pa p ca crs qa prs =>
    .mk t i v c pa p ca (if ca = some a then rels else writeSliceRelations a rels crs) qa
      (if qa = some a then rels else writeSliceRelations a rels prs)
/-- A write into the backing array at `a`, seen through a relation. -/
def StoredRelation.writeSlice (a : Nat) (rels : List StoredRelation) :
    StoredRelation → StoredRelation
  | .mk c pa p t => .mk c pa p (t.writeSlice a rels)
/-- A write into the backing array at `a`, seen through a list of relations. -/
def writeSliceRelations (a : Nat) (rels : List StoredRelation) :
    List StoredRelation → List StoredRelation
  | [] => []
  | r :: rs => r.writeSlice a rels :: writeSliceRelations a rels rs
end

/-- Modelled from the spec: `util.CopyStringStringMap` is not among the sources;
the spec says "Properties maps are copied", so the copy is a new map, at the next
free address `n`. The result is the address of the copy and the next free
address. -/
def copyMapAt (n : Nat) : Option Nat × Nat := (some n, n + 1)

mutual
/-- `Demultiplexer.deepCopyEntity` with its allocations: the copy and the next free
address. The Properties are copied first; a non-empty relation slice is made anew
and filled relation by relation. -/
def deepCopyStored : StoredEntity → Nat → StoredEntity × Nat
  | .mk t i v c _ p _ crs _ prs, n =>
    let props := copyMapAt n
    let kids :=
      match crs with
      | [] => ((none : Option Nat), deepCopyStoredRelations [] props.2)
      | r :: rs => (some props.2, deepCopyStoredRelations (r :: rs) (props.2 + 1))
    let pars :=
      match prs with
      | [] => ((none : Option Nat), deepCopyStoredRelations [] kids.2.2)
      | r :: rs => (some kids.2.2, deepCopyStoredRelations (r :: rs) (kids.2.2 + 1))
    (.mk t i v c props.1 p kids.1 kids.2.1 pars.1 pars.2.1, pars.2.2)
/-- One iteration of the relation loops of `deepCopyEntity`: the relation
Properties are copied when they are not nil, then the target. -/
def deepCopyStoredRelation : StoredRelation → Nat → StoredRelation × Nat
  | .mk c pa p t, n =>
    let props := match pa with
      | none => ((none : Option Nat), n)
      | some _ => copyMapAt n
    let tgt := deepCopyStored t props.2
    (.mk c props.1 p tgt.1, tgt.2)
/-- The relation loops of `deepCopyEntity`. -/
def deepCopyStoredRelations : List StoredRelation → Nat → List StoredRelation × Nat
  | [], n => ([], n)
  | r :: rs, n =>
    let first := deepCopyStoredRelation r n
    let rest := deepCopyStoredRelations rs first.2
    (first.1 :: rest.1, rest.2)
end

/-- The inner loop of `Parse` over one recombination: every member is deep-copied
into a relation of which only `Target` is set. -/
def copyMembers : List StoredEntity → Nat → List StoredRelation × Nat
  | [], n => ([], n)
  | x :: xs, n =>
    let copied := deepCopyStored x n
    let rest := copyMembers xs copied.2
    (.mk "" none [] copied.1 :: rest.1, rest.2)

/-- The outer loop of `Parse` over the recombinations: for each one, `tmpChildren`
is a new slice (nil when nothing is appended), then the Properties of the input
are copied. -/
def buildOutputs (t : String) (i : Int) (v c : String) (p : StringMap) :
    List (List StoredEntity) → Nat → List StoredEntity × Nat
  | [], n => ([], n)
  | recombinationSet :: sets, n =>
    let kids := copyMembers recombinationSet (n + 1)
    let props := copyMapAt kids.2
    let rest := buildOutputs t i v c p sets props.2
    (.mk t i v c props.1 p (if recombinationSet.isEmpty then none else some n) kids.1 none []
      :: rest.1, rest.2)

mutual
/-- `Demultiplexer.Parse` with its allocations: the outputs and the next free
address. The children are demultiplexed one after the other in source order. -/
def ParseStored : StoredEntity → Nat → List StoredEntity × Nat
  | .mk t i v c pa p ca crs qa prs, n =>
    match crs with
    | [] =>
      let copied := deepCopyStored (.mk t i v c pa p ca [] qa prs) n
      ([copied.1], copied.2)
    | r :: rs =>
      let first := parseStoredRelation r n
      let rest := parseStoredRelations rs first.2
      let demultiplexedTypePointer :=
        (groupByType (first.1 :: rest.1)).map (fun g => g.2.flatten)
      buildOutputs t i v c p (generateRecombinations demultiplexedTypePointer) rest.2
/-- The type of a child and its demultiplexed forms. -/
def parseStoredRelation : StoredRelation → Nat → (String × List StoredEntity) × Nat
  | .mk _ _ _ tgt, n =>
    let parsed := ParseStored tgt n
    ((tgt.Typ, parsed.1), parsed.2)
/-- The demultiplexed forms of every child, in source order. -/
def parseStoredRelations :
    List StoredRelation → Nat → List (String × List StoredEntity) × Nat
  | [], n => ([], n)
  | r :: rs, n =>
    let first := parseStoredRelation r n
    let rest := parseStoredRelations rs first.2
    (first.1 :: rest.1, rest.2)
end

/-! ## Cache invalidation and alias validation (`cerebrum/scheduler.go`) -/

/-- Go `delete(m, k)`. -/
def mapDelete {β : Type} (m : List (String × β)) (k : String) : List (String × β) :=
  m.filter (fun kv => kv.1 != k)

/-- `Scheduler.InvalidatePattern`. -/
def InvalidatePattern (s : Scheduler) (actionName : String) (depID : Int) : Scheduler :=
  let key := patternKey actionName depID
  { s with
    patternCache := mapDelete s.patternCache key
    patternSummarized := mapDelete s.patternSummarized key }

/-- The body of the first loop of the closure `walk` of `hasDuplicateAliases`,
acting on `(dup, seen)`; `seen` is the list of the aliases set in the map. -/
def seenStep (acc : Bool × List String) (ch : PatternNode) : Bool × List String :=
  if ch.Alias ≠ "" then (acc.1 || acc.2.contains ch.Alias, acc.2 ++ [ch.Alias])
  else acc

mutual
/-- The closure `walk` of `hasDuplicateAliases`: the flag `dup` afterwards. -/
def hasDuplicateAliasesWalk : PatternNode → Bool → Bool
  | .mk _ _ _ _ children _, dup =>
    hasDuplicateAliasesLoop children (children.foldl seenStep (dup, [])).1
/-- The second loop of `walk`: the recursion into every child. -/
def hasDuplicateAliasesLoop : List PatternNode → Bool → Bool
  | [], dup => dup
  | ch :: rest, dup => hasDuplicateAliasesLoop rest (hasDuplicateAliasesWalk ch dup)
end

/-- `Scheduler.hasDuplicateAliases`. -/
def hasDuplicateAliases (root : PatternNode) : Bool :=
  hasDuplicateAliasesWalk root false

/-! ## Observer (`observer/observer.go`)

The store is outside the scheduling core: a call of `ReachedEndgame` is embedded
over what its three reads of the store return (`Poll`). -/

/-- The `Tracker` struct. -/
structure Tracker where
  /-- Field `ID`. -/
  ID : Int
  /-- Field `Version`. -/
  Version : Int
deriving DecidableEq

/-- A Neuron entity as the observer reads it: `ID` and `Version`. -/
structure Neuron where
  /-- Field `ID`. -/
  ID : Int
  /-- Field `Version`. -/
  Version : Int
deriving DecidableEq

/-- The `Observer` struct: the fields `ReachedEndgame` reads or writes. -/
structure Observer where
  /-- Field `InactiveIncrement`. -/
  InactiveIncrement : Int
  /-- Field `runnerAmount`. -/
  runnerAmount : Int
  /-- Field `Runners`. -/
  Runners : List Tracker
deriving DecidableEq

/-- What one call of `ReachedEndgame` reads from the store. -/
structure Poll where
  /-- `util.IsAlive(o.memory.Gits)`. -/
  alive : Bool
  /-- `Amount` of the result of the query for the Neurons in state Searching. -/
  searchingAmount : Int
  /-- `Entities` of the result of the query for the Neurons in state Searching. -/
  searching : List Neuron
  /-- `cerebrum.GetOpenJobs(o.memory.Gits).Amount`. -/
  openJobs : Int

/-- `observer.New`: the trackers are the Neurons the store holds. -/
def Observer.New (runnerAmount : Int) (neurons : List Neuron) : Observer :=
  ⟨0, runnerAmount, neurons.map (fun val => ⟨val.ID, val.Version⟩)⟩

/-- The loop over `o.Runners` of `ReachedEndgame` for one `sysRunner`:
`changedVersion` and the trackers afterwards. -/
def trackLoop (sysRunner : Neuron) : List Tracker → Bool → Bool × List Tracker
  | [], changedVersion => (changedVersion, [])
  | tracker :: rest, changedVersion =>
    if sysRunner.ID = tracker.ID ∧ sysRunner.Version ≠ tracker.Version then
      let r := trackLoop sysRunner rest true
      (r.1, { tracker with Version := sysRunner.Version } :: r.2)
    else
      let r := trackLoop sysRunner rest changedVersion
      (r.1, tracker :: r.2)

/-- `Observer.ReachedEndgame`: the answer and the observer afterwards. -/
def Observer.ReachedEndgame (o : Observer) (p : Poll) : Bool × Observer :=
  if !p.alive then (true, o)
  else if p.openJobs = 0 ∧ p.searchingAmount = o.runnerAmount then
    let r := p.searching.foldl (fun acc sysRunner => trackLoop sysRunner acc.2 acc.1)
      (false, o.Runners)
    if r.1 then (false, { o with Runners := r.2, InactiveIncrement := 0 })
    else if o.InactiveIncrement > 5 then (true, { o with Runners := r.2 })
    else (false, { o with Runners := r.2, InactiveIncrement := o.InactiveIncrement + 1 })
  else (false, { o with InactiveIncrement := 0 })

/-- The calls of `ReachedEndgame` that `Loop` makes, one per poll: the answers, in
order, and the observer afterwards. -/
def Observer.pollAll (o : Observer) : List Poll → List Bool × Observer
  | [] => ([], o)
  | p :: rest =>
    let r := o.ReachedEndgame p
    let rs := Observer.pollAll r.2 rest
    (r.1 :: rs.1, rs.2)

/-! ## Config builder (`configBuilder/configBuilder.go`)

A `*Structure` is embedded as a finite tree: the pointers are not nil and the
`Parents` and `Children` slices do not lead back to the node. -/

/-- The `Structure` struct. `Priority` and `Mode` are Go string types. -/
inductive Structure where
  | mk (Parents : List Structure) (Children : List Structure) (Typ : String)
      (Priority : String) (Filter : List (String × FilterRec)) (Mode : String)
      (Alias : String)

/-- `NewStructure`. -/
def NewStructure (nodeType : String) : Structure :=
  .mk [] [] nodeType "Secondary" [] "Set" ""

/-- Field `Type` of a `Structure`. -/
def Structure.Typ : Structure → String
  | .mk _ _ t _ _ _ _ => t

/-- `Structure.AddChild`. -/
def Structure.AddChild : Structure → Structure → Structure
  | .mk ps cs t pr f m a, child => .mk ps (cs ++ [child]) t pr f m a

/-- `Structure.AddParent`. -/
def Structure.AddParent : Structure → Structure → Structure
  | .mk ps cs t pr f m a, parent => .mk (ps ++ [parent]) cs t pr f m a

/-- `Structure.SetPriority`. -/
def Structure.SetPriority : Structure → String → Structure
  | .mk ps cs t _ f m a, priority => .mk ps cs t priority f m a

/-- `Structure.SetMode`. -/
def Structure.SetMode : Structure → String → Structure
  | .mk ps cs t pr f _ a, mode => .mk ps cs t pr f mode a

/-- `Structure.AddFilter`. -/
def Structure.AddFilter : Structure → String → String → String → String → Structure
  | .mk ps cs t pr f m a, name, alpha, operator, beta =>
    .mk ps cs t pr (mapSet f name (alpha, operator, beta)) m a

/-- `Structure.SetAlias`. -/
def Structure.SetAlias : Structure → String → Structure
  | .mk ps cs t pr f m _, al => .mk ps cs t pr f m al

/-- The body of the filter loop of `Transform`, acting on
`(currEntity.Properties, allFilters)`. -/
def transformFilterStep (acc : StringMap × String) (kv : String × FilterRec) :
    StringMap × String :=
  let p1 := mapSet acc.1 ("Filter." ++ kv.1 ++ ".Field") kv.2.1
  let p2 := mapSet p1 ("Filter." ++ kv.1 ++ ".Operator") kv.2.2.1
  let p3 := mapSet p2 ("Filter." ++ kv.1 ++ ".Value") kv.2.2.2
  (p3, acc.2 ++ kv.2.1 ++ ",")

mutual
/-- `Structure.Transform`. -/
def Structure.Transform : Structure → TransportEntity
  | .mk parents children typ priority filter mode al =>
    let props0 : StringMap := if al ≠ "" then [("Alias", al)] else []
    let r := filter.foldl transformFilterStep (props0, "")
    let props1 :=
      if r.2 ≠ "" then mapSet r.1 "AllFilters" (String.mk r.2.toList.dropLast) else r.1
    let props2 := mapSet (mapSet props1 "Mode" mode) "Type" priority
    .mk "Structure" (-1) typ "System" props2 (transformAll children) (transformAll parents)
/-- The loops of `Transform` over `s.Parents` and over `s.Children`. -/
def transformAll : List Structure → List TransportRelation
  | [] => []
  | s :: rest => .mk "" [] (Structure.Transform s) :: transformAll rest
end

/-- The `ConfigBuilder` struct. -/
structure ConfigBuilder where
  /-- Field `Dependencies`. -/
  Dependencies : List (String × Structure)
  /-- Field `Name`. -/
  Name : String
  /-- Field `Category`. -/
  Category : String

/-- `NewConfig`. -/
def NewConfig : ConfigBuilder := ⟨[], "", ""⟩

/-- `ConfigBuilder.SetName`. -/
def ConfigBuilder.SetName (builder : ConfigBuilder) (name : String) : ConfigBuilder :=
  { builder with Name := name }

/-- `ConfigBuilder.SetCategory`. -/
def ConfigBuilder.SetCategory (builder : ConfigBuilder) (category : String) : ConfigBuilder :=
  { builder with Category := category }

/-- `ConfigBuilder.AddDependency`. -/
def ConfigBuilder.AddDependency (builder : ConfigBuilder) (name : String)
    (s : Structure) : ConfigBuilder :=
  { builder with Dependencies := mapSet builder.Dependencies name s }

/-- The Dependency entity that `Build` nests for one entry of `Dependencies`. -/
def dependencyEntity (name : String) (s : Structure) : TransportEntity :=
  .mk "Dependency" (-1) name "System" [] [.mk "" [] s.Transform] []

/-- `ConfigBuilder.Build`. -/
def ConfigBuilder.Build (builder : ConfigBuilder) : TransportEntity :=
  .mk "Action" (-1) builder.Name "System" []
    (.mk "" [] (.mk "Category" 0 builder.Category "System" [] [] []) ::
      builder.Dependencies.map (fun kv => .mk "" [] (dependencyEntity kv.1 kv.2)))
    []

/-! ## Fields of a `Structure` (`configBuilder/configBuilder.go`) -/

/-- Field `Parents` of a `Structure`. -/
def Structure.Parents : Structure → List Structure
  | .mk ps _ _ _ _ _ _ => ps

/-- Field `Children` of a `Structure`. -/
def Structure.Children : Structure → List Structure
  | .mk _ cs _ _ _ _ _ => cs

/-- Field `Priority` of a `Structure`. -/
def Structure.Priority : Structure → String
  | .mk _ _ _ pr _ _ _ => pr

/-- Field `Filter` of a `Structure`. -/
def Structure.Filter : Structure → List (String × FilterRec)
  | .mk _ _ _ _ f _ _ => f

/-- Field `Mode` of a `Structure`. -/
def Structure.Mode : Structure → String
  | .mk _ _ _ _ _ m _ => m

/-- Field `Alias` of a `Structure`. -/
def Structure.Alias : Structure → String
  | .mk _ _ _ _ _ _ a => a

/-! ## Archivist (`archivist/archivist.go`)

The logger is embedded as the list of the lines handed to it. The time stamp and
the caller position that `store` puts in front of a line, and the rendering of the
parameters, are left out. -/

/-- `LEVEL_DEBUG`. -/
def LEVEL_DEBUG : Int := 1

/-- `LEVEL_INFO`. -/
def LEVEL_INFO : Int := 2

/-- `LEVEL_WARNING`. -/
def LEVEL_WARNING : Int := 3

/-- `LEVEL_ERROR`. -/
def LEVEL_ERROR : Int := 4

/-- `LEVEL_FATAL`. -/
def LEVEL_FATAL : Int := 5

/-- A line handed to the logger by `store`: the level name, the message and the
parameters. -/
structure LogLine where
  /-- The argument `stype`. -/
  stype : String
  /-- The argument `message`. -/
  message : String
  /-- The argument `params`. -/
  params : List String
deriving DecidableEq

/-- The `Archivist` struct. The array `logFlags` has five elements. -/
structure Archivist where
  /-- Field `logFlags`. -/
  logFlags : List Bool
  /-- Field `debugLevel`. -/
  debugLevel : Int
  /-- The lines handed to `logger`, oldest first. -/
  lines : List LogLine
deriving DecidableEq

/-- The `Config` struct of the archivist: the two levels. -/
structure Config where
  /-- Field `LogLevel`. -/
  LogLevel : Int
  /-- Field `DebugLevel`. -/
  DebugLevel : Int

/-- Go `a.logFlags[level-1]`. -/
def Archivist.flagAt (a : Archivist) (level : Int) : Bool :=
  a.logFlags.getD (level - 1).toNat false

/-- `Archivist.store`. -/
def Archivist.store (a : Archivist) (message stype : String) (params : List String) :
    Archivist :=
  { a with lines := a.lines ++ [⟨stype, message, params⟩] }

/-- `Archivist.Error`. -/
def Archivist.Error (a : Archivist) (message : String) (params : List String) : Archivist :=
  if a.flagAt LEVEL_ERROR then a.store message "error" params else a

/-- `Archivist.Debug`. -/
def Archivist.Debug (a : Archivist) (level : Int) (message : String) (params : List String) :
    Archivist :=
  if a.flagAt LEVEL_DEBUG && decide (level ≤ a.debugLevel) then a.store message "debug" params
  else a

/-- `Archivist.SetLogLevel`, with `fuel` bounding the depth of the calls: `none`
when the fuel runs out before the call returns. -/
def Archivist.SetLogLevel : Nat → Archivist → Int → Option Archivist
  | 0, _, _ => none
  | fuel + 1, a, logLevel =>
    let logLevel1 := if 0 = logLevel then LEVEL_WARNING else logLevel
    if logLevel1 ≥ LEVEL_DEBUG ∧ logLevel1 ≤ LEVEL_FATAL then
      some { a with
        logFlags :=
          (List.range 5).map (fun index : Nat => decide (logLevel1 - 1 ≤ (index : Int))) }
    else
      Archivist.SetLogLevel fuel
        (a.Error "Given LOG_LEVEL is unknown, defaulting to LEVEL_WARNING provided was: "
          [Itoa logLevel1]) LEVEL_WARNING

/-- `Archivist.SetDebugLevel`. -/
def Archivist.SetDebugLevel (a : Archivist) (level : Int) : Archivist :=
  { a with debugLevel := if level < 0 then 0 else level }

/-- `archivist.New`, with the fuel for its call of `SetLogLevel`. The call of
`SetLogger` chooses where the lines go and is left out. -/
def Archivist.New (fuel : Nat) (conf : Config) : Option Archivist :=
  let archivist : Archivist := ⟨[false, true, true, true, true], 0, []⟩
  match archivist.SetLogLevel fuel conf.LogLevel with
  | none => none
  | some archivist1 =>
    if conf.LogLevel = LEVEL_DEBUG then some (archivist1.SetDebugLevel conf.DebugLevel)
    else some archivist1

/-! ## Notions used to state the properties -/

/-- The rows handed to `generateRecombinations` by `Parse`: one row per child
type, holding the demultiplexed forms of the children of that type. -/
def demuxRows (crs : List TransportRelation) : List (List TransportEntity) :=
  (groupByType (crs.map (fun r => (r.Target.Typ, Parse r.Target)))).map (fun g => g.2.flatten)

/-- The distinct elements of a list, in the order of their first occurrence. -/
def firstOccurrences : List String → List String
  | [] => []
  | x :: xs => x :: (firstOccurrences xs).filter (fun y => y != x)

/-- A leaf entity of the given type and value, as the demultiplexer tests build it. -/
def leafEntity (t v : String) : TransportEntity := .mk t 0 v "" [] [] []

/-- The payload of the fan-out test: a Root with 2 Alpha, 2 Beta and 1 Gamma. -/
def fanoutRoot : TransportEntity :=
  .mk "Root" 0 "root-immut" "" []
    [.mk "" [] (leafEntity "Alpha" "a1"), .mk "" [] (leafEntity "Alpha" "a2"),
     .mk "" [] (leafEntity "Beta" "b1"), .mk "" [] (leafEntity "Beta" "b2"),
     .mk "" [] (leafEntity "Gamma" "g1")] []

/-- The first output of `Parse fanoutRoot`: the Root with a1, b1 and g1. -/
def fanoutFirst : TransportEntity :=
  .mk "Root" 0 "root-immut" "" []
    [.mk "" [] (leafEntity "Alpha" "a1"), .mk "" [] (leafEntity "Beta" "b1"),
     .mk "" [] (leafEntity "Gamma" "g1")] []

/-- A stored Bucket below a Shelf, holding one Item over a relation that carries a
context and a property. -/
def shelvedBucket : TransportEntity :=
  .mk "Bucket" 1 "B-1" "Data" []
    [.mk "Data" [("weight", "1")] (.mk "Item" 2 "I-1" "Data" [] [] [])]
    [.mk "Data" [] (.mk "Shelf" 3 "S-1" "Data" [] [] [])]

/-- The order that `childLess` decides, as a lexicographic key: alias empty or
not (non-empty first), alias, type, original index. -/
def sortKey (cw : childWithIdx) : Bool ×ₗ String ×ₗ String ×ₗ ℕ :=
  toLex (mapGet cw.e.Properties "Alias" == "",
    toLex (mapGet cw.e.Properties "Alias", toLex (cw.e.Value, cw.idx)))

/-- The canonical order between two compiled siblings `a` (earlier) and `b`
(later): a non-empty alias precedes an empty one; otherwise the aliases are
ordered as strings; equal aliases are ordered by type. -/
def canonicalBefore (a b : PatternNode) : Prop :=
  (a.Alias ≠ "" ∧ b.Alias = "") ∨
    ((a.Alias = "" ↔ b.Alias = "") ∧
      (a.Alias < b.Alias ∨ (a.Alias = b.Alias ∧ a.Typ ≤ b.Typ)))

mutual
/-- All nodes of a compiled pattern, the root first. -/
def patternNodes : PatternNode → List PatternNode
  | .mk a t m f cs n => .mk a t m f cs n :: patternNodesLoop cs
/-- All nodes of a list of compiled patterns. -/
def patternNodesLoop : List PatternNode → List PatternNode
  | [] => []
  | c :: cs => patternNodes c ++ patternNodesLoop cs
end

/-- Two entity trees that differ only in the order of siblings: the closure, under
composition, of permuting the child relations of the root and of reordering below
one child. -/
inductive SiblingReorder : TransportEntity → TransportEntity → Prop where
  | refl (e : TransportEntity) : SiblingReorder e e
  | perm (t : String) (i : Int) (v c : String) (p : StringMap)
      (crs crs2 prs : List TransportRelation) (h : crs.Perm crs2) :
      SiblingReorder (.mk t i v c p crs prs) (.mk t i v c p crs2 prs)
  | child (t : String) (i : Int) (v c : String) (p : StringMap)
      (l1 l2 prs : List TransportRelation) (rc : String) (rp : StringMap)
      (a b : TransportEntity) (h : SiblingReorder a b) :
      SiblingReorder (.mk t i v c p (l1 ++ .mk rc rp a :: l2) prs)
        (.mk t i v c p (l1 ++ .mk rc rp b :: l2) prs)
  | trans (a b c : TransportEntity) (h1 : SiblingReorder a b) (h2 : SiblingReorder b c) :
      SiblingReorder a c

/-- The pair (Alias, Type) that a Structure node declares. -/
def aliasAndType (c : TransportEntity) : String × String :=
  (mapGet c.Properties "Alias", c.Value)

/-- At every node of the tree, the children have pairwise distinct
(Alias, Type) pairs. -/
def DistinctSiblings (n : TransportEntity) : Prop :=
  ∀ m ∈ walkChildren n, (m.Children.map aliasAndType).Nodup

/-- The order of `sortKey` without the original index. -/
def entityKey (e : TransportEntity) : Bool ×ₗ String ×ₗ String :=
  toLex (mapGet e.Properties "Alias" == "", toLex (mapGet e.Properties "Alias", e.Value))

/-- A Structure node as the configuration builder emits it: type, alias (none when
empty) and children. -/
def structureNode (t a : String) (cs : List TransportEntity) : TransportEntity :=
  .mk "Structure" (-1) t "System"
    (if a = "" then [("Mode", "Set"), ("Type", "Secondary")]
      else [("Alias", a), ("Mode", "Set"), ("Type", "Secondary")])
    (cs.map (fun c => .mk "" [] c)) []

/-- A relation that carries the empty-string `bMap` marker of a new relation. -/
def MarkedRelation (r : TransportRelation) : Prop :=
  mapHas r.Properties "bMap" = true ∧ mapGet r.Properties "bMap" = ""

/-- An entity of the batch, reached through child or parent relations, that
carries a `bMap` change marker. -/
def MarkedEntity (data b : TransportEntity) : Prop :=
  b ∈ rWalkInput data ∧ mapHas b.Properties "bMap" = true

/-- The child endpoint of a new relation of the batch: the target of a marked child
relation of a node reached through child relations. -/
def NewRelationChild (data b : TransportEntity) : Prop :=
  ∃ m ∈ walkChildren data, ∃ r ∈ m.ChildRelations, MarkedRelation r ∧ r.Target = b

/-- The input contains an entity that has the Type and the ID of a marked entity
of the batch or of the child endpoint of a new relation of the batch. -/
def CausedBy (data input : TransportEntity) : Prop :=
  ∃ e ∈ rWalkInput input, ∃ b,
    (MarkedEntity data b ∨ NewRelationChild data b) ∧ e.Typ = b.Typ ∧ e.ID = b.ID

/-! ## A small store, for the instances of the properties

The action `ActionA` with the dependency `alpha` on one Primary `Alpha` node in
Set mode (the action of the primary-set tests), on a store that holds one Alpha
entity and remembers the digests of its Memory entities. -/

/-- Field `Pool` of a query. -/
def Query.Pool : Query → String
  | .mk _ p _ _ _ => p

/-- The Dependency entity `alpha` of `ActionA`. -/
def demoDependency : TransportEntity :=
  .mk "Dependency" 7 "alpha" "System" []
    [.mk "" [] (.mk "Structure" 8 "Alpha" "System" [("Mode", "Set"), ("Type", "Primary")] [] [])]
    []

/-- The answer of the entity-type lookup: `alpha` of `ActionA` mentions Alpha. -/
def demoLookupEntity : TransportEntity :=
  .mk "DependencyEntityLookup" 5 "Alpha" "System" []
    [.mk "" [] (.mk "Dependency" 7 "alpha" "System" [] []
      [.mk "" [] (.mk "Action" 3 "ActionA" "System" [] [] [])])] []

/-- The Alpha entity as the store returns it. -/
def demoAlpha : TransportEntity := .mk "Alpha" 1 "a1" "Data" [] [] []

/-- The store: the state is the list of the digests of its Memory entities. -/
def demoStore : Collaborators (List String) where
  Execute w q :=
    if q.Pool = "DependencyEntityLookup" then (w, ⟨1, [demoLookupEntity]⟩)
    else if q.Pool = "Alpha" then (w, ⟨1, [demoAlpha]⟩)
    else (w, ⟨0, []⟩)
  MapTransportDataWithContext w e ctx :=
    if w.contains e.Value then (w, .mk e.Typ 9 e.Value ctx [] [] [])
    else (e.Value :: w, .mk e.Typ 9 e.Value ctx [("bMap", "")] [] [])
  JobCreate w _ _ _ := w
  GetDependencyByName _ _ := demoDependency
  GetName a := a
  GenerateSignature e := e.Typ ++ ":" ++ e.Value
  sha1Hex s := s

/-- The batch the mapper returns when the Alpha entity is created. -/
def demoCreated : TransportEntity := .mk "Alpha" 1 "a1" "Data" [("bMap", "")] [] []

/-- What the witness guard relies on, for a store in which `witnessed w v` says
that a Memory entity of value `v` exists in the state `w`: mapping a Memory entity
with ID -2 whose value exists returns it without change marker; after a Memory
entity was mapped its value exists; and Memory entities are never deleted. -/
structure WitnessLaws {W : Type} (C : Collaborators W) (witnessed : W → String → Prop) :
    Prop where
  /-- An existing Memory entity is matched by value and returned unmarked. -/
  map_existing : ∀ w e ctx, e.Typ = "Memory" → e.ID = -2 → witnessed w e.Value →
    mapHas (C.MapTransportDataWithContext w e ctx).2.Properties "bMap" = false
  /-- A mapped Memory entity exists afterwards. -/
  map_records : ∀ w e ctx, e.Typ = "Memory" →
    witnessed (C.MapTransportDataWithContext w e ctx).1 e.Value
  /-- The mapper deletes no Memory entity. -/
  map_keeps : ∀ w e ctx v, witnessed w v →
    witnessed (C.MapTransportDataWithContext w e ctx).1 v
  /-- A query deletes no Memory entity. -/
  execute_keeps : ∀ w q v, witnessed w v → witnessed (C.Execute w q).1 v
  /-- Creating a job deletes no Memory entity. -/
  job_keeps : ∀ w a d i v, witnessed w v → witnessed (C.JobCreate w a d i) v

/-- The tuple under which a job is witnessed: action, dependency, anchor
(Type and ID) and signature digest. -/
def Job.witnessTuple (j : Job) : String × String × (String × Int) × String :=
  (j.Action, j.Requirement, (j.WitnessAnchor.Typ, j.WitnessAnchor.ID), j.WitnessDigest)

/-- The invariant of the witness guard: the digests of the created jobs are
pairwise distinct, and each of them exists as a Memory entity. -/
def WitnessInv {W : Type} (witnessed : W → String → Prop) (st : RunState W) : Prop :=
  (st.jobs.map (fun j => j.WitnessDigest)).Nodup ∧
    ∀ j ∈ st.jobs, witnessed st.world j.WitnessDigest

/-- Every pattern cached in `c1` is cached in `c2` under the same key. -/
def cacheLE (c1 c2 : List (String × PatternNode)) : Prop :=
  ∀ k pn, c1.lookup k = some pn → c2.lookup k = some pn

/-- The state `st2` lies after `st1` in a run: a panic persists, cached patterns
stay cached, Memory entities stay. -/
def RunMono {W : Type} (witnessed : W → String → Prop) (st1 st2 : RunState W) : Prop :=
  (st1.panicked = true → st2.panicked = true) ∧
    cacheLE st1.sched.patternCache st2.sched.patternCache ∧
    ∀ v, witnessed st1.world v → witnessed st2.world v

/-- The state `b` of a second run covers the state `a` that the first run reaches:
the first run does not panic, and `b` holds its cached patterns and its Memory
entities. -/
def RunCovers {W : Type} (witnessed : W → String → Prop) (a b : RunState W) : Prop :=
  a.panicked = false ∧ cacheLE a.sched.patternCache b.sched.patternCache ∧
    ∀ v, witnessed a.world v → witnessed b.world v

/-- The step from `b1` to `b2` creates no job, leaves the pattern cache as it is
and deletes no Memory entity. -/
def RunQuiet {W : Type} (witnessed : W → String → Prop) (b1 b2 : RunState W) : Prop :=
  b2.jobs = b1.jobs ∧ b2.sched.patternCache = b1.sched.patternCache ∧
    ∀ v, witnessed b1.world v → witnessed b2.world v

/-- The two reasons for which `overlayProcessAnchors` skips a candidate for an
anchor: the compiled pattern `pn` lacks the anchor type, or the batch root lists
updated keys none of which is a filter field of the dependency. -/
def candidateSkipped (pn : PatternNode) (requirement : TransportEntity)
    (batchBMapValue anchorType : String) : Prop :=
  patternHasType pn anchorType = false ∨
    (batchBMapValue ≠ "" ∧ hasRelevantFilter requirement batchBMapValue = false)

/-- A leaf entity as the demultiplexer tests build it: no Properties map, no
relation slice. -/
def storedLeaf (t v : String) : StoredEntity := .mk t 0 v "" none [] none [] none []

/-- The payload of the fan-out test, with its only slice at address 0. -/
def storedFanoutRoot : StoredEntity :=
  .mk "Root" 0 "root-immut" "" none [] (some 0)
    [.mk "" none [] (storedLeaf "Alpha" "a1"), .mk "" none [] (storedLeaf "Alpha" "a2"),
     .mk "" none [] (storedLeaf "Beta" "b1"), .mk "" none [] (storedLeaf "Beta" "b2"),
     .mk "" none [] (storedLeaf "Gamma" "g1")] none []

/-! ## A second small store: the sibling guard

The action `ActionRelChild` with the dependency `bucketItem`, a Secondary `Bucket`
over a Primary `Item` (the action of the relation-only tests), on a store that
holds the Bucket with an old Item 1 and a new Item 2 and answers every Bucket
query with both. -/

/-- The Dependency entity `bucketItem` of `ActionRelChild`. -/
def siblingDependency : TransportEntity :=
  .mk "Dependency" 7 "bucketItem" "System" []
    [.mk "" [] (.mk "Structure" 8 "Bucket" "System" [("Mode", "Set"), ("Type", "Secondary")]
      [.mk "" [] (.mk "Structure" 9 "Item" "System" [("Mode", "Set"), ("Type", "Primary")]
        [] [])] [])]
    []

/-- The answer of both reverse-index lookups: `bucketItem` of `ActionRelChild`. -/
def siblingLookupEntity : TransportEntity :=
  .mk "DependencyEntityLookup" 5 "Item" "System" []
    [.mk "" [] (.mk "Dependency" 7 "bucketItem" "System" [] []
      [.mk "" [] (.mk "Action" 3 "ActionRelChild" "System" [] [] [])])] []

/-- The stored Bucket with its old and its new Item. -/
def siblingBucket : TransportEntity :=
  .mk "Bucket" 1 "B-1" "Data" []
    [.mk "Data" [] (.mk "Item" 1 "I-1" "Data" [] [] []),
     .mk "Data" [] (.mk "Item" 2 "I-2" "Data" [] [] [])] []

/-- The store: the state is the list of the digests of its Memory entities. -/
def siblingStore : Collaborators (List String) where
  Execute w q :=
    if q.Pool = "DependencyEntityLookup" ∨ q.Pool = "DependencyRelationLookup" then
      (w, ⟨1, [siblingLookupEntity]⟩)
    else if q.Pool = "Bucket" then (w, ⟨1, [siblingBucket]⟩)
    else (w, ⟨0, []⟩)
  MapTransportDataWithContext w e ctx :=
    if w.contains e.Value then (w, .mk e.Typ 9 e.Value ctx [] [] [])
    else (e.Value :: w, .mk e.Typ 9 e.Value ctx [("bMap", "")] [] [])
  JobCreate w _ _ _ := w
  GetDependencyByName _ _ := siblingDependency
  GetName a := a
  GenerateSignature e :=
    String.intercalate "," ((rWalkInput e).map (fun x => x.Typ ++ ":" ++ Itoa x.ID))
  sha1Hex s := s

/-- The batch the mapper returns when Item 2 is added under the existing Bucket:
the new relation and the new Item carry the empty marker, the Bucket none. -/
def siblingBatch : TransportEntity :=
  .mk "Bucket" 1 "B-1" "Data" []
    [.mk "Data" [("bMap", "")] (.mk "Item" 2 "I-2" "Data" [("bMap", "")] [] [])] []

/-! ## Notions used to state the properties of filters, keys and anchors -/

/-- The parts of a split, put together again with the separator `c`. -/
def joinChars (c : Char) : List (List Char) → List Char
  | [] => []
  | [p] => p
  | p :: q :: ps => p ++ c :: joinChars c (q :: ps)

/-- The string has no dot. -/
def DotFree (s : String) : Prop := '.' ∉ s.toList

instance (s : String) : Decidable (DotFree s) := by
  unfold DotFree
  infer_instance

/-- The three-part property key `Filter.<name>.<kind>`. -/
def filterKey (name kind : String) : String := "Filter." ++ name ++ "." ++ kind

/-- The name and the kind of a property key that splits into exactly three parts
at its dots. -/
def keyNameKind (k : String) : Option (String × String) :=
  match splitOnChar k '.' with
  | [_, name, kind] => some (name, kind)
  | _ => none

/-- The filter loop that `compilePatternNode` and `enrichQueryFilters` share, over
the property keys that `valid` accepts: a key of three parts writes the value into
the slot of its kind in the record of its name. -/
def slotStep (valid : String → Bool) (filters : List (String × FilterRec))
    (kv : String × String) : List (String × FilterRec) :=
  if valid kv.1 then
    match splitOnChar kv.1 '.' with
    | [_, name, kind] =>
      let rec0 := filterGet filters name
      if kind = "Field" then mapSet filters name (kv.2, rec0.2.1, rec0.2.2)
      else if kind = "Operator" then mapSet filters name (rec0.1, kv.2, rec0.2.2)
      else if kind = "Value" then mapSet filters name (rec0.1, rec0.2.1, kv.2)
      else mapSet filters name rec0
    | _ => filters
  else filters

/-- The value that the filter loop leaves in the slot `kind` of the filter `name`,
starting from `cur`: the value of the last accepted property of that name and
kind. -/
def slotValue (valid : String → Bool) (name kind : String) (props : StringMap)
    (cur : String) : String :=
  props.foldl (fun cur kv =>
    if valid kv.1 = true ∧ keyNameKind kv.1 = some (name, kind) then kv.2 else cur) cur

/-- The keys that `compilePatternNode` reads as filter keys. -/
def compileValid (k : String) : Bool := startsWith k "Filter."

/-- The keys that `enrichQueryFilters` reads as filter keys. -/
def queryValid (k : String) : Bool := decide (k.length > 6) && startsWith k "Filter"

/-- The key under which the property loop of `compilePatternNode` records the
pair as a normalised filter field, if it records it. -/
def normalizedKey (kv : String × String) : Option String :=
  if compileValid kv.1 = true then
    match keyNameKind kv.1 with
    | some nk =>
      if nk.2 = "Field" ∧ startsWith kv.2 "Properties." = true ∧
          trimStart kv.2 "Properties." ≠ "" then
        some (trimStart kv.2 "Properties.")
      else none
    | none => none
  else none

/-- The Delta node of the filter-normalisation test, as it is configured: Primary,
Match mode, with the filters `proto` on the value and `transport` on the property
Transport. -/
def deltaStructure : Structure :=
  ((((NewStructure "Delta").SetPriority "Primary").SetMode "Match").AddFilter "proto"
    "Value" "==" "protoX").AddFilter "transport" "Properties.Transport" "==" "secure"

/-- The Structure entity of `deltaStructure`. -/
def deltaNode : TransportEntity := deltaStructure.Transform

/-- A filter Field of a dependency: the value of a property whose key starts with
`Filter.` and ends with `.Field`, on a node reached from the dependency through
child or parent relations. -/
def FilterField (requirement : TransportEntity) (field : String) : Prop :=
  ∃ n ∈ rWalkInput requirement, ∃ kv ∈ n.Properties,
    startsWith kv.1 "Filter." = true ∧ endsWith kv.1 ".Field" = true ∧ kv.2 = field

/-- The keys that a change marker lists: its comma-separated parts, trimmed. -/
def markerKeys (marker : String) : List String :=
  (splitOnChar marker ',').map trimSpace

/-- None of the keys of the marker equals a filter Field of the dependency, neither
raw nor with a leading `Properties.` removed. -/
def IrrelevantMarker (requirement : TransportEntity) (marker : String) : Prop :=
  ∀ key ∈ markerKeys marker, ∀ n ∈ rWalkInput requirement, ∀ kv ∈ n.Properties,
    startsWith kv.1 "Filter." = true → endsWith kv.1 ".Field" = true →
      key ≠ kv.2 ∧ key ≠ trimStart kv.2 "Properties."

instance (requirement : TransportEntity) (marker : String) :
    Decidable (IrrelevantMarker requirement marker) := by
  unfold IrrelevantMarker
  infer_instance

/-- The dependency declares no filter at all: no node reached from it through
child or parent relations has a property whose key starts with `Filter.` and ends
with `.Field`. -/
def NoFilter (requirement : TransportEntity) : Prop :=
  ∀ n ∈ rWalkInput requirement, ∀ kv ∈ n.Properties,
    ¬ (startsWith kv.1 "Filter." = true ∧ endsWith kv.1 ".Field" = true)

instance (requirement : TransportEntity) : Decidable (NoFilter requirement) := by
  unfold NoFilter
  infer_instance

/-! ## A third small store: a Match-mode dependency

The action `ActionB` with the dependency `delta` on one Primary `Delta` node in
Match mode (`deltaStructure`), on a store that holds one Delta entity, answers
every Delta query with it and remembers the digests of its Memory entities. -/

/-- The Dependency entity `delta` of `ActionB`. -/
def matchDependency : TransportEntity := dependencyEntity "delta" deltaStructure

/-- The answer of the entity-type lookup: `delta` of `ActionB` mentions Delta. -/
def matchLookupEntity : TransportEntity :=
  .mk "DependencyEntityLookup" 5 "Delta" "System" []
    [.mk "" [] (.mk "Dependency" 7 "delta" "System" [] []
      [.mk "" [] (.mk "Action" 3 "ActionB" "System" [] [] [])])] []

/-- The Delta entity as the store returns it. -/
def storedDelta : TransportEntity :=
  .mk "Delta" 1 "protoX" "Data" [("Tag", "noop"), ("Transport", "secure")] [] []

/-- The store: the state is the list of the digests of its Memory entities. -/
def matchStore : Collaborators (List String) where
  Execute w q :=
    if q.Pool = "DependencyEntityLookup" then (w, ⟨1, [matchLookupEntity]⟩)
    else if q.Pool = "Delta" then (w, ⟨1, [storedDelta]⟩)
    else (w, ⟨0, []⟩)
  MapTransportDataWithContext w e ctx :=
    if w.contains e.Value then (w, .mk e.Typ 9 e.Value ctx [] [] [])
    else (e.Value :: w, .mk e.Typ 9 e.Value ctx [("bMap", "")] [] [])
  JobCreate w _ _ _ := w
  GetDependencyByName _ _ := matchDependency
  GetName a := a
  GenerateSignature e := e.Typ ++ ":" ++ e.Value
  sha1Hex s := s

/-- The batch the mapper returns when the property Tag of the Delta is set. -/
def irrelevantUpdate : TransportEntity :=
  .mk "Delta" 1 "protoX" "Data" [("Tag", "noop"), ("Transport", "secure"), ("bMap", "Tag")] [] []

/-- The batch the mapper returns when the property Transport of the Delta is set. -/
def relevantUpdate : TransportEntity :=
  .mk "Delta" 1 "protoX" "Data"
    [("Tag", "noop"), ("Transport", "secure"), ("bMap", "Transport")] [] []

/-- The batch the mapper returns when the property Tag of the Alpha entity of
`demoStore` is set. -/
def demoUpdated : TransportEntity := .mk "Alpha" 1 "a1" "Data" [("Tag", "x"), ("bMap", "Tag")] [] []

/-! ## A fourth small store: a Match-mode child below a Set-mode parent

The action `ActionC` with the dependency `bucketItem`, a Secondary `Bucket` in Set
mode over a Primary `Item` in Match mode with a filter on the property Color, on a
store that holds the Bucket with the Items 2 and 3 and answers every Bucket query
with both. -/

/-- The dependency tree of `ActionC` as it is configured. -/
def itemStructure : Structure :=
  (NewStructure "Bucket").AddChild
    ((((NewStructure "Item").SetPriority "Primary").SetMode "Match").AddFilter "color"
      "Properties.Color" "==" "red")

/-- The Dependency entity `bucketItem` of `ActionC`. -/
def itemDependency : TransportEntity := dependencyEntity "bucketItem" itemStructure

/-- The answer of both reverse-index lookups: `bucketItem` of `ActionC`. -/
def itemLookupEntity : TransportEntity :=
  .mk "DependencyEntityLookup" 5 "Item" "System" []
    [.mk "" [] (.mk "Dependency" 7 "bucketItem" "System" [] []
      [.mk "" [] (.mk "Action" 3 "ActionC" "System" [] [] [])])] []

/-- The stored Bucket with its two red Items. -/
def itemBucket : TransportEntity :=
  .mk "Bucket" 1 "B-1" "Data" []
    [.mk "Data" [] (.mk "Item" 2 "I-2" "Data" [("Color", "red")] [] []),
     .mk "Data" [] (.mk "Item" 3 "I-3" "Data" [("Color", "red")] [] [])] []

/-- The store: the state is the list of the digests of its Memory entities. -/
def itemStore : Collaborators (List String) where
  Execute w q :=
    if q.Pool = "DependencyEntityLookup" ∨ q.Pool = "DependencyRelationLookup" then
      (w, ⟨1, [itemLookupEntity]⟩)
    else if q.Pool = "Bucket" then (w, ⟨1, [itemBucket]⟩)
    else (w, ⟨0, []⟩)
  MapTransportDataWithContext w e ctx :=
    if w.contains e.Value then (w, .mk e.Typ 9 e.Value ctx [] [] [])
    else (e.Value :: w, .mk e.Typ 9 e.Value ctx [("bMap", "")] [] [])
  JobCreate w _ _ _ := w
  GetDependencyByName _ _ := itemDependency
  GetName a := a
  GenerateSignature e :=
    String.intercalate "," ((rWalkInput e).map (fun x => x.Typ ++ ":" ++ Itoa x.ID))
  sha1Hex s := s

/-- Item 2 as the mapper returns it when its property Tag is set. -/
def taggedItem : TransportEntity :=
  .mk "Item" 2 "I-2" "Data" [("Color", "red"), ("Tag", "x"), ("bMap", "Tag")] [] []

/-- The batch the mapper returns when the property Tag of Item 2 is set through
its Bucket: the Bucket and the relation carry no marker. -/
def taggedItemBatch : TransportEntity :=
  .mk "Bucket" 1 "B-1" "Data" [] [.mk "Data" [] taggedItem] []

/-- Item 3 as the mapper returns it when it is created. -/
def createdItem : TransportEntity :=
  .mk "Item" 3 "I-3" "Data" [("Color", "red"), ("bMap", "")] [] []

/-- The batch the mapper returns when the property Tag of the Bucket is set and
Item 3 is created below it in one payload. -/
def taggedBucketBatch : TransportEntity :=
  .mk "Bucket" 1 "B-1" "Data" [("Tag", "x"), ("bMap", "Tag")]
    [.mk "Data" [("bMap", "")] createdItem] []

/-! ## Inputs and dependencies for the witness anchor -/

/-- A dependency with two Primary types: a Secondary Root over a Primary Alpha and
a Primary Beta, authored in this order. -/
def twoPrimaryDependency : TransportEntity :=
  dependencyEntity "rootAlphaBeta"
    (((NewStructure "Root").AddChild ((NewStructure "Alpha").SetPriority "Primary")).AddChild
      ((NewStructure "Beta").SetPriority "Primary"))

/-- An input for `twoPrimaryDependency` whose Beta child comes before its Alpha
child. -/
def betaFirstInput : TransportEntity :=
  .mk "Root" 1 "r" "Data" []
    [.mk "" [] (.mk "Beta" 2 "b" "Data" [] [] []),
     .mk "" [] (.mk "Alpha" 3 "a" "Data" [] [] [])] []

/-- An input for `demoDependency` (Primary Alpha) whose root is an Alpha entity
without a stored ID, over an Alpha entity with the ID 5. -/
def unstoredAlphaInput : TransportEntity :=
  .mk "Alpha" 0 "a0" "Data" [] [.mk "" [] (.mk "Alpha" 5 "a5" "Data" [] [] [])] []

/-- An input without an entity of a Primary type of `siblingDependency` (Primary
Item): a Bucket without a stored ID over a Shelf with the ID 1. -/
def unstoredBucketInput : TransportEntity :=
  .mk "Bucket" 0 "B-0" "Data" [] [.mk "" [] (.mk "Shelf" 1 "S-1" "Data" [] [] [])] []

/-! ## A fifth small store: a dependency that mentions two types

The action `ActionAB` with the dependency `alphaBeta`, a Primary `Alpha` over a
Secondary `Beta`, on a store whose reverse indexes list the dependency under Alpha,
under Beta and under the relation signature Alpha-Beta. -/

/-- Field `Conditions` of a query. -/
def Query.Conditions : Query → List (String × String × String)
  | .mk _ _ cs _ _ => cs

/-- The Dependency entity `alphaBeta` of `ActionAB`. -/
def pairDependency : TransportEntity :=
  dependencyEntity "alphaBeta"
    (((NewStructure "Alpha").SetPriority "Primary").AddChild (NewStructure "Beta"))

/-- The entry of a reverse index under the value `v`: `alphaBeta` of `ActionAB`. -/
def pairLookupEntity (pool v : String) : TransportEntity :=
  .mk pool 5 v "System" []
    [.mk "" [] (.mk "Dependency" 7 "alphaBeta" "System" [] []
      [.mk "" [] (.mk "Action" 3 "ActionAB" "System" [] [] [])])] []

/-- The stored Alpha with its Beta. -/
def pairAlpha : TransportEntity :=
  .mk "Alpha" 1 "a1" "Data" [] [.mk "Data" [] (.mk "Beta" 2 "b1" "Data" [] [] [])] []

/-- The store: the state is the list of the digests of its Memory entities. -/
def pairStore : Collaborators (List String) where
  Execute w q :=
    if q.Pool = "DependencyEntityLookup" then
      if q.Conditions = [("Value", "==", "Alpha")] then
        (w, ⟨1, [pairLookupEntity "DependencyEntityLookup" "Alpha"]⟩)
      else if q.Conditions = [("Value", "==", "Beta")] then
        (w, ⟨1, [pairLookupEntity "DependencyEntityLookup" "Beta"]⟩)
      else (w, ⟨0, []⟩)
    else if q.Pool = "DependencyRelationLookup" then
      if q.Conditions = [("Value", "==", "Alpha-Beta")] then
        (w, ⟨1, [pairLookupEntity "DependencyRelationLookup" "Alpha-Beta"]⟩)
      else (w, ⟨0, []⟩)
    else if q.Pool = "Alpha" then (w, ⟨1, [pairAlpha]⟩)
    else (w, ⟨0, []⟩)
  MapTransportDataWithContext w e ctx :=
    if w.contains e.Value then (w, .mk e.Typ 9 e.Value ctx [] [] [])
    else (e.Value :: w, .mk e.Typ 9 e.Value ctx [("bMap", "")] [] [])
  JobCreate w _ _ _ := w
  GetDependencyByName _ _ := pairDependency
  GetName a := a
  GenerateSignature e :=
    String.intercalate "," ((rWalkInput e).map (fun x => x.Typ ++ ":" ++ Itoa x.ID))
  sha1Hex s := s

/-- The batch the mapper returns when the Alpha and its Beta are created in one
payload: both entities and the relation carry the empty marker. -/
def pairBatch : TransportEntity :=
  .mk "Alpha" 1 "a1" "Data" [("bMap", "")]
    [.mk "Data" [("bMap", "")] (.mk "Beta" 2 "b1" "Data" [("bMap", "")] [] [])] []

/-! ## Inputs and batches for the causality check and the anchors -/

/-- A Beta entity that has the numeric ID of the Alpha entity of `demoCreated`. -/
def betaOne : TransportEntity := .mk "Beta" 1 "b1" "Data" [] [] []

/-- The batch the mapper returns when two stored Items are put below a stored
Bucket in one payload: the two new relations carry the empty marker, the entities
carry none. -/
def twoLinksBatch : TransportEntity :=
  .mk "Bucket" 5 "B-5" "Data" []
    [.mk "Data" [("bMap", "")] (.mk "Item" 1 "I-1" "Data" [] [] []),
     .mk "Data" [("bMap", "")] (.mk "Item" 2 "I-2" "Data" [] [] [])] []

/-! ## Notions used to state the properties of the observer -/

/-- What the loop over the trackers does to one tracker for one `sysRunner`. -/
def trackOne (sysRunner : Neuron) (tracker : Tracker) : Tracker :=
  if sysRunner.ID = tracker.ID ∧ sysRunner.Version ≠ tracker.Version then
    { tracker with Version := sysRunner.Version }
  else tracker

/-- A quiet poll for the observer `o`: the store is alive, no job is open, the
number of Searching workers equals `runnerAmount`, and no Searching worker has a
Version that differs from the one tracked for it. -/
def QuietPoll (o : Observer) (p : Poll) : Prop :=
  p.alive = true ∧ p.openJobs = 0 ∧ p.searchingAmount = o.runnerAmount ∧
    ∀ n ∈ p.searching, ∀ t ∈ o.Runners, n.ID = t.ID → n.Version = t.Version

instance (o : Observer) (p : Poll) : Decidable (QuietPoll o p) := by
  unfold QuietPoll
  infer_instance

/-- A poll of a live store without open job on which the one worker, with the ID 1
and the Version 3, is Searching. -/
def quietPoll : Poll := ⟨true, 1, [⟨1, 3⟩], 0⟩

/-- A poll of a live store without open job on which the worker with the ID 1 is
Searching and has reached the Version 4. -/
def bumpedPoll : Poll := ⟨true, 1, [⟨1, 4⟩], 0⟩

/-- A poll of a store whose alive flag is cleared, with an open job. -/
def deadPoll : Poll := ⟨false, 0, [], 2⟩

/-! ## A configuration, for the instances of the properties of the builder -/

/-- The configuration of `ActionRelChild` of the relation-only tests, in which the
dependency `bucketItem` is first registered as a single Bucket and then replaced by
the Bucket over a Primary Item. -/
def relChildConfig : ConfigBuilder :=
  (((NewConfig.SetName "ActionRelChild").SetCategory "Test").AddDependency "bucketItem"
    (NewStructure "Bucket")).AddDependency "bucketItem"
    ((NewStructure "Bucket").AddChild ((NewStructure "Item").SetPriority "Primary"))

/-! ## Stores for dependencies with configuration errors -/

/-- The key is not one that `enrichQueryFilters` reports as of invalid format: it
is no filter key for the loop, or it splits into exactly three parts. -/
def wellFormedKey (kv : String × String) : Bool :=
  !(queryValid kv.1) || (keyNameKind kv.1).isSome

/-- A dependency `alpha` whose Primary Alpha node is in Match mode and has a filter
registered under the name `proto.v1`: its three property keys split into four
parts. -/
def dottedDependency : TransportEntity :=
  dependencyEntity "alpha"
    ((((NewStructure "Alpha").SetPriority "Primary").SetMode "Match").AddFilter "proto.v1"
      "Value" "==" "a1")

/-- A dependency `alpha` whose Primary Alpha node has two children with the alias
`dup`. -/
def aliasDependency : TransportEntity :=
  dependencyEntity "alpha"
    ((((NewStructure "Alpha").SetPriority "Primary").AddChild
      ((NewStructure "Beta").SetAlias "dup")).AddChild ((NewStructure "Gamma").SetAlias "dup"))

/-- The stored Alpha with a Beta and a Gamma below it. -/
def alphaWithChildren : TransportEntity :=
  .mk "Alpha" 1 "a1" "Data" []
    [.mk "Data" [] (.mk "Beta" 2 "b1" "Data" [] [] []),
     .mk "Data" [] (.mk "Gamma" 3 "g1" "Data" [] [] [])] []

/-- The store of `demoStore` for another dependency `dep` of `ActionA` and another
answer `stored` to the queries for Alpha. -/
def storeOf (dep stored : TransportEntity) : Collaborators (List String) where
  Execute w q :=
    if q.Pool = "DependencyEntityLookup" then (w, ⟨1, [demoLookupEntity]⟩)
    else if q.Pool = "Alpha" then (w, ⟨1, [stored]⟩)
    else (w, ⟨0, []⟩)
  MapTransportDataWithContext w e ctx :=
    if w.contains e.Value then (w, .mk e.Typ 9 e.Value ctx [] [] [])
    else (e.Value :: w, .mk e.Typ 9 e.Value ctx [("bMap", "")] [] [])
  JobCreate w _ _ _ := w
  GetDependencyByName _ _ := dep
  GetName a := a
  GenerateSignature e := e.Typ ++ ":" ++ e.Value
  sha1Hex s := s

/-! ## Notions used to state the detection of duplicate aliases -/

/-- The non-empty aliases of a list of compiled siblings, in order. -/
def siblingAliases (children : List PatternNode) : List String :=
  (children.map PatternNode.Alias).filter (fun a => a != "")

/-- The node has two children with the same non-empty alias. -/
def DuplicateAlias (n : PatternNode) : Prop :=
  ∃ l1 a l2 b l3, n.Children = l1 ++ a :: (l2 ++ b :: l3) ∧
    a.Alias ≠ "" ∧ a.Alias = b.Alias

/-- A compiled pattern in which the alias `x` occurs twice, under different
parents, and two siblings have no alias. -/
def cousinsPattern : PatternNode :=
  .mk "" "Root" "Set" []
    [.mk "" "Left" "Set" [] [.mk "x" "Beta" "Set" [] [] []] [],
     .mk "" "Right" "Set" [] [.mk "x" "Beta" "Set" [] [] []] []] []

/-- A compiled pattern in which two siblings at the second level have the alias
`x`. -/
def twinsPattern : PatternNode :=
  .mk "" "Root" "Set" []
    [.mk "l" "Left" "Set" []
      [.mk "x" "Beta" "Set" [] [] [], .mk "y" "Beta" "Set" [] [] [],
       .mk "x" "Gamma" "Set" [] [] []] []] []

/-! ## Notions used to state the properties of the demultiplexer output -/

/-- The Cartesian product of the rows in lexicographic order: one element of every
row, the element of the first row varying slowest and that of the last row
fastest. -/
def cartesian {α : Type} : List (List α) → List (List α)
  | [] => [[]]
  | row :: rest => row.flatMap (fun x => (cartesian rest).map (fun comb => x :: comb))

/-- The child types of an entity, in the order in which they first appear. -/
def childTypes (e : TransportEntity) : List String :=
  firstOccurrences (e.Children.map TransportEntity.Typ)

/-- The candidate list of a type below an entity: the concatenation, in source
order, of `Parse c` for each child `c` of that type. -/
def candidatesOfType (e : TransportEntity) (t : String) : List TransportEntity :=
  (e.Children.filter (fun c => c.Typ == t)).flatMap Parse

/-! ## Notions used to state the properties of the witness signature -/

/-- The string contains neither `|` nor `:`. -/
def SeparatorFree (s : String) : Prop := '|' ∉ s.toList ∧ ':' ∉ s.toList

instance (s : String) : Decidable (SeparatorFree s) := by
  unfold SeparatorFree
  infer_instance

/-! ## Notions used to state the properties of the batch lookup -/

/-- The marked entities of a batch: the entities reached from the root through
child relations that carry a `bMap` change marker, in pre-order. -/
def markedEntities (e : TransportEntity) : List TransportEntity :=
  (walkChildren e).filter (fun m => mapHas m.Properties "bMap")

/-- The first marked entity of the type `t` in pre-order. -/
def firstMarked (e : TransportEntity) (t : String) : Option TransportEntity :=
  (markedEntities e).find? (fun m => m.Typ == t)

/-- What `rEnrichLookupAndPointer` does for one marked entity. -/
def enrichStep (lp : LookupPointer) (m : TransportEntity) : LookupPointer :=
  if lookupHas lp.1 m.Typ then lp else (mapSet lp.1 m.Typ lp.2.length, lp.2 ++ [[m]])

/-! ## Notions used to state the round trip through the builder and the compiler -/

/-- The `Properties` that `Transform` gives the entity of a `Structure`. -/
def transformProperties (s : Structure) : StringMap :=
  let props0 : StringMap := if s.Alias ≠ "" then [("Alias", s.Alias)] else []
  let r := s.Filter.foldl transformFilterStep (props0, "")
  let props1 :=
    if r.2 ≠ "" then mapSet r.1 "AllFilters" (String.mk r.2.toList.dropLast) else r.1
  mapSet (mapSet props1 "Mode" s.Mode) "Type" s.Priority

/-! ## Notions used to compare the relevance check with the compiled pattern -/

/-- The compiled pattern mentions the key: the key is the Field of a filter in
`Filters`, or a key of `NormalizedFilterFields`, of some node of the pattern. -/
def PatternMentions (pn : PatternNode) (key : String) : Prop :=
  ∃ m ∈ patternNodes pn,
    (∃ f ∈ m.Filters, f.2.1 = key) ∨ key ∈ m.NormalizedFilterFields.map Prod.fst

instance (pn : PatternNode) (key : String) : Decidable (PatternMentions pn key) := by
  unfold PatternMentions
  infer_instance

/-- The property key has the form `Filter.<name>.<Field|Operator|Value>` with a
dot-free name. -/
def FilterKeyForm (k : String) : Prop :=
  ∃ name kind, DotFree name ∧ (kind = "Field" ∨ kind = "Operator" ∨ kind = "Value") ∧
    k = filterKey name kind

/-- A Dependency entity with exactly one child, the root of its Structure tree,
without a filter property of its own and without a parent relation anywhere in
its tree, whose filter property keys all have the form
`Filter.<name>.<Field|Operator|Value>` with a dot-free name. The property keys of
a node are the keys of a map, so they are pairwise different. -/
structure PlainDependency (dep : TransportEntity) : Prop where
  /-- The entity is a Dependency. -/
  typ : dep.Typ = "Dependency"
  /-- It has exactly one child. -/
  one_child : dep.ChildRelations.length = 1
  /-- It has no filter property of its own. -/
  no_own_filter : ∀ kv ∈ dep.Properties, startsWith kv.1 "Filter." = false
  /-- No node of its tree has a parent relation. -/
  no_parents : ∀ n ∈ walkChildren dep, n.ParentRelations = []
  /-- The filter property keys have the three-part form. -/
  key_form : ∀ n ∈ walkChildren dep, ∀ kv ∈ n.Properties,
    startsWith kv.1 "Filter." = true → FilterKeyForm kv.1
  /-- The property keys of a node are pairwise different. -/
  keys_nodup : ∀ n ∈ walkChildren dep, (n.Properties.map Prod.fst).Nodup

/-- Every filter of the dependency has a Field: a node that has the Operator key
or the Value key of a filter name also has its Field key. -/
def FiltersHaveField (dep : TransportEntity) : Prop :=
  ∀ n ∈ walkChildren dep, ∀ name, DotFree name →
    (filterKey name "Operator" ∈ n.Properties.map Prod.fst ∨
      filterKey name "Value" ∈ n.Properties.map Prod.fst) →
    filterKey name "Field" ∈ n.Properties.map Prod.fst

/-- The property puts `x` among the filter fields that `rCollectFilters` collects:
its key starts with `Filter.` and ends with `.Field`, and `x` is its value, or its
value without a leading `Properties.` when something is left. -/
def Collects (kv : String × String) (x : String) : Prop :=
  startsWith kv.1 "Filter." = true ∧ endsWith kv.1 ".Field" = true ∧
    (x = kv.2 ∨ (startsWith kv.2 "Properties." = true ∧ trimStart kv.2 "Properties." ≠ "" ∧
      x = trimStart kv.2 "Properties."))

/-- A dependency whose root Structure has a filter `x` with an Operator and no
Field. -/
def fieldlessDependency : TransportEntity :=
  .mk "Dependency" 7 "alpha" "System" []
    [.mk "" [] (.mk "Structure" 8 "Alpha" "System"
      [("Filter.x.Operator", "=="), ("Mode", "Match"), ("Type", "Primary")] [] [])] []

/-- The check of `FilterKeyForm` on a key that starts with `Filter.`: the key
splits into three parts at its dots, and the last one is `Field`, `Operator` or
`Value`. -/
def keyFormCheck (k : String) : Bool :=
  match keyNameKind k with
  | some nk => nk.2 == "Field" || nk.2 == "Operator" || nk.2 == "Value"
  | none => false

/-- The check of `FiltersHaveField` on one property key of a node with the
properties `P`: a key of the three-part form comes with the Field key of its
name. -/
def fieldCheck (P : StringMap) (k : String) : Bool :=
  match keyNameKind k with
  | some nk => (P.map Prod.fst).contains (filterKey nk.1 "Field")
  | none => true

/-! # Properties -/

/-! ## Induction over transport entities -/

/-- Structural induction over an entity: a property holds of every entity when it
holds of a node as soon as it holds of all targets of its relations. -/
theorem transportEntity_induct {P : TransportEntity → Prop}
    (h : ∀ t i v c p crs prs, (∀ r ∈ crs, P (TransportRelation.Target r)) →
      (∀ r ∈ prs, P (TransportRelation.Target r)) → P (.mk t i v c p crs prs)) :
    ∀ e, P e := by
  intro e
  refine @TransportEntity.rec P (fun r => P r.Target)
    (fun l => ∀ r ∈ l, P (TransportRelation.Target r)) ?_ ?_ ?_ ?_ e
  · intro t i v c p crs prs h1 h2
    exact h t i v c p crs prs h1 h2
  · intro c p t ht
    exact ht
  · intro r hr
    cases hr
  · intro hd tl h1 h2 r hr
    rcases List.mem_cons.1 hr with rfl | hr
    · exact h1
    · exact h2 r hr

theorem deepCopyRelations_eq_map (rs : List TransportRelation) :
    deepCopyRelations rs = rs.map deepCopyRelation := by
  induction rs with
  | nil => simp [deepCopyRelations]
  | cons r rs ih => simp [deepCopyRelations, ih]

/-- In the value model a deep copy equals its source. -/
theorem deepCopyEntity_eq (e : TransportEntity) : deepCopyEntity e = e := by
  induction e using transportEntity_induct with
  | h t i v c p crs prs ihc ihp =>
    have key : ∀ rs : List TransportRelation,
        (∀ r ∈ rs, deepCopyEntity r.Target = r.Target) → rs.map deepCopyRelation = rs := by
      intro rs hrs
      induction rs with
      | nil => rfl
      | cons r rs ih =>
        have h1 := hrs r (List.mem_cons_self _ _)
        have h2 := ih (fun r' hr' => hrs r' (List.mem_cons_of_mem _ hr'))
        cases r with
        | mk rc rp rt =>
          simp only [TransportRelation.Target] at h1
          simp [deepCopyRelation, CopyStringStringMap, h1, h2]
    simp only [deepCopyEntity, CopyStringStringMap, deepCopyRelations_eq_map, key crs ihc,
      key prs ihp]

theorem parseRelations_eq_map (rs : List TransportRelation) :
    parseRelations rs = rs.map (fun r => (r.Target.Typ, Parse r.Target)) := by
  induction rs with
  | nil => simp [parseRelations]
  | cons r rs ih =>
    cases r with
    | mk rc rp rt => simp [parseRelations, parseRelation, ih, TransportRelation.Target]

theorem Parse_leaf (t : String) (i : Int) (v c : String) (p : StringMap)
    (prs : List TransportRelation) :
    Parse (.mk t i v c p [] prs) = [.mk t i v c p [] prs] := by
  simp [Parse, deepCopyEntity_eq]

theorem Parse_node (t : String) (i : Int) (v c : String) (p : StringMap)
    (crs prs : List TransportRelation) (h : crs ≠ []) :
    Parse (.mk t i v c p crs prs) =
      (generateRecombinations (demuxRows crs)).map (fun set =>
        .mk t i v c p (set.map (fun x => .mk "" [] x)) []) := by
  cases crs with
  | nil => exact absurd rfl h
  | cons r rs =>
    have hd : demuxRelation = fun x => TransportRelation.mk "" [] x := by
      funext x
      simp [demuxRelation, deepCopyEntity_eq]
    simp only [Parse, demuxRows, CopyStringStringMap, hd]
    rw [show parseRelation r :: parseRelations rs = parseRelations (r :: rs) from by
      simp [parseRelations]]
    rw [parseRelations_eq_map]

/-! ## Grouping by type -/

theorem firstOccurrences_mem (l : List String) (a : String) :
    a ∈ firstOccurrences l ↔ a ∈ l := by
  induction l with
  | nil => simp [firstOccurrences]
  | cons x xs ih =>
    simp only [firstOccurrences, List.mem_cons, List.mem_filter, ih]
    by_cases h : a = x
    · simp [h]
    · simp [h]

theorem firstOccurrences_nodup (l : List String) : (firstOccurrences l).Nodup := by
  induction l with
  | nil => simp [firstOccurrences]
  | cons x xs ih =>
    simp only [firstOccurrences, List.nodup_cons]
    refine ⟨?_, ih.filter _⟩
    simp [List.mem_filter]

theorem firstOccurrences_snoc (l : List String) (t : String) :
    firstOccurrences (l ++ [t]) =
      if t ∈ l then firstOccurrences l else firstOccurrences l ++ [t] := by
  induction l with
  | nil => simp [firstOccurrences]
  | cons x xs ih =>
    have e1 : firstOccurrences (x :: xs ++ [t]) =
        x :: (firstOccurrences (xs ++ [t])).filter (fun y => y != x) := rfl
    have e2 : firstOccurrences (x :: xs) =
        x :: (firstOccurrences xs).filter (fun y => y != x) := rfl
    rw [e1, e2, ih]
    by_cases h1 : t ∈ xs
    · simp [h1]
    · by_cases h2 : t = x
      · subst h2
        simp [h1, List.filter_append]
      · simp [h1, h2, List.filter_append]

theorem firstOccurrences_perm_dedup (l : List String) :
    (firstOccurrences l).Perm l.dedup :=
  (List.perm_ext_iff_of_nodup (firstOccurrences_nodup l) (List.nodup_dedup l)).2
    (fun a => by rw [firstOccurrences_mem, List.mem_dedup])

theorem groupInsert_map {α : Type} (t : String) (x : α) (g : String → List α)
    (T : List String) (hT : T.Nodup) :
    groupInsert t x (T.map (fun s => (s, g s))) =
      if t ∈ T then T.map (fun s => (s, if s = t then g s ++ [x] else g s))
      else T.map (fun s => (s, g s)) ++ [(t, [x])] := by
  induction T with
  | nil => simp [groupInsert]
  | cons s T ih =>
    have hs : s ∉ T := (List.nodup_cons.1 hT).1
    have hT2 : T.Nodup := (List.nodup_cons.1 hT).2
    by_cases h : s = t
    · subst h
      have hrest : T.map (fun u => (u, if u = s then g u ++ [x] else g u)) =
          T.map (fun u => (u, g u)) := by
        apply List.map_congr_left
        intro u hu
        have : u ≠ s := fun e => hs (e ▸ hu)
        simp [this]
      simp [groupInsert, hrest]
    · have ht : t ≠ s := fun e => h e.symm
      simp only [List.map_cons, groupInsert, h, if_false, ih hT2, List.mem_cons, ht, false_or]
      by_cases h2 : t ∈ T
      · simp [h2]
      · simp [h2]

/-- The members of type `t` of a list of typed items, in source order. -/
theorem groupByType_snoc {α : Type} (l : List (String × α)) (p : String × α) :
    groupByType (l ++ [p]) = groupInsert p.1 p.2 (groupByType l) := by
  simp [groupByType, List.foldl_append]

/-- Closed form of the grouping loop: one group per distinct type, in the order of
first appearance, each holding the items of its type in source order. -/
theorem groupByType_eq {α : Type} (l : List (String × α)) :
    groupByType l =
      (firstOccurrences (l.map Prod.fst)).map (fun t =>
        (t, (l.filter (fun p => p.1 == t)).map Prod.snd)) := by
  induction l using List.reverseRecOn with
  | nil => simp [groupByType, firstOccurrences]
  | append_singleton l p ih =>
    rw [groupByType_snoc, ih, groupInsert_map _ _ _ _ (firstOccurrences_nodup _)]
    simp only [List.map_append, List.map_cons, List.map_nil, firstOccurrences_snoc,
      firstOccurrences_mem]
    by_cases h : p.1 ∈ l.map Prod.fst
    · simp only [h, if_true]
      apply List.map_congr_left
      intro s _
      by_cases hs : s = p.1
      · simp [hs, List.filter_append]
      · have hs2 : ¬ p.1 = s := fun e => hs e.symm
        simp [hs, hs2, List.filter_append]
    · simp only [h, if_false, List.map_append, List.map_cons, List.map_nil]
      have hnone : l.filter (fun q => q.1 == p.1) = [] := by
        rw [List.filter_eq_nil_iff]
        intro q hq hq2
        apply h
        simp only [beq_iff_eq] at hq2
        exact List.mem_map.2 ⟨q, hq, hq2⟩
      congr 1
      · apply List.map_congr_left
        intro s hs
        have hne : ¬ p.1 = s := by
          intro e
          apply h
          rw [e]
          exact (firstOccurrences_mem _ _).1 hs
        simp [List.filter_append, hne]
      · simp [List.filter_append, hnone]

/-! ## Recombinations -/

theorem generateRecombinations_length {α : Type} (rows : List (List α))
    (hne : rows ≠ []) (hrows : ∀ r ∈ rows, r ≠ []) :
    (generateRecombinations rows).length = (rows.map List.length).prod := by
  induction rows with
  | nil => exact absurd rfl hne
  | cons r rest ih =>
    have hr : r ≠ [] := hrows r (List.mem_cons_self _ _)
    by_cases hrest : rest = []
    · subst hrest
      simp [generateRecombinations]
    · have ih2 := ih hrest (fun x hx => hrows x (List.mem_cons_of_mem _ hx))
      have hpos : 0 < (rest.map List.length).prod := by
        apply List.prod_pos
        intro n hn
        rcases List.mem_map.1 hn with ⟨x, hx, rfl⟩
        exact List.length_pos.2 (hrows x (List.mem_cons_of_mem _ hx))
      have hlen : (generateRecombinations rest).length ≠ 0 := by omega
      simp only [generateRecombinations, hlen, if_false, List.map_cons, List.prod_cons]
      rw [List.length_flatMap]
      simp [Function.comp_def, ih2]

theorem generateRecombinations_ne_nil {α : Type} (rows : List (List α))
    (hne : rows ≠ []) (hrows : ∀ r ∈ rows, r ≠ []) :
    generateRecombinations rows ≠ [] := by
  have h := generateRecombinations_length rows hne hrows
  have hpos : 0 < (rows.map List.length).prod := by
    apply List.prod_pos
    intro n hn
    rcases List.mem_map.1 hn with ⟨x, hx, rfl⟩
    exact List.length_pos.2 (hrows x hx)
  intro e
  rw [e] at h
  simp at h
  omega

/-! ## The rows of `Parse` -/

/-- The rows of `Parse`: one per distinct child type in the order of first
appearance; the row of a type concatenates, in source order, the demultiplexed
forms of the children of that type. -/
theorem demuxRows_eq (crs : List TransportRelation) :
    demuxRows crs =
      (firstOccurrences (crs.map (fun r => r.Target.Typ))).map (fun t =>
        (crs.filter (fun r => r.Target.Typ == t)).flatMap (fun r => Parse r.Target)) := by
  have h1 : (crs.map (fun r => (r.Target.Typ, Parse r.Target))).map Prod.fst =
      crs.map (fun r => r.Target.Typ) := by
    simp [List.map_map, Function.comp_def]
  unfold demuxRows
  rw [groupByType_eq, h1, List.map_map]
  apply List.map_congr_left
  intro t _
  simp only [Function.comp_def, List.filter_map, List.map_map, List.flatMap]

/-- The rows of `Parse` are the groups of `typePointer`, every member demultiplexed:
the form in which the source computes them. -/
theorem demux_rows_eq (e : TransportEntity) :
    demuxRows e.ChildRelations = (typePointer e).map (fun g => g.flatMap Parse) := by
  have h1 : (e.ChildRelations.map (fun r => (r.Target.Typ, r.Target))).map Prod.fst =
      e.ChildRelations.map (fun r => r.Target.Typ) := by
    simp [List.map_map, Function.comp_def]
  rw [demuxRows_eq]
  unfold typePointer
  rw [groupByType_eq, h1, List.map_map, List.map_map]
  apply List.map_congr_left
  intro t _
  simp only [Function.comp_def, List.filter_map, List.map_map, List.flatMap]

theorem demuxRows_ne_nil (crs : List TransportRelation) (h : crs ≠ []) :
    demuxRows crs ≠ [] := by
  rw [demuxRows_eq]
  cases crs with
  | nil => exact absurd rfl h
  | cons r rs => simp [firstOccurrences]

theorem demuxRows_row_ne_nil (crs : List TransportRelation)
    (hP : ∀ r ∈ crs, Parse (TransportRelation.Target r) ≠ []) :
    ∀ row ∈ demuxRows crs, row ≠ [] := by
  rw [demuxRows_eq]
  intro row hrow
  rcases List.mem_map.1 hrow with ⟨t, ht, rfl⟩
  rw [firstOccurrences_mem] at ht
  rcases List.mem_map.1 ht with ⟨r, hr, hrt⟩
  have hmem : r ∈ crs.filter (fun r => r.Target.Typ == t) := by
    simp [List.mem_filter, hr, hrt]
  intro hnil
  rw [List.flatMap_eq_nil_iff] at hnil
  exact hP r hr (hnil r hmem)

/-- `Parse` never returns an empty list. -/
theorem Parse_ne_nil (e : TransportEntity) : Parse e ≠ [] := by
  induction e using transportEntity_induct with
  | h t i v c p crs prs ihc _ =>
    by_cases hc : crs = []
    · subst hc
      simp [Parse_leaf]
    · rw [Parse_node t i v c p crs prs hc]
      intro hnil
      rw [List.map_eq_nil_iff] at hnil
      exact generateRecombinations_ne_nil _ (demuxRows_ne_nil crs hc)
        (demuxRows_row_ne_nil crs ihc) hnil

theorem Parse_length_node (t : String) (i : Int) (v c : String) (p : StringMap)
    (crs prs : List TransportRelation) (h : crs ≠ []) :
    (Parse (.mk t i v c p crs prs)).length =
      ((firstOccurrences (crs.map (fun r => r.Target.Typ))).map (fun t =>
        ((crs.filter (fun r => r.Target.Typ == t)).map
          (fun r => (Parse r.Target).length)).sum)).prod := by
  rw [Parse_node t i v c p crs prs h, List.length_map,
    generateRecombinations_length _ (demuxRows_ne_nil crs h)
      (demuxRows_row_ne_nil crs (fun r _ => Parse_ne_nil r.Target)),
    demuxRows_eq, List.map_map]
  congr 1
  apply List.map_congr_left
  intro t _
  simp [List.length_flatMap, Function.comp_def]

/-- C4. `Demultiplexer.Parse` output count: `Parse e` has one element when `e` has
no child relations, and otherwise as many as the product, over the distinct child
types of `e`, of the summed output counts of the children of that type; when all
children are leaves this is the product of the numbers of children per type. -/
theorem parse_output_count (e : TransportEntity) :
    ((Parse e).length =
      if e.ChildRelations.isEmpty then 1
      else ((e.Children.map TransportEntity.Typ).dedup.map (fun t =>
        ((e.Children.filter (fun c => c.Typ == t)).map (fun c => (Parse c).length)).sum)).prod) ∧
    ((∀ c ∈ e.Children, c.ChildRelations = []) →
      (Parse e).length =
        if e.ChildRelations.isEmpty then 1
        else ((e.Children.map TransportEntity.Typ).dedup.map (fun t =>
          (e.Children.filter (fun c => c.Typ == t)).length)).prod) := by
  have main : (Parse e).length =
      if e.ChildRelations.isEmpty then 1
      else ((e.Children.map TransportEntity.Typ).dedup.map (fun t =>
        ((e.Children.filter (fun c => c.Typ == t)).map
          (fun c => (Parse c).length)).sum)).prod := by
    cases e with
    | mk t i v c p crs prs =>
      by_cases hc : crs = []
      · subst hc
        simp [Parse_leaf, TransportEntity.ChildRelations]
      · have hE : crs.isEmpty = false := by
          cases crs with
          | nil => exact absurd rfl hc
          | cons _ _ => rfl
        simp only [TransportEntity.ChildRelations, hE, TransportEntity.Children]
        rw [Parse_length_node t i v c p crs prs hc]
        have hty : crs.map (fun r => r.Target.Typ) =
            (crs.map TransportRelation.Target).map TransportEntity.Typ := by
          simp [List.map_map, Function.comp_def]
        rw [hty]
        have hperm := (firstOccurrences_perm_dedup
          ((crs.map TransportRelation.Target).map TransportEntity.Typ)).map (fun t =>
            ((crs.filter (fun r => r.Target.Typ == t)).map
              (fun r => (Parse r.Target).length)).sum)
        rw [hperm.prod_eq]
        simp only [Bool.false_eq_true, if_false]
        congr 1
        apply List.map_congr_left
        intro t _
        simp only [List.filter_map, List.map_map, Function.comp_def]
  refine ⟨main, ?_⟩
  intro hleaf
  rw [main]
  split
  · rfl
  · congr 1
    apply List.map_congr_left
    intro t _
    have hone : ∀ c ∈ e.Children.filter (fun c => c.Typ == t), (Parse c).length = 1 := by
      intro c hc
      have hc2 := hleaf c (List.mem_filter.1 hc).1
      cases c with
      | mk ct ci cv cc cp ccrs cprs =>
        simp only [TransportEntity.ChildRelations] at hc2
        subst hc2
        simp [Parse_leaf]
    rw [List.map_congr_left hone]
    simp

/-- C4, at the payload of the fan-out test: all five children of the Root are
leaves, and 2 Alpha, 2 Beta and 1 Gamma give 4 outputs. -/
theorem parse_output_count_witness :
    (∀ c ∈ fanoutRoot.Children, c.ChildRelations = []) ∧ (Parse fanoutRoot).length = 4 := by
  have hleaf : ∀ c ∈ fanoutRoot.Children, c.ChildRelations = [] := by
    intro c hc
    simp only [fanoutRoot, TransportEntity.Children, TransportEntity.ChildRelations,
      List.map_cons, List.map_nil, TransportRelation.Target, List.mem_cons,
      List.mem_nil_iff, or_false] at hc
    rcases hc with h | h | h | h | h <;> (subst h; rfl)
  refine ⟨hleaf, ?_⟩
  rw [(parse_output_count fanoutRoot).2 hleaf]
  decide

/-! ## The shape of the outputs of `Parse` -/

theorem generateRecombinations_forall₂ {α : Type} (rows : List (List α))
    (hne : rows ≠ []) (hrows : ∀ r ∈ rows, r ≠ []) :
    ∀ set ∈ generateRecombinations rows, List.Forall₂ (fun x row => x ∈ row) set rows := by
  induction rows with
  | nil => exact absurd rfl hne
  | cons r rest ih =>
    intro set hset
    by_cases hrest : rest = []
    · subst hrest
      simp only [generateRecombinations, List.length_nil, if_true, List.mem_map] at hset
      rcases hset with ⟨val, hval, rfl⟩
      exact List.Forall₂.cons hval List.Forall₂.nil
    · have hrows2 : ∀ x ∈ rest, x ≠ [] := fun x hx => hrows x (List.mem_cons_of_mem _ hx)
      have hlen : (generateRecombinations rest).length ≠ 0 := by
        intro h0
        exact generateRecombinations_ne_nil rest hrest hrows2 (List.length_eq_zero.1 h0)
      simp only [generateRecombinations, hlen, if_false, List.mem_flatMap, List.mem_map] at hset
      rcases hset with ⟨val, hval, comb, hcomb, rfl⟩
      exact List.Forall₂.cons hval (ih hrest hrows2 comb hcomb)

theorem walkChildrenLoop_eq (rs : List TransportRelation) :
    walkChildrenLoop rs = rs.flatMap (fun r => walkChildren r.Target) := by
  induction rs with
  | nil => simp [walkChildrenLoop]
  | cons r rs ih =>
    cases r with
    | mk rc rp rt => simp [walkChildrenLoop, ih, TransportRelation.Target]

theorem walkChildren_eq (e : TransportEntity) :
    walkChildren e = e :: e.ChildRelations.flatMap (fun r => walkChildren r.Target) := by
  cases e with
  | mk t i v c p crs prs =>
    simp [walkChildren, walkChildrenLoop_eq, TransportEntity.ChildRelations]

/-- The root of every output of `Parse` keeps the scalar fields and the properties
of the input. -/
theorem Parse_root_fields (e o : TransportEntity) (ho : o ∈ Parse e) :
    o.Typ = e.Typ ∧ o.ID = e.ID ∧ o.Value = e.Value ∧ o.Context = e.Context ∧
      o.Properties = e.Properties := by
  cases e with
  | mk t i v c p crs prs =>
    by_cases hc : crs = []
    · subst hc
      rw [Parse_leaf] at ho
      rw [List.mem_singleton.1 ho]
      exact ⟨rfl, rfl, rfl, rfl, rfl⟩
    · rw [Parse_node t i v c p crs prs hc] at ho
      rcases List.mem_map.1 ho with ⟨set, _, rfl⟩
      exact ⟨rfl, rfl, rfl, rfl, rfl⟩

/-- A recombination of the rows of `Parse` takes, for every distinct child type in
the order of first appearance, one demultiplexed form of a child of that type. -/
theorem demuxRows_recombination (crs : List TransportRelation) (hc : crs ≠ [])
    (set : List TransportEntity) (hset : set ∈ generateRecombinations (demuxRows crs)) :
    List.Forall₂ (fun x t => ∃ r ∈ crs, r.Target.Typ = t ∧ x ∈ Parse r.Target) set
      (firstOccurrences (crs.map (fun r => r.Target.Typ))) := by
  have h := generateRecombinations_forall₂ _ (demuxRows_ne_nil crs hc)
    (demuxRows_row_ne_nil crs (fun r _ => Parse_ne_nil r.Target)) set hset
  rw [demuxRows_eq, List.forall₂_map_right_iff] at h
  refine h.imp ?_
  intro x t hx
  rcases List.mem_flatMap.1 hx with ⟨r, hr, hxr⟩
  rcases List.mem_filter.1 hr with ⟨hr1, hr2⟩
  exact ⟨r, hr1, by simpa using hr2, hxr⟩

theorem forall₂_types_eq (set : List TransportEntity) (T : List String)
    (h : List.Forall₂ (fun x t => TransportEntity.Typ x = t) set T) :
    set.map TransportEntity.Typ = T := by
  induction h with
  | nil => rfl
  | cons hx _ ih => simp [hx, ih]

/-- The child types of an output of `Parse` are the distinct child types of the
input, in the order of first appearance. -/
theorem Parse_child_types (e o : TransportEntity) (ho : o ∈ Parse e) :
    o.Children.map TransportEntity.Typ = firstOccurrences (e.Children.map TransportEntity.Typ) := by
  cases e with
  | mk t i v c p crs prs =>
    by_cases hc : crs = []
    · subst hc
      rw [Parse_leaf] at ho
      rw [List.mem_singleton.1 ho]
      rfl
    · rw [Parse_node t i v c p crs prs hc] at ho
      rcases List.mem_map.1 ho with ⟨set, hset, rfl⟩
      have h := demuxRows_recombination crs hc set hset
      have h2 : List.Forall₂ (fun x t => TransportEntity.Typ x = t) set
          (firstOccurrences (crs.map (fun r => r.Target.Typ))) := by
        refine h.imp ?_
        intro x t hx
        rcases hx with ⟨r, _, hrt, hxr⟩
        rw [(Parse_root_fields r.Target x hxr).1, hrt]
      simp only [TransportEntity.Children, TransportEntity.ChildRelations, List.map_map]
      have e1 : (TransportEntity.Typ ∘ TransportRelation.Target ∘
          fun x => TransportRelation.mk "" [] x) = TransportEntity.Typ := rfl
      have e2 : (TransportEntity.Typ ∘ TransportRelation.Target) =
          fun r => r.Target.Typ := rfl
      rw [e1, e2]
      exact forall₂_types_eq set _ h2

/-- Every node below the root of an output of `Parse`, the root included, has
children of pairwise distinct types. -/
theorem Parse_distinct_child_types (e : TransportEntity) :
    ∀ o ∈ Parse e, ∀ n ∈ walkChildren o, (n.Children.map TransportEntity.Typ).Nodup := by
  induction e using transportEntity_induct with
  | h t i v c p crs prs ihc _ =>
    intro o ho n hn
    have hroot := Parse_child_types _ o ho
    by_cases hc : crs = []
    · subst hc
      rw [Parse_leaf] at ho
      rw [List.mem_singleton.1 ho] at hn
      simp only [walkChildren, walkChildrenLoop, List.mem_singleton] at hn
      rw [hn]
      simp [TransportEntity.Children, TransportEntity.ChildRelations]
    · rw [Parse_node t i v c p crs prs hc] at ho
      rcases List.mem_map.1 ho with ⟨set, hset, rfl⟩
      rw [walkChildren_eq] at hn
      rcases List.mem_cons.1 hn with rfl | hn
      · rw [hroot]
        exact firstOccurrences_nodup _
      · simp only [TransportEntity.ChildRelations, List.mem_flatMap, List.mem_map] at hn
        rcases hn with ⟨rel, ⟨x, hx, rfl⟩, hnx⟩
        simp only [TransportRelation.Target] at hnx
        have h := demuxRows_recombination crs hc set hset
        rcases (List.forall₂_iff_get.1 h) with ⟨hlen, hget⟩
        rcases List.mem_iff_get.1 hx with ⟨k, hk⟩
        have hk2 : k.1 < (firstOccurrences (crs.map (fun r => r.Target.Typ))).length := by
          rw [← hlen]
          exact k.2
        rcases hget k.1 k.2 hk2 with ⟨r, hr, _, hxr⟩
        rw [hk] at hxr
        exact ihc r hr x hxr n hnx

/-- C5. Every output `o` of `Demultiplexer.Parse e` has, at every node reached
through child relations, children of pairwise distinct types; the root of `o` has
exactly one child per distinct child type of `e`, in the order in which the types
first appear among the children of `e`; and the root keeps the Type, ID, Value,
Context and Properties of `e`. -/
theorem parse_one_child_per_type (e o : TransportEntity) (ho : o ∈ Parse e) :
    (∀ n ∈ walkChildren o, (n.Children.map TransportEntity.Typ).Nodup) ∧
    o.Children.map TransportEntity.Typ =
      firstOccurrences (e.Children.map TransportEntity.Typ) ∧
    o.Typ = e.Typ ∧ o.ID = e.ID ∧ o.Value = e.Value ∧ o.Context = e.Context ∧
      o.Properties = e.Properties :=
  ⟨Parse_distinct_child_types e o ho, Parse_child_types e o ho, Parse_root_fields e o ho⟩

/-- C5, at the payload of the fan-out test: its first output has the children
Alpha, Beta, Gamma in this order. -/
theorem parse_one_child_per_type_witness :
    fanoutFirst ∈ Parse fanoutRoot ∧
    ((∀ n ∈ walkChildren fanoutFirst, (n.Children.map TransportEntity.Typ).Nodup) ∧
      fanoutFirst.Children.map TransportEntity.Typ =
        firstOccurrences (fanoutRoot.Children.map TransportEntity.Typ) ∧
      fanoutFirst.Typ = fanoutRoot.Typ ∧ fanoutFirst.ID = fanoutRoot.ID ∧
      fanoutFirst.Value = fanoutRoot.Value ∧ fanoutFirst.Context = fanoutRoot.Context ∧
      fanoutFirst.Properties = fanoutRoot.Properties) := by
  have hmem : fanoutFirst ∈ Parse fanoutRoot := by
    have h : Parse fanoutRoot = fanoutFirst :: (Parse fanoutRoot).tail := by rfl
    rw [h]
    exact List.mem_cons_self _ _
  exact ⟨hmem, parse_one_child_per_type fanoutRoot fanoutFirst hmem⟩

/-- C6. `Demultiplexer.Parse` on a Bucket whose child relation carries the context
"Data" and the property weight=1: the only output has a child relation with an
empty context and no property, where the claim asks for those of the source. -/
theorem parse_relation_fields_dropped :
    shelvedBucket.ChildRelations.map (fun r => (r.Context, r.Properties)) =
      [("Data", [("weight", "1")])] ∧
    (Parse shelvedBucket).map
      (fun o => o.ChildRelations.map (fun r => (r.Context, r.Properties))) =
      [[("", [])]] := by
  decide

/-- C7. `Demultiplexer.Parse` on a Bucket that has a child relation and a parent
relation: the only output has no parent relation, where the claim asks for the
parent relation of the source; on an entity without child relation the parent
relations are kept. -/
theorem parse_parent_relations_dropped :
    shelvedBucket.ParentRelations.length = 1 ∧
    (Parse shelvedBucket).map (fun o => o.ParentRelations.length) = [0] ∧
    (Parse (.mk "Bucket" 1 "B-1" "Data" [] [] shelvedBucket.ParentRelations)).map
      (fun o => o.ParentRelations.length) = [1] := by
  decide

/-! ## The order of compiled children -/

theorem goStringLess_iff (a b : String) : goStringLess a b = true ↔ a < b := by
  simp [goStringLess, String.lt_iff_toList_lt]

/-- The less function of `compilePatternNode` is the strict order of `sortKey`. -/
theorem childLess_iff (a b : childWithIdx) : childLess a b = true ↔ sortKey a < sortKey b := by
  unfold childLess sortKey
  simp only [Prod.Lex.lt_iff]
  generalize mapGet a.e.Properties "Alias" = ai
  generalize mapGet b.e.Properties "Alias" = aj
  generalize a.e.Value = va
  generalize b.e.Value = vb
  by_cases hai : ai = "" <;> by_cases haj : aj = ""
  · subst hai
    subst haj
    by_cases hv : va = vb
    · subst hv
      simp
    · simp [hv, goStringLess_iff]
  · subst hai
    have : ¬ ("" = aj) := fun e => haj e.symm
    simp [haj, this]
  · subst haj
    have e1 : (ai == "") = false := by simp [hai]
    have e2 : (false < true) := by decide
    simp [hai, e1, e2]
  · have e1 : (ai == "") = false := by simp [hai]
    have e2 : (aj == "") = false := by simp [haj]
    simp only [e1, e2]
    by_cases ha : ai = aj
    · subst ha
      by_cases hv : va = vb
      · subst hv
        simp
      · simp [hv, goStringLess_iff]
    · simp [ha, goStringLess_iff]

theorem childLE_iff (a b : childWithIdx) : childLess b a = false ↔ sortKey a ≤ sortKey b := by
  rw [← not_lt, ← childLess_iff]
  simp

theorem childLE_total : IsTotal childWithIdx (fun a b => childLess b a = false) :=
  ⟨fun a b => by
    simp only [childLE_iff]
    exact le_total _ _⟩

theorem childLE_trans : IsTrans childWithIdx (fun a b => childLess b a = false) :=
  ⟨fun a b c => by
    simp only [childLE_iff]
    exact le_trans⟩

theorem withIdx_map_e (i : Nat) (l : List TransportEntity) :
    (withIdx i l).map (fun cw => cw.e) = l := by
  induction l generalizing i with
  | nil => rfl
  | cons x xs ih => simp [withIdx, ih]

theorem withIdx_idx_ge (i : Nat) (l : List TransportEntity) :
    ∀ cw ∈ withIdx i l, i ≤ cw.idx := by
  induction l generalizing i with
  | nil => simp [withIdx]
  | cons x xs ih =>
    intro cw hcw
    simp only [withIdx, List.mem_cons] at hcw
    rcases hcw with rfl | hcw
    · exact le_refl _
    · exact Nat.le_of_succ_le (ih (i + 1) cw hcw)

theorem withIdx_pairwise (i : Nat) (l : List TransportEntity) :
    (withIdx i l).Pairwise (fun a b => a.idx < b.idx) := by
  induction l generalizing i with
  | nil => simp [withIdx]
  | cons x xs ih =>
    simp only [withIdx, List.pairwise_cons]
    exact ⟨fun cw hcw => withIdx_idx_ge (i + 1) xs cw hcw, ih (i + 1)⟩

theorem compileRelations_eq (i : Nat) (crs : List TransportRelation) :
    compileRelations i crs =
      (withIdx i (crs.map TransportRelation.Target)).map
        (fun cw => (cw, compilePatternNode cw.e)) := by
  induction crs generalizing i with
  | nil => simp [compileRelations, withIdx]
  | cons r rs ih =>
    cases r with
    | mk rc rp rt => simp [compileRelations, withIdx, ih, TransportRelation.Target]

/-- The children of a compiled node are the compiled forms of the sorted children:
the form in which the source computes them. -/
theorem compilePatternNode_children (n : TransportEntity) :
    (compilePatternNode n).Children =
      (sortedChildren n).map (fun cw => compilePatternNode cw.e) := by
  cases n with
  | mk t i v c p crs prs =>
    simp only [compilePatternNode, PatternNode.Children, sortedChildren, sortSliceStable,
      TransportEntity.Children, TransportEntity.ChildRelations, compileRelations_eq]
    rw [← List.map_insertionSort (fun a b => childLess b a = false)
      (fun a b : childWithIdx × PatternNode => childLess b.1 a.1 = false)
      (fun cw => (cw, compilePatternNode cw.e)) _ (fun a _ b _ => Iff.rfl)]
    simp [List.map_map, Function.comp_def]

theorem compilePatternNode_fields (n : TransportEntity) :
    (compilePatternNode n).Alias = mapGet n.Properties "Alias" ∧
    (compilePatternNode n).Typ = n.Value ∧
    (compilePatternNode n).Mode = mapGet n.Properties "Mode" ∧
    (compilePatternNode n).Filters = (compileFilters n.Properties).1 ∧
    (compilePatternNode n).NormalizedFilterFields = (compileFilters n.Properties).2 := by
  cases n with
  | mk t i v c p crs prs => exact ⟨rfl, rfl, rfl, rfl, rfl⟩

theorem sortedChildren_perm (n : TransportEntity) :
    (sortedChildren n).Perm (withIdx 0 n.Children) :=
  List.perm_insertionSort _ _

theorem sortedChildren_sorted (n : TransportEntity) :
    (sortedChildren n).Pairwise (fun a b => sortKey a ≤ sortKey b) := by
  haveI := childLE_total
  haveI := childLE_trans
  have h := List.sorted_insertionSort (fun a b => childLess b a = false) (withIdx 0 n.Children)
  exact List.Pairwise.imp (fun {a b} hab => (childLE_iff a b).1 hab) h

theorem sortKey_le_canonical (a b : childWithIdx) (h : sortKey a ≤ sortKey b) :
    canonicalBefore (compilePatternNode a.e) (compilePatternNode b.e) := by
  unfold canonicalBefore
  rw [(compilePatternNode_fields a.e).1, (compilePatternNode_fields b.e).1,
    (compilePatternNode_fields a.e).2.1, (compilePatternNode_fields b.e).2.1]
  unfold sortKey at h
  simp only [Prod.Lex.le_iff, Prod.Lex.lt_iff] at h
  generalize mapGet a.e.Properties "Alias" = ai at h ⊢
  generalize mapGet b.e.Properties "Alias" = aj at h ⊢
  rcases h with h | ⟨h1, h2⟩
  · left
    have hlt : (ai == "") = false ∧ (aj == "") = true := by
      revert h
      cases (ai == "") <;> cases (aj == "") <;> decide
    exact ⟨by simpa using hlt.1, by simpa using hlt.2⟩
  · right
    refine ⟨?_, ?_⟩
    · have e1 : (ai = "") ↔ (ai == "") = true := by simp
      have e2 : (aj = "") ↔ (aj == "") = true := by simp
      rw [e1, e2, h1]
    · rcases h2 with h2 | ⟨h2, h3⟩
      · exact Or.inl h2
      · refine Or.inr ⟨h2, ?_⟩
        rcases h3 with h3 | ⟨h3, _⟩
        · exact le_of_lt h3
        · exact le_of_eq h3

theorem patternNodesLoop_eq (cs : List PatternNode) :
    patternNodesLoop cs = cs.flatMap patternNodes := by
  induction cs with
  | nil => simp [patternNodesLoop]
  | cons c cs ih => simp [patternNodesLoop, ih]

theorem patternNodes_eq (m : PatternNode) :
    patternNodes m = m :: m.Children.flatMap patternNodes := by
  cases m with
  | mk a t mo f cs nf => simp [patternNodes, patternNodesLoop_eq, PatternNode.Children]

theorem sortedChildren_mem (n : TransportEntity) (cw : childWithIdx)
    (h : cw ∈ sortedChildren n) : cw.e ∈ n.Children := by
  have h1 : cw ∈ withIdx 0 n.Children := (sortedChildren_perm n).mem_iff.1 h
  have h2 : cw.e ∈ (withIdx 0 n.Children).map (fun cw => cw.e) := List.mem_map.2 ⟨cw, h1, rfl⟩
  rwa [withIdx_map_e] at h2

/-- Stability of the sort of `compilePatternNode`: the children of one alias and
one type stand in the authored order. -/
theorem sortedChildren_stable (n : TransportEntity) (al ty : String) :
    (sortedChildren n).filter
        (fun cw => mapGet cw.e.Properties "Alias" == al && cw.e.Value == ty) =
      (withIdx 0 n.Children).filter
        (fun cw => mapGet cw.e.Properties "Alias" == al && cw.e.Value == ty) := by
  set p : childWithIdx → Bool :=
    fun cw => mapGet cw.e.Properties "Alias" == al && cw.e.Value == ty with hp
  have hsub : List.Sublist ((withIdx 0 n.Children).filter p) (withIdx 0 n.Children) :=
    List.filter_sublist _
  have hpw : ((withIdx 0 n.Children).filter p).Pairwise (fun a b => childLess b a = false) := by
    have h1 : ((withIdx 0 n.Children).filter p).Pairwise (fun a b => a.idx < b.idx) :=
      (withIdx_pairwise 0 n.Children).sublist hsub
    rw [List.pairwise_iff_forall_sublist] at h1 ⊢
    intro a b hab
    have hlt := h1 hab
    have ha : a ∈ (withIdx 0 n.Children).filter p := hab.subset (by simp)
    have hb : b ∈ (withIdx 0 n.Children).filter p := hab.subset (by simp)
    have hpa := (List.mem_filter.1 ha).2
    have hpb := (List.mem_filter.1 hb).2
    simp only [hp, Bool.and_eq_true, beq_iff_eq] at hpa hpb
    rw [childLE_iff]
    unfold sortKey
    rw [hpa.1, hpa.2, hpb.1, hpb.2]
    simp only [Prod.Lex.le_iff]
    right
    exact ⟨trivial, Or.inr ⟨trivial, Or.inr ⟨trivial, le_of_lt hlt⟩⟩⟩
  have hin : List.Sublist ((withIdx 0 n.Children).filter p) (sortedChildren n) :=
    List.sublist_insertionSort hpw hsub
  have hin2 : List.Sublist ((withIdx 0 n.Children).filter p) ((sortedChildren n).filter p) := by
    have := hin.filter p
    rwa [List.filter_filter, show (fun a => p a && p a) = p from by funext a; simp] at this
  have hlen : ((withIdx 0 n.Children).filter p).length = ((sortedChildren n).filter p).length :=
    ((sortedChildren_perm n).filter p).length_eq.symm
  exact (hin2.eq_of_length hlen).symm

/-- Every node of a compiled pattern has its children in canonical order. -/
theorem compilePatternNode_canonical (n : TransportEntity) :
    ∀ m ∈ patternNodes (compilePatternNode n), m.Children.Pairwise canonicalBefore := by
  induction n using transportEntity_induct with
  | h t i v c p crs prs ihc _ =>
    intro m hm
    rw [patternNodes_eq] at hm
    rcases List.mem_cons.1 hm with rfl | hm
    · rw [compilePatternNode_children, List.pairwise_map]
      exact List.Pairwise.imp (fun {a b} hab => sortKey_le_canonical a b hab)
        (sortedChildren_sorted _)
    · rw [compilePatternNode_children] at hm
      rcases List.mem_flatMap.1 hm with ⟨k, hk, hmk⟩
      rcases List.mem_map.1 hk with ⟨cw, hcw, rfl⟩
      have hmem := sortedChildren_mem _ cw hcw
      simp only [TransportEntity.Children, TransportEntity.ChildRelations] at hmem
      rcases List.mem_map.1 hmem with ⟨r, hr, hre⟩
      rw [← hre] at hmk
      exact ihc r hr m hmk

/-- C9. Canonical child ordering: the Children of `compilePatternNode n` are a
rearrangement of the compiled children of `n`; at every level of the compiled tree
a child with a non-empty Alias precedes a child with an empty Alias, children are
then ordered by Alias, then by Type; and the children that are equal on alias and
type keep their authored relative order. -/
theorem compile_children_canonical (n : TransportEntity) :
    (compilePatternNode n).Children.Perm (n.Children.map compilePatternNode) ∧
    (∀ m ∈ patternNodes (compilePatternNode n), m.Children.Pairwise canonicalBefore) ∧
    (∀ al ty : String,
      (compilePatternNode n).Children.filter (fun k => k.Alias == al && k.Typ == ty) =
        (n.Children.map compilePatternNode).filter (fun k => k.Alias == al && k.Typ == ty)) := by
  have hsrc : n.Children.map compilePatternNode =
      (withIdx 0 n.Children).map (fun cw => compilePatternNode cw.e) := by
    conv_lhs => rw [← withIdx_map_e 0 n.Children]
    rw [List.map_map]
    rfl
  refine ⟨?_, compilePatternNode_canonical n, ?_⟩
  · rw [compilePatternNode_children, hsrc]
    exact (sortedChildren_perm n).map _
  · intro al ty
    rw [compilePatternNode_children, hsrc, List.filter_map, List.filter_map]
    have hq : ((fun k : PatternNode => k.Alias == al && k.Typ == ty) ∘
        fun cw : childWithIdx => compilePatternNode cw.e) =
        fun cw => mapGet cw.e.Properties "Alias" == al && cw.e.Value == ty := by
      funext cw
      simp only [Function.comp, (compilePatternNode_fields cw.e).1,
        (compilePatternNode_fields cw.e).2.1]
    rw [hq, sortedChildren_stable]

/-! ## Authoring-order independence -/

theorem compilePatternNode_eq (n : TransportEntity) :
    compilePatternNode n =
      .mk (mapGet n.Properties "Alias") n.Value (mapGet n.Properties "Mode")
        (compileFilters n.Properties).1
        ((sortedChildren n).map (fun cw => compilePatternNode cw.e))
        (compileFilters n.Properties).2 := by
  have hc := compilePatternNode_children n
  have hf := compilePatternNode_fields n
  cases hn : compilePatternNode n with
  | mk a t m f cs nf =>
    rw [hn] at hc hf
    simp only [PatternNode.Children, PatternNode.Alias, PatternNode.Typ, PatternNode.Mode,
      PatternNode.Filters, PatternNode.NormalizedFilterFields] at hc hf
    rw [hc, hf.1, hf.2.1, hf.2.2.1, hf.2.2.2.1, hf.2.2.2.2]

theorem SiblingReorder.fields {a b : TransportEntity} (h : SiblingReorder a b) :
    a.Value = b.Value ∧ a.Properties = b.Properties := by
  induction h with
  | refl e => exact ⟨rfl, rfl⟩
  | perm => exact ⟨rfl, rfl⟩
  | child => exact ⟨rfl, rfl⟩
  | trans a b c _ _ ih1 ih2 => exact ⟨ih1.1.trans ih2.1, ih1.2.trans ih2.2⟩

theorem sortKey_le_entityKey (a b : childWithIdx) (h : sortKey a ≤ sortKey b) :
    entityKey a.e ≤ entityKey b.e := by
  unfold sortKey at h
  unfold entityKey
  simp only [Prod.Lex.le_iff, Prod.Lex.lt_iff] at h ⊢
  rcases h with h | ⟨h1, h2⟩
  · exact Or.inl h
  · refine Or.inr ⟨h1, ?_⟩
    rcases h2 with h2 | ⟨h2, h3⟩
    · exact Or.inl h2
    · refine Or.inr ⟨h2, ?_⟩
      rcases h3 with h3 | ⟨h3, _⟩
      · exact le_of_lt h3
      · exact le_of_eq h3

theorem entityKey_eq (x y : TransportEntity) (h : entityKey x = entityKey y) :
    aliasAndType x = aliasAndType y := by
  unfold entityKey at h
  unfold aliasAndType
  have h1 := congrArg (fun k => (ofLex (ofLex k).2).1) h
  have h2 := congrArg (fun k => (ofLex (ofLex k).2).2) h
  simp only [ofLex_toLex] at h1 h2
  rw [h1, h2]

/-- The entities of the sorted children, sorted by `entityKey`. -/
theorem sortedChildren_entities_sorted (n : TransportEntity) :
    ((sortedChildren n).map (fun cw => cw.e)).Pairwise
      (fun x y => entityKey x ≤ entityKey y) := by
  rw [List.pairwise_map]
  exact List.Pairwise.imp (fun {a b} hab => sortKey_le_entityKey a b hab)
    (sortedChildren_sorted n)

theorem sortedChildren_entities_perm (n : TransportEntity) :
    ((sortedChildren n).map (fun cw => cw.e)).Perm n.Children := by
  have h := (sortedChildren_perm n).map (fun cw => cw.e)
  rwa [withIdx_map_e] at h

/-- With pairwise distinct (Alias, Type) pairs, permuting the children does not
change the sorted order. -/
theorem sortedChildren_perm_invariant (n n2 : TransportEntity)
    (hp : n.Children.Perm n2.Children) (hd : (n.Children.map aliasAndType).Nodup) :
    (sortedChildren n).map (fun cw => cw.e) = (sortedChildren n2).map (fun cw => cw.e) := by
  have p1 := sortedChildren_entities_perm n
  have p2 := sortedChildren_entities_perm n2
  refine @List.Perm.eq_of_sorted _ (fun x y => entityKey x ≤ entityKey y) _ _ ?_
    (sortedChildren_entities_sorted n) (sortedChildren_entities_sorted n2)
    (p1.trans (hp.trans p2.symm))
  intro x y hx hy hxy hyx
  have hx2 : x ∈ n.Children := p1.mem_iff.1 hx
  have hy2 : y ∈ n.Children := hp.mem_iff.2 (p2.mem_iff.1 hy)
  exact List.inj_on_of_nodup_map hd hx2 hy2 (entityKey_eq x y (le_antisymm hxy hyx))

theorem orderedInsert_forall₂ (a b : childWithIdx) (l l2 : List childWithIdx)
    (hab : sortKey a = sortKey b ∧ compilePatternNode a.e = compilePatternNode b.e)
    (h : List.Forall₂ (fun x y => sortKey x = sortKey y ∧
      compilePatternNode x.e = compilePatternNode y.e) l l2) :
    List.Forall₂ (fun x y => sortKey x = sortKey y ∧
      compilePatternNode x.e = compilePatternNode y.e)
      (List.orderedInsert (fun a b => childLess b a = false) a l)
      (List.orderedInsert (fun a b => childLess b a = false) b l2) := by
  induction h with
  | nil => exact List.Forall₂.cons hab List.Forall₂.nil
  | @cons x y xs ys hxy hrest ih =>
    simp only [List.orderedInsert]
    have hiff : (childLess x a = false) ↔ (childLess y b = false) := by
      rw [childLE_iff, childLE_iff, hab.1, hxy.1]
    by_cases hc : childLess x a = false
    · rw [if_pos hc, if_pos (hiff.1 hc)]
      exact List.Forall₂.cons hab (List.Forall₂.cons hxy hrest)
    · rw [if_neg hc, if_neg (fun h => hc (hiff.2 h))]
      exact List.Forall₂.cons hxy ih

theorem insertionSort_forall₂ (l l2 : List childWithIdx)
    (h : List.Forall₂ (fun x y => sortKey x = sortKey y ∧
      compilePatternNode x.e = compilePatternNode y.e) l l2) :
    List.Forall₂ (fun x y => sortKey x = sortKey y ∧
      compilePatternNode x.e = compilePatternNode y.e)
      (List.insertionSort (fun a b => childLess b a = false) l)
      (List.insertionSort (fun a b => childLess b a = false) l2) := by
  induction h with
  | nil => exact List.Forall₂.nil
  | cons hxy _ ih => exact orderedInsert_forall₂ _ _ _ _ hxy ih

theorem withIdx_forall₂ (i : Nat) (l l2 : List TransportEntity)
    (h : List.Forall₂ (fun x y => aliasAndType x = aliasAndType y ∧
      compilePatternNode x = compilePatternNode y) l l2) :
    List.Forall₂ (fun x y => sortKey x = sortKey y ∧
      compilePatternNode x.e = compilePatternNode y.e) (withIdx i l) (withIdx i l2) := by
  induction h generalizing i with
  | nil => exact List.Forall₂.nil
  | @cons x y xs ys hxy _ ih =>
    refine List.Forall₂.cons ⟨?_, hxy.2⟩ (ih (i + 1))
    have h1 := congrArg Prod.fst hxy.1
    have h2 := congrArg Prod.snd hxy.1
    simp only [aliasAndType] at h1 h2
    simp only [sortKey, h1, h2]

/-- Replacing children by ones with the same alias, type and compiled form does
not change the compiled children. -/
theorem compiled_children_congr (n n2 : TransportEntity)
    (h : List.Forall₂ (fun x y => aliasAndType x = aliasAndType y ∧
      compilePatternNode x = compilePatternNode y) n.Children n2.Children) :
    (sortedChildren n).map (fun cw => compilePatternNode cw.e) =
      (sortedChildren n2).map (fun cw => compilePatternNode cw.e) := by
  have h2 := insertionSort_forall₂ _ _ (withIdx_forall₂ 0 _ _ h)
  have h3 : List.Forall₂ (fun x y : childWithIdx =>
      compilePatternNode x.e = compilePatternNode y.e) (sortedChildren n) (sortedChildren n2) :=
    h2.imp (fun _ _ hxy => hxy.2)
  rw [← List.forall₂_eq_eq_eq, List.forall₂_map_left_iff, List.forall₂_map_right_iff]
  exact h3

theorem forall₂_replace_one {R : TransportEntity → TransportEntity → Prop}
    (hrefl : ∀ x, R x x) (l1 l2 : List TransportEntity) (a b : TransportEntity) (hab : R a b) :
    List.Forall₂ R (l1 ++ a :: l2) (l1 ++ b :: l2) := by
  have hself : ∀ l : List TransportEntity, List.Forall₂ R l l := by
    intro l
    induction l with
    | nil => exact List.Forall₂.nil
    | cons x xs ih => exact List.Forall₂.cons (hrefl x) ih
  induction l1 with
  | nil => exact List.Forall₂.cons hab (hself l2)
  | cons x xs ih => exact List.Forall₂.cons (hrefl x) ih

theorem walkChildren_self_mem (e : TransportEntity) : e ∈ walkChildren e := by
  rw [walkChildren_eq]
  exact List.mem_cons_self _ _

theorem walkChildren_child_mem (e : TransportEntity) (r : TransportRelation)
    (hr : r ∈ e.ChildRelations) (m : TransportEntity) (hm : m ∈ walkChildren r.Target) :
    m ∈ walkChildren e := by
  rw [walkChildren_eq]
  exact List.mem_cons_of_mem _ (List.mem_flatMap.2 ⟨r, hr, hm⟩)

theorem SiblingReorder.compile_eq {a b : TransportEntity} (h : SiblingReorder a b) :
    DistinctSiblings a → DistinctSiblings b ∧ compilePatternNode a = compilePatternNode b := by
  induction h with
  | refl e => exact fun hd => ⟨hd, rfl⟩
  | perm t i v c p crs crs2 prs hp =>
    intro hd
    have hch : (TransportEntity.mk t i v c p crs prs).Children.Perm
        (TransportEntity.mk t i v c p crs2 prs).Children := hp.map _
    have hroot := hd _ (walkChildren_self_mem _)
    refine ⟨?_, ?_⟩
    · intro m hm
      rw [walkChildren_eq] at hm
      rcases List.mem_cons.1 hm with rfl | hm
      · exact (List.Perm.nodup_iff (hch.map aliasAndType)).1 hroot
      · rcases List.mem_flatMap.1 hm with ⟨r, hr, hmr⟩
        simp only [TransportEntity.ChildRelations] at hr
        exact hd m (walkChildren_child_mem (.mk t i v c p crs prs) r (hp.mem_iff.2 hr) m hmr)
    · rw [compilePatternNode_eq, compilePatternNode_eq (.mk t i v c p crs2 prs)]
      have hs := sortedChildren_perm_invariant _ _ hch hroot
      have hs2 := congrArg (List.map compilePatternNode) hs
      simp only [List.map_map, Function.comp_def] at hs2
      simp only [TransportEntity.Properties, TransportEntity.Value, hs2]
  | child t i v c p l1 l2 prs rc rp a b hab ih =>
    intro hd
    have hda : DistinctSiblings a := by
      intro m hm
      refine hd m (walkChildren_child_mem _ (.mk rc rp a) ?_ m hm)
      simp [TransportEntity.ChildRelations]
    have ihb := ih hda
    have hkey : aliasAndType a = aliasAndType b := by
      unfold aliasAndType
      rw [hab.fields.1, hab.fields.2]
    have hch1 : (TransportEntity.mk t i v c p (l1 ++ .mk rc rp a :: l2) prs).Children =
        l1.map TransportRelation.Target ++ a :: l2.map TransportRelation.Target := by
      simp [TransportEntity.Children, TransportEntity.ChildRelations, TransportRelation.Target]
    have hch2 : (TransportEntity.mk t i v c p (l1 ++ .mk rc rp b :: l2) prs).Children =
        l1.map TransportRelation.Target ++ b :: l2.map TransportRelation.Target := by
      simp [TransportEntity.Children, TransportEntity.ChildRelations, TransportRelation.Target]
    have hroot := hd _ (walkChildren_self_mem _)
    refine ⟨?_, ?_⟩
    · intro m hm
      rw [walkChildren_eq] at hm
      rcases List.mem_cons.1 hm with rfl | hm
      · rw [hch2]
        rw [hch1] at hroot
        simpa [hkey] using hroot
      · rcases List.mem_flatMap.1 hm with ⟨r, hr, hmr⟩
        simp only [TransportEntity.ChildRelations, List.mem_append, List.mem_cons] at hr
        rcases hr with hr | rfl | hr
        · refine hd m (walkChildren_child_mem _ r ?_ m hmr)
          simp [TransportEntity.ChildRelations, hr]
        · exact ihb.1 m hmr
        · refine hd m (walkChildren_child_mem _ r ?_ m hmr)
          simp [TransportEntity.ChildRelations, hr]
    · rw [compilePatternNode_eq, compilePatternNode_eq (.mk t i v c p (l1 ++ .mk rc rp b :: l2) prs)]
      have hcong := compiled_children_congr
        (.mk t i v c p (l1 ++ .mk rc rp a :: l2) prs)
        (.mk t i v c p (l1 ++ .mk rc rp b :: l2) prs) (by
          rw [hch1, hch2]
          exact forall₂_replace_one (fun x => ⟨rfl, rfl⟩) _ _ a b ⟨hkey, ihb.2⟩)
      simp only [TransportEntity.Properties, TransportEntity.Value, hcong]
  | trans a b c _ _ ih1 ih2 =>
    intro hd
    have h1 := ih1 hd
    have h2 := ih2 h1.1
    exact ⟨h2.1, h1.2.trans h2.2⟩

/-- C10. Authoring-order independence: when two Structure trees differ only in the
order of siblings and the siblings of every node have pairwise distinct
(Alias, Type) pairs, `compilePatternNode` yields the same compiled tree for both:
the same Alias, Type, Mode, Filters and ordered Children at every level. -/
theorem compile_authoring_order_independent (a b : TransportEntity)
    (h : SiblingReorder a b) (hd : DistinctSiblings a) :
    compilePatternNode a = compilePatternNode b :=
  (h.compile_eq hd).2

/-- C10, at the dependency of the alias test authored as right, left and as left,
right. -/
theorem compile_authoring_order_independent_witness :
    SiblingReorder
      (structureNode "Root" "" [structureNode "Beta" "right" [], structureNode "Beta" "left" []])
      (structureNode "Root" "" [structureNode "Beta" "left" [], structureNode "Beta" "right" []]) ∧
    DistinctSiblings
      (structureNode "Root" "" [structureNode "Beta" "right" [], structureNode "Beta" "left" []]) ∧
    compilePatternNode
      (structureNode "Root" "" [structureNode "Beta" "right" [], structureNode "Beta" "left" []]) =
    compilePatternNode
      (structureNode "Root" "" [structureNode "Beta" "left" [], structureNode "Beta" "right" []]) := by
  have h1 : SiblingReorder
      (structureNode "Root" "" [structureNode "Beta" "right" [], structureNode "Beta" "left" []])
      (structureNode "Root" "" [structureNode "Beta" "left" [], structureNode "Beta" "right" []]) :=
    SiblingReorder.perm _ _ _ _ _ _ _ _ (List.Perm.swap _ _ _)
  have h2 : DistinctSiblings
      (structureNode "Root" "" [structureNode "Beta" "right" [], structureNode "Beta" "left" []]) := by
    unfold DistinctSiblings
    decide
  exact ⟨h1, h2, compile_authoring_order_independent _ _ h1 h2⟩

/-! ## Walks over the batch -/

theorem rWalkInputLoop_eq (rs : List TransportRelation) :
    rWalkInputLoop rs = rs.flatMap (fun r => rWalkInput r.Target) := by
  induction rs with
  | nil => simp [rWalkInputLoop]
  | cons r rs ih =>
    cases r with
    | mk rc rp rt => simp [rWalkInputLoop, ih, TransportRelation.Target]

theorem rWalkInput_eq (e : TransportEntity) :
    rWalkInput e = e :: (e.ChildRelations.flatMap (fun r => rWalkInput r.Target) ++
      e.ParentRelations.flatMap (fun r => rWalkInput r.Target)) := by
  cases e with
  | mk t i v c p crs prs =>
    simp [rWalkInput, rWalkInputLoop_eq, TransportEntity.ChildRelations,
      TransportEntity.ParentRelations]

/-- The walk over child relations visits only nodes that the walk over child and
parent relations visits. -/
theorem walkChildren_subset_rWalkInput (e : TransportEntity) :
    ∀ m ∈ walkChildren e, m ∈ rWalkInput e := by
  induction e using transportEntity_induct with
  | h t i v c p crs prs ihc _ =>
    intro m hm
    rw [walkChildren_eq] at hm
    rw [rWalkInput_eq]
    rcases List.mem_cons.1 hm with rfl | hm
    · exact List.mem_cons_self _ _
    · rcases List.mem_flatMap.1 hm with ⟨r, hr, hmr⟩
      refine List.mem_cons_of_mem _ (List.mem_append_left _ ?_)
      exact List.mem_flatMap.2 ⟨r, hr, ihc r hr m hmr⟩

theorem rEnrichLoop_eq (crs : List TransportRelation) (lp : LookupPointer) :
    rEnrichLoop crs lp = crs.foldl (fun acc r => rEnrichLookupAndPointer r.Target acc) lp := by
  induction crs generalizing lp with
  | nil => simp [rEnrichLoop]
  | cons r rs ih =>
    cases r with
    | mk rc rp rt => simp [rEnrichLoop, ih, TransportRelation.Target]

/-- Without a marked entity below it, an entity adds nothing to the lookup. -/
theorem rEnrich_unmarked (e : TransportEntity) :
    (∀ m ∈ walkChildren e, mapHas m.Properties "bMap" = false) →
      ∀ lp, rEnrichLookupAndPointer e lp = lp := by
  induction e using transportEntity_induct with
  | h t i v c p crs prs ihc _ =>
    intro hun lp
    have hroot := hun _ (walkChildren_self_mem _)
    simp only [TransportEntity.Properties] at hroot
    simp only [rEnrichLookupAndPointer, hroot, rEnrichLoop_eq]
    have hall : ∀ r ∈ crs, ∀ lp2, rEnrichLookupAndPointer (TransportRelation.Target r) lp2 = lp2 := by
      intro r hr lp2
      exact ihc r hr (fun m hm => hun m (walkChildren_child_mem (.mk t i v c p crs prs) r hr m hm)) lp2
    clear ihc hun
    induction crs generalizing lp with
    | nil => rfl
    | cons r rs ih =>
      simp only [List.foldl_cons, hall r (List.mem_cons_self _ _)]
      exact ih lp (fun r2 hr2 => hall r2 (List.mem_cons_of_mem _ hr2))

theorem rFilterRelationStructures_eq (e : TransportEntity) (rs : RelationStructures) :
    rFilterRelationStructures e rs = rFilterRelationLoop e e.ChildRelations rs := by
  cases e with
  | mk t i v c p crs prs => simp [rFilterRelationStructures, TransportEntity.ChildRelations]

theorem rFilterRelationLoop_origin (ent : TransportEntity) (crs : List TransportRelation)
    (hcrs : ∀ r ∈ crs, ∀ rs, ∀ x ∈ rFilterRelationStructures (TransportRelation.Target r) rs,
      x ∈ rs ∨ NewRelationChild r.Target x.2.2) :
    ∀ rs, ∀ x ∈ rFilterRelationLoop ent crs rs,
      x ∈ rs ∨ ∃ r ∈ crs, (MarkedRelation r ∧ r.Target = x.2.2) ∨
        NewRelationChild r.Target x.2.2 := by
  induction crs with
  | nil =>
    intro rs x hx
    simp only [rFilterRelationLoop] at hx
    exact Or.inl hx
  | cons r rest ih =>
    intro rs x hx
    cases r with
    | mk rc rp tgt =>
      simp only [rFilterRelationLoop] at hx
      have ih2 := ih (fun r2 hr2 => hcrs r2 (List.mem_cons_of_mem _ hr2)) _ x hx
      rcases ih2 with h | ⟨r2, hr2, h⟩
      · have h3 := hcrs (.mk rc rp tgt) (List.mem_cons_self _ _) _ x h
        simp only [TransportRelation.Target] at h3
        rcases h3 with h3 | h3
        · by_cases hm : (mapHas rp "bMap" && mapGet rp "bMap" == "") = true
          · rw [if_pos hm] at h3
            split at h3
            · exact Or.inl h3
            · rcases List.mem_append.1 h3 with h4 | h4
              · exact Or.inl h4
              · rw [List.mem_singleton] at h4
                refine Or.inr ⟨.mk rc rp tgt, List.mem_cons_self _ _, Or.inl ⟨?_, ?_⟩⟩
                · simp only [Bool.and_eq_true, beq_iff_eq] at hm
                  exact hm
                · rw [h4]
                  rfl
          · rw [if_neg hm] at h3
            exact Or.inl h3
        · exact Or.inr ⟨.mk rc rp tgt, List.mem_cons_self _ _, Or.inr h3⟩
      · exact Or.inr ⟨r2, List.mem_cons_of_mem _ hr2, h⟩

/-- Every recorded relation structure of a batch holds the child endpoint of a new
relation of the batch. -/
theorem rFilterRelationStructures_origin (e : TransportEntity) :
    ∀ rs, ∀ x ∈ rFilterRelationStructures e rs, x ∈ rs ∨ NewRelationChild e x.2.2 := by
  induction e using transportEntity_induct with
  | h t i v c p crs prs ihc _ =>
    intro rs x hx
    rw [rFilterRelationStructures_eq] at hx
    rcases rFilterRelationLoop_origin _ crs ihc rs x hx with h | ⟨r, hr, h⟩
    · exact Or.inl h
    · right
      rcases h with ⟨hm, ht⟩ | ⟨m, hm, r2, hr2, hmark, ht⟩
      · exact ⟨_, walkChildren_self_mem _, r, hr, hm, ht⟩
      · exact ⟨m, walkChildren_child_mem (.mk t i v c p crs prs) r hr m hm, r2, hr2, hmark, ht⟩

/-- Without a new relation in the batch, no relation structure is recorded. -/
theorem rFilterRelationStructures_unmarked (data : TransportEntity)
    (h : ∀ m ∈ walkChildren data, ∀ r ∈ m.ChildRelations, ¬ MarkedRelation r) :
    rFilterRelationStructures data [] = [] := by
  cases hx : rFilterRelationStructures data [] with
  | nil => rfl
  | cons x xs =>
    exfalso
    have hmem : x ∈ rFilterRelationStructures data [] := by
      rw [hx]
      exact List.mem_cons_self _ _
    rcases rFilterRelationStructures_origin data [] x hmem with h1 | ⟨m, hm, r, hr, hmark, _⟩
    · cases h1
    · exact h m hm r hr hmark

/-! ## Runs of the scheduler -/

/-- C3. When no entity reached from the batch root through child or parent
relations carries a `bMap` marker and no child relation of the batch carries the
empty-string `bMap` marker, `Scheduler.Run` creates no job and hands no Memory
entity to the mapper, whatever the store and the registry answer. -/
theorem run_unmarked_batch_is_silent {W : Type} (C : Collaborators W) (st : RunState W)
    (data : TransportEntity)
    (h1 : ∀ e ∈ rWalkInput data, mapHas e.Properties "bMap" = false)
    (h2 : ∀ m ∈ walkChildren data, ∀ r ∈ m.ChildRelations, ¬ MarkedRelation r) :
    (Run C st data).jobs = st.jobs ∧ (Run C st data).witnesses = st.witnesses := by
  have hrf := rFilterRelationStructures_unmarked data h2
  have hre := rEnrich_unmarked data
    (fun m hm => h1 m (walkChildren_subset_rWalkInput data m hm)) ([], [])
  have hanch : runAnchors data = [data] := by
    have hfil : (rWalkInput data).filter (fun e => mapHas e.Properties "bMap") = [] := by
      rw [List.filter_eq_nil_iff]
      intro e he
      simp [h1 e he]
    simp [runAnchors, extractBatchAnchors, hrf, hfil]
  by_cases hp : st.panicked = true
  · simp [Run, hp]
  · simp [Run, hp, discoverCandidates, hrf, hre, allowedChildTypes, overlayProcessAnchors,
      processAnchor, hanch]

/-- C3, on the small store: a batch that returns the stored Alpha without marker
creates nothing. -/
theorem run_unmarked_batch_is_silent_witness :
    (∀ e ∈ rWalkInput demoAlpha, mapHas e.Properties "bMap" = false) ∧
    (∀ m ∈ walkChildren demoAlpha, ∀ r ∈ m.ChildRelations, ¬ MarkedRelation r) ∧
    (Run demoStore (RunState.init NewScheduler []) demoAlpha).jobs = [] ∧
    (Run demoStore (RunState.init NewScheduler []) demoAlpha).witnesses = [] := by
  have h1 : ∀ e ∈ rWalkInput demoAlpha, mapHas e.Properties "bMap" = false := by decide
  have h2 : ∀ m ∈ walkChildren demoAlpha, ∀ r ∈ m.ChildRelations, ¬ MarkedRelation r := by
    intro m hm r hr
    simp only [demoAlpha, walkChildren, walkChildrenLoop, List.mem_singleton] at hm
    subst hm
    cases hr
  exact ⟨h1, h2, run_unmarked_batch_is_silent demoStore (RunState.init NewScheduler [])
    demoAlpha h1 h2⟩

/-- The jobs of a loop: when every step only adds jobs that satisfy `Q` of the item
it handles, so does the whole loop. -/
theorem foldl_jobs {W α : Type} (f : RunState W → α → RunState W) (Q : α → Job → Prop)
    (l : List α)
    (hstep : ∀ st x, x ∈ l → ∀ j ∈ (f st x).jobs, j ∈ st.jobs ∨ Q x j) :
    ∀ st, ∀ j ∈ (l.foldl f st).jobs, j ∈ st.jobs ∨ ∃ x ∈ l, Q x j := by
  induction l with
  | nil =>
    intro st j hj
    exact Or.inl hj
  | cons x xs ih =>
    intro st j hj
    rw [List.foldl_cons] at hj
    rcases ih (fun st2 y hy => hstep st2 y (List.mem_cons_of_mem _ hy)) (f st x) j hj with
      h | ⟨y, hy, hq⟩
    · rcases hstep st x (List.mem_cons_self _ _) j h with h2 | h2
      · exact Or.inl h2
      · exact Or.inr ⟨x, List.mem_cons_self _ _, h2⟩
    · exact Or.inr ⟨y, List.mem_cons_of_mem _ hy, hq⟩

theorem isDuplicateByWitness_jobs {W : Type} (C : Collaborators W) (st : RunState W)
    (actionName depName : String) (input requirement : TransportEntity) :
    (isDuplicateByWitness C st actionName depName input requirement).1.jobs = st.jobs := by
  unfold isDuplicateByWitness
  simp only []
  split <;> rfl

/-- A job that `processInput` adds has the input at hand, which passed the anchor
containment check and the causality check. -/
theorem processInput_jobs {W : Type} (C : Collaborators W) (updatedIDs : List Int)
    (anchor : TransportEntity) (ad : String × String) (requirement : TransportEntity)
    (st : RunState W) (input : TransportEntity) :
    ∀ j ∈ (processInput C updatedIDs anchor ad requirement st input).jobs,
      j ∈ st.jobs ∨ (inputContainsEntity j.Input anchor.Typ anchor.ID = true ∧
        inputContainsUpdated j.Input updatedIDs = true) := by
  intro j hj
  unfold processInput at hj
  by_cases h1 : inputContainsEntity input anchor.Typ anchor.ID = true
  · by_cases h2 : inputContainsUpdated input updatedIDs = true
    · simp only [h1, h2, Bool.not_true, Bool.false_eq_true, if_false] at hj
      split at hj
      · rw [isDuplicateByWitness_jobs] at hj
        exact Or.inl hj
      · simp only [List.mem_append, List.mem_singleton, isDuplicateByWitness_jobs] at hj
        rcases hj with hj | hj
        · exact Or.inl hj
        · subst hj
          exact Or.inr ⟨h1, h2⟩
    · simp only [h1, h2, Bool.not_true, Bool.false_eq_true, if_false, Bool.not_false,
        if_true] at hj
      exact Or.inl hj
  · simp only [h1, Bool.not_false, if_true] at hj
    exact Or.inl hj

theorem processCandidate_jobs {W : Type} (C : Collaborators W) (batchBMapValue : String)
    (updatedIDs : List Int) (anchor : TransportEntity) (lp : LookupPointer)
    (st : RunState W) (ad : String × String) :
    ∀ j ∈ (processCandidate C batchBMapValue updatedIDs anchor lp st ad).jobs,
      j ∈ st.jobs ∨ (inputContainsEntity j.Input anchor.Typ anchor.ID = true ∧
        inputContainsUpdated j.Input updatedIDs = true) := by
  intro j hj
  unfold processCandidate at hj
  split at hj
  · exact Or.inl hj
  · simp only [] at hj
    split at hj
    · exact Or.inl hj
    · split at hj
      · exact Or.inl hj
      · split at hj
        · exact Or.inl hj
        · rcases foldl_jobs _ (fun _ j => inputContainsEntity j.Input anchor.Typ anchor.ID = true ∧
              inputContainsUpdated j.Input updatedIDs = true) _
            (fun st2 x _ => processInput_jobs C updatedIDs anchor ad _ st2 x) _ j hj with
            h | ⟨_, _, h⟩
          · exact Or.inl h
          · exact Or.inr h

theorem overlayProcessAnchors_jobs {W : Type} (C : Collaborators W) (st : RunState W)
    (anchors : List TransportEntity) (actionsAndDependencies : List (String × String))
    (batch : TransportEntity) (newRelationStructures : RelationStructures) :
    ∀ j ∈ (overlayProcessAnchors C st anchors actionsAndDependencies batch
        newRelationStructures).jobs,
      j ∈ st.jobs ∨ ∃ anchor ∈ anchors,
        inputContainsEntity j.Input anchor.Typ anchor.ID = true ∧
        inputContainsUpdated j.Input
          (collectUpdatedEntityIDs batch newRelationStructures) = true := by
  intro j hj
  unfold overlayProcessAnchors at hj
  refine foldl_jobs _ (fun anchor j => inputContainsEntity j.Input anchor.Typ anchor.ID = true ∧
    inputContainsUpdated j.Input (collectUpdatedEntityIDs batch newRelationStructures) = true)
    anchors ?_ st j hj
  intro st2 anchor _ j2 hj2
  unfold processAnchor at hj2
  rcases foldl_jobs _ (fun _ j => inputContainsEntity j.Input anchor.Typ anchor.ID = true ∧
      inputContainsUpdated j.Input (collectUpdatedEntityIDs batch newRelationStructures) = true)
    actionsAndDependencies
    (fun st3 ad _ => processCandidate_jobs C _ _ anchor _ st3 ad) st2 j2 hj2 with h | ⟨_, _, h⟩
  · exact Or.inl h
  · exact Or.inr h

/-- An input that holds an anchor of the batch and an updated ID holds an entity
with the Type and ID of a marked entity or of a new relation's child endpoint. -/
theorem anchored_input_caused (data input anchor : TransportEntity)
    (ha : anchor ∈ runAnchors data)
    (h1 : inputContainsEntity input anchor.Typ anchor.ID = true)
    (h2 : inputContainsUpdated input
      (collectUpdatedEntityIDs data (rFilterRelationStructures data [])) = true) :
    CausedBy data input := by
  have hcontains : ∃ e ∈ rWalkInput input, e.Typ = anchor.Typ ∧ e.ID = anchor.ID := by
    unfold inputContainsEntity at h1
    rcases List.any_eq_true.1 h1 with ⟨e, he, hc⟩
    simp only [Bool.and_eq_true, beq_iff_eq] at hc
    exact ⟨e, he, hc⟩
  rcases hcontains with ⟨e, he, hty, hid⟩
  have hanchor : anchor ∈ extractBatchAnchors data (rFilterRelationStructures data []) := by
    unfold runAnchors at ha
    by_cases hlen : (extractBatchAnchors data (rFilterRelationStructures data [])).length = 0
    · exfalso
      have hnil := List.length_eq_zero.1 hlen
      unfold extractBatchAnchors at hnil
      rcases List.append_eq_nil.1 hnil with ⟨hA, hB⟩
      have hrs : rFilterRelationStructures data [] = [] := List.map_eq_nil_iff.1 hB
      unfold inputContainsUpdated at h2
      rcases List.any_eq_true.1 h2 with ⟨x, _, hx⟩
      unfold collectUpdatedEntityIDs at hx
      rw [hrs] at hx
      simp only [List.map_nil, List.append_nil, List.contains_iff_exists_mem_beq,
        List.mem_map, List.mem_filter] at hx
      rcases hx with ⟨_, ⟨m, ⟨hm, hmark⟩, _⟩, _⟩
      have hm2 : m ∈ (rWalkInput data).filter (fun e => mapHas e.Properties "bMap") :=
        List.mem_filter.2 ⟨walkChildren_subset_rWalkInput data m hm, hmark⟩
      rw [hA] at hm2
      cases hm2
    · simpa [hlen] using ha
  unfold extractBatchAnchors at hanchor
  rcases List.mem_append.1 hanchor with h | h
  · rcases List.mem_filter.1 h with ⟨hmem, hmark⟩
    exact ⟨e, he, anchor, Or.inl ⟨hmem, hmark⟩, hty, hid⟩
  · rcases List.mem_map.1 h with ⟨x, hx, rfl⟩
    rcases rFilterRelationStructures_origin data [] x hx with h3 | h3
    · cases h3
    · exact ⟨e, he, x.2.2, Or.inr h3, hty, hid⟩

/-- C1. Strict causality: whatever the store and the registry answer, every job
that `Scheduler.Run` creates for a batch has an input containing an entity whose
Type and ID are those of a batch entity that carries a `bMap` marker or of the
child endpoint of a new relation of the batch; the same holds of
`overlayProcessAnchors` for every candidate list; hence no job is created for an
input that holds no such entity, such as a parent with its old children only. -/
theorem run_strict_causality {W : Type} (C : Collaborators W) (s : Scheduler) (w : W)
    (data : TransportEntity) :
    (∀ j ∈ (Run C (RunState.init s w) data).jobs, CausedBy data j.Input) ∧
    (∀ (st : RunState W) (candidates : List (String × String)),
      ∀ j ∈ (overlayProcessAnchors C st (runAnchors data) candidates data
          (rFilterRelationStructures data [])).jobs,
        j ∈ st.jobs ∨ CausedBy data j.Input) ∧
    (∀ input, ¬ CausedBy data input →
      ∀ j ∈ (Run C (RunState.init s w) data).jobs, j.Input ≠ input) := by
  have hover : ∀ (st : RunState W) (candidates : List (String × String)),
      ∀ j ∈ (overlayProcessAnchors C st (runAnchors data) candidates data
          (rFilterRelationStructures data [])).jobs,
        j ∈ st.jobs ∨ CausedBy data j.Input := by
    intro st candidates j hj
    rcases overlayProcessAnchors_jobs C st _ candidates data _ j hj with h | ⟨a, ha, h1, h2⟩
    · exact Or.inl h
    · exact Or.inr (anchored_input_caused data j.Input a ha h1 h2)
  have hrun : ∀ j ∈ (Run C (RunState.init s w) data).jobs, CausedBy data j.Input := by
    intro j hj
    unfold Run at hj
    simp only [RunState.init, Bool.false_eq_true, if_false] at hj
    split at hj
    · cases hj
    · rcases hover _ _ j hj with h | h
      · cases h
      · exact h
  refine ⟨hrun, hover, ?_⟩
  intro input hno j hj heq
  exact hno (heq ▸ hrun j hj)

/-- C1, on the sibling store: Item 2 is added under a Bucket that holds Item 1, and
the store answers with the Bucket and both Items. The only job created has the
Bucket with Item 2 as input; none is created for the Bucket with the old Item 1. -/
theorem run_strict_causality_witness :
    (Run siblingStore (RunState.init NewScheduler []) siblingBatch).jobs.map
        (fun j => (rWalkInput j.Input).map (fun e => (e.Typ, e.ID))) =
      [[("Bucket", 1), ("Item", 2)]] ∧
    ∀ j ∈ (Run siblingStore (RunState.init NewScheduler []) siblingBatch).jobs,
      CausedBy siblingBatch j.Input :=
  ⟨by decide, (run_strict_causality siblingStore NewScheduler [] siblingBatch).1⟩

/-! ## Witness idempotency -/

theorem foldl_invariant {σ α : Type} (f : σ → α → σ) (I : σ → Prop)
    (hstep : ∀ st x, I st → I (f st x)) (l : List α) : ∀ st, I st → I (l.foldl f st) := by
  induction l with
  | nil => exact fun st h => h
  | cons x xs ih => exact fun st h => ih (f st x) (hstep st x h)

theorem linkAnchorToMemory_keeps {W : Type} {C : Collaborators W}
    {witnessed : W → String → Prop} (L : WitnessLaws C witnessed) (w : W)
    (anchor memoryNode : TransportEntity) (v : String) (h : witnessed w v) :
    witnessed (linkAnchorToMemory C w anchor memoryNode) v := by
  unfold linkAnchorToMemory
  split
  · exact h
  · exact L.execute_keeps _ _ _ h

theorem discoverCandidates_keeps {W : Type} {C : Collaborators W}
    {witnessed : W → String → Prop} (L : WitnessLaws C witnessed) (w : W)
    (data : TransportEntity) (v : String) (h : witnessed w v) :
    witnessed (discoverCandidates C w data).1 v := by
  unfold discoverCandidates
  have h1 : ∀ (l : List (String × Nat)) (acc : W × List (String × String)),
      witnessed acc.1 v →
      witnessed (l.foldl (fun acc kv =>
        let r := retrieveActionsByType C acc.1 kv.1
        (r.1, acc.2 ++ r.2)) acc).1 v := by
    intro l
    exact foldl_invariant _ (fun acc : W × List (String × String) => witnessed acc.1 v)
      (fun acc kv hacc => L.execute_keeps _ _ _ hacc) l
  have h2 : ∀ (l : RelationStructures) (acc : W × List (String × String)),
      witnessed acc.1 v →
      witnessed (l.foldl (fun acc kv =>
        let r := retrieveActionsByRelationStructure C acc.1 kv.1
        (r.1, appendNewActions acc.2 r.2)) acc).1 v := by
    intro l
    exact foldl_invariant _ (fun acc : W × List (String × String) => witnessed acc.1 v)
      (fun acc kv hacc => L.execute_keeps _ _ _ hacc) l
  simp only []
  split
  · exact h2 _ _ (h1 _ _ h)
  · exact h1 _ _ h

theorem WitnessInv_world {W : Type} {witnessed : W → String → Prop} (st : RunState W)
    (w2 : W) (hw : ∀ v, witnessed st.world v → witnessed w2 v) (h : WitnessInv witnessed st) :
    WitnessInv witnessed { st with world := w2 } :=
  ⟨h.1, fun j hj => hw _ (h.2 j hj)⟩

theorem processInput_inv {W : Type} {C : Collaborators W} {witnessed : W → String → Prop}
    (L : WitnessLaws C witnessed) (updatedIDs : List Int) (anchor : TransportEntity)
    (ad : String × String) (requirement : TransportEntity) (st : RunState W)
    (input : TransportEntity) (h : WitnessInv witnessed st) :
    WitnessInv witnessed (processInput C updatedIDs anchor ad requirement st input) := by
  unfold processInput
  split
  · exact h
  · split
    · exact h
    · unfold isDuplicateByWitness
      simp only []
      by_cases hm : mapHas (C.MapTransportDataWithContext st.world
          (witnessEntity C (C.GetName ad.1) ad.2 input requirement) "System").2.Properties
          "bMap" = true
      · simp only [hm, if_true, Bool.false_eq_true, if_false]
        have hnew : ¬ witnessed st.world
            (witnessDigest C (C.GetName ad.1) ad.2 input requirement) := by
          intro hw
          have := L.map_existing st.world
            (witnessEntity C (C.GetName ad.1) ad.2 input requirement) "System" rfl rfl hw
          rw [this] at hm
          cases hm
        have hrec := L.map_records st.world
          (witnessEntity C (C.GetName ad.1) ad.2 input requirement) "System" rfl
        refine ⟨?_, ?_⟩
        · simp only [List.map_append, List.map_cons, List.map_nil]
          rw [List.nodup_append]
          refine ⟨h.1, List.nodup_singleton _, ?_⟩
          intro d hd1 hd2
          rw [List.mem_singleton] at hd2
          subst hd2
          rcases List.mem_map.1 hd1 with ⟨j, hj, hjd⟩
          apply hnew
          rw [← hjd]
          exact h.2 j hj
        · intro j hj
          simp only [List.mem_append, List.mem_singleton] at hj
          apply L.job_keeps
          apply linkAnchorToMemory_keeps L
          rcases hj with hj | hj
          · exact L.map_keeps _ _ _ _ (h.2 j hj)
          · subst hj
            exact hrec
      · simp only [hm, Bool.false_eq_true, if_false, if_true]
        exact ⟨h.1, fun j hj => L.map_keeps _ _ _ _ (h.2 j hj)⟩

theorem processCandidate_inv {W : Type} {C : Collaborators W} {witnessed : W → String → Prop}
    (L : WitnessLaws C witnessed) (batchBMapValue : String) (updatedIDs : List Int)
    (anchor : TransportEntity) (lp : LookupPointer) (st : RunState W) (ad : String × String)
    (h : WitnessInv witnessed st) :
    WitnessInv witnessed (processCandidate C batchBMapValue updatedIDs anchor lp st ad) := by
  unfold processCandidate
  split
  · exact h
  · simp only []
    split
    · exact h
    · split
      · exact h
      · split
        · exact h
        · apply foldl_invariant _ (WitnessInv witnessed)
            (fun st2 x h2 => processInput_inv L updatedIDs anchor ad _ st2 x h2)
          refine ⟨h.1, fun j hj => ?_⟩
          unfold buildInputData
          simp only []
          split
          · exact L.execute_keeps _ _ _ (h.2 j hj)
          · exact L.execute_keeps _ _ _ (h.2 j hj)

theorem overlayProcessAnchors_inv {W : Type} {C : Collaborators W}
    {witnessed : W → String → Prop} (L : WitnessLaws C witnessed) (st : RunState W)
    (anchors : List TransportEntity) (actionsAndDependencies : List (String × String))
    (batch : TransportEntity) (newRelationStructures : RelationStructures)
    (h : WitnessInv witnessed st) :
    WitnessInv witnessed (overlayProcessAnchors C st anchors actionsAndDependencies batch
      newRelationStructures) := by
  unfold overlayProcessAnchors
  apply foldl_invariant _ (WitnessInv witnessed) _ anchors st h
  intro st2 anchor h2
  unfold processAnchor
  exact foldl_invariant _ (WitnessInv witnessed)
    (fun st3 ad h3 => processCandidate_inv L _ _ anchor _ st3 ad h3) _ st2 h2

theorem Run_inv {W : Type} {C : Collaborators W} {witnessed : W → String → Prop}
    (L : WitnessLaws C witnessed) (st : RunState W) (data : TransportEntity)
    (h : WitnessInv witnessed st) : WitnessInv witnessed (Run C st data) := by
  unfold Run
  split
  · exact h
  · simp only []
    split
    · exact ⟨h.1, fun j hj => discoverCandidates_keeps L _ _ _ (h.2 j hj)⟩
    · apply overlayProcessAnchors_inv L
      exact ⟨h.1, fun j hj => discoverCandidates_keeps L _ _ _ (h.2 j hj)⟩

/-- Over any sequence of runs, the jobs created have pairwise distinct digests. -/
theorem RunAll_digests_nodup {W : Type} {C : Collaborators W} {witnessed : W → String → Prop}
    (L : WitnessLaws C witnessed) (s : Scheduler) (w : W) (batches : List TransportEntity) :
    ((RunAll C (RunState.init s w) batches).jobs.map (fun j => j.WitnessDigest)).Nodup := by
  have h0 : WitnessInv witnessed (RunState.init s w) :=
    ⟨List.nodup_nil, fun j hj => by cases hj⟩
  exact (foldl_invariant (Run C) (WitnessInv witnessed)
    (fun st data h => Run_inv L st data h) batches _ h0).1

/-! ## Running a batch a second time -/

theorem lookup_mapSet_self {β : Type} (m : List (String × β)) (k : String) (v : β) :
    (mapSet m k v).lookup k = some v := by
  induction m with
  | nil => simp [mapSet, List.lookup]
  | cons kv rest ih =>
    rcases kv with ⟨k2, v2⟩
    by_cases h : k2 = k
    · simp [mapSet, h, List.lookup]
    · have h2 : (k == k2) = false := by
        simp only [beq_eq_false_iff_ne, ne_eq]
        exact fun e => h e.symm
      simp [mapSet, h, List.lookup, h2, ih]

theorem lookup_mapSet_other {β : Type} (m : List (String × β)) (k k2 : String) (v : β)
    (h : k2 ≠ k) : (mapSet m k v).lookup k2 = m.lookup k2 := by
  induction m with
  | nil =>
    have h2 : (k2 == k) = false := by simpa using h
    simp [mapSet, List.lookup, h2]
  | cons kv rest ih =>
    rcases kv with ⟨k3, v3⟩
    by_cases h3 : k3 = k
    · subst h3
      have h2 : (k2 == k3) = false := by simpa using h
      simp [mapSet, List.lookup, h2]
    · simp only [mapSet, h3, if_false, List.lookup, ih]

theorem cacheLE_refl (c : List (String × PatternNode)) : cacheLE c c := fun _ _ h => h

theorem cacheLE_trans {c1 c2 c3 : List (String × PatternNode)} (h1 : cacheLE c1 c2)
    (h2 : cacheLE c2 c3) : cacheLE c1 c3 := fun k pn h => h2 k pn (h1 k pn h)

/-- `getOrCompilePattern` keeps what is cached and caches what it returns. -/
theorem getOrCompilePattern_cache (s : Scheduler) (actionName : String)
    (dep : TransportEntity) :
    cacheLE s.patternCache (getOrCompilePattern s actionName dep).2.patternCache ∧
    (getOrCompilePattern s actionName dep).2.patternCache.lookup
      (patternKey actionName dep.ID) = some (getOrCompilePattern s actionName dep).1 := by
  unfold getOrCompilePattern
  simp only []
  cases hl : s.patternCache.lookup (patternKey actionName dep.ID) with
  | some pn => exact ⟨cacheLE_refl _, hl⟩
  | none =>
    refine ⟨?_, lookup_mapSet_self _ _ _⟩
    intro k pn hk
    have hne : k ≠ patternKey actionName dep.ID := by
      intro e
      rw [e, hl] at hk
      cases hk
    simp only []
    rw [lookup_mapSet_other _ _ _ _ hne]
    exact hk

/-- A cache hit returns the cached pattern and leaves the cache as it is. -/
theorem getOrCompilePattern_hit (s : Scheduler) (actionName : String) (dep : TransportEntity)
    (pn : PatternNode) (h : s.patternCache.lookup (patternKey actionName dep.ID) = some pn) :
    (getOrCompilePattern s actionName dep).1 = pn ∧
    (getOrCompilePattern s actionName dep).2.patternCache = s.patternCache := by
  unfold getOrCompilePattern
  simp [h]

theorem RunMono_refl {W : Type} (witnessed : W → String → Prop) (st : RunState W) :
    RunMono witnessed st st := ⟨fun h => h, cacheLE_refl _, fun _ h => h⟩

theorem RunMono_trans {W : Type} {witnessed : W → String → Prop} {a b c : RunState W}
    (h1 : RunMono witnessed a b) (h2 : RunMono witnessed b c) : RunMono witnessed a c :=
  ⟨fun h => h2.1 (h1.1 h), cacheLE_trans h1.2.1 h2.2.1, fun v h => h2.2.2 v (h1.2.2 v h)⟩

theorem RunQuiet_refl {W : Type} (witnessed : W → String → Prop) (st : RunState W) :
    RunQuiet witnessed st st := ⟨rfl, rfl, fun _ h => h⟩

theorem RunQuiet_trans {W : Type} {witnessed : W → String → Prop} {a b c : RunState W}
    (h1 : RunQuiet witnessed a b) (h2 : RunQuiet witnessed b c) : RunQuiet witnessed a c :=
  ⟨h2.1.trans h1.1, h2.2.1.trans h1.2.1, fun v h => h2.2.2 v (h1.2.2 v h)⟩

theorem foldl_RunMono {W α : Type} {witnessed : W → String → Prop}
    (f : RunState W → α → RunState W) (hstep : ∀ st x, RunMono witnessed st (f st x))
    (l : List α) : ∀ st, RunMono witnessed st (l.foldl f st) := by
  induction l with
  | nil => exact fun st => RunMono_refl _ st
  | cons x xs ih => exact fun st => RunMono_trans (hstep st x) (ih (f st x))

/-- A loop of the second run is quiet when each of its steps is quiet in a state
that covers what the first run reaches by the same step. -/
theorem foldl_RunQuiet {W α : Type} {witnessed : W → String → Prop}
    (f : RunState W → α → RunState W) (hmono : ∀ st x, RunMono witnessed st (f st x))
    (hsim : ∀ a b x, RunCovers witnessed (f a x) b → RunQuiet witnessed b (f b x))
    (l : List α) :
    ∀ a b, RunCovers witnessed (l.foldl f a) b → RunQuiet witnessed b (l.foldl f b) := by
  induction l with
  | nil => exact fun a b _ => RunQuiet_refl _ b
  | cons x xs ih =>
    intro a b hcov
    rw [List.foldl_cons] at hcov ⊢
    have hm := foldl_RunMono f hmono xs (f a x)
    have hcov1 : RunCovers witnessed (f a x) b := by
      refine ⟨?_, cacheLE_trans hm.2.1 hcov.2.1, fun v hv => hcov.2.2 v (hm.2.2 v hv)⟩
      cases hp : (f a x).panicked with
      | false => rfl
      | true =>
        have := hm.1 hp
        rw [hcov.1] at this
        cases this
    have hq1 := hsim a b x hcov1
    have hcov2 : RunCovers witnessed (xs.foldl f (f a x)) (f b x) := by
      refine ⟨hcov.1, ?_, fun v hv => hq1.2.2 v (hcov.2.2 v hv)⟩
      rw [hq1.2.1]
      exact hcov.2.1
    exact RunQuiet_trans hq1 (ih (f a x) (f b x) hcov2)

theorem isDuplicateByWitness_world {W : Type} {C : Collaborators W}
    {witnessed : W → String → Prop} (L : WitnessLaws C witnessed) (st : RunState W)
    (actionName depName : String) (input requirement : TransportEntity) :
    (∀ v, witnessed st.world v →
      witnessed (isDuplicateByWitness C st actionName depName input requirement).1.world v) ∧
    witnessed (isDuplicateByWitness C st actionName depName input requirement).1.world
      (witnessDigest C actionName depName input requirement) := by
  have hrec := L.map_records st.world
    (witnessEntity C actionName depName input requirement) "System" rfl
  unfold isDuplicateByWitness
  simp only []
  split
  · exact ⟨fun v hv => linkAnchorToMemory_keeps L _ _ _ _ (L.map_keeps _ _ _ _ hv),
      linkAnchorToMemory_keeps L _ _ _ _ hrec⟩
  · exact ⟨fun v hv => L.map_keeps _ _ _ _ hv, hrec⟩

theorem isDuplicateByWitness_frame {W : Type} (C : Collaborators W) (st : RunState W)
    (actionName depName : String) (input requirement : TransportEntity) :
    (isDuplicateByWitness C st actionName depName input requirement).1.sched = st.sched ∧
    (isDuplicateByWitness C st actionName depName input requirement).1.panicked =
      st.panicked := by
  unfold isDuplicateByWitness
  simp only []
  split <;> exact ⟨rfl, rfl⟩

theorem processInput_frame {W : Type} (C : Collaborators W) (updatedIDs : List Int)
    (anchor : TransportEntity) (ad : String × String) (requirement : TransportEntity)
    (st : RunState W) (input : TransportEntity) :
    (processInput C updatedIDs anchor ad requirement st input).sched = st.sched ∧
    (processInput C updatedIDs anchor ad requirement st input).panicked = st.panicked := by
  unfold processInput
  split
  · exact ⟨rfl, rfl⟩
  · split
    · exact ⟨rfl, rfl⟩
    · simp only []
      split
      · exact isDuplicateByWitness_frame C st _ _ _ _
      · exact isDuplicateByWitness_frame C st _ _ _ _

theorem processInput_world {W : Type} {C : Collaborators W} {witnessed : W → String → Prop}
    (L : WitnessLaws C witnessed) (updatedIDs : List Int) (anchor : TransportEntity)
    (ad : String × String) (requirement : TransportEntity) (st : RunState W)
    (input : TransportEntity) :
    (∀ v, witnessed st.world v →
      witnessed (processInput C updatedIDs anchor ad requirement st input).world v) ∧
    (inputContainsEntity input anchor.Typ anchor.ID = true →
      inputContainsUpdated input updatedIDs = true →
      witnessed (processInput C updatedIDs anchor ad requirement st input).world
        (witnessDigest C (C.GetName ad.1) ad.2 input requirement)) := by
  have hw := isDuplicateByWitness_world L st (C.GetName ad.1) ad.2 input requirement
  unfold processInput
  by_cases h1 : inputContainsEntity input anchor.Typ anchor.ID = true
  · by_cases h2 : inputContainsUpdated input updatedIDs = true
    · simp only [h1, h2, Bool.not_true, Bool.false_eq_true, if_false]
      split
      · exact ⟨hw.1, fun _ _ => hw.2⟩
      · exact ⟨fun v hv => L.job_keeps _ _ _ _ _ (hw.1 v hv),
          fun _ _ => L.job_keeps _ _ _ _ _ hw.2⟩
    · simp only [h1, h2, Bool.not_true, Bool.false_eq_true, if_false, Bool.not_false, if_true]
      exact ⟨fun _ hv => hv, fun _ h => by cases h⟩
  · simp only [h1, Bool.not_false, if_true]
    exact ⟨fun _ hv => hv, fun h _ => by cases h⟩

theorem processInput_mono {W : Type} {C : Collaborators W} {witnessed : W → String → Prop}
    (L : WitnessLaws C witnessed) (updatedIDs : List Int) (anchor : TransportEntity)
    (ad : String × String) (requirement : TransportEntity) (st : RunState W)
    (input : TransportEntity) :
    RunMono witnessed st (processInput C updatedIDs anchor ad requirement st input) := by
  have hf := processInput_frame C updatedIDs anchor ad requirement st input
  refine ⟨fun h => by rw [hf.2]; exact h, ?_,
    (processInput_world L updatedIDs anchor ad requirement st input).1⟩
  rw [hf.1]
  exact cacheLE_refl _

/-- In a state that holds the Memory entities of the first run, `processInput`
creates no job. -/
theorem processInput_sim {W : Type} {C : Collaborators W} {witnessed : W → String → Prop}
    (L : WitnessLaws C witnessed) (updatedIDs : List Int) (anchor : TransportEntity)
    (ad : String × String) (requirement : TransportEntity) (a b : RunState W)
    (input : TransportEntity)
    (hcov : RunCovers witnessed (processInput C updatedIDs anchor ad requirement a input) b) :
    RunQuiet witnessed b (processInput C updatedIDs anchor ad requirement b input) := by
  have hA := (processInput_world L updatedIDs anchor ad requirement a input).2
  have hf := processInput_frame C updatedIDs anchor ad requirement b input
  have hwB := (processInput_world L updatedIDs anchor ad requirement b input).1
  refine ⟨?_, by rw [hf.1], hwB⟩
  unfold processInput
  by_cases h1 : inputContainsEntity input anchor.Typ anchor.ID = true
  · by_cases h2 : inputContainsUpdated input updatedIDs = true
    · simp only [h1, h2, Bool.not_true, Bool.false_eq_true, if_false]
      have hd := hcov.2.2 _ (hA h1 h2)
      have hun := L.map_existing b.world
        (witnessEntity C (C.GetName ad.1) ad.2 input requirement) "System" rfl rfl hd
      unfold isDuplicateByWitness
      simp only [hun, Bool.false_eq_true, if_false, if_true]
    · simp only [h1, h2, Bool.not_true, Bool.false_eq_true, if_false, Bool.not_false, if_true]
  · simp only [h1, Bool.not_false, if_true]

theorem processCandidate_skip {W : Type} (C : Collaborators W) (batchBMapValue : String)
    (updatedIDs : List Int) (anchor : TransportEntity) (lp : LookupPointer)
    (st : RunState W) (ad : String × String) (hp : st.panicked = false)
    (h : candidateSkipped
      (getOrCompilePattern st.sched (C.GetName ad.1) (C.GetDependencyByName ad.1 ad.2)).1
      (C.GetDependencyByName ad.1 ad.2) batchBMapValue anchor.Typ) :
    processCandidate C batchBMapValue updatedIDs anchor lp st ad =
      { st with sched := (getOrCompilePattern st.sched (C.GetName ad.1)
          (C.GetDependencyByName ad.1 ad.2)).2 } := by
  unfold processCandidate patternContainsType
  simp only [hp, Bool.false_eq_true, if_false]
  rcases h with h | h
  · simp [h]
  · by_cases h2 : patternHasType (getOrCompilePattern st.sched (C.GetName ad.1)
        (C.GetDependencyByName ad.1 ad.2)).1 anchor.Typ = true
    · simp [h2, h.1, h.2]
    · simp [h2]

theorem processCandidate_panic {W : Type} (C : Collaborators W) (batchBMapValue : String)
    (updatedIDs : List Int) (anchor : TransportEntity) (lp : LookupPointer)
    (st : RunState W) (ad : String × String) (hp : st.panicked = false)
    (h : ¬ candidateSkipped
      (getOrCompilePattern st.sched (C.GetName ad.1) (C.GetDependencyByName ad.1 ad.2)).1
      (C.GetDependencyByName ad.1 ad.2) batchBMapValue anchor.Typ)
    (hc : (C.GetDependencyByName ad.1 ad.2).Children = []) :
    processCandidate C batchBMapValue updatedIDs anchor lp st ad =
      { st with
        sched := (getOrCompilePattern st.sched (C.GetName ad.1)
          (C.GetDependencyByName ad.1 ad.2)).2
        panicked := true } := by
  unfold candidateSkipped at h
  rw [not_or] at h
  have h1 : patternHasType (getOrCompilePattern st.sched (C.GetName ad.1)
      (C.GetDependencyByName ad.1 ad.2)).1 anchor.Typ = true := by
    simpa using h.1
  unfold processCandidate patternContainsType
  simp only [hp, Bool.false_eq_true, if_false, h1, Bool.not_true, h.2, hc]

theorem processCandidate_fold {W : Type} (C : Collaborators W) (batchBMapValue : String)
    (updatedIDs : List Int) (anchor : TransportEntity) (lp : LookupPointer)
    (st : RunState W) (ad : String × String) (hp : st.panicked = false)
    (h : ¬ candidateSkipped
      (getOrCompilePattern st.sched (C.GetName ad.1) (C.GetDependencyByName ad.1 ad.2)).1
      (C.GetDependencyByName ad.1 ad.2) batchBMapValue anchor.Typ)
    (root : TransportEntity) (rest : List TransportEntity)
    (hc : (C.GetDependencyByName ad.1 ad.2).Children = root :: rest) :
    processCandidate C batchBMapValue updatedIDs anchor lp st ad =
      (buildInputData C st.world root lp).2.foldl
        (processInput C updatedIDs anchor ad (C.GetDependencyByName ad.1 ad.2))
        { st with
          sched := (getOrCompilePattern st.sched (C.GetName ad.1)
            (C.GetDependencyByName ad.1 ad.2)).2
          world := (buildInputData C st.world root lp).1 } := by
  unfold candidateSkipped at h
  rw [not_or] at h
  have h1 : patternHasType (getOrCompilePattern st.sched (C.GetName ad.1)
      (C.GetDependencyByName ad.1 ad.2)).1 anchor.Typ = true := by
    simpa using h.1
  unfold processCandidate patternContainsType
  simp only [hp, Bool.false_eq_true, if_false, h1, Bool.not_true, h.2, hc]

theorem buildInputData_keeps {W : Type} {C : Collaborators W} {witnessed : W → String → Prop}
    (L : WitnessLaws C witnessed) (w : W) (requirement : TransportEntity) (lp : LookupPointer)
    (v : String) (h : witnessed w v) : witnessed (buildInputData C w requirement lp).1 v := by
  unfold buildInputData
  simp only []
  split <;> exact L.execute_keeps _ _ _ h

theorem buildInputData_answers {W : Type} (C : Collaborators W)
    (hQ : ∀ w w2 q, (C.Execute w q).2 = (C.Execute w2 q).2) (w w2 : W)
    (requirement : TransportEntity) (lp : LookupPointer) :
    (buildInputData C w requirement lp).2 = (buildInputData C w2 requirement lp).2 := by
  unfold buildInputData
  simp only []
  rw [hQ w w2]
  split <;> rfl

theorem foldl_processInput_frame {W : Type} (C : Collaborators W) (updatedIDs : List Int)
    (anchor : TransportEntity) (ad : String × String) (requirement : TransportEntity)
    (inputs : List TransportEntity) (st : RunState W) :
    (inputs.foldl (processInput C updatedIDs anchor ad requirement) st).sched = st.sched ∧
    (inputs.foldl (processInput C updatedIDs anchor ad requirement) st).panicked =
      st.panicked := by
  induction inputs generalizing st with
  | nil => exact ⟨rfl, rfl⟩
  | cons x xs ih =>
    rw [List.foldl_cons]
    have h1 := ih (processInput C updatedIDs anchor ad requirement st x)
    have h2 := processInput_frame C updatedIDs anchor ad requirement st x
    exact ⟨h1.1.trans h2.1, h1.2.trans h2.2⟩

theorem processCandidate_mono {W : Type} {C : Collaborators W} {witnessed : W → String → Prop}
    (L : WitnessLaws C witnessed) (batchBMapValue : String) (updatedIDs : List Int)
    (anchor : TransportEntity) (lp : LookupPointer) (st : RunState W) (ad : String × String) :
    RunMono witnessed st (processCandidate C batchBMapValue updatedIDs anchor lp st ad) := by
  cases hp : st.panicked with
  | true =>
    have : processCandidate C batchBMapValue updatedIDs anchor lp st ad = st := by
      unfold processCandidate
      simp [hp]
    rw [this]
    exact RunMono_refl _ _
  | false =>
    have hcache := (getOrCompilePattern_cache st.sched (C.GetName ad.1)
      (C.GetDependencyByName ad.1 ad.2)).1
    by_cases hs : candidateSkipped
        (getOrCompilePattern st.sched (C.GetName ad.1) (C.GetDependencyByName ad.1 ad.2)).1
        (C.GetDependencyByName ad.1 ad.2) batchBMapValue anchor.Typ
    · rw [processCandidate_skip C _ _ _ _ st ad hp hs]
      exact ⟨fun h => h, hcache, fun _ h => h⟩
    · cases hc : (C.GetDependencyByName ad.1 ad.2).Children with
      | nil =>
        rw [processCandidate_panic C _ _ _ _ st ad hp hs hc]
        exact ⟨fun _ => rfl, hcache, fun _ h => h⟩
      | cons root rest =>
        rw [processCandidate_fold C _ _ _ _ st ad hp hs root rest hc]
        refine RunMono_trans ?_ (foldl_RunMono _
          (fun st2 x => processInput_mono L updatedIDs anchor ad _ st2 x) _ _)
        exact ⟨fun h => h, hcache, fun v h => buildInputData_keeps L _ _ _ v h⟩

/-- In a state that holds the cached patterns and the Memory entities of the first
run, and with unchanged query answers, `processCandidate` creates no job. -/
theorem processCandidate_sim {W : Type} {C : Collaborators W} {witnessed : W → String → Prop}
    (L : WitnessLaws C witnessed) (hQ : ∀ w w2 q, (C.Execute w q).2 = (C.Execute w2 q).2)
    (batchBMapValue : String) (updatedIDs : List Int) (anchor : TransportEntity)
    (lp : LookupPointer) (a b : RunState W) (ad : String × String)
    (hcov : RunCovers witnessed
      (processCandidate C batchBMapValue updatedIDs anchor lp a ad) b) :
    RunQuiet witnessed b (processCandidate C batchBMapValue updatedIDs anchor lp b ad) := by
  cases hbp : b.panicked with
  | true =>
    have : processCandidate C batchBMapValue updatedIDs anchor lp b ad = b := by
      unfold processCandidate
      simp [hbp]
    rw [this]
    exact RunQuiet_refl _ _
  | false =>
    have hap : a.panicked = false := by
      cases hap : a.panicked with
      | false => rfl
      | true =>
        have h2 : processCandidate C batchBMapValue updatedIDs anchor lp a ad = a := by
          unfold processCandidate
          simp [hap]
        have h3 := hcov.1
        rw [h2, hap] at h3
        cases h3
    have hkey := (getOrCompilePattern_cache a.sched (C.GetName ad.1)
      (C.GetDependencyByName ad.1 ad.2)).2
    -- the scheduler of the first run after this candidate
    have hsched : (processCandidate C batchBMapValue updatedIDs anchor lp a ad).sched =
        (getOrCompilePattern a.sched (C.GetName ad.1) (C.GetDependencyByName ad.1 ad.2)).2 := by
      by_cases hs : candidateSkipped
          (getOrCompilePattern a.sched (C.GetName ad.1) (C.GetDependencyByName ad.1 ad.2)).1
          (C.GetDependencyByName ad.1 ad.2) batchBMapValue anchor.Typ
      · rw [processCandidate_skip C _ _ _ _ a ad hap hs]
      · cases hc : (C.GetDependencyByName ad.1 ad.2).Children with
        | nil => rw [processCandidate_panic C _ _ _ _ a ad hap hs hc]
        | cons root rest =>
          rw [processCandidate_fold C _ _ _ _ a ad hap hs root rest hc]
          exact (foldl_processInput_frame C _ _ _ _ _ _).1
    have hbkey : b.sched.patternCache.lookup
        (patternKey (C.GetName ad.1) (C.GetDependencyByName ad.1 ad.2).ID) =
        some (getOrCompilePattern a.sched (C.GetName ad.1)
          (C.GetDependencyByName ad.1 ad.2)).1 := by
      apply hcov.2.1
      rw [hsched]
      exact hkey
    have hhit := getOrCompilePattern_hit b.sched (C.GetName ad.1)
      (C.GetDependencyByName ad.1 ad.2) _ hbkey
    by_cases hs : candidateSkipped
        (getOrCompilePattern a.sched (C.GetName ad.1) (C.GetDependencyByName ad.1 ad.2)).1
        (C.GetDependencyByName ad.1 ad.2) batchBMapValue anchor.Typ
    · have hsb : candidateSkipped
          (getOrCompilePattern b.sched (C.GetName ad.1) (C.GetDependencyByName ad.1 ad.2)).1
          (C.GetDependencyByName ad.1 ad.2) batchBMapValue anchor.Typ := by
        rw [hhit.1]
        exact hs
      rw [processCandidate_skip C _ _ _ _ b ad hbp hsb]
      exact ⟨rfl, hhit.2, fun _ h => h⟩
    · have hsb : ¬ candidateSkipped
          (getOrCompilePattern b.sched (C.GetName ad.1) (C.GetDependencyByName ad.1 ad.2)).1
          (C.GetDependencyByName ad.1 ad.2) batchBMapValue anchor.Typ := by
        rw [hhit.1]
        exact hs
      cases hc : (C.GetDependencyByName ad.1 ad.2).Children with
      | nil =>
        exfalso
        have h3 := hcov.1
        rw [processCandidate_panic C _ _ _ _ a ad hap hs hc] at h3
        cases h3
      | cons root rest =>
        rw [processCandidate_fold C _ _ _ _ b ad hbp hsb root rest hc]
        rw [processCandidate_fold C _ _ _ _ a ad hap hs root rest hc] at hcov
        rw [buildInputData_answers C hQ a.world b.world root lp] at hcov
        have hq0 : RunQuiet witnessed b
            { b with
              sched := (getOrCompilePattern b.sched (C.GetName ad.1)
                (C.GetDependencyByName ad.1 ad.2)).2
              world := (buildInputData C b.world root lp).1 } :=
          ⟨rfl, hhit.2, fun v h => buildInputData_keeps L _ _ _ v h⟩
        have hcov2 : RunCovers witnessed
            ((buildInputData C b.world root lp).2.foldl
              (processInput C updatedIDs anchor ad (C.GetDependencyByName ad.1 ad.2))
              { a with
                sched := (getOrCompilePattern a.sched (C.GetName ad.1)
                  (C.GetDependencyByName ad.1 ad.2)).2
                world := (buildInputData C a.world root lp).1 })
            { b with
              sched := (getOrCompilePattern b.sched (C.GetName ad.1)
                (C.GetDependencyByName ad.1 ad.2)).2
              world := (buildInputData C b.world root lp).1 } := by
          refine ⟨hcov.1, ?_, fun v hv => hq0.2.2 v (hcov.2.2 v hv)⟩
          rw [hq0.2.1]
          exact hcov.2.1
        exact RunQuiet_trans hq0 (foldl_RunQuiet _
          (fun st2 x => processInput_mono L updatedIDs anchor ad _ st2 x)
          (fun a2 b2 x h2 => processInput_sim L updatedIDs anchor ad _ a2 b2 x h2) _ _ _ hcov2)

theorem overlayProcessAnchors_mono {W : Type} {C : Collaborators W}
    {witnessed : W → String → Prop} (L : WitnessLaws C witnessed) (st : RunState W)
    (anchors : List TransportEntity) (actionsAndDependencies : List (String × String))
    (batch : TransportEntity) (newRelationStructures : RelationStructures) :
    RunMono witnessed st (overlayProcessAnchors C st anchors actionsAndDependencies batch
      newRelationStructures) := by
  unfold overlayProcessAnchors
  apply foldl_RunMono
  intro st2 anchor
  unfold processAnchor
  exact foldl_RunMono _ (fun st3 ad => processCandidate_mono L _ _ anchor _ st3 ad) _ _

theorem overlayProcessAnchors_sim {W : Type} {C : Collaborators W}
    {witnessed : W → String → Prop} (L : WitnessLaws C witnessed)
    (hQ : ∀ w w2 q, (C.Execute w q).2 = (C.Execute w2 q).2) (a b : RunState W)
    (anchors : List TransportEntity) (actionsAndDependencies : List (String × String))
    (batch : TransportEntity) (newRelationStructures : RelationStructures)
    (hcov : RunCovers witnessed (overlayProcessAnchors C a anchors actionsAndDependencies
      batch newRelationStructures) b) :
    RunQuiet witnessed b (overlayProcessAnchors C b anchors actionsAndDependencies batch
      newRelationStructures) := by
  unfold overlayProcessAnchors at hcov ⊢
  refine foldl_RunQuiet _ ?_ ?_ anchors a b hcov
  · intro st2 anchor
    unfold processAnchor
    exact foldl_RunMono _ (fun st3 ad => processCandidate_mono L _ _ anchor _ st3 ad) _ _
  · intro a2 b2 anchor h2
    unfold processAnchor at h2 ⊢
    exact foldl_RunQuiet _ (fun st3 ad => processCandidate_mono L _ _ anchor _ st3 ad)
      (fun a3 b3 ad h3 => processCandidate_sim L hQ _ _ anchor _ a3 b3 ad h3) _ a2 b2 h2

theorem discoverCandidates_answers {W : Type} (C : Collaborators W)
    (hQ : ∀ w w2 q, (C.Execute w q).2 = (C.Execute w2 q).2) (w w2 : W)
    (data : TransportEntity) :
    (discoverCandidates C w data).2 = (discoverCandidates C w2 data).2 := by
  have h1 : ∀ (l : List (String × Nat)) (acc acc2 : W × List (String × String)),
      acc.2 = acc2.2 →
      (l.foldl (fun acc kv =>
        let r := retrieveActionsByType C acc.1 kv.1
        (r.1, acc.2 ++ r.2)) acc).2 =
      (l.foldl (fun acc kv =>
        let r := retrieveActionsByType C acc.1 kv.1
        (r.1, acc.2 ++ r.2)) acc2).2 := by
    intro l
    induction l with
    | nil => exact fun _ _ h => h
    | cons x xs ih =>
      intro acc acc2 h
      rw [List.foldl_cons, List.foldl_cons]
      apply ih
      simp only [retrieveActionsByType, h, hQ acc.1 acc2.1]
  have h2 : ∀ (l : RelationStructures) (acc acc2 : W × List (String × String)),
      acc.2 = acc2.2 →
      (l.foldl (fun acc kv =>
        let r := retrieveActionsByRelationStructure C acc.1 kv.1
        (r.1, appendNewActions acc.2 r.2)) acc).2 =
      (l.foldl (fun acc kv =>
        let r := retrieveActionsByRelationStructure C acc.1 kv.1
        (r.1, appendNewActions acc.2 r.2)) acc2).2 := by
    intro l
    induction l with
    | nil => exact fun _ _ h => h
    | cons x xs ih =>
      intro acc acc2 h
      rw [List.foldl_cons, List.foldl_cons]
      apply ih
      simp only [retrieveActionsByRelationStructure, h, hQ acc.1 acc2.1]
  unfold discoverCandidates enrichActionsAndDependenciesByNewRelationStructures
  simp only []
  split
  · exact h2 _ _ _ (h1 _ _ _ rfl)
  · exact h1 _ _ _ rfl

theorem Run_panicked {W : Type} (C : Collaborators W) (st : RunState W)
    (data : TransportEntity) (h : st.panicked = true) : Run C st data = st := by
  unfold Run
  simp [h]

theorem Run_overlay {W : Type} (C : Collaborators W) (st : RunState W)
    (data : TransportEntity) (h : st.panicked = false) (allowed : List String)
    (ha : allowedChildTypes C data (discoverCandidates C st.world data).2 = some allowed) :
    Run C st data =
      overlayProcessAnchors C { st with world := (discoverCandidates C st.world data).1 }
        (runAnchors data) (discoverCandidates C st.world data).2 data
        (rFilterRelationStructures data []) := by
  unfold Run
  simp only [h, Bool.false_eq_true, if_false, ha]

theorem Run_stopped {W : Type} (C : Collaborators W) (st : RunState W)
    (data : TransportEntity) (h : st.panicked = false)
    (ha : allowedChildTypes C data (discoverCandidates C st.world data).2 = none) :
    (Run C st data).panicked = true := by
  unfold Run
  simp only [h, Bool.false_eq_true, if_false, ha]

/-- With unchanged query answers, a second run on the same batch creates no job. -/
theorem Run_twice {W : Type} {C : Collaborators W} {witnessed : W → String → Prop}
    (L : WitnessLaws C witnessed) (hQ : ∀ w w2 q, (C.Execute w q).2 = (C.Execute w2 q).2)
    (st : RunState W) (data : TransportEntity) :
    (Run C (Run C st data) data).jobs = (Run C st data).jobs := by
  cases hp1 : (Run C st data).panicked with
  | true => rw [Run_panicked C _ data hp1]
  | false =>
    have hp0 : st.panicked = false := by
      cases hp0 : st.panicked with
      | false => rfl
      | true =>
        rw [Run_panicked C st data hp0, hp0] at hp1
        cases hp1
    cases ha : allowedChildTypes C data (discoverCandidates C st.world data).2 with
    | none =>
      rw [Run_stopped C st data hp0 ha] at hp1
      cases hp1
    | some allowed =>
      have ha2 : allowedChildTypes C data
          (discoverCandidates C (Run C st data).world data).2 = some allowed := by
        rw [discoverCandidates_answers C hQ (Run C st data).world st.world data]
        exact ha
      rw [Run_overlay C (Run C st data) data hp1 allowed ha2]
      rw [discoverCandidates_answers C hQ (Run C st data).world st.world data]
      have hrun := Run_overlay C st data hp0 allowed ha
      have hcov : RunCovers witnessed
          (overlayProcessAnchors C { st with world := (discoverCandidates C st.world data).1 }
            (runAnchors data) (discoverCandidates C st.world data).2 data
            (rFilterRelationStructures data []))
          { Run C st data with
            world := (discoverCandidates C (Run C st data).world data).1 } := by
        rw [← hrun]
        exact ⟨hp1, cacheLE_refl _, fun v hv => discoverCandidates_keeps L _ _ v hv⟩
      exact (overlayProcessAnchors_sim L hQ _ _ _ _ _ _ hcov).1

/-- C2. Witness idempotency, on a store whose mapper matches an existing Memory
entity by value and returns it without change marker and that never deletes a
Memory entity: over every sequence of `Scheduler.Run` calls at most one job is
created per (action, dependency, anchor, signature digest) tuple (indeed per
digest); and, when the query answers do not change, running `Run` a second time
on the same batch creates no further job. -/
theorem witness_idempotency {W : Type} (C : Collaborators W) (witnessed : W → String → Prop)
    (L : WitnessLaws C witnessed) :
    (∀ (s : Scheduler) (w : W) (batches : List TransportEntity),
      ((RunAll C (RunState.init s w) batches).jobs.map Job.witnessTuple).Nodup ∧
      ((RunAll C (RunState.init s w) batches).jobs.map (fun j => j.WitnessDigest)).Nodup) ∧
    ((∀ w w2 q, (C.Execute w q).2 = (C.Execute w2 q).2) →
      ∀ (st : RunState W) (data : TransportEntity),
        (Run C (Run C st data) data).jobs = (Run C st data).jobs) := by
  refine ⟨fun s w batches => ?_, fun hQ st data => Run_twice L hQ st data⟩
  have hd := RunAll_digests_nodup L s w batches
  refine ⟨?_, hd⟩
  have hmap : (RunAll C (RunState.init s w) batches).jobs.map (fun j => j.WitnessDigest) =
      ((RunAll C (RunState.init s w) batches).jobs.map Job.witnessTuple).map
        (fun t => t.2.2.2) := by
    rw [List.map_map]
    rfl
  rw [hmap] at hd
  exact List.Nodup.of_map _ hd

/-- The small store obeys the laws of the witness guard. -/
theorem demoStore_laws : WitnessLaws demoStore (fun w v => v ∈ w) := by
  refine ⟨?_, ?_, ?_, ?_, ?_⟩
  · intro w e ctx _ _ hw
    have hc : w.contains e.Value = true := by simpa using hw
    simp only [demoStore, hc, if_true]
    rfl
  · intro w e ctx _
    by_cases hc : w.contains e.Value = true
    · simp only [demoStore, hc, if_true]
      simpa using hc
    · simp only [demoStore, hc, Bool.false_eq_true, if_false]
      exact List.mem_cons_self _ _
  · intro w e ctx v hw
    by_cases hc : w.contains e.Value = true
    · simp only [demoStore, hc, if_true]
      exact hw
    · simp only [demoStore, hc, Bool.false_eq_true, if_false]
      exact List.mem_cons_of_mem _ hw
  · intro w q v hw
    simp only [demoStore]
    split
    · exact hw
    · split <;> exact hw
  · intro w a d i v hw
    exact hw

/-- C2, on the small store: creating the Alpha and running the same batch again
yields one job in all. -/
theorem witness_idempotency_witness :
    WitnessLaws demoStore (fun w v => v ∈ w) ∧
    (∀ w w2 q, (demoStore.Execute w q).2 = (demoStore.Execute w2 q).2) ∧
    (RunAll demoStore (RunState.init NewScheduler []) [demoCreated, demoCreated]).jobs.length
      = 1 ∧
    ((RunAll demoStore (RunState.init NewScheduler [])
      [demoCreated, demoCreated]).jobs.map Job.witnessTuple).Nodup ∧
    (Run demoStore (Run demoStore (RunState.init NewScheduler []) demoCreated)
      demoCreated).jobs =
      (Run demoStore (RunState.init NewScheduler []) demoCreated).jobs := by
  have hQ : ∀ w w2 q, (demoStore.Execute w q).2 = (demoStore.Execute w2 q).2 := by
    intro w w2 q
    simp only [demoStore]
    split
    · rfl
    · split <;> rfl
  have h := witness_idempotency demoStore (fun w v => v ∈ w) demoStore_laws
  exact ⟨demoStore_laws, hQ, by decide,
    (h.1 NewScheduler [] [demoCreated, demoCreated]).1,
    h.2 hQ (RunState.init NewScheduler []) demoCreated⟩

/-! ## Structural independence of the demultiplexer outputs -/

/-- Structural induction over a stored entity. -/
theorem storedEntity_induct {P : StoredEntity → Prop}
    (h : ∀ t i v c pa p ca crs qa prs, (∀ r ∈ crs, P (StoredRelation.Target r)) →
      (∀ r ∈ prs, P (StoredRelation.Target r)) → P (.mk t i v c pa p ca crs qa prs)) :
    ∀ e, P e := by
  intro e
  refine @StoredEntity.rec P (fun r => P r.Target)
    (fun l => ∀ r ∈ l, P (StoredRelation.Target r)) ?_ ?_ ?_ ?_ e
  · intro t i v c pa p ca crs qa prs h1 h2
    exact h t i v c pa p ca crs qa prs h1 h2
  · intro c pa p t ht
    exact ht
  · intro r hr
    cases hr
  · intro hd tl h1 h2 r hr
    rcases List.mem_cons.1 hr with rfl | hr
    · exact h1
    · exact h2 r hr

theorem cellsOfRelations_eq (rs : List StoredRelation) :
    cellsOfRelations rs = rs.flatMap StoredRelation.cells := by
  induction rs with
  | nil => simp [cellsOfRelations]
  | cons r rs ih => simp [cellsOfRelations, ih]

/-- The relation loop of the deep copy takes its addresses from `n` on. -/
theorem deepCopyStoredRelations_fresh (rs : List StoredRelation)
    (h : ∀ r ∈ rs, ∀ n, n ≤ (deepCopyStored (StoredRelation.Target r) n).2 ∧
      ∀ a ∈ (deepCopyStored r.Target n).1.cells, n ≤ a ∧ a < (deepCopyStored r.Target n).2) :
    ∀ n, n ≤ (deepCopyStoredRelations rs n).2 ∧
      ∀ a ∈ cellsOfRelations (deepCopyStoredRelations rs n).1,
        n ≤ a ∧ a < (deepCopyStoredRelations rs n).2 := by
  induction rs with
  | nil =>
    intro n
    simp [deepCopyStoredRelations, cellsOfRelations]
  | cons r rs ih =>
    intro n
    have ih2 := ih (fun r2 hr2 => h r2 (List.mem_cons_of_mem _ hr2))
    cases r with
    | mk c pa p t =>
      have ht := h (.mk c pa p t) (List.mem_cons_self _ _)
      simp only [StoredRelation.Target] at ht
      cases pa with
      | none =>
        have h1 := ht n
        have h2 := ih2 (deepCopyStored t n).2
        simp only [deepCopyStoredRelations, deepCopyStoredRelation, cellsOfRelations,
          StoredRelation.cells, Option.toList, List.nil_append, List.mem_append]
        refine ⟨by omega, ?_⟩
        intro a ha
        rcases ha with ha | ha
        · have := h1.2 a ha
          omega
        · have := h2.2 a ha
          omega
      | some pa0 =>
        have h1 := ht (n + 1)
        have h2 := ih2 (deepCopyStored t (n + 1)).2
        simp only [deepCopyStoredRelations, deepCopyStoredRelation, copyMapAt, cellsOfRelations,
          StoredRelation.cells, Option.toList, List.mem_append, List.mem_singleton,
          List.singleton_append, List.mem_cons]
        refine ⟨by omega, ?_⟩
        intro a ha
        rcases ha with (ha | ha) | ha
        · omega
        · have := h1.2 a ha
          omega
        · have := h2.2 a ha
          omega

/-- A deep copy lies in storage taken from `n` on: every map and every backing
array of the copy is new. -/
theorem deepCopyStored_fresh (e : StoredEntity) :
    ∀ n, n ≤ (deepCopyStored e n).2 ∧
      ∀ a ∈ (deepCopyStored e n).1.cells, n ≤ a ∧ a < (deepCopyStored e n).2 := by
  induction e using storedEntity_induct with
  | h t i v c pa p ca crs qa prs ihc ihp =>
    intro n
    have hc := deepCopyStoredRelations_fresh crs ihc
    have hp := deepCopyStoredRelations_fresh prs ihp
    cases crs with
    | nil =>
      cases prs with
      | nil =>
        simp [deepCopyStored, copyMapAt, deepCopyStoredRelations, StoredEntity.cells,
          cellsOfRelations]
      | cons q qs =>
        have h2 := hp (n + 1 + 1)
        simp only [deepCopyStored, copyMapAt, StoredEntity.cells, Option.toList,
          cellsOfRelations, List.nil_append, List.mem_append, List.mem_singleton,
          List.singleton_append, List.mem_cons, deepCopyStoredRelations] at h2 ⊢
        refine ⟨by omega, ?_⟩
        intro a ha
        rcases ha with ha | ha | ha
        · omega
        · omega
        · have := h2.2 a ha
          omega
    | cons r rs =>
      have h1 := hc (n + 1 + 1)
      cases prs with
      | nil =>
        simp only [deepCopyStored, copyMapAt, StoredEntity.cells, Option.toList,
          cellsOfRelations, List.append_nil, List.mem_append, List.mem_singleton,
          List.singleton_append, List.mem_cons, deepCopyStoredRelations] at h1 ⊢
        refine ⟨by omega, ?_⟩
        intro a ha
        rcases ha with ha | ha | ha
        · omega
        · omega
        · have := h1.2 a ha
          omega
      | cons q qs =>
        have h2 := hp ((deepCopyStoredRelations (r :: rs) (n + 1 + 1)).2 + 1)
        simp only [deepCopyStored, copyMapAt, StoredEntity.cells, Option.toList,
          List.mem_append, List.mem_singleton, List.singleton_append, List.mem_cons] at h1 h2 ⊢
        refine ⟨by omega, ?_⟩
        intro a ha
        rcases ha with ha | ha | ha | ha | ha
        · omega
        · omega
        · have := h1.2 a ha
          omega
        · omega
        · have := h2.2 a ha
          omega

theorem copyMembers_fresh (xs : List StoredEntity) :
    ∀ n, n ≤ (copyMembers xs n).2 ∧
      ∀ a ∈ cellsOfRelations (copyMembers xs n).1, n ≤ a ∧ a < (copyMembers xs n).2 := by
  induction xs with
  | nil =>
    intro n
    simp [copyMembers, cellsOfRelations]
  | cons x xs ih =>
    intro n
    have h1 := deepCopyStored_fresh x n
    have h2 := ih (deepCopyStored x n).2
    simp only [copyMembers, cellsOfRelations, StoredRelation.cells, Option.toList,
      List.nil_append, List.mem_append]
    refine ⟨by omega, ?_⟩
    intro a ha
    rcases ha with ha | ha
    · have := h1.2 a ha
      omega
    · have := h2.2 a ha
      omega

/-- The outputs built from the recombinations lie in storage taken from `n` on, and
no two of them share an address. -/
theorem buildOutputs_fresh (t : String) (i : Int) (v c : String) (p : StringMap)
    (sets : List (List StoredEntity)) :
    ∀ n, n ≤ (buildOutputs t i v c p sets n).2 ∧
      (∀ o ∈ (buildOutputs t i v c p sets n).1, ∀ a ∈ o.cells,
        n ≤ a ∧ a < (buildOutputs t i v c p sets n).2) ∧
      (buildOutputs t i v c p sets n).1.Pairwise
        (fun A B => ∀ a, a ∈ A.cells → a ∈ B.cells → False) := by
  induction sets with
  | nil =>
    intro n
    simp [buildOutputs]
  | cons set sets ih =>
    intro n
    have h1 := copyMembers_fresh set (n + 1)
    have h2 := ih ((copyMembers set (n + 1)).2 + 1)
    have hout : ∀ a ∈ (StoredEntity.mk t i v c (some (copyMembers set (n + 1)).2) p
        (if set.isEmpty then none else some n) (copyMembers set (n + 1)).1 none []).cells,
        n ≤ a ∧ a < (copyMembers set (n + 1)).2 + 1 := by
      intro a ha
      simp only [StoredEntity.cells, Option.toList, cellsOfRelations, List.append_nil,
        List.mem_append, List.mem_singleton, List.singleton_append, List.mem_cons,
        List.nil_append] at ha
      rcases ha with ha | ha | ha
      · omega
      · by_cases hs : set.isEmpty = true
        · rw [if_pos hs] at ha
          cases ha
        · rw [if_neg hs] at ha
          have ha2 : a = n := by simpa using ha
          omega
      · have := h1.2 a ha
        omega
    simp only [buildOutputs, copyMapAt, List.mem_cons, List.pairwise_cons]
    refine ⟨by omega, ?_, ?_, h2.2.2⟩
    · intro o ho a ha
      rcases ho with rfl | ho
      · have := hout a ha
        omega
      · have := h2.2.1 o ho a ha
        omega
    · intro B hB a haA haB
      have hA := hout a haA
      have hB2 := h2.2.1 B hB a haB
      omega

theorem parseStoredRelations_mono (rs : List StoredRelation)
    (h : ∀ r ∈ rs, ∀ n, n ≤ (ParseStored (StoredRelation.Target r) n).2) :
    ∀ n, n ≤ (parseStoredRelations rs n).2 := by
  induction rs with
  | nil =>
    intro n
    simp [parseStoredRelations]
  | cons r rs ih =>
    intro n
    cases r with
    | mk c pa p t =>
      have h1 := h (.mk c pa p t) (List.mem_cons_self _ _) n
      have h2 := ih (fun r2 hr2 => h r2 (List.mem_cons_of_mem _ hr2))
        (ParseStored t n).2
      simp only [StoredRelation.Target] at h1
      simp only [parseStoredRelations, parseStoredRelation]
      omega

theorem ParseStored_node (t : String) (i : Int) (v c : String) (pa : Option Nat)
    (p : StringMap) (ca : Option Nat) (r : StoredRelation) (rs : List StoredRelation)
    (qa : Option Nat) (prs : List StoredRelation) (n : Nat) :
    ParseStored (.mk t i v c pa p ca (r :: rs) qa prs) n =
      buildOutputs t i v c p
        (generateRecombinations
          ((groupByType (parseStoredRelations (r :: rs) n).1).map (fun g => g.2.flatten)))
        (parseStoredRelations (r :: rs) n).2 := by
  simp [ParseStored, parseStoredRelations]

theorem ParseStored_mono (e : StoredEntity) : ∀ n, n ≤ (ParseStored e n).2 := by
  induction e using storedEntity_induct with
  | h t i v c pa p ca crs qa prs ihc _ =>
    intro n
    cases crs with
    | nil =>
      simp only [ParseStored]
      exact (deepCopyStored_fresh _ n).1
    | cons r rs =>
      rw [ParseStored_node]
      have h1 := parseStoredRelations_mono (r :: rs) ihc n
      have h2 := (buildOutputs_fresh t i v c p
        (generateRecombinations
          ((groupByType (parseStoredRelations (r :: rs) n).1).map (fun g => g.2.flatten)))
        (parseStoredRelations (r :: rs) n).2).1
      omega

/-- The outputs of `Parse` lie in storage taken during the call, and no two of them
share an address. -/
theorem ParseStored_fresh (e : StoredEntity) (n : Nat) :
    (∀ o ∈ (ParseStored e n).1, ∀ a ∈ o.cells, n ≤ a ∧ a < (ParseStored e n).2) ∧
    (ParseStored e n).1.Pairwise (fun A B => ∀ a, a ∈ A.cells → a ∈ B.cells → False) := by
  cases e with
  | mk t i v c pa p ca crs qa prs =>
    cases crs with
    | nil =>
      simp only [ParseStored, List.mem_singleton, List.pairwise_cons, List.Pairwise.nil,
        and_true]
      refine ⟨?_, fun _ h => by cases h⟩
      intro o ho a ha
      subst ho
      exact (deepCopyStored_fresh _ n).2 a ha
    | cons r rs =>
      rw [ParseStored_node]
      have h1 := parseStoredRelations_mono (r :: rs) (fun r2 _ => ParseStored_mono r2.Target) n
      have h2 := buildOutputs_fresh t i v c p
        (generateRecombinations
          ((groupByType (parseStoredRelations (r :: rs) n).1).map (fun g => g.2.flatten)))
        (parseStoredRelations (r :: rs) n).2
      refine ⟨?_, h2.2.2⟩
      intro o ho a ha
      have := h2.2.1 o ho a ha
      omega

theorem writeMapRelations_eq (a : Nat) (m : StringMap) (rs : List StoredRelation) :
    writeMapRelations a m rs = rs.map (StoredRelation.writeMap a m) := by
  induction rs with
  | nil => simp [writeMapRelations]
  | cons r rs ih => simp [writeMapRelations, ih]

theorem writeSliceRelations_eq (a : Nat) (rels : List StoredRelation)
    (rs : List StoredRelation) :
    writeSliceRelations a rels rs = rs.map (StoredRelation.writeSlice a rels) := by
  induction rs with
  | nil => simp [writeSliceRelations]
  | cons r rs ih => simp [writeSliceRelations, ih]

/-- A write into storage that an entity does not reach is not seen through it. -/
theorem write_frame (a : Nat) (m : StringMap) (rels : List StoredRelation)
    (e : StoredEntity) :
    a ∉ e.cells → e.writeMap a m = e ∧ e.writeSlice a rels = e := by
  induction e using storedEntity_induct with
  | h t i v c pa p ca crs qa prs ihc ihp =>
    intro ha
    simp only [StoredEntity.cells, cellsOfRelations_eq, List.mem_append, List.mem_flatMap,
      not_or, not_exists, not_and] at ha
    rcases ha with ⟨h1, h2, h3, h4, h5⟩
    have hpa : ¬ pa = some a := by
      intro e
      apply h1
      simp [e]
    have hca : ¬ ca = some a := by
      intro e
      apply h2
      simp [e]
    have hqa : ¬ qa = some a := by
      intro e
      apply h4
      simp [e]
    have key : ∀ rs : List StoredRelation,
        (∀ r ∈ rs, a ∉ (StoredRelation.Target r).cells →
          r.Target.writeMap a m = r.Target ∧ r.Target.writeSlice a rels = r.Target) →
        (∀ r ∈ rs, a ∉ r.cells) →
        rs.map (StoredRelation.writeMap a m) = rs ∧
        rs.map (StoredRelation.writeSlice a rels) = rs := by
      intro rs hrs hcells
      induction rs with
      | nil => exact ⟨rfl, rfl⟩
      | cons r rs ih =>
        have ih2 := ih (fun r2 hr2 => hrs r2 (List.mem_cons_of_mem _ hr2))
          (fun r2 hr2 => hcells r2 (List.mem_cons_of_mem _ hr2))
        have hr := hcells r (List.mem_cons_self _ _)
        cases r with
        | mk rc rpa rp rt =>
          simp only [StoredRelation.cells, List.mem_append, not_or] at hr
          have hrt := hrs (.mk rc rpa rp rt) (List.mem_cons_self _ _) hr.2
          simp only [StoredRelation.Target] at hrt
          have hrpa : ¬ rpa = some a := by
            intro e
            apply hr.1
            simp [e]
          simp only [List.map_cons, StoredRelation.writeMap, StoredRelation.writeSlice, hrpa,
            if_false, hrt.1, hrt.2, ih2.1, ih2.2, and_self]
    have kc := key crs ihc (fun r hr hmem => h3 r hr hmem)
    have kp := key prs ihp (fun r hr hmem => h5 r hr hmem)
    simp only [StoredEntity.writeMap, StoredEntity.writeSlice, writeMapRelations_eq,
      writeSliceRelations_eq, hpa, hca, hqa, if_false, kc.1, kc.2, kp.1, kp.2, and_self]

/-! ### The stored demultiplexer computes the values of `Parse` -/

theorem eraseRelations_eq (rs : List StoredRelation) :
    eraseRelations rs = rs.map StoredRelation.erase := by
  induction rs with
  | nil => simp [eraseRelations]
  | cons r rs ih => simp [eraseRelations, ih]

theorem deepCopyStoredRelations_erase (rs : List StoredRelation)
    (h : ∀ r ∈ rs, ∀ n, (deepCopyStored (StoredRelation.Target r) n).1.erase = r.Target.erase) :
    ∀ n, (deepCopyStoredRelations rs n).1.map StoredRelation.erase =
      rs.map StoredRelation.erase := by
  induction rs with
  | nil =>
    intro n
    simp [deepCopyStoredRelations]
  | cons r rs ih =>
    intro n
    have ih2 := ih (fun r2 hr2 => h r2 (List.mem_cons_of_mem _ hr2))
    cases r with
    | mk c pa p t =>
      have ht := h (.mk c pa p t) (List.mem_cons_self _ _)
      simp only [StoredRelation.Target] at ht
      cases pa with
      | none =>
        simp only [deepCopyStoredRelations, deepCopyStoredRelation, List.map_cons,
          StoredRelation.erase, ht, ih2]
      | some pa0 =>
        simp only [deepCopyStoredRelations, deepCopyStoredRelation, copyMapAt, List.map_cons,
          StoredRelation.erase, ht, ih2]

theorem deepCopyStored_erase (e : StoredEntity) :
    ∀ n, (deepCopyStored e n).1.erase = e.erase := by
  induction e using storedEntity_induct with
  | h t i v c pa p ca crs qa prs ihc ihp =>
    intro n
    have hc := deepCopyStoredRelations_erase crs ihc
    have hp := deepCopyStoredRelations_erase prs ihp
    cases crs with
    | nil =>
      cases prs with
      | nil => simp [deepCopyStored, deepCopyStoredRelations, StoredEntity.erase]
      | cons q qs =>
        simp only [deepCopyStored, copyMapAt, StoredEntity.erase, eraseRelations_eq, hc, hp]
    | cons r rs =>
      cases prs with
      | nil =>
        simp only [deepCopyStored, copyMapAt, StoredEntity.erase, eraseRelations_eq, hc, hp]
      | cons q qs =>
        simp only [deepCopyStored, copyMapAt, StoredEntity.erase, eraseRelations_eq, hc, hp]

theorem copyMembers_erase (xs : List StoredEntity) :
    ∀ n, (copyMembers xs n).1.map StoredRelation.erase =
      xs.map (fun x => TransportRelation.mk "" [] x.erase) := by
  induction xs with
  | nil =>
    intro n
    simp [copyMembers]
  | cons x xs ih =>
    intro n
    simp only [copyMembers, List.map_cons, StoredRelation.erase, deepCopyStored_erase, ih]

theorem buildOutputs_erase (t : String) (i : Int) (v c : String) (p : StringMap)
    (sets : List (List StoredEntity)) :
    ∀ n, (buildOutputs t i v c p sets n).1.map StoredEntity.erase =
      sets.map (fun set =>
        TransportEntity.mk t i v c p (set.map (fun x => .mk "" [] x.erase)) []) := by
  induction sets with
  | nil =>
    intro n
    simp [buildOutputs]
  | cons set sets ih =>
    intro n
    simp only [buildOutputs, copyMapAt, List.map_cons, StoredEntity.erase, eraseRelations_eq,
      copyMembers_erase, ih, List.map_nil]

theorem generateRecombinations_map {α β : Type} (f : α → β) (rows : List (List α)) :
    generateRecombinations (rows.map (List.map f)) =
      (generateRecombinations rows).map (List.map f) := by
  induction rows with
  | nil => simp [generateRecombinations]
  | cons r rest ih =>
    simp only [List.map_cons, generateRecombinations, ih, List.length_map]
    split
    · simp [List.map_map, Function.comp_def]
    · simp [List.map_flatMap, List.flatMap_map, List.map_map, Function.comp_def]

theorem groupByType_map {α β : Type} (f : α → β) (l : List (String × α)) :
    groupByType (l.map (fun q => (q.1, f q.2))) =
      (groupByType l).map (fun g => (g.1, g.2.map f)) := by
  rw [groupByType_eq, groupByType_eq, List.map_map, List.map_map]
  have h1 : (Prod.fst ∘ fun q : String × α => (q.1, f q.2)) = Prod.fst := rfl
  rw [h1]
  apply List.map_congr_left
  intro t _
  simp only [Function.comp, List.filter_map, List.map_map]
  rfl

theorem parseStoredRelations_erase (rs : List StoredRelation)
    (h : ∀ r ∈ rs, ∀ n, (ParseStored (StoredRelation.Target r) n).1.map StoredEntity.erase =
      Parse r.Target.erase) :
    ∀ n, (parseStoredRelations rs n).1.map (fun q => (q.1, q.2.map StoredEntity.erase)) =
      (rs.map StoredRelation.erase).map (fun r => (r.Target.Typ, Parse r.Target)) := by
  induction rs with
  | nil =>
    intro n
    simp [parseStoredRelations]
  | cons r rs ih =>
    intro n
    have ih2 := ih (fun r2 hr2 => h r2 (List.mem_cons_of_mem _ hr2))
    cases r with
    | mk c pa p t =>
      have ht := h (.mk c pa p t) (List.mem_cons_self _ _)
      simp only [StoredRelation.Target] at ht
      have hty : t.erase.Typ = t.Typ := by
        cases t
        rfl
      simp only [parseStoredRelations, parseStoredRelation, List.map_cons, ht, ih2,
        StoredRelation.erase, TransportRelation.Target, hty]

/-- Without the addresses, the stored demultiplexer is `Parse`. -/
theorem ParseStored_erase (e : StoredEntity) :
    ∀ n, (ParseStored e n).1.map StoredEntity.erase = Parse e.erase := by
  induction e using storedEntity_induct with
  | h t i v c pa p ca crs qa prs ihc _ =>
    intro n
    cases crs with
    | nil =>
      simp only [ParseStored, List.map_cons, List.map_nil, deepCopyStored_erase]
      simp only [StoredEntity.erase, eraseRelations, Parse_leaf]
    | cons r rs =>
      rw [ParseStored_node, buildOutputs_erase]
      have hne : eraseRelations (r :: rs) ≠ [] := by simp [eraseRelations]
      simp only [StoredEntity.erase]
      rw [Parse_node t i v c p _ _ hne, demuxRows, eraseRelations_eq,
        ← parseStoredRelations_erase (r :: rs) ihc n, groupByType_map, List.map_map]
      have hrows : ((fun g : String × List (List TransportEntity) => g.2.flatten) ∘
          fun g : String × List (List StoredEntity) =>
            (g.1, g.2.map (List.map StoredEntity.erase))) =
          (List.map StoredEntity.erase) ∘ (fun g => g.2.flatten) := by
        funext g
        simp [Function.comp, List.map_flatten]
      rw [hrows, ← List.map_map, generateRecombinations_map, List.map_map]
      apply List.map_congr_left
      intro set _
      simp [Function.comp, List.map_map]

/-- C8. Structural independence of the demultiplexer outputs. For an input whose
storage was allocated before the call (all its addresses lie below the next free
address `n`): the stored demultiplexer returns the values of `Parse`; no map and no
backing array is shared between two outputs, so that a write into a map or into a
relation slice of one output is not seen through another output; and none is
shared between an output and the input. -/
theorem parse_outputs_independent (e : StoredEntity) (n : Nat)
    (hn : ∀ a ∈ e.cells, a < n) :
    (ParseStored e n).1.map StoredEntity.erase = Parse e.erase ∧
    (ParseStored e n).1.Pairwise (fun A B =>
      (∀ a ∈ A.cells, a ∉ B.cells ∧
        ∀ m rels, B.writeMap a m = B ∧ B.writeSlice a rels = B) ∧
      (∀ a ∈ B.cells, a ∉ A.cells ∧
        ∀ m rels, A.writeMap a m = A ∧ A.writeSlice a rels = A)) ∧
    (∀ o ∈ (ParseStored e n).1,
      (∀ a ∈ o.cells, a ∉ e.cells ∧
        ∀ m rels, e.writeMap a m = e ∧ e.writeSlice a rels = e) ∧
      (∀ a ∈ e.cells, a ∉ o.cells ∧
        ∀ m rels, o.writeMap a m = o ∧ o.writeSlice a rels = o)) := by
  have hf := ParseStored_fresh e n
  refine ⟨ParseStored_erase e n, ?_, ?_⟩
  · refine hf.2.imp ?_
    intro A B hAB
    refine ⟨fun a ha => ?_, fun a ha => ?_⟩
    · have hno : a ∉ B.cells := fun hb => hAB a ha hb
      exact ⟨hno, fun m rels => write_frame a m rels B hno⟩
    · have hno : a ∉ A.cells := fun hb => hAB a hb ha
      exact ⟨hno, fun m rels => write_frame a m rels A hno⟩
  · intro o ho
    refine ⟨fun a ha => ?_, fun a ha => ?_⟩
    · have hno : a ∉ e.cells := by
        intro he
        have h1 := hn a he
        have h2 := (hf.1 o ho a ha).1
        omega
      exact ⟨hno, fun m rels => write_frame a m rels e hno⟩
    · have hno : a ∉ o.cells := by
        intro ho2
        have h1 := hn a ha
        have h2 := (hf.1 o ho a ho2).1
        omega
      exact ⟨hno, fun m rels => write_frame a m rels o hno⟩

/-- C8, at the payload of the immutability test: its four outputs share no map and
no backing array with each other or with the payload. -/
theorem parse_outputs_independent_witness :
    (∀ a ∈ storedFanoutRoot.cells, a < 1) ∧
    (ParseStored storedFanoutRoot 1).1.length = 4 ∧
    (ParseStored storedFanoutRoot 1).1.Pairwise (fun A B =>
      (∀ a ∈ A.cells, a ∉ B.cells ∧
        ∀ m rels, B.writeMap a m = B ∧ B.writeSlice a rels = B) ∧
      (∀ a ∈ B.cells, a ∉ A.cells ∧
        ∀ m rels, A.writeMap a m = A ∧ A.writeSlice a rels = A)) := by
  have hn : ∀ a ∈ storedFanoutRoot.cells, a < 1 := by decide
  exact ⟨hn, by decide, (parse_outputs_independent storedFanoutRoot 1 hn).2.1⟩

theorem splitChars_ne_nil (c : Char) (l : List Char) : splitChars c l ≠ [] := by
  induction l with
  | nil => simp [splitChars]
  | cons x xs ih =>
    unfold splitChars
    split
    · simp
    · split <;> simp

theorem splitChars_free (c : Char) (a : List Char) (h : c ∉ a) : splitChars c a = [a] := by
  induction a with
  | nil => rfl
  | cons x xs ih =>
    have hx : x ≠ c := fun e => h (by simp [e])
    have hxs : c ∉ xs := fun e => h (by simp [e])
    unfold splitChars
    rw [if_neg hx, ih hxs]

theorem splitChars_append (c : Char) (a rest : List Char) (h : c ∉ a) :
    splitChars c (a ++ c :: rest) = a :: splitChars c rest := by
  induction a with
  | nil => simp [splitChars]
  | cons x xs ih =>
    have hx : x ≠ c := fun e => h (by simp [e])
    have hxs : c ∉ xs := fun e => h (by simp [e])
    show splitChars c (x :: (xs ++ c :: rest)) = _
    rw [splitChars, if_neg hx, ih hxs]

theorem splitChars_parts (c : Char) (l : List Char) :
    (∀ p ∈ splitChars c l, c ∉ p) ∧ joinChars c (splitChars c l) = l := by
  induction l with
  | nil => simp [splitChars, joinChars]
  | cons x xs ih =>
    obtain ⟨ih1, ih2⟩ := ih
    unfold splitChars
    by_cases hx : x = c
    · rw [if_pos hx]
      refine ⟨?_, ?_⟩
      · intro p hp
        rcases List.mem_cons.1 hp with h | h
        · simp [h]
        · exact ih1 p h
      · cases hs : splitChars c xs with
        | nil => exact absurd hs (splitChars_ne_nil c xs)
        | cons q ps =>
          rw [hs] at ih2
          simp [joinChars, ih2, hx]
    · rw [if_neg hx]
      cases hs : splitChars c xs with
      | nil => exact absurd hs (splitChars_ne_nil c xs)
      | cons q ps =>
        rw [hs] at ih1 ih2
        refine ⟨?_, ?_⟩
        · intro p hp
          rcases List.mem_cons.1 hp with h | h
          · subst h
            intro hc
            rcases List.mem_cons.1 hc with h2 | h2
            · exact hx h2.symm
            · exact ih1 q (List.mem_cons_self _ _) h2
          · exact ih1 p (List.mem_cons_of_mem _ h)
        · cases ps with
          | nil => simpa [joinChars] using ih2
          | cons r rs => simpa [joinChars] using ih2

theorem splitChars_three (c : Char) (l a b d : List Char) :
    splitChars c l = [a, b, d] ↔ l = a ++ c :: (b ++ c :: d) ∧ c ∉ a ∧ c ∉ b ∧ c ∉ d := by
  constructor
  · intro h
    have hp := splitChars_parts c l
    rw [h] at hp
    refine ⟨?_, hp.1 a (by simp), hp.1 b (by simp), hp.1 d (by simp)⟩
    simpa [joinChars] using hp.2.symm
  · rintro ⟨rfl, ha, hb, hd⟩
    rw [splitChars_append c a _ ha, splitChars_append c b _ hb, splitChars_free c d hd]

theorem toList_append (a b : String) : (a ++ b).toList = a.toList ++ b.toList := by
  simp [String.toList, String.data_append]

theorem toList_inj {a b : String} (h : a.toList = b.toList) : a = b :=
  String.ext h

theorem startsWith_iff (s p : String) : startsWith s p = true ↔ ∃ t : String, s = p ++ t := by
  unfold startsWith
  rw [List.isPrefixOf_iff_prefix]
  constructor
  · rintro ⟨t, ht⟩
    exact ⟨String.mk t, toList_inj (by rw [toList_append, ← ht]; rfl)⟩
  · rintro ⟨t, rfl⟩
    exact ⟨t.toList, (toList_append p t).symm⟩

theorem trimStart_append (p t : String) : trimStart (p ++ t) p = t := by
  unfold trimStart
  rw [if_pos ((startsWith_iff _ _).2 ⟨t, rfl⟩)]
  apply toList_inj
  simp [toList_append]

theorem splitOnChar_three (c : Char) (k a b d : String) :
    splitOnChar k c = [a, b, d] ↔
      k.toList = a.toList ++ c :: (b.toList ++ c :: d.toList) ∧
        c ∉ a.toList ∧ c ∉ b.toList ∧ c ∉ d.toList := by
  unfold splitOnChar
  rw [← splitChars_three]
  constructor
  · intro h
    have h2 := congrArg (List.map String.toList) h
    simpa [Function.comp_def] using h2
  · intro h
    rw [h]
    rfl

theorem append_cons_unique_first {c : Char} {l1 l2 s1 s2 : List Char}
    (h : l1 ++ c :: s1 = l2 ++ c :: s2) (h1 : c ∉ l1) (h2 : c ∉ l2) : l1 = l2 ∧ s1 = s2 := by
  induction l1 generalizing l2 with
  | nil =>
    cases l2 with
    | nil => simpa using h
    | cons y ys =>
      exfalso
      simp at h
      exact h2 (by simp [h.1])
  | cons x xs ih =>
    cases l2 with
    | nil =>
      exfalso
      simp at h
      exact h1 (by simp [h.1])
    | cons y ys =>
      simp at h
      have := ih h.2 (fun e => h1 (by simp [e])) (fun e => h2 (by simp [e]))
      exact ⟨by rw [h.1, this.1], this.2⟩

theorem append_cons_unique_last {c : Char} {l1 l2 s1 s2 : List Char}
    (h : l1 ++ c :: s1 = l2 ++ c :: s2) (h1 : c ∉ s1) (h2 : c ∉ s2) : l1 = l2 ∧ s1 = s2 := by
  have hr := congrArg List.reverse h
  simp only [List.reverse_append, List.reverse_cons, List.append_assoc,
    List.singleton_append] at hr
  have := append_cons_unique_first hr (by simpa using h1) (by simpa using h2)
  exact ⟨List.reverse_injective this.2, List.reverse_injective this.1⟩

theorem filterKey_toList (name kind : String) :
    (filterKey name kind).toList =
      "Filter".toList ++ '.' :: (name.toList ++ '.' :: kind.toList) := by
  unfold filterKey
  simp only [toList_append]
  have e1 : "Filter.".toList = "Filter".toList ++ ['.'] := by decide
  have e2 : ".".toList = ['.'] := by decide
  rw [e1, e2]
  simp

theorem filterKey_parts (k a name kind : String) (hp : startsWith k "Filter." = true)
    (hs : splitOnChar k '.' = [a, name, kind]) :
    a = "Filter" ∧ k = filterKey name kind ∧ DotFree name ∧ DotFree kind := by
  obtain ⟨t, ht⟩ := (startsWith_iff _ _).1 hp
  obtain ⟨hk, ha, hn, hd⟩ := (splitOnChar_three _ _ _ _ _).1 hs
  have hk2 : k.toList = "Filter".toList ++ '.' :: t.toList := by
    rw [ht, toList_append]; rfl
  rw [hk] at hk2
  have h := append_cons_unique_first hk2 ha (by decide)
  have ha2 : a = "Filter" := toList_inj h.1
  refine ⟨ha2, toList_inj ?_, hn, hd⟩
  rw [hk, filterKey_toList, h.1]

theorem filterKey_split (name kind : String) (hn : DotFree name) (hd : DotFree kind) :
    startsWith (filterKey name kind) "Filter." = true ∧
      splitOnChar (filterKey name kind) '.' = ["Filter", name, kind] := by
  constructor
  · exact (startsWith_iff _ _).2 ⟨name ++ "." ++ kind, by
      unfold filterKey; apply toList_inj; simp [toList_append]⟩
  · exact (splitOnChar_three _ _ _ _ _).2 ⟨filterKey_toList name kind, by decide, hn, hd⟩

theorem filterKey_inj (n1 k1 n2 k2 : String) (h1 : DotFree n1) (h2 : DotFree n2)
    (h : filterKey n1 k1 = filterKey n2 k2) : n1 = n2 ∧ k1 = k2 := by
  have h3 := congrArg String.toList h
  rw [filterKey_toList, filterKey_toList] at h3
  have h4 := List.append_cancel_left h3
  simp only [List.cons.injEq, true_and] at h4
  have h5 := append_cons_unique_first h4 h1 h2
  exact ⟨toList_inj h5.1, toList_inj h5.2⟩

theorem keyNameKind_filterKey (name kind : String) (hn : DotFree name) (hd : DotFree kind) :
    keyNameKind (filterKey name kind) = some (name, kind) := by
  unfold keyNameKind
  rw [(filterKey_split name kind hn hd).2]

theorem compileValid_keyNameKind (k name kind : String) :
    (compileValid k = true ∧ keyNameKind k = some (name, kind)) ↔
      (k = filterKey name kind ∧ DotFree name ∧ DotFree kind) := by
  constructor
  · rintro ⟨hv, hk⟩
    unfold keyNameKind at hk
    split at hk
    · next a n kd hs =>
      simp only [Option.some.injEq, Prod.mk.injEq] at hk
      obtain ⟨rfl, rfl⟩ := hk
      exact (filterKey_parts k a n kd hv hs).2
    · cases hk
  · rintro ⟨rfl, hn, hd⟩
    exact ⟨(filterKey_split name kind hn hd).1, keyNameKind_filterKey name kind hn hd⟩

theorem mapHas_iff_mem_keys (m : StringMap) (k : String) :
    mapHas m k = true ↔ k ∈ m.map Prod.fst := by
  unfold mapHas
  induction m with
  | nil => simp [List.lookup]
  | cons kv rest ih =>
    obtain ⟨k2, v2⟩ := kv
    by_cases h : k = k2
    · subst h
      simp [List.lookup]
    · have h2 : (k == k2) = false := by simpa using h
      simp only [List.lookup, h2, List.map_cons, List.mem_cons, h, false_or]
      exact ih

theorem lookup_isSome_iff_mem_keys {β : Type} (m : List (String × β)) (k : String) :
    (m.lookup k).isSome = true ↔ k ∈ m.map Prod.fst := by
  induction m with
  | nil => simp [List.lookup]
  | cons kv rest ih =>
    obtain ⟨k2, v2⟩ := kv
    by_cases h : k = k2
    · subst h
      simp [List.lookup]
    · have h2 : (k == k2) = false := by simpa using h
      simp only [List.lookup, h2, List.map_cons, List.mem_cons, h, false_or]
      exact ih

theorem mapSet_keys {β : Type} (m : List (String × β)) (k : String) (v : β) :
    (mapSet m k v).map Prod.fst =
      if k ∈ m.map Prod.fst then m.map Prod.fst else m.map Prod.fst ++ [k] := by
  induction m with
  | nil => simp [mapSet]
  | cons kv rest ih =>
    obtain ⟨k2, v2⟩ := kv
    unfold mapSet
    by_cases h : k2 = k
    · subst h
      simp
    · have h3 : k ≠ k2 := fun e => h e.symm
      simp only [if_neg h, List.map_cons, List.mem_cons, h3, false_or, ih]
      split <;> simp

theorem mapSet_keys_nodup {β : Type} (m : List (String × β)) (k : String) (v : β)
    (h : (m.map Prod.fst).Nodup) : ((mapSet m k v).map Prod.fst).Nodup := by
  rw [mapSet_keys]
  split
  · exact h
  · next hk =>
    rw [List.nodup_append]
    exact ⟨h, List.nodup_singleton _, by
      intro a ha hb
      simp only [List.mem_singleton] at hb
      subst hb
      exact hk ha⟩

theorem mem_mapSet_keys {β : Type} (m : List (String × β)) (k k2 : String) (v : β) :
    k2 ∈ (mapSet m k v).map Prod.fst ↔ k2 = k ∨ k2 ∈ m.map Prod.fst := by
  rw [mapSet_keys]
  split
  · next h =>
    constructor
    · exact fun h2 => Or.inr h2
    · rintro (rfl | h2)
      · exact h
      · exact h2
  · simp only [List.mem_append, List.mem_singleton]
    tauto

theorem filterGet_mapSet_self (m : List (String × FilterRec)) (k : String) (v : FilterRec) :
    filterGet (mapSet m k v) k = v := by
  unfold filterGet
  rw [lookup_mapSet_self]

theorem filterGet_mapSet_other (m : List (String × FilterRec)) (k k2 : String) (v : FilterRec)
    (h : k2 ≠ k) : filterGet (mapSet m k v) k2 = filterGet m k2 := by
  unfold filterGet
  rw [lookup_mapSet_other m k k2 v h]

theorem mapGet_mapSet_self (m : StringMap) (k v : String) : mapGet (mapSet m k v) k = v := by
  unfold mapGet
  rw [lookup_mapSet_self]

theorem mapGet_mapSet_other (m : StringMap) (k k2 v : String) (h : k2 ≠ k) :
    mapGet (mapSet m k v) k2 = mapGet m k2 := by
  unfold mapGet
  rw [lookup_mapSet_other m k k2 v h]

theorem compileFilterStep_fst (acc : List (String × FilterRec) × StringMap)
    (kv : String × String) :
    (compileFilterStep acc kv).1 = slotStep compileValid acc.1 kv := by
  unfold compileFilterStep slotStep compileValid
  by_cases hv : startsWith kv.1 "Filter." = true
  · simp only [hv, if_true]
    generalize splitOnChar kv.1 '.' = parts
    rcases parts with _ | ⟨a, _ | ⟨n, _ | ⟨kd, _ | ⟨x, rest⟩⟩⟩⟩
    · rfl
    · rfl
    · rfl
    · simp only
      split <;> [rfl; (split <;> [rfl; (split <;> rfl)])]
    · rfl
  · simp only [hv]
    rfl

theorem foldl_compileFilterStep_fst (p : StringMap)
    (acc : List (String × FilterRec) × StringMap) :
    (p.foldl compileFilterStep acc).1 = p.foldl (slotStep compileValid) acc.1 := by
  induction p generalizing acc with
  | nil => rfl
  | cons kv rest ih => simp only [List.foldl_cons, ih, compileFilterStep_fst]

theorem compileFilters_fst (p : StringMap) :
    (compileFilters p).1 = p.foldl (slotStep compileValid) [] :=
  foldl_compileFilterStep_fst p ([], [])

theorem queryFilterStep_eq (filters : List (String × FilterRec)) (kv : String × String) :
    queryFilterStep filters kv = slotStep queryValid filters kv := rfl

theorem slotStep_cases (valid : String → Bool) (F : List (String × FilterRec))
    (kv : String × String) :
    (slotStep valid F kv = F ∧
      ¬ (valid kv.1 = true ∧ ∃ nk, keyNameKind kv.1 = some nk)) ∨
    (∃ name kind, valid kv.1 = true ∧ keyNameKind kv.1 = some (name, kind) ∧
      slotStep valid F kv = mapSet F name
        (if kind = "Field" then (kv.2, (filterGet F name).2.1, (filterGet F name).2.2)
         else if kind = "Operator" then ((filterGet F name).1, kv.2, (filterGet F name).2.2)
         else if kind = "Value" then ((filterGet F name).1, (filterGet F name).2.1, kv.2)
         else filterGet F name)) := by
  unfold slotStep keyNameKind
  by_cases hv : valid kv.1 = true
  · simp only [hv, if_true, true_and]
    generalize splitOnChar kv.1 '.' = parts
    rcases parts with _ | ⟨a, _ | ⟨n, _ | ⟨kd, _ | ⟨x, rest⟩⟩⟩⟩
    · left; exact ⟨rfl, by simp⟩
    · left; exact ⟨rfl, by simp⟩
    · left; exact ⟨rfl, by simp⟩
    · right
      refine ⟨n, kd, rfl, ?_⟩
      simp only
      split <;> [rfl; (split <;> [rfl; (split <;> rfl)])]
    · left; exact ⟨rfl, by simp⟩
  · left
    simp [hv]

theorem slotStep_get (valid : String → Bool) (F : List (String × FilterRec))
    (kv : String × String) (name c1 c2 c3 : String) (h : filterGet F name = (c1, c2, c3)) :
    filterGet (slotStep valid F kv) name =
      (if valid kv.1 = true ∧ keyNameKind kv.1 = some (name, "Field") then kv.2 else c1,
       if valid kv.1 = true ∧ keyNameKind kv.1 = some (name, "Operator") then kv.2 else c2,
       if valid kv.1 = true ∧ keyNameKind kv.1 = some (name, "Value") then kv.2 else c3) := by
  rcases slotStep_cases valid F kv with ⟨he, hn⟩ | ⟨n, kd, hv, hk, he⟩
  · rw [he, h]
    have h1 : ∀ kind, ¬ (valid kv.1 = true ∧ keyNameKind kv.1 = some (name, kind)) :=
      fun kind hc => hn ⟨hc.1, _, hc.2⟩
    rw [if_neg (h1 _), if_neg (h1 _), if_neg (h1 _)]
  · rw [he]
    by_cases hname : n = name
    · subst hname
      rw [filterGet_mapSet_self, h]
      by_cases k1 : kd = "Field"
      · subst k1
        simp [hv, hk]
      · by_cases k2 : kd = "Operator"
        · subst k2
          simp [hv, hk]
        · by_cases k3 : kd = "Value"
          · subst k3
            simp [hv, hk]
          · simp [hv, hk, k1, k2, k3]
    · rw [filterGet_mapSet_other _ _ _ _ (fun e => hname e.symm), h]
      simp [hv, hk, hname]

theorem slot_fold (valid : String → Bool) (name : String) (p : StringMap) :
    ∀ (F : List (String × FilterRec)) (c1 c2 c3 : String), filterGet F name = (c1, c2, c3) →
      filterGet (p.foldl (slotStep valid) F) name =
        (slotValue valid name "Field" p c1, slotValue valid name "Operator" p c2,
          slotValue valid name "Value" p c3) := by
  induction p with
  | nil => intro F c1 c2 c3 h; exact h
  | cons kv rest ih =>
    intro F c1 c2 c3 h
    simp only [List.foldl_cons, slotValue]
    exact ih _ _ _ _ (slotStep_get valid F kv name c1 c2 c3 h)

theorem slotStep_keys (valid : String → Bool) (F : List (String × FilterRec))
    (kv : String × String) (name : String) :
    name ∈ (slotStep valid F kv).map Prod.fst ↔
      name ∈ F.map Prod.fst ∨
        (valid kv.1 = true ∧ ∃ kind, keyNameKind kv.1 = some (name, kind)) := by
  rcases slotStep_cases valid F kv with ⟨he, hn⟩ | ⟨n, kd, hv, hk, he⟩
  · rw [he]
    constructor
    · exact fun h => Or.inl h
    · rintro (h | ⟨h1, kind, h2⟩)
      · exact h
      · exact absurd ⟨h1, _, h2⟩ hn
  · rw [he, mem_mapSet_keys]
    constructor
    · rintro (rfl | h)
      · exact Or.inr ⟨hv, kd, hk⟩
      · exact Or.inl h
    · rintro (h | ⟨_, kind, h2⟩)
      · exact Or.inr h
      · rw [hk] at h2
        simp only [Option.some.injEq, Prod.mk.injEq] at h2
        exact Or.inl h2.1.symm

theorem slotStep_nodup (valid : String → Bool) (F : List (String × FilterRec))
    (kv : String × String) (h : (F.map Prod.fst).Nodup) :
    ((slotStep valid F kv).map Prod.fst).Nodup := by
  rcases slotStep_cases valid F kv with ⟨he, _⟩ | ⟨n, kd, _, _, he⟩
  · rw [he]; exact h
  · rw [he]; exact mapSet_keys_nodup _ _ _ h

theorem slot_fold_keys (valid : String → Bool) (name : String) (p : StringMap) :
    ∀ F : List (String × FilterRec),
      (name ∈ (p.foldl (slotStep valid) F).map Prod.fst ↔
        name ∈ F.map Prod.fst ∨
          ∃ kv ∈ p, valid kv.1 = true ∧ ∃ kind, keyNameKind kv.1 = some (name, kind)) := by
  induction p with
  | nil => intro F; simp
  | cons kv rest ih =>
    intro F
    simp only [List.foldl_cons, ih, slotStep_keys, List.mem_cons, exists_eq_or_imp]
    tauto

theorem slot_fold_nodup (valid : String → Bool) (p : StringMap) :
    ∀ F : List (String × FilterRec), (F.map Prod.fst).Nodup →
      ((p.foldl (slotStep valid) F).map Prod.fst).Nodup := by
  induction p with
  | nil => intro F h; exact h
  | cons kv rest ih =>
    intro F h
    exact ih _ (slotStep_nodup valid F kv h)

theorem slotValue_compile (name kind : String) (hn : DotFree name) (hd : DotFree kind)
    (p : StringMap) (hp : (p.map Prod.fst).Nodup) :
    ∀ cur, slotValue compileValid name kind p cur =
      if filterKey name kind ∈ p.map Prod.fst then mapGet p (filterKey name kind) else cur := by
  induction p with
  | nil => intro cur; rfl
  | cons kv rest ih =>
    intro cur
    obtain ⟨k, v⟩ := kv
    simp only [List.map_cons, List.nodup_cons] at hp
    unfold slotValue
    rw [List.foldl_cons]
    have ih2 := ih hp.2
    unfold slotValue at ih2
    rw [ih2]
    by_cases hk : k = filterKey name kind
    · subst hk
      have hc : compileValid (filterKey name kind) = true ∧
          keyNameKind (filterKey name kind) = some (name, kind) :=
        (compileValid_keyNameKind _ name kind).2 ⟨rfl, hn, hd⟩
      rw [if_pos hc, if_neg hp.1, if_pos (by simp)]
      unfold mapGet
      simp [List.lookup]
    · have hc : ¬ (compileValid k = true ∧ keyNameKind k = some (name, kind)) :=
        fun h => hk ((compileValid_keyNameKind k name kind).1 h).1
      have hk2 : (filterKey name kind == k) = false := by
        simpa using fun e : filterKey name kind = k => hk e.symm
      have hk3 : ¬ filterKey name kind = k := fun e => hk e.symm
      simp only [hc, if_false, List.map_cons, List.mem_cons, hk3, false_or]
      unfold mapGet
      simp only [List.lookup, hk2]

theorem compileFilterStep_snd (acc : List (String × FilterRec) × StringMap)
    (kv : String × String) :
    (compileFilterStep acc kv).2 =
      match normalizedKey kv with
      | some K => mapSet acc.2 K kv.2
      | none => acc.2 := by
  unfold compileFilterStep normalizedKey compileValid keyNameKind
  by_cases hv : startsWith kv.1 "Filter." = true
  · simp only [hv, if_true]
    generalize splitOnChar kv.1 '.' = parts
    rcases parts with _ | ⟨a, _ | ⟨n, _ | ⟨kd, _ | ⟨x, rest⟩⟩⟩⟩
    · rfl
    · rfl
    · rfl
    · simp only
      by_cases k1 : kd = "Field"
      · by_cases h2 : startsWith kv.2 "Properties." = true
        · by_cases h3 : trimStart kv.2 "Properties." = ""
          · simp [k1, h2, h3]
          · simp [k1, h2, h3]
        · simp [k1, h2]
      · by_cases k2 : kd = "Operator"
        · simp [k1, k2]
        · by_cases k3 : kd = "Value"
          · simp [k1, k2, k3]
          · simp [k1, k2, k3]
    · rfl
  · simp only [hv]
    rfl

theorem normalizedKey_iff (kv : String × String) (K : String) :
    normalizedKey kv = some K ↔
      K ≠ "" ∧ (∃ name, DotFree name ∧ kv.1 = filterKey name "Field") ∧
        kv.2 = "Properties." ++ K := by
  unfold normalizedKey
  constructor
  · intro h
    split at h
    · next hv =>
      split at h
      · next nk hnk =>
        split at h
        · next hc =>
          obtain ⟨hf, hs, hne⟩ := hc
          simp only [Option.some.injEq] at h
          obtain ⟨n, kd⟩ := nk
          simp only at hf
          subst hf
          have := (compileValid_keyNameKind kv.1 n "Field").1 ⟨hv, hnk⟩
          obtain ⟨t, ht⟩ := (startsWith_iff _ _).1 hs
          rw [ht, trimStart_append] at h hne
          subst h
          exact ⟨hne, ⟨n, this.2.1, this.1⟩, ht⟩
        · cases h
      · cases h
    · cases h
  · rintro ⟨hne, ⟨name, hn, hk⟩, hv⟩
    have hc := (compileValid_keyNameKind kv.1 name "Field").2 ⟨hk, hn, by decide⟩
    rw [if_pos hc.1, hc.2]
    simp only
    have hs : startsWith kv.2 "Properties." = true := (startsWith_iff _ _).2 ⟨K, hv⟩
    have ht : trimStart kv.2 "Properties." = K := by rw [hv, trimStart_append]
    rw [if_pos ⟨trivial, hs, by rw [ht]; exact hne⟩, ht]

theorem foldl_compileFilterStep_keys (K : String) (p : StringMap) :
    ∀ acc : List (String × FilterRec) × StringMap,
      (K ∈ (p.foldl compileFilterStep acc).2.map Prod.fst ↔
        K ∈ acc.2.map Prod.fst ∨ ∃ kv ∈ p, normalizedKey kv = some K) := by
  induction p with
  | nil => intro acc; simp
  | cons kv rest ih =>
    intro acc
    rw [List.foldl_cons, ih, compileFilterStep_snd]
    cases hk : normalizedKey kv with
    | none => simp [hk]
    | some K2 =>
      simp only [mem_mapSet_keys, List.mem_cons, exists_eq_or_imp, hk, Option.some.injEq]
      constructor
      · rintro ((rfl | h) | h)
        · exact Or.inr (Or.inl rfl)
        · exact Or.inl h
        · exact Or.inr (Or.inr h)
      · rintro (h | rfl | h)
        · exact Or.inl (Or.inr h)
        · exact Or.inl (Or.inl rfl)
        · exact Or.inr h

theorem foldl_compileFilterStep_values (p : StringMap) :
    ∀ acc : List (String × FilterRec) × StringMap,
      (∀ K ∈ acc.2.map Prod.fst, mapGet acc.2 K = "Properties." ++ K) →
      ∀ K ∈ (p.foldl compileFilterStep acc).2.map Prod.fst,
        mapGet (p.foldl compileFilterStep acc).2 K = "Properties." ++ K := by
  induction p with
  | nil => intro acc h; exact h
  | cons kv rest ih =>
    intro acc h
    rw [List.foldl_cons]
    apply ih
    rw [compileFilterStep_snd]
    cases hk : normalizedKey kv with
    | none => exact h
    | some K2 =>
      intro K hK
      simp only at hK ⊢
      by_cases e : K = K2
      · subst e
        rw [mapGet_mapSet_self]
        exact ((normalizedKey_iff kv K).1 hk).2.2
      · rw [mapGet_mapSet_other _ _ _ _ e]
        rcases (mem_mapSet_keys _ _ _ _).1 hK with h2 | h2
        · exact absurd h2 e
        · exact h K h2

theorem filterKey_field (name : String) :
    "Filter." ++ name ++ ".Field" = filterKey name "Field" := by
  unfold filterKey
  apply toList_inj
  simp only [toList_append]
  have e1 : ".Field".toList = ".".toList ++ "Field".toList := by decide
  rw [e1]
  simp

theorem filterKey_operator (name : String) :
    "Filter." ++ name ++ ".Operator" = filterKey name "Operator" := by
  unfold filterKey
  apply toList_inj
  simp only [toList_append]
  have e1 : ".Operator".toList = ".".toList ++ "Operator".toList := by decide
  rw [e1]
  simp

theorem filterKey_value (name : String) :
    "Filter." ++ name ++ ".Value" = filterKey name "Value" := by
  unfold filterKey
  apply toList_inj
  simp only [toList_append]
  have e1 : ".Value".toList = ".".toList ++ "Value".toList := by decide
  rw [e1]
  simp

theorem mapGet_of_not_mem (m : StringMap) (k : String) (h : k ∉ m.map Prod.fst) :
    mapGet m k = "" := by
  have h2 : mapHas m k ≠ true := fun e => h ((mapHas_iff_mem_keys m k).1 e)
  unfold mapHas at h2
  unfold mapGet
  cases hl : m.lookup k with
  | none => rfl
  | some v => rw [hl] at h2; exact absurd rfl h2

/-- C11: filter normalisation. A string `K` is a key of the normalised filter
fields of a compiled node exactly when `K` is non-empty and the node has a property
whose key has the three-part form `Filter.<name>.Field` and whose value is
`Properties.` followed by `K`; the value stored under `K` is that property value;
and the record `Filters[<name>]` holds the raw Field, Operator and Value
properties of the filter (the properties of a node are a Go map: no key twice). -/
theorem compile_filter_normalisation (n : TransportEntity) (K : String) :
    (mapHas (compilePatternNode n).NormalizedFilterFields K = true ↔
      K ≠ "" ∧ ∃ kv ∈ n.Properties,
        (∃ name, DotFree name ∧ kv.1 = "Filter." ++ name ++ ".Field") ∧
          kv.2 = "Properties." ++ K) ∧
    (mapHas (compilePatternNode n).NormalizedFilterFields K = true →
      mapGet (compilePatternNode n).NormalizedFilterFields K = "Properties." ++ K) ∧
    ((n.Properties.map Prod.fst).Nodup → ∀ name, DotFree name →
      filterGet (compilePatternNode n).Filters name =
        (mapGet n.Properties ("Filter." ++ name ++ ".Field"),
         mapGet n.Properties ("Filter." ++ name ++ ".Operator"),
         mapGet n.Properties ("Filter." ++ name ++ ".Value"))) := by
  obtain ⟨_, _, _, hF, hN⟩ := compilePatternNode_fields n
  rw [hF, hN]
  refine ⟨?_, ?_, ?_⟩
  · rw [mapHas_iff_mem_keys]
    unfold compileFilters
    rw [foldl_compileFilterStep_keys]
    constructor
    · rintro (h | ⟨kv, hkv, hk⟩)
      · simp at h
      · obtain ⟨h1, ⟨name, hn, hk2⟩, h3⟩ := (normalizedKey_iff kv K).1 hk
        exact ⟨h1, kv, hkv, ⟨name, hn, by rw [filterKey_field]; exact hk2⟩, h3⟩
    · rintro ⟨h1, kv, hkv, ⟨name, hn, hk2⟩, h3⟩
      exact Or.inr ⟨kv, hkv, (normalizedKey_iff kv K).2
        ⟨h1, ⟨name, hn, by rw [← filterKey_field]; exact hk2⟩, h3⟩⟩
  · intro h
    rw [mapHas_iff_mem_keys] at h
    exact foldl_compileFilterStep_values n.Properties ([], []) (by simp) K h
  · intro hnd name hn
    rw [compileFilters_fst, slot_fold compileValid name n.Properties [] "" "" "" rfl,
      slotValue_compile name "Field" hn (by decide) _ hnd,
      slotValue_compile name "Operator" hn (by decide) _ hnd,
      slotValue_compile name "Value" hn (by decide) _ hnd,
      filterKey_field, filterKey_operator, filterKey_value]
    have e : ∀ k, (if k ∈ n.Properties.map Prod.fst then mapGet n.Properties k else "") =
        mapGet n.Properties k := by
      intro k
      split
      · rfl
      · next h => rw [mapGet_of_not_mem _ _ h]
    rw [e, e, e]

theorem compile_filter_normalisation_witness :
    (deltaNode.Properties.map Prod.fst).Nodup ∧ DotFree "transport" ∧
    mapHas (compilePatternNode deltaNode).NormalizedFilterFields "Transport" = true ∧
    mapGet (compilePatternNode deltaNode).NormalizedFilterFields "Transport" =
      "Properties.Transport" ∧
    filterGet (compilePatternNode deltaNode).Filters "transport" =
      ("Properties.Transport", "==", "secure") := by
  have h := compile_filter_normalisation deltaNode "Transport"
  have hnd : (deltaNode.Properties.map Prod.fst).Nodup := by decide
  have hdf : DotFree "transport" := by decide
  have hh : mapHas (compilePatternNode deltaNode).NormalizedFilterFields "Transport" = true :=
    h.1.2 ⟨by decide, ("Filter.transport.Field", "Properties.Transport"), by decide,
      ⟨"transport", hdf, by decide⟩, by decide⟩
  refine ⟨hnd, hdf, hh, h.2.1 hh, ?_⟩
  rw [h.2.2 hnd "transport" hdf]
  decide

/-- C12: pattern compilation is pure and memoised. Two calls of
`getOrCompilePattern` in a row with the same arguments return equal trees, the
second call is a cache hit (one more hit, no more miss) that leaves the cache
contents as the first call left them; and on a cache miss the result is
`compilePatternNode` of the root that the dependency gives: of the first child of
a Dependency entity. -/
theorem pattern_compile_memoised (s : Scheduler) (actionName : String) (dep : TransportEntity) :
    (getOrCompilePattern (getOrCompilePattern s actionName dep).2 actionName dep).1 =
      (getOrCompilePattern s actionName dep).1 ∧
    (getOrCompilePattern (getOrCompilePattern s actionName dep).2 actionName dep).2.patternCache =
      (getOrCompilePattern s actionName dep).2.patternCache ∧
    (getOrCompilePattern (getOrCompilePattern s actionName dep).2 actionName dep).2.patternHits =
      (getOrCompilePattern s actionName dep).2.patternHits + 1 ∧
    (getOrCompilePattern (getOrCompilePattern s actionName dep).2 actionName dep).2.patternMisses =
      (getOrCompilePattern s actionName dep).2.patternMisses ∧
    (s.patternCache.lookup (patternKey actionName dep.ID) = none →
      (getOrCompilePattern s actionName dep).1 = compilePatternNode (dependencyRoot dep) ∧
      (getOrCompilePattern s actionName dep).2.patternMisses = s.patternMisses + 1 ∧
      ∀ first rest, dep.Typ = "Dependency" → dep.Children = first :: rest →
        (getOrCompilePattern s actionName dep).1 = compilePatternNode first) := by
  have hc := (getOrCompilePattern_cache s actionName dep).2
  have hh := getOrCompilePattern_hit (getOrCompilePattern s actionName dep).2 actionName dep
    _ hc
  refine ⟨hh.1, hh.2, ?_, ?_, ?_⟩
  · unfold getOrCompilePattern at hc ⊢
    simp only at hc ⊢
    rw [hc]
  · unfold getOrCompilePattern at hc ⊢
    simp only at hc ⊢
    rw [hc]
  · intro hmiss
    have e : getOrCompilePattern s actionName dep =
        (compilePatternNode (dependencyRoot dep),
          { s with
            patternMisses := s.patternMisses + 1
            patternCache := mapSet s.patternCache (patternKey actionName dep.ID)
              (compilePatternNode (dependencyRoot dep))
            patternSummarized :=
              if (s.patternSummarized.lookup (patternKey actionName dep.ID)).getD false then
                s.patternSummarized
              else mapSet s.patternSummarized (patternKey actionName dep.ID) true }) := by
      unfold getOrCompilePattern
      simp only [hmiss]
    rw [e]
    refine ⟨rfl, rfl, ?_⟩
    intro first rest ht hch
    simp only [dependencyRoot, ht, hch, if_true]

theorem pattern_compile_memoised_witness :
    NewScheduler.patternCache.lookup (patternKey "ActionA" demoDependency.ID) = none ∧
    (getOrCompilePattern NewScheduler "ActionA" demoDependency).1 =
      .mk "" "Alpha" "Set" [] [] [] ∧
    (getOrCompilePattern (getOrCompilePattern NewScheduler "ActionA" demoDependency).2
      "ActionA" demoDependency).1 = .mk "" "Alpha" "Set" [] [] [] := by
  have h := pattern_compile_memoised NewScheduler "ActionA" demoDependency
  have hm : NewScheduler.patternCache.lookup (patternKey "ActionA" demoDependency.ID) = none :=
    rfl
  have h1 := (h.2.2.2.2 hm).2.2 _ _ rfl rfl
  refine ⟨hm, ?_, ?_⟩
  · rw [h1]; rfl
  · rw [h.1, h1]; rfl

theorem digitChar_inj : ∀ a < 10, ∀ b < 10, Nat.digitChar a = Nat.digitChar b → a = b := by
  decide

theorem digitChar_plain : ∀ a < 10, Nat.digitChar a ≠ '|' ∧ Nat.digitChar a ≠ '-' := by
  decide

theorem toDigitsCore_eq (fuel : Nat) :
    ∀ n ds, n < fuel → Nat.toDigitsCore 10 fuel n ds =
      (if n = 0 then ['0'] else (Nat.digits 10 n).reverse.map Nat.digitChar) ++ ds := by
  induction fuel with
  | zero => intro n ds h; exact absurd h (Nat.not_lt_zero _)
  | succ fuel ih =>
    intro n ds h
    simp only [Nat.toDigitsCore]
    by_cases hq : n / 10 = 0
    · rw [if_pos hq]
      have hlt : n < 10 := by omega
      by_cases h0 : n = 0
      · subst h0
        rfl
      · rw [if_neg h0, Nat.digits_of_lt 10 n h0 hlt, Nat.mod_eq_of_lt hlt]
        rfl
    · rw [if_neg hq]
      have hlt : n / 10 < fuel := by omega
      have h0 : n ≠ 0 := by
        intro e
        subst e
        exact hq rfl
      rw [ih _ _ hlt, if_neg hq, if_neg h0,
        Nat.digits_def' (by decide : 1 < 10) (Nat.pos_of_ne_zero h0)]
      simp

theorem toDigits_eq (n : Nat) :
    Nat.toDigits 10 n =
      if n = 0 then ['0'] else (Nat.digits 10 n).reverse.map Nat.digitChar := by
  unfold Nat.toDigits
  rw [toDigitsCore_eq (n + 1) n [] (Nat.lt_succ_self n), List.append_nil]

theorem map_digitChar_inj (l1 l2 : List Nat) (h1 : ∀ x ∈ l1, x < 10) (h2 : ∀ x ∈ l2, x < 10)
    (h : l1.map Nat.digitChar = l2.map Nat.digitChar) : l1 = l2 := by
  induction l1 generalizing l2 with
  | nil =>
    cases l2 with
    | nil => rfl
    | cons y ys => simp at h
  | cons x xs ih =>
    cases l2 with
    | nil => simp at h
    | cons y ys =>
      simp only [List.map_cons, List.cons.injEq] at h
      have e1 := digitChar_inj x (h1 x (by simp)) y (h2 y (by simp)) h.1
      have e2 := ih ys (fun z hz => h1 z (by simp [hz])) (fun z hz => h2 z (by simp [hz])) h.2
      rw [e1, e2]

theorem toDigits_plain (n : Nat) : ∀ c ∈ Nat.toDigits 10 n, c ≠ '|' ∧ c ≠ '-' := by
  intro c hc
  rw [toDigits_eq] at hc
  split at hc
  · simp only [List.mem_singleton] at hc
    subst hc
    decide
  · simp only [List.mem_map, List.mem_reverse] at hc
    obtain ⟨d, hd, rfl⟩ := hc
    exact digitChar_plain d (Nat.digits_lt_base (by decide) hd)

theorem toDigits_inj (n m : Nat) (h : Nat.toDigits 10 n = Nat.toDigits 10 m) : n = m := by
  have key : ∀ a b : Nat, a = 0 → b ≠ 0 → Nat.toDigits 10 a ≠ Nat.toDigits 10 b := by
    intro a b ha hb e
    rw [toDigits_eq, toDigits_eq, if_pos ha, if_neg hb] at e
    have hne : Nat.digits 10 b ≠ [] := Nat.digits_ne_nil_iff_ne_zero.2 hb
    have hlast := Nat.getLast_digit_ne_zero 10 hb
    have hlen : (Nat.digits 10 b).length = 1 := by
      have := congrArg List.length e
      simpa using this.symm
    obtain ⟨d, hd⟩ := List.length_eq_one.1 hlen
    simp only [hd, List.getLast_singleton] at hlast
    rw [hd] at e
    simp only [List.reverse_singleton, List.map_cons, List.map_nil, List.cons.injEq,
      and_true] at e
    have hd10 : d < 10 := Nat.digits_lt_base (by decide) (by rw [hd]; simp)
    exact hlast (digitChar_inj d hd10 0 (by decide) e.symm)
  by_cases hn : n = 0
  · by_cases hm : m = 0
    · rw [hn, hm]
    · exact absurd h (key n m hn hm)
  · by_cases hm : m = 0
    · exact absurd h.symm (key m n hm hn)
    · rw [toDigits_eq, toDigits_eq, if_neg hn, if_neg hm] at h
      have h2 := map_digitChar_inj _ _
        (fun x hx => Nat.digits_lt_base (by decide) (List.mem_reverse.1 hx))
        (fun x hx => Nat.digits_lt_base (by decide) (List.mem_reverse.1 hx)) h
      exact Nat.digits_inj_iff.1 (List.reverse_injective h2)

theorem Itoa_ofNat (m : Nat) : (Itoa (Int.ofNat m)).toList = Nat.toDigits 10 m := rfl

theorem Itoa_negSucc (m : Nat) :
    (Itoa (Int.negSucc m)).toList = '-' :: Nat.toDigits 10 (m + 1) := by
  show ("-" ++ Nat.repr (m + 1)).toList = _
  rw [toList_append]
  rfl

theorem Itoa_plain (i : Int) : '|' ∉ (Itoa i).toList := by
  intro h
  cases i with
  | ofNat m =>
    rw [Itoa_ofNat] at h
    exact (toDigits_plain m _ h).1 rfl
  | negSucc m =>
    rw [Itoa_negSucc] at h
    rcases List.mem_cons.1 h with h2 | h2
    · exact absurd h2 (by decide)
    · exact (toDigits_plain _ _ h2).1 rfl

theorem Itoa_inj (i j : Int) (h : Itoa i = Itoa j) : i = j := by
  have h2 := congrArg String.toList h
  cases i with
  | ofNat m =>
    cases j with
    | ofNat k =>
      rw [Itoa_ofNat, Itoa_ofNat] at h2
      rw [toDigits_inj m k h2]
    | negSucc k =>
      exfalso
      rw [Itoa_ofNat, Itoa_negSucc] at h2
      exact (toDigits_plain m '-' (by rw [h2]; simp)).2 rfl
  | negSucc m =>
    cases j with
    | ofNat k =>
      exfalso
      rw [Itoa_ofNat, Itoa_negSucc] at h2
      exact (toDigits_plain k '-' (by rw [← h2]; simp)).2 rfl
    | negSucc k =>
      rw [Itoa_negSucc, Itoa_negSucc] at h2
      simp only [List.cons.injEq, true_and] at h2
      have := toDigits_inj _ _ h2
      have e : m = k := by omega
      rw [e]

theorem patternKey_inj (a1 a2 : String) (d1 d2 : Int)
    (h : patternKey a1 d1 = patternKey a2 d2) : a1 = a2 ∧ d1 = d2 := by
  have h2 := congrArg String.toList h
  unfold patternKey at h2
  simp only [toList_append] at h2
  have e : "|".toList = ['|'] := rfl
  rw [e] at h2
  simp only [List.append_assoc, List.singleton_append] at h2
  have h3 := append_cons_unique_last h2 (Itoa_plain d1) (Itoa_plain d2)
  exact ⟨toList_inj h3.1, Itoa_inj _ _ (toList_inj h3.2)⟩

theorem lookup_mapDelete_self {β : Type} (m : List (String × β)) (k : String) :
    (mapDelete m k).lookup k = none := by
  unfold mapDelete
  induction m with
  | nil => rfl
  | cons kv rest ih =>
    obtain ⟨k2, v2⟩ := kv
    by_cases h : k2 = k
    · simp only [List.filter, h, bne_self_eq_false]
      exact ih
    · have h2 : (k2 != k) = true := by simpa using h
      have h3 : (k == k2) = false := by simpa using fun e : k = k2 => h e.symm
      simp only [List.filter, h2, List.lookup, h3]
      exact ih

theorem lookup_mapDelete_other {β : Type} (m : List (String × β)) (k k2 : String)
    (h : k2 ≠ k) : (mapDelete m k).lookup k2 = m.lookup k2 := by
  unfold mapDelete
  induction m with
  | nil => rfl
  | cons kv rest ih =>
    obtain ⟨k3, v3⟩ := kv
    by_cases h3 : k3 = k
    · have h4 : (k2 == k3) = false := by simpa [h3] using h
      simp only [List.filter, h3, bne_self_eq_false, List.lookup]
      rw [← h3, h4]
      rw [h3]
      exact ih
    · have h2 : (k3 != k) = true := by simpa using h3
      simp only [List.filter, h2, List.lookup]
      rw [ih]

theorem getOrCompilePattern_miss (s : Scheduler) (actionName : String) (dep : TransportEntity)
    (h : s.patternCache.lookup (patternKey actionName dep.ID) = none) :
    (getOrCompilePattern s actionName dep).1 = compilePatternNode (dependencyRoot dep) := by
  unfold getOrCompilePattern
  simp only [h]

theorem getOrCompilePattern_congr (s1 s2 : Scheduler) (actionName : String)
    (dep : TransportEntity)
    (h : s1.patternCache.lookup (patternKey actionName dep.ID) =
      s2.patternCache.lookup (patternKey actionName dep.ID)) :
    (getOrCompilePattern s1 actionName dep).1 = (getOrCompilePattern s2 actionName dep).1 := by
  unfold getOrCompilePattern
  simp only [h]
  cases s2.patternCache.lookup (patternKey actionName dep.ID) <;> rfl

/-- C13: cache invalidation is exact. `InvalidatePattern(action, depID)` removes
the cached pattern of that pair, so the next `getOrCompilePattern` for it compiles
the dependency tree it is given; the cached pattern of every other pair, and what
`getOrCompilePattern` returns for it, is unchanged; the counters are unchanged;
and the cache key is injective on (action name, dependency ID), whatever the
action names contain. -/
theorem invalidate_pattern_exact (s : Scheduler) (actionName : String) (depID : Int) :
    (InvalidatePattern s actionName depID).patternCache.lookup
      (patternKey actionName depID) = none ∧
    (∀ dep : TransportEntity, dep.ID = depID →
      (getOrCompilePattern (InvalidatePattern s actionName depID) actionName dep).1 =
        compilePatternNode (dependencyRoot dep)) ∧
    (∀ (a2 : String) (d2 : Int), (a2, d2) ≠ (actionName, depID) →
      (InvalidatePattern s actionName depID).patternCache.lookup (patternKey a2 d2) =
        s.patternCache.lookup (patternKey a2 d2)) ∧
    (∀ (a2 : String) (dep2 : TransportEntity), (a2, dep2.ID) ≠ (actionName, depID) →
      (getOrCompilePattern (InvalidatePattern s actionName depID) a2 dep2).1 =
        (getOrCompilePattern s a2 dep2).1) ∧
    (InvalidatePattern s actionName depID).patternHits = s.patternHits ∧
    (InvalidatePattern s actionName depID).patternMisses = s.patternMisses ∧
    (∀ (a1 a2 : String) (d1 d2 : Int), patternKey a1 d1 = patternKey a2 d2 →
      a1 = a2 ∧ d1 = d2) := by
  have hother : ∀ (a2 : String) (d2 : Int), (a2, d2) ≠ (actionName, depID) →
      (InvalidatePattern s actionName depID).patternCache.lookup (patternKey a2 d2) =
        s.patternCache.lookup (patternKey a2 d2) := by
    intro a2 d2 hne
    apply lookup_mapDelete_other
    intro e
    have := patternKey_inj _ _ _ _ e
    exact hne (by rw [this.1, this.2])
  refine ⟨lookup_mapDelete_self _ _, ?_, hother, ?_, rfl, rfl, patternKey_inj⟩
  · intro dep hd
    apply getOrCompilePattern_miss
    rw [hd]
    exact lookup_mapDelete_self _ _
  · intro a2 dep2 hne
    exact getOrCompilePattern_congr _ _ _ _ (hother a2 dep2.ID hne)

theorem invalidate_pattern_exact_witness :
    (("A", (12 : Int)) ≠ ("A|1", (2 : Int))) ∧
    patternKey "A|1" 2 = "A|1|2" ∧ patternKey "A" 12 = "A|12" ∧
    (InvalidatePattern
      ⟨[("A|1|2", compilePatternNode demoDependency), ("A|12", compilePatternNode demoAlpha)],
        0, 2, []⟩ "A|1" 2).patternCache =
      [("A|12", compilePatternNode demoAlpha)] ∧
    (InvalidatePattern
      ⟨[("A|1|2", compilePatternNode demoDependency), ("A|12", compilePatternNode demoAlpha)],
        0, 2, []⟩ "A|1" 2).patternCache.lookup (patternKey "A" 12) =
      some (compilePatternNode demoAlpha) := by
  have hne : ("A", (12 : Int)) ≠ ("A|1", (2 : Int)) := by decide
  have h := (invalidate_pattern_exact
    ⟨[("A|1|2", compilePatternNode demoDependency), ("A|12", compilePatternNode demoAlpha)],
      0, 2, []⟩ "A|1" 2).2.2.1 "A" 12 hne
  refine ⟨hne, by decide, by decide, rfl, ?_⟩
  rw [h]
  rfl

theorem collectFilterStep_mem (filters : List String) (kv : String × String) (x : String)
    (h : x ∈ collectFilterStep filters kv) :
    x ∈ filters ∨ (startsWith kv.1 "Filter." = true ∧ endsWith kv.1 ".Field" = true ∧
      (x = kv.2 ∨ x = trimStart kv.2 "Properties.")) := by
  unfold collectFilterStep at h
  by_cases hc : (startsWith kv.1 "Filter." && endsWith kv.1 ".Field") = true
  · have hc2 := hc
    simp only [Bool.and_eq_true] at hc2
    rw [if_pos hc] at h
    simp only at h
    split at h
    · split at h
      · simp only [List.mem_append, List.mem_singleton] at h
        rcases h with (h | h) | h
        · exact Or.inl h
        · exact Or.inr ⟨hc2.1, hc2.2, Or.inl h⟩
        · exact Or.inr ⟨hc2.1, hc2.2, Or.inr h⟩
      · simp only [List.mem_append, List.mem_singleton] at h
        rcases h with h | h
        · exact Or.inl h
        · exact Or.inr ⟨hc2.1, hc2.2, Or.inl h⟩
    · simp only [List.mem_append, List.mem_singleton] at h
      rcases h with h | h
      · exact Or.inl h
      · exact Or.inr ⟨hc2.1, hc2.2, Or.inl h⟩
  · rw [if_neg hc] at h
    exact Or.inl h

theorem foldl_collectFilterStep_mem (p : StringMap) (x : String) :
    ∀ filters, x ∈ p.foldl collectFilterStep filters →
      x ∈ filters ∨ ∃ kv ∈ p, startsWith kv.1 "Filter." = true ∧
        endsWith kv.1 ".Field" = true ∧ (x = kv.2 ∨ x = trimStart kv.2 "Properties.") := by
  induction p with
  | nil => intro filters h; exact Or.inl h
  | cons kv rest ih =>
    intro filters h
    rw [List.foldl_cons] at h
    rcases ih _ h with h2 | ⟨kv2, hk, h2⟩
    · rcases collectFilterStep_mem _ _ _ h2 with h3 | h3
      · exact Or.inl h3
      · exact Or.inr ⟨kv, List.mem_cons_self _ _, h3⟩
    · exact Or.inr ⟨kv2, List.mem_cons_of_mem _ hk, h2⟩

theorem FilterField_child (e : TransportEntity) (r : TransportRelation)
    (hr : r ∈ e.ChildRelations ∨ r ∈ e.ParentRelations) (field : String)
    (h : FilterField r.Target field) : FilterField e field := by
  obtain ⟨n, hn, rest⟩ := h
  refine ⟨n, ?_, rest⟩
  rw [rWalkInput_eq]
  apply List.mem_cons_of_mem
  rw [List.mem_append, List.mem_flatMap, List.mem_flatMap]
  rcases hr with hr | hr
  · exact Or.inl ⟨r, hr, hn⟩
  · exact Or.inr ⟨r, hr, hn⟩

theorem rCollectFiltersLoop_mem (rs : List TransportRelation) (x : String)
    (hrs : ∀ r ∈ rs, ∀ filters, x ∈ rCollectFilters (TransportRelation.Target r) filters →
      x ∈ filters ∨ ∃ field, FilterField r.Target field ∧
        (x = field ∨ x = trimStart field "Properties.")) :
    ∀ filters, x ∈ rCollectFiltersLoop rs filters →
      x ∈ filters ∨ ∃ r ∈ rs, ∃ field, FilterField r.Target field ∧
        (x = field ∨ x = trimStart field "Properties.") := by
  induction rs with
  | nil => intro filters h; exact Or.inl h
  | cons r rest ih =>
    intro filters h
    obtain ⟨rc, rp, tgt⟩ := r
    unfold rCollectFiltersLoop at h
    rcases ih (fun r2 hr2 => hrs r2 (List.mem_cons_of_mem _ hr2)) _ h with h2 | ⟨r2, hr2, h2⟩
    · rcases hrs _ (List.mem_cons_self _ _) _ h2 with h3 | h3
      · exact Or.inl h3
      · exact Or.inr ⟨_, List.mem_cons_self _ _, h3⟩
    · exact Or.inr ⟨r2, List.mem_cons_of_mem _ hr2, h2⟩

theorem rCollectFilters_mem (e : TransportEntity) (x : String) :
    ∀ filters, x ∈ rCollectFilters e filters →
      x ∈ filters ∨ ∃ field, FilterField e field ∧
        (x = field ∨ x = trimStart field "Properties.") := by
  induction e using transportEntity_induct with
  | h t i v c p crs prs ihc ihp =>
    intro filters h
    unfold rCollectFilters at h
    rcases rCollectFiltersLoop_mem prs x ihp _ h with h2 | ⟨r, hr, f, hf, hx⟩
    · rcases rCollectFiltersLoop_mem crs x ihc _ h2 with h3 | ⟨r, hr, f, hf, hx⟩
      · rcases foldl_collectFilterStep_mem p x _ h3 with h4 | ⟨kv, hkv, h5, h6, h7⟩
        · exact Or.inl h4
        · refine Or.inr ⟨kv.2, ⟨.mk t i v c p crs prs, ?_, kv, hkv, h5, h6, rfl⟩, h7⟩
          rw [rWalkInput_eq]
          exact List.mem_cons_self _ _
      · exact Or.inr ⟨f, FilterField_child (.mk t i v c p crs prs) r (Or.inl hr) f hf, hx⟩
    · exact Or.inr ⟨f, FilterField_child (.mk t i v c p crs prs) r (Or.inr hr) f hf, hx⟩

theorem hasRelevantFilter_irrelevant (requirement : TransportEntity) (marker : String)
    (h : IrrelevantMarker requirement marker) : hasRelevantFilter requirement marker = false := by
  unfold hasRelevantFilter
  rw [Bool.eq_false_iff]
  intro hc
  simp only [List.any_eq_true, List.contains_iff_exists_mem_beq, beq_iff_eq] at hc
  obtain ⟨key, hkey, x, hx, hkx⟩ := hc
  subst hkx
  rcases rCollectFilters_mem requirement _ [] hx with h2 | ⟨field, hf, h3⟩
  · cases h2
  · have hk : trimSpace key ∈ markerKeys marker := List.mem_map.2 ⟨key, hkey, rfl⟩
    obtain ⟨n, hn, kv, hkv, h4, h5, rfl⟩ := hf
    have := h _ hk n hn kv hkv h4 h5
    rcases h3 with h3 | h3
    · exact this.1 h3
    · exact this.2 h3

theorem hasRelevantFilter_noFilter (requirement : TransportEntity) (marker : String)
    (h : NoFilter requirement) : hasRelevantFilter requirement marker = false :=
  hasRelevantFilter_irrelevant requirement marker
    (fun _ _ n hn kv hkv h4 h5 => absurd ⟨h4, h5⟩ (h n hn kv hkv))

theorem processInput_names {W : Type} (C : Collaborators W) (updatedIDs : List Int)
    (anchor : TransportEntity) (ad : String × String) (requirement : TransportEntity)
    (st : RunState W) (input : TransportEntity) :
    ∀ j ∈ (processInput C updatedIDs anchor ad requirement st input).jobs,
      j ∈ st.jobs ∨ (j.Action = C.GetName ad.1 ∧ j.Requirement = ad.2) := by
  intro j hj
  unfold processInput at hj
  split at hj
  · exact Or.inl hj
  · split at hj
    · exact Or.inl hj
    · simp only [] at hj
      split at hj
      · rw [isDuplicateByWitness_jobs] at hj
        exact Or.inl hj
      · simp only [List.mem_append, List.mem_singleton, isDuplicateByWitness_jobs] at hj
        rcases hj with hj | hj
        · exact Or.inl hj
        · subst hj
          exact Or.inr ⟨rfl, rfl⟩

/-- A job that `processCandidate` adds carries the names of the candidate, and the
candidate was not skipped by the relevance filter. -/
theorem processCandidate_origin {W : Type} (C : Collaborators W) (batchBMapValue : String)
    (updatedIDs : List Int) (anchor : TransportEntity) (lp : LookupPointer)
    (st : RunState W) (ad : String × String) :
    ∀ j ∈ (processCandidate C batchBMapValue updatedIDs anchor lp st ad).jobs,
      j ∈ st.jobs ∨ (j.Action = C.GetName ad.1 ∧ j.Requirement = ad.2 ∧
        (batchBMapValue = "" ∨
          hasRelevantFilter (C.GetDependencyByName ad.1 ad.2) batchBMapValue = true)) := by
  intro j hj
  unfold processCandidate at hj
  split at hj
  · exact Or.inl hj
  · simp only [] at hj
    split at hj
    · exact Or.inl hj
    · split at hj
      · exact Or.inl hj
      · next hrel =>
        have hrel2 : batchBMapValue = "" ∨
            hasRelevantFilter (C.GetDependencyByName ad.1 ad.2) batchBMapValue = true := by
          by_cases hb : batchBMapValue = ""
          · exact Or.inl hb
          · right
            by_contra hc
            exact hrel ⟨hb, by simpa using hc⟩
        split at hj
        · exact Or.inl hj
        · rcases foldl_jobs _ (fun _ j => j.Action = C.GetName ad.1 ∧ j.Requirement = ad.2) _
              (fun st2 x _ => processInput_names C updatedIDs anchor ad _ st2 x) _ j hj with
              h | ⟨_, _, h⟩
          · exact Or.inl h
          · exact Or.inr ⟨h.1, h.2, hrel2⟩

/-- A candidate that the relevance filter skips adds no job. -/
theorem processCandidate_irrelevant {W : Type} (C : Collaborators W) (batchBMapValue : String)
    (updatedIDs : List Int) (anchor : TransportEntity) (lp : LookupPointer)
    (st : RunState W) (ad : String × String) (hm : batchBMapValue ≠ "")
    (hr : hasRelevantFilter (C.GetDependencyByName ad.1 ad.2) batchBMapValue = false) :
    (processCandidate C batchBMapValue updatedIDs anchor lp st ad).jobs = st.jobs ∧
    (processCandidate C batchBMapValue updatedIDs anchor lp st ad).witnesses = st.witnesses ∧
    (processCandidate C batchBMapValue updatedIDs anchor lp st ad).world = st.world := by
  unfold processCandidate
  split
  · exact ⟨rfl, rfl, rfl⟩
  · simp only []
    split
    · exact ⟨rfl, rfl, rfl⟩
    · rw [if_pos ⟨hm, hr⟩]
      exact ⟨rfl, rfl, rfl⟩

theorem overlayProcessAnchors_origin {W : Type} (C : Collaborators W) (st : RunState W)
    (anchors : List TransportEntity) (actionsAndDependencies : List (String × String))
    (batch : TransportEntity) (newRelationStructures : RelationStructures) :
    ∀ j ∈ (overlayProcessAnchors C st anchors actionsAndDependencies batch
        newRelationStructures).jobs,
      j ∈ st.jobs ∨ ∃ ad ∈ actionsAndDependencies,
        j.Action = C.GetName ad.1 ∧ j.Requirement = ad.2 ∧
        (mapGet batch.Properties "bMap" = "" ∨
          hasRelevantFilter (C.GetDependencyByName ad.1 ad.2)
            (mapGet batch.Properties "bMap") = true) := by
  intro j hj
  unfold overlayProcessAnchors at hj
  have hstep : ∀ (st2 : RunState W) (anchor : TransportEntity), anchor ∈ anchors →
      ∀ j2 ∈ (processAnchor C (mapGet batch.Properties "bMap")
          (collectUpdatedEntityIDs batch newRelationStructures) actionsAndDependencies
          st2 anchor).jobs,
        j2 ∈ st2.jobs ∨ ∃ ad ∈ actionsAndDependencies,
          j2.Action = C.GetName ad.1 ∧ j2.Requirement = ad.2 ∧
          (mapGet batch.Properties "bMap" = "" ∨
            hasRelevantFilter (C.GetDependencyByName ad.1 ad.2)
              (mapGet batch.Properties "bMap") = true) := by
    intro st2 anchor _ j2 hj2
    unfold processAnchor at hj2
    exact foldl_jobs _ (fun ad j => j.Action = C.GetName ad.1 ∧ j.Requirement = ad.2 ∧
        (mapGet batch.Properties "bMap" = "" ∨
          hasRelevantFilter (C.GetDependencyByName ad.1 ad.2)
            (mapGet batch.Properties "bMap") = true))
      actionsAndDependencies
      (fun st3 ad _ => processCandidate_origin C _ _ anchor _ st3 ad) st2 j2 hj2
  rcases foldl_jobs _ (fun _ j => ∃ ad ∈ actionsAndDependencies,
      j.Action = C.GetName ad.1 ∧ j.Requirement = ad.2 ∧
      (mapGet batch.Properties "bMap" = "" ∨
        hasRelevantFilter (C.GetDependencyByName ad.1 ad.2)
          (mapGet batch.Properties "bMap") = true))
    anchors hstep st j hj with h | ⟨_, _, h⟩
  · exact Or.inl h
  · exact Or.inr h

/-- Every job that `Run` creates is created for a candidate of the batch that the
relevance filter did not skip. -/
theorem Run_origin {W : Type} (C : Collaborators W) (st : RunState W)
    (data : TransportEntity) :
    ∀ j ∈ (Run C st data).jobs,
      j ∈ st.jobs ∨ ∃ ad ∈ (discoverCandidates C st.world data).2,
        j.Action = C.GetName ad.1 ∧ j.Requirement = ad.2 ∧
        (mapGet data.Properties "bMap" = "" ∨
          hasRelevantFilter (C.GetDependencyByName ad.1 ad.2)
            (mapGet data.Properties "bMap") = true) := by
  intro j hj
  unfold Run at hj
  split at hj
  · exact Or.inl hj
  · simp only [] at hj
    split at hj
    · exact Or.inl hj
    · exact overlayProcessAnchors_origin C { st with world := (discoverCandidates C st.world data).1 }
        _ _ data _ j hj

theorem foldl_jobs_unchanged {W α : Type} (f : RunState W → α → RunState W) (l : List α)
    (hstep : ∀ st x, x ∈ l → (f st x).jobs = st.jobs) :
    ∀ st, (l.foldl f st).jobs = st.jobs := by
  induction l with
  | nil => intro st; rfl
  | cons x xs ih =>
    intro st
    rw [List.foldl_cons, ih (fun st2 y hy => hstep st2 y (List.mem_cons_of_mem _ hy)),
      hstep st x (List.mem_cons_self _ _)]

/-- When the relevance filter skips every candidate of the batch, `Run` adds no
job. -/
theorem Run_all_irrelevant {W : Type} (C : Collaborators W) (st : RunState W)
    (data : TransportEntity) (hm : mapGet data.Properties "bMap" ≠ "")
    (hall : ∀ ad ∈ (discoverCandidates C st.world data).2,
      hasRelevantFilter (C.GetDependencyByName ad.1 ad.2) (mapGet data.Properties "bMap") =
        false) :
    (Run C st data).jobs = st.jobs := by
  unfold Run
  split
  · rfl
  · simp only []
    split
    · rfl
    · unfold overlayProcessAnchors
      rw [foldl_jobs_unchanged]
      intro st2 anchor _
      unfold processAnchor
      rw [foldl_jobs_unchanged]
      intro st3 ad had
      exact (processCandidate_irrelevant C _ _ anchor _ st3 ad hm (hall ad had)).1

/-- C14: irrelevant updates schedule nothing. When the batch root carries a
non-empty change marker and none of the marker's comma-separated, trimmed keys
equals a filter Field of the dependency of a candidate, neither raw nor with a
leading `Properties.` removed, then processing that candidate creates no job for
any anchor; every job that `Run` creates comes from a candidate with another
dependency; and `Run` creates no job at all when every candidate has that
dependency. This holds in every mode of the dependency, so in Match mode. -/
theorem irrelevant_update_schedules_nothing {W : Type} (C : Collaborators W)
    (st : RunState W) (data : TransportEntity) (ad : String × String)
    (hm : mapGet data.Properties "bMap" ≠ "")
    (hirr : IrrelevantMarker (C.GetDependencyByName ad.1 ad.2)
      (mapGet data.Properties "bMap")) :
    (∀ (anchor : TransportEntity) (lp : LookupPointer) (st2 : RunState W),
      (processCandidate C (mapGet data.Properties "bMap")
        (collectUpdatedEntityIDs data (rFilterRelationStructures data [])) anchor lp st2
        ad).jobs = st2.jobs) ∧
    (∀ j ∈ (Run C st data).jobs, j ∈ st.jobs ∨
      ∃ ad2 ∈ (discoverCandidates C st.world data).2,
        C.GetDependencyByName ad2.1 ad2.2 ≠ C.GetDependencyByName ad.1 ad.2 ∧
        j.Action = C.GetName ad2.1 ∧ j.Requirement = ad2.2) ∧
    ((∀ ad2 ∈ (discoverCandidates C st.world data).2,
        C.GetDependencyByName ad2.1 ad2.2 = C.GetDependencyByName ad.1 ad.2) →
      (Run C st data).jobs = st.jobs) := by
  have hr := hasRelevantFilter_irrelevant _ _ hirr
  refine ⟨?_, ?_, ?_⟩
  · intro anchor lp st2
    exact (processCandidate_irrelevant C _ _ anchor lp st2 ad hm hr).1
  · intro j hj
    rcases Run_origin C st data j hj with h | ⟨ad2, had2, h1, h2, h3⟩
    · exact Or.inl h
    · refine Or.inr ⟨ad2, had2, ?_, h1, h2⟩
      intro e
      rcases h3 with h3 | h3
      · exact hm h3
      · rw [e, hr] at h3
        cases h3
  · intro hall
    apply Run_all_irrelevant C st data hm
    intro ad2 had2
    rw [hall ad2 had2]
    exact hr

theorem irrelevant_update_schedules_nothing_witness :
    mapGet irrelevantUpdate.Properties "bMap" ≠ "" ∧
    IrrelevantMarker (matchStore.GetDependencyByName "ActionB" "delta")
      (mapGet irrelevantUpdate.Properties "bMap") ∧
    (discoverCandidates matchStore [] irrelevantUpdate).2 = [("ActionB", "delta")] ∧
    (Run matchStore (RunState.init NewScheduler []) irrelevantUpdate).jobs = [] ∧
    (Run matchStore (RunState.init NewScheduler []) relevantUpdate).jobs.length = 1 := by
  have hm : mapGet irrelevantUpdate.Properties "bMap" ≠ "" := by decide
  have hirr : IrrelevantMarker (matchStore.GetDependencyByName "ActionB" "delta")
      (mapGet irrelevantUpdate.Properties "bMap") := by decide
  exact ⟨hm, hirr, by decide,
    (irrelevant_update_schedules_nothing matchStore (RunState.init NewScheduler [])
      irrelevantUpdate ("ActionB", "delta") hm hirr).2.2 (fun _ _ => rfl), by decide⟩

/-- C16: a dependency without filter is not scheduled by a property update. When
the dependency of a candidate declares no filter at all and the batch root carries
a non-empty change marker, then processing that candidate creates no job for any
anchor; every job that `Run` creates comes from a candidate with another
dependency; and `Run` creates no job at all when every candidate has that
dependency. -/
theorem unfiltered_dependency_update_schedules_nothing {W : Type} (C : Collaborators W)
    (st : RunState W) (data : TransportEntity) (ad : String × String)
    (hm : mapGet data.Properties "bMap" ≠ "")
    (hnf : NoFilter (C.GetDependencyByName ad.1 ad.2)) :
    (∀ (anchor : TransportEntity) (lp : LookupPointer) (st2 : RunState W),
      (processCandidate C (mapGet data.Properties "bMap")
        (collectUpdatedEntityIDs data (rFilterRelationStructures data [])) anchor lp st2
        ad).jobs = st2.jobs) ∧
    (∀ j ∈ (Run C st data).jobs, j ∈ st.jobs ∨
      ∃ ad2 ∈ (discoverCandidates C st.world data).2,
        C.GetDependencyByName ad2.1 ad2.2 ≠ C.GetDependencyByName ad.1 ad.2 ∧
        j.Action = C.GetName ad2.1 ∧ j.Requirement = ad2.2) ∧
    ((∀ ad2 ∈ (discoverCandidates C st.world data).2,
        C.GetDependencyByName ad2.1 ad2.2 = C.GetDependencyByName ad.1 ad.2) →
      (Run C st data).jobs = st.jobs) := by
  have hr := hasRelevantFilter_noFilter _ (mapGet data.Properties "bMap") hnf
  refine ⟨?_, ?_, ?_⟩
  · intro anchor lp st2
    exact (processCandidate_irrelevant C _ _ anchor lp st2 ad hm hr).1
  · intro j hj
    rcases Run_origin C st data j hj with h | ⟨ad2, had2, h1, h2, h3⟩
    · exact Or.inl h
    · refine Or.inr ⟨ad2, had2, ?_, h1, h2⟩
      intro e
      rcases h3 with h3 | h3
      · exact hm h3
      · rw [e, hr] at h3
        cases h3
  · intro hall
    apply Run_all_irrelevant C st data hm
    intro ad2 had2
    rw [hall ad2 had2]
    exact hr

theorem unfiltered_dependency_update_schedules_nothing_witness :
    mapGet demoUpdated.Properties "bMap" ≠ "" ∧
    NoFilter (demoStore.GetDependencyByName "ActionA" "alpha") ∧
    (discoverCandidates demoStore [] demoUpdated).2 = [("ActionA", "alpha")] ∧
    (Run demoStore (RunState.init NewScheduler []) demoUpdated).jobs = [] ∧
    (Run demoStore (RunState.init NewScheduler []) demoCreated).jobs.length = 1 := by
  have hm : mapGet demoUpdated.Properties "bMap" ≠ "" := by decide
  have hnf : NoFilter (demoStore.GetDependencyByName "ActionA" "alpha") := by decide
  exact ⟨hm, hnf, by decide,
    (unfiltered_dependency_update_schedules_nothing demoStore (RunState.init NewScheduler [])
      demoUpdated ("ActionA", "alpha") hm hnf).2.2 (fun _ _ => rfl), by decide⟩

/-- C15, as stated, fails in both directions. On `itemStore`, in the batch
`taggedItemBatch` the only anchor is Item 2, whose own marker `Tag` is non-empty and
lists no filter field of the Match-mode dependency, yet the pair is not skipped and
a job is created; and in the batch `taggedBucketBatch` the anchor Item 3 has an
empty marker of its own, yet the relevance filter skips the pair (under the marker
`Tag` of the batch root no job is created, under an empty marker one is). -/
theorem relevance_not_per_anchor :
    ((runAnchors taggedItemBatch).map (fun e => (e.Typ, e.ID, mapGet e.Properties "bMap")) =
        [("Item", 2, "Tag")] ∧
      IrrelevantMarker (itemStore.GetDependencyByName "ActionC" "bucketItem") "Tag" ∧
      (Run itemStore (RunState.init NewScheduler []) taggedItemBatch).jobs.length = 1) ∧
    (mapHas createdItem.Properties "bMap" = true ∧ mapGet createdItem.Properties "bMap" = "" ∧
      (processCandidate itemStore (mapGet taggedBucketBatch.Properties "bMap")
        (collectUpdatedEntityIDs taggedBucketBatch
          (rFilterRelationStructures taggedBucketBatch []))
        createdItem (rEnrichLookupAndPointer createdItem ([], []))
        (RunState.init NewScheduler []) ("ActionC", "bucketItem")).jobs.length = 0 ∧
      (processCandidate itemStore ""
        (collectUpdatedEntityIDs taggedBucketBatch
          (rFilterRelationStructures taggedBucketBatch []))
        createdItem (rEnrichLookupAndPointer createdItem ([], []))
        (RunState.init NewScheduler []) ("ActionC", "bucketItem")).jobs.length = 1 ∧
      (Run itemStore (RunState.init NewScheduler []) taggedBucketBatch).jobs.length = 0) := by
  decide

/-- C15, amended: the relevance filter is decided per batch, on the marker of the
batch root. `overlayProcessAnchors` processes every (anchor, candidate) pair under
the marker of the batch root; when that marker is non-empty and none of its keys is
a raw or normalised filter field of the dependency, the pair is skipped (no job, no
Memory entity, no store call), whatever marker the anchor carries; and when that
marker is empty or absent, a pair whose compiled pattern contains the anchor type
is not skipped: its inputs are built and processed. -/
theorem relevance_filter_per_batch {W : Type} (C : Collaborators W) (st : RunState W)
    (anchors : List TransportEntity) (actionsAndDependencies : List (String × String))
    (batch : TransportEntity) (newRelationStructures : RelationStructures) :
    overlayProcessAnchors C st anchors actionsAndDependencies batch newRelationStructures =
      anchors.foldl (fun st1 anchor =>
        actionsAndDependencies.foldl
          (processCandidate C (mapGet batch.Properties "bMap")
            (collectUpdatedEntityIDs batch newRelationStructures) anchor
            (rEnrichLookupAndPointer anchor ([], []))) st1) st ∧
    (∀ (anchor : TransportEntity) (lp : LookupPointer) (st2 : RunState W)
        (ad : String × String),
      mapGet batch.Properties "bMap" ≠ "" →
      IrrelevantMarker (C.GetDependencyByName ad.1 ad.2) (mapGet batch.Properties "bMap") →
      (processCandidate C (mapGet batch.Properties "bMap")
          (collectUpdatedEntityIDs batch newRelationStructures) anchor lp st2 ad).jobs =
        st2.jobs ∧
      (processCandidate C (mapGet batch.Properties "bMap")
          (collectUpdatedEntityIDs batch newRelationStructures) anchor lp st2 ad).witnesses =
        st2.witnesses ∧
      (processCandidate C (mapGet batch.Properties "bMap")
          (collectUpdatedEntityIDs batch newRelationStructures) anchor lp st2 ad).world =
        st2.world) ∧
    (∀ (anchor : TransportEntity) (lp : LookupPointer) (st2 : RunState W)
        (ad : String × String) (root : TransportEntity) (rest : List TransportEntity),
      mapGet batch.Properties "bMap" = "" → st2.panicked = false →
      patternHasType
        (getOrCompilePattern st2.sched (C.GetName ad.1) (C.GetDependencyByName ad.1 ad.2)).1
        anchor.Typ = true →
      (C.GetDependencyByName ad.1 ad.2).Children = root :: rest →
      processCandidate C (mapGet batch.Properties "bMap")
          (collectUpdatedEntityIDs batch newRelationStructures) anchor lp st2 ad =
        (buildInputData C st2.world root lp).2.foldl
          (processInput C (collectUpdatedEntityIDs batch newRelationStructures) anchor ad
            (C.GetDependencyByName ad.1 ad.2))
          { st2 with
            sched := (getOrCompilePattern st2.sched (C.GetName ad.1)
              (C.GetDependencyByName ad.1 ad.2)).2
            world := (buildInputData C st2.world root lp).1 }) := by
  refine ⟨rfl, ?_, ?_⟩
  · intro anchor lp st2 ad hm hirr
    exact processCandidate_irrelevant C _ _ anchor lp st2 ad hm
      (hasRelevantFilter_irrelevant _ _ hirr)
  · intro anchor lp st2 ad root rest hm hp hpat hch
    apply processCandidate_fold C _ _ anchor lp st2 ad hp _ root rest hch
    intro hskip
    rcases hskip with h | h
    · rw [hpat] at h
      cases h
    · exact h.1 hm

theorem relevance_filter_per_batch_witness :
    mapGet taggedBucketBatch.Properties "bMap" ≠ "" ∧
    IrrelevantMarker (itemStore.GetDependencyByName "ActionC" "bucketItem")
      (mapGet taggedBucketBatch.Properties "bMap") ∧
    (processCandidate itemStore (mapGet taggedBucketBatch.Properties "bMap")
      (collectUpdatedEntityIDs taggedBucketBatch
        (rFilterRelationStructures taggedBucketBatch []))
      createdItem (rEnrichLookupAndPointer createdItem ([], []))
      (RunState.init NewScheduler []) ("ActionC", "bucketItem")).jobs = [] ∧
    mapGet taggedItemBatch.Properties "bMap" = "" ∧
    (processCandidate itemStore (mapGet taggedItemBatch.Properties "bMap")
      (collectUpdatedEntityIDs taggedItemBatch
        (rFilterRelationStructures taggedItemBatch []))
      taggedItem (rEnrichLookupAndPointer taggedItem ([], []))
      (RunState.init NewScheduler []) ("ActionC", "bucketItem")).jobs.length = 1 := by
  have hm : mapGet taggedBucketBatch.Properties "bMap" ≠ "" := by decide
  have hirr : IrrelevantMarker (itemStore.GetDependencyByName "ActionC" "bucketItem")
      (mapGet taggedBucketBatch.Properties "bMap") := by decide
  have h := (relevance_filter_per_batch itemStore (RunState.init NewScheduler [])
    (runAnchors taggedBucketBatch) [("ActionC", "bucketItem")] taggedBucketBatch
    (rFilterRelationStructures taggedBucketBatch [])).2.1 createdItem
    (rEnrichLookupAndPointer createdItem ([], [])) (RunState.init NewScheduler [])
    ("ActionC", "bucketItem") hm hirr
  exact ⟨hm, hirr, h.1, by decide, by decide⟩

theorem findSome?_first {α β : Type} (f : α → Option β) (l1 : List α) (a : α) (l2 : List α)
    (b : β) (h1 : ∀ x ∈ l1, f x = none) (h2 : f a = some b) :
    (l1 ++ a :: l2).findSome? f = some b := by
  induction l1 with
  | nil => simp [List.findSome?, h2]
  | cons x xs ih =>
    simp only [List.cons_append, List.findSome?, h1 x (List.mem_cons_self _ _)]
    exact ih (fun y hy => h1 y (List.mem_cons_of_mem _ hy))

theorem findSome?_none {α β : Type} (f : α → Option β) (l : List α)
    (h : ∀ x ∈ l, f x = none) : l.findSome? f = none := by
  induction l with
  | nil => rfl
  | cons x xs ih =>
    simp only [List.findSome?, h x (List.mem_cons_self _ _)]
    exact ih (fun y hy => h y (List.mem_cons_of_mem _ hy))

theorem find?_first {α : Type} (p : α → Bool) (w1 : List α) (e : α) (w2 : List α)
    (h1 : ∀ x ∈ w1, p x = false) (h2 : p e = true) :
    (w1 ++ e :: w2).find? p = some e := by
  induction w1 with
  | nil => simp [List.find?, h2]
  | cons x xs ih =>
    simp only [List.cons_append, List.find?, h1 x (List.mem_cons_self _ _)]
    exact ih (fun y hy => h1 y (List.mem_cons_of_mem _ hy))

theorem find?_none {α : Type} (p : α → Bool) (l : List α) (h : ∀ x ∈ l, p x = false) :
    l.find? p = none := by
  induction l with
  | nil => rfl
  | cons x xs ih =>
    simp only [List.find?, h x (List.mem_cons_self _ _)]
    exact ih (fun y hy => h y (List.mem_cons_of_mem _ hy))

theorem walkReqLoop_eq (rs : List TransportRelation) :
    walkReqLoop rs = rs.flatMap (fun r => walkReq r.Target) := by
  induction rs with
  | nil => rfl
  | cons r rest ih =>
    obtain ⟨c, p, t⟩ := r
    simp only [walkReqLoop, ih, List.flatMap_cons, TransportRelation.Target]

/-- The Primary types that `walkReq` collects are the Values of the Structure
nodes marked Primary in the tree. -/
theorem walkReq_mem (n : TransportEntity) (pt : String) :
    pt ∈ walkReq n ↔ ∃ m ∈ walkChildren n,
      m.Typ = "Structure" ∧ mapGet m.Properties "Type" = "Primary" ∧ m.Value = pt := by
  induction n using transportEntity_induct with
  | h t i v c p crs prs ihc _ =>
    rw [walkChildren_eq]
    unfold walkReq
    rw [walkReqLoop_eq]
    simp only [List.mem_append, List.mem_flatMap, List.mem_cons, exists_eq_or_imp,
      TransportEntity.Typ, TransportEntity.Properties, TransportEntity.Value,
      TransportEntity.ChildRelations]
    constructor
    · rintro (h | ⟨r, hr, h⟩)
      · left
        by_cases hc : t = "Structure" ∧ mapGet p "Type" = "Primary"
        · rw [if_pos hc] at h
          simp only [List.mem_singleton] at h
          exact ⟨hc.1, hc.2, h.symm⟩
        · rw [if_neg hc] at h
          cases h
      · right
        obtain ⟨m, hm, h2⟩ := (ihc r hr).1 h
        exact ⟨m, ⟨r, hr, hm⟩, h2⟩
    · rintro (⟨h1, h2, h3⟩ | ⟨m, ⟨r, hr, hm⟩, h2⟩)
      · left
        rw [if_pos ⟨h1, h2⟩]
        simp [h3]
      · right
        exact ⟨r, hr, (ihc r hr).2 ⟨m, hm, h2⟩⟩

/-- C17, as stated, fails. With the two Primary types Alpha and Beta in this
order in the dependency, the input `betaFirstInput` has a Beta entity before its
Alpha entity in pre-order, and the anchor is the Alpha entity; and for the input
`unstoredAlphaInput` the first entity of the Primary type Alpha is the root, whose
ID is 0, and the anchor is the Alpha entity with the ID 5 below it. -/
theorem select_anchor_not_first_primary :
    (walkReq (dependencyRoot twoPrimaryDependency) = ["Alpha", "Beta"] ∧
      (rWalkInput betaFirstInput).map (fun e => (e.Typ, e.ID)) =
        [("Root", 1), ("Beta", 2), ("Alpha", 3)] ∧
      (selectAnchorForInput betaFirstInput twoPrimaryDependency).Typ = "Alpha" ∧
      (selectAnchorForInput betaFirstInput twoPrimaryDependency).ID = 3) ∧
    (walkReq (dependencyRoot demoDependency) = ["Alpha"] ∧
      (rWalkInput unstoredAlphaInput).map (fun e => (e.Typ, e.ID)) =
        [("Alpha", 0), ("Alpha", 5)] ∧
      (selectAnchorForInput unstoredAlphaInput demoDependency).ID = 5) := by
  decide

/-- C17, amended: `selectAnchorForInput` goes through the Primary types of the
dependency in the pre-order of the dependency tree and returns, for the first of
them that an entity of the input with a positive ID has, the first such entity in
the pre-order of the input (child relations, then parent relations); when no
entity with a positive ID has a Primary type and the input root has a positive ID,
it returns the input root. The Primary types are the Values of the Structure nodes
marked Primary below the root Structure of the dependency. -/
theorem select_anchor_primary (input requirement : TransportEntity) :
    (∀ (l1 : List String) (pt : String) (l2 : List String) (w1 : List TransportEntity)
        (e : TransportEntity) (w2 : List TransportEntity),
      walkReq (dependencyRoot requirement) = l1 ++ pt :: l2 →
      (∀ q ∈ l1, ∀ x ∈ rWalkInput input, ¬ (x.Typ = q ∧ x.ID > 0)) →
      rWalkInput input = w1 ++ e :: w2 → e.Typ = pt → e.ID > 0 →
      (∀ x ∈ w1, ¬ (x.Typ = pt ∧ x.ID > 0)) →
      selectAnchorForInput input requirement = e) ∧
    ((∀ q ∈ walkReq (dependencyRoot requirement), ∀ x ∈ rWalkInput input,
        ¬ (x.Typ = q ∧ x.ID > 0)) →
      input.ID > 0 → selectAnchorForInput input requirement = input) ∧
    (∀ pt, pt ∈ walkReq (dependencyRoot requirement) ↔
      ∃ m ∈ walkChildren (dependencyRoot requirement),
        m.Typ = "Structure" ∧ mapGet m.Properties "Type" = "Primary" ∧ m.Value = pt) := by
  refine ⟨?_, ?_, fun pt => walkReq_mem _ pt⟩
  · intro l1 pt l2 w1 e w2 hreq hl1 hw he hid hw1
    unfold selectAnchorForInput
    simp only []
    rw [hreq, findSome?_first (fun pt => findFirstInInputByType input pt) l1 pt l2 e]
    · intro q hq
      unfold findFirstInInputByType
      apply find?_none
      intro x hx
      have := hl1 q hq x hx
      simp only [Bool.and_eq_false_iff, beq_eq_false_iff_ne, decide_eq_false_iff_not]
      by_cases hxq : x.Typ = q
      · exact Or.inr (fun h => this ⟨hxq, h⟩)
      · exact Or.inl hxq
    · unfold findFirstInInputByType
      rw [hw]
      apply find?_first
      · intro x hx
        have := hw1 x hx
        simp only [Bool.and_eq_false_iff, beq_eq_false_iff_ne, decide_eq_false_iff_not]
        by_cases hxq : x.Typ = pt
        · exact Or.inr (fun h => this ⟨hxq, h⟩)
        · exact Or.inl hxq
      · simp [he, hid]
  · intro hnone hid
    unfold selectAnchorForInput
    simp only []
    rw [findSome?_none (fun pt => findFirstInInputByType input pt)]
    · simp only [hid, if_true]
    · intro q hq
      unfold findFirstInInputByType
      apply find?_none
      intro x hx
      have := hnone q hq x hx
      simp only [Bool.and_eq_false_iff, beq_eq_false_iff_ne, decide_eq_false_iff_not]
      by_cases hxq : x.Typ = q
      · exact Or.inr (fun h => this ⟨hxq, h⟩)
      · exact Or.inl hxq

theorem select_anchor_primary_witness :
    walkReq (dependencyRoot twoPrimaryDependency) = [] ++ "Alpha" :: ["Beta"] ∧
    rWalkInput betaFirstInput =
      [betaFirstInput, .mk "Beta" 2 "b" "Data" [] [] []] ++
        .mk "Alpha" 3 "a" "Data" [] [] [] :: [] ∧
    selectAnchorForInput betaFirstInput twoPrimaryDependency =
      .mk "Alpha" 3 "a" "Data" [] [] [] := by
  have h1 : walkReq (dependencyRoot twoPrimaryDependency) = [] ++ "Alpha" :: ["Beta"] := by
    decide
  have h2 : rWalkInput betaFirstInput =
      [betaFirstInput, .mk "Beta" 2 "b" "Data" [] [] []] ++
        .mk "Alpha" 3 "a" "Data" [] [] [] :: [] := rfl
  exact ⟨h1, h2, (select_anchor_primary betaFirstInput twoPrimaryDependency).1 [] "Alpha"
    ["Beta"] _ _ [] h1 (by simp) h2 rfl (by decide) (by
      intro x hx
      simp only [List.mem_cons, List.mem_singleton, List.not_mem_nil, or_false] at hx
      rcases hx with rfl | rfl <;> decide)⟩

/-- C18, at the failing input: the dependency `siblingDependency` has the only
Primary type Item; the input `unstoredBucketInput` holds no Item, its root Bucket
has the ID 0 and its only participant with a positive ID is the Shelf with the
ID 1; the anchor returned is the root Bucket, whose ID is 0. -/
theorem select_anchor_fallback_returns_root :
    walkReq (dependencyRoot siblingDependency) = ["Item"] ∧
    (rWalkInput unstoredBucketInput).map (fun e => (e.Typ, e.ID)) =
      [("Bucket", 0), ("Shelf", 1)] ∧
    (selectAnchorForInput unstoredBucketInput siblingDependency).Typ = "Bucket" ∧
    (selectAnchorForInput unstoredBucketInput siblingDependency).ID = 0 := by
  decide

/-- C19: the witness decision. `isDuplicateByWitness` hands the mapper a Memory
entity with the ID -2, whose Value is the hex SHA-1 of the witness signature
string and whose Context is `Exec:<action>:<dependency>`; it answers false exactly
when the entity the mapper returns carries a change marker; when it carries none
(the Memory existed) the answer is true, the store is left as the mapper left it
(no link query is executed) and `processInput` creates no job; and when it carries
one, the link query is executed exactly when the anchor ID and the Memory ID are
both positive. -/
theorem witness_decision {W : Type} (C : Collaborators W) (st : RunState W)
    (actionName depName : String) (input requirement : TransportEntity) :
    (witnessEntity C actionName depName input requirement).Typ = "Memory" ∧
    (witnessEntity C actionName depName input requirement).ID = -2 ∧
    (witnessEntity C actionName depName input requirement).Value =
      C.sha1Hex (buildWitnessSignatureString C actionName depName
        (selectAnchorForInput input requirement) input) ∧
    (witnessEntity C actionName depName input requirement).Context =
      "Exec:" ++ actionName ++ ":" ++ depName ∧
    (isDuplicateByWitness C st actionName depName input requirement).1.witnesses =
      st.witnesses ++ [witnessEntity C actionName depName input requirement] ∧
    ((isDuplicateByWitness C st actionName depName input requirement).2 = false ↔
      mapHas (C.MapTransportDataWithContext st.world
        (witnessEntity C actionName depName input requirement) "System").2.Properties
        "bMap" = true) ∧
    (mapHas (C.MapTransportDataWithContext st.world
        (witnessEntity C actionName depName input requirement) "System").2.Properties
        "bMap" = false →
      (isDuplicateByWitness C st actionName depName input requirement).2 = true ∧
      (isDuplicateByWitness C st actionName depName input requirement).1.world =
        (C.MapTransportDataWithContext st.world
          (witnessEntity C actionName depName input requirement) "System").1) ∧
    (mapHas (C.MapTransportDataWithContext st.world
        (witnessEntity C actionName depName input requirement) "System").2.Properties
        "bMap" = true →
      (isDuplicateByWitness C st actionName depName input requirement).1.world =
        if (selectAnchorForInput input requirement).ID > 0 ∧
            (C.MapTransportDataWithContext st.world
              (witnessEntity C actionName depName input requirement) "System").2.ID > 0 then
          (C.Execute
            (C.MapTransportDataWithContext st.world
              (witnessEntity C actionName depName input requirement) "System").1
            (((Query.Link (selectAnchorForInput input requirement).Typ).Match "ID" "=="
                (Itoa (selectAnchorForInput input requirement).ID)).To
              ((Query.Find "Memory").Match "ID" "=="
                (Itoa (C.MapTransportDataWithContext st.world
                  (witnessEntity C actionName depName input requirement) "System").2.ID)))).1
        else
          (C.MapTransportDataWithContext st.world
            (witnessEntity C actionName depName input requirement) "System").1) ∧
    (∀ (updatedIDs : List Int) (anchor : TransportEntity) (ad : String × String),
      C.GetName ad.1 = actionName → ad.2 = depName →
      mapHas (C.MapTransportDataWithContext st.world
        (witnessEntity C actionName depName input requirement) "System").2.Properties
        "bMap" = false →
      (processInput C updatedIDs anchor ad requirement st input).jobs = st.jobs) := by
  refine ⟨rfl, rfl, rfl, rfl, ?_, ?_, ?_, ?_, ?_⟩
  · unfold isDuplicateByWitness
    simp only []
    split <;> rfl
  · unfold isDuplicateByWitness
    simp only []
    split
    · next h => simp [h]
    · next h => simp [h]
  · intro h
    unfold isDuplicateByWitness
    simp only [h, Bool.false_eq_true, if_false]
    exact ⟨trivial, trivial⟩
  · intro h
    unfold isDuplicateByWitness
    simp only [h, if_true]
    unfold linkAnchorToMemory
    by_cases hc : (selectAnchorForInput input requirement).ID > 0 ∧
        (C.MapTransportDataWithContext st.world
          (witnessEntity C actionName depName input requirement) "System").2.ID > 0
    · have hn : ¬ ((selectAnchorForInput input requirement).ID ≤ 0 ∨
          (C.MapTransportDataWithContext st.world
            (witnessEntity C actionName depName input requirement) "System").2.ID ≤ 0) := by
        omega
      rw [if_neg hn, if_pos hc]
    · have hn : (selectAnchorForInput input requirement).ID ≤ 0 ∨
          (C.MapTransportDataWithContext st.world
            (witnessEntity C actionName depName input requirement) "System").2.ID ≤ 0 := by
        omega
      rw [if_pos hn, if_neg hc]
  · intro updatedIDs anchor ad hn hd h
    subst hn hd
    unfold processInput
    split
    · rfl
    · split
      · rfl
      · have hdup : (isDuplicateByWitness C st (C.GetName ad.1) ad.2 input requirement).2 =
            true := by
          unfold isDuplicateByWitness
          simp only [h, Bool.false_eq_true, if_false]
        simp only [hdup, if_true]
        exact isDuplicateByWitness_jobs C st _ _ input requirement

theorem witness_decision_witness :
    demoStore.GetName "ActionA" = "ActionA" ∧
    mapHas (demoStore.MapTransportDataWithContext ["ActionA|alpha|Alpha:1|Alpha:a1"]
      (witnessEntity demoStore "ActionA" "alpha" demoAlpha demoDependency)
      "System").2.Properties "bMap" = false ∧
    (isDuplicateByWitness demoStore
      ⟨["ActionA|alpha|Alpha:1|Alpha:a1"], NewScheduler, [], [], false⟩
      "ActionA" "alpha" demoAlpha demoDependency).2 = true ∧
    (processInput demoStore [1] demoAlpha ("ActionA", "alpha") demoDependency
      ⟨["ActionA|alpha|Alpha:1|Alpha:a1"], NewScheduler, [], [], false⟩ demoAlpha).jobs = [] ∧
    (isDuplicateByWitness demoStore (RunState.init NewScheduler [])
      "ActionA" "alpha" demoAlpha demoDependency).2 = false := by
  have h := witness_decision demoStore
    ⟨["ActionA|alpha|Alpha:1|Alpha:a1"], NewScheduler, [], [], false⟩
    "ActionA" "alpha" demoAlpha demoDependency
  have hm : mapHas (demoStore.MapTransportDataWithContext ["ActionA|alpha|Alpha:1|Alpha:a1"]
      (witnessEntity demoStore "ActionA" "alpha" demoAlpha demoDependency)
      "System").2.Properties "bMap" = false := by decide
  exact ⟨rfl, hm, (h.2.2.2.2.2.2.1 hm).1,
    h.2.2.2.2.2.2.2.2 [1] demoAlpha ("ActionA", "alpha") rfl rfl hm, by decide⟩

/-- C20, at the failing input: on `pairStore` the batch `pairBatch` changes an
Alpha and a Beta entity; the entity-type lookup lists the pair (ActionAB, alphaBeta)
under both types, and the candidate list that `Run` hands on holds the pair twice;
the pair found again by the relation-structure lookup is not added a third time. -/
theorem candidates_not_deduplicated :
    (rEnrichLookupAndPointer pairBatch ([], [])).1.map Prod.fst = ["Alpha", "Beta"] ∧
    (rFilterRelationStructures pairBatch []).map Prod.fst = ["Alpha-Beta"] ∧
    (discoverCandidates pairStore [] pairBatch).2 =
      [("ActionAB", "alphaBeta"), ("ActionAB", "alphaBeta")] ∧
    ¬ (discoverCandidates pairStore [] pairBatch).2.Nodup ∧
    (Run pairStore (RunState.init NewScheduler []) pairBatch).jobs.length = 1 := by
  decide

/-- C21, as stated, fails: the batch `demoCreated` marks the Alpha entity with the
ID 1, the input `betaOne` holds a single Beta entity with the ID 1 and no entity
of the Type Alpha, and the causality check accepts it. -/
theorem causality_ignores_type :
    (rWalkInput demoCreated).map (fun e => (e.Typ, e.ID, mapHas e.Properties "bMap")) =
      [("Alpha", 1, true)] ∧
    (rWalkInput betaOne).map (fun e => (e.Typ, e.ID)) = [("Beta", 1)] ∧
    inputContainsUpdated betaOne
      (collectUpdatedEntityIDs demoCreated (rFilterRelationStructures demoCreated [])) =
        true := by
  decide

/-- C21, amended: the causality check is decided on the ID alone.
`inputContainsUpdated(input, collectUpdatedEntityIDs(batch, newRelations))` is true
exactly when the input holds, reached through child relations, an entity whose ID
is the ID of a batch entity that carries a change marker (reached through child
relations) or of the child endpoint of a recorded new relation; the Types are not
compared. -/
theorem causality_check_on_ids (input batch : TransportEntity)
    (newRelationStructures : RelationStructures) :
    inputContainsUpdated input (collectUpdatedEntityIDs batch newRelationStructures) = true ↔
      ∃ e ∈ walkChildren input,
        (∃ b ∈ walkChildren batch, mapHas b.Properties "bMap" = true ∧ b.ID = e.ID) ∨
        (∃ kv ∈ newRelationStructures, kv.2.2.ID = e.ID) := by
  unfold inputContainsUpdated collectUpdatedEntityIDs
  simp only [List.any_eq_true, List.contains_iff_exists_mem_beq, beq_iff_eq, List.mem_append,
    List.mem_map, List.mem_filter]
  constructor
  · rintro ⟨e, he, i, hi, hie⟩
    refine ⟨e, he, ?_⟩
    rcases hi with ⟨b, ⟨hb, hm⟩, hbi⟩ | ⟨kv, hkv, hki⟩
    · exact Or.inl ⟨b, hb, hm, by rw [hbi, hie]⟩
    · exact Or.inr ⟨kv, hkv, by rw [hki, hie]⟩
  · rintro ⟨e, he, h⟩
    refine ⟨e, he, e.ID, ?_, rfl⟩
    rcases h with ⟨b, hb, hm, hbi⟩ | ⟨kv, hkv, hki⟩
    · exact Or.inl ⟨b, ⟨hb, hm⟩, hbi⟩
    · exact Or.inr ⟨kv, hkv, hki⟩

/-- C22, at the failing input: in the batch `twoLinksBatch` two new relations of the
signature Bucket-Item lead to the Items 1 and 2; only the first is recorded as a
new relation structure, so the updated set holds the ID 1 only and the only anchor
is Item 1: Item 2 is in neither. The parent Bucket is in neither. -/
theorem second_new_relation_dropped :
    (twoLinksBatch.ChildRelations.map
      (fun r => (mapHas r.Properties "bMap", mapGet r.Properties "bMap", r.Target.ID))) =
      [(true, "", 1), (true, "", 2)] ∧
    (rFilterRelationStructures twoLinksBatch []).map
      (fun kv => (kv.1, kv.2.1.ID, kv.2.2.ID)) = [("Bucket-Item", 5, 1)] ∧
    collectUpdatedEntityIDs twoLinksBatch (rFilterRelationStructures twoLinksBatch []) = [1] ∧
    (extractBatchAnchors twoLinksBatch (rFilterRelationStructures twoLinksBatch [])).map
      (fun e => (e.Typ, e.ID)) = [("Item", 1)] := by
  decide

/-- C23: anchor computation. The anchors that `Run` processes are the entities
reached from the batch root through child or parent relations that carry a change
marker, in visiting order, followed by the child endpoint of every recorded new
relation structure; when there is none of either, the batch root alone. So the
anchor list is never empty, holds every marked entity and every recorded child
endpoint, and it is the list that `Run` hands to `overlayProcessAnchors`. -/
theorem anchor_computation (data : TransportEntity) :
    ((rWalkInput data).filter (fun e => mapHas e.Properties "bMap") ++
        (rFilterRelationStructures data []).map (fun kv => kv.2.2) ≠ [] →
      runAnchors data =
        (rWalkInput data).filter (fun e => mapHas e.Properties "bMap") ++
          (rFilterRelationStructures data []).map (fun kv => kv.2.2)) ∧
    ((rWalkInput data).filter (fun e => mapHas e.Properties "bMap") ++
        (rFilterRelationStructures data []).map (fun kv => kv.2.2) = [] →
      runAnchors data = [data]) ∧
    runAnchors data ≠ [] ∧
    (∀ e ∈ rWalkInput data, mapHas e.Properties "bMap" = true → e ∈ runAnchors data) ∧
    (∀ kv ∈ rFilterRelationStructures data [], kv.2.2 ∈ runAnchors data) ∧
    (∀ {W : Type} (C : Collaborators W) (st : RunState W) (allowed : List String),
      st.panicked = false →
      allowedChildTypes C data (discoverCandidates C st.world data).2 = some allowed →
      Run C st data =
        overlayProcessAnchors C { st with world := (discoverCandidates C st.world data).1 }
          (runAnchors data) (discoverCandidates C st.world data).2 data
          (rFilterRelationStructures data [])) := by
  have h1 : (rWalkInput data).filter (fun e => mapHas e.Properties "bMap") ++
        (rFilterRelationStructures data []).map (fun kv => kv.2.2) ≠ [] →
      runAnchors data =
        (rWalkInput data).filter (fun e => mapHas e.Properties "bMap") ++
          (rFilterRelationStructures data []).map (fun kv => kv.2.2) := by
    intro h
    unfold runAnchors extractBatchAnchors
    simp only []
    rw [if_neg (fun e => h (List.length_eq_zero.1 e))]
  have h2 : (rWalkInput data).filter (fun e => mapHas e.Properties "bMap") ++
        (rFilterRelationStructures data []).map (fun kv => kv.2.2) = [] →
      runAnchors data = [data] := by
    intro h
    unfold runAnchors extractBatchAnchors
    simp only []
    rw [if_pos (List.length_eq_zero.2 h), h]
    rfl
  have hsub : ∀ e ∈ (rWalkInput data).filter (fun e => mapHas e.Properties "bMap") ++
      (rFilterRelationStructures data []).map (fun kv => kv.2.2), e ∈ runAnchors data := by
    intro e he
    rw [h1 (List.ne_nil_of_mem he)]
    exact he
  refine ⟨h1, h2, ?_, ?_, ?_, ?_⟩
  · by_cases h : (rWalkInput data).filter (fun e => mapHas e.Properties "bMap") ++
        (rFilterRelationStructures data []).map (fun kv => kv.2.2) = []
    · rw [h2 h]
      simp
    · rw [h1 h]
      exact h
  · intro e he hm
    exact hsub e (List.mem_append_left _ (List.mem_filter.2 ⟨he, hm⟩))
  · intro kv hkv
    exact hsub _ (List.mem_append_right _ (List.mem_map.2 ⟨kv, hkv, rfl⟩))
  · intro W C st allowed hp ha
    exact Run_overlay C st data hp allowed ha

theorem anchor_computation_witness :
    (rWalkInput demoAlpha).filter (fun e => mapHas e.Properties "bMap") ++
      (rFilterRelationStructures demoAlpha []).map (fun kv => kv.2.2) = [] ∧
    runAnchors demoAlpha = [demoAlpha] ∧
    (runAnchors siblingBatch).map (fun e => (e.Typ, e.ID)) = [("Item", 2), ("Item", 2)] ∧
    (∀ e ∈ rWalkInput siblingBatch, mapHas e.Properties "bMap" = true →
      e ∈ runAnchors siblingBatch) := by
  have h : (rWalkInput demoAlpha).filter (fun e => mapHas e.Properties "bMap") ++
      (rFilterRelationStructures demoAlpha []).map (fun kv => kv.2.2) = [] := rfl
  exact ⟨h, (anchor_computation demoAlpha).2.1 h, by decide,
    (anchor_computation siblingBatch).2.2.2.1⟩

theorem trackLoop_eq (n : Neuron) (ts : List Tracker) (c : Bool) :
    trackLoop n ts c =
      (c || ts.any (fun t => decide (n.ID = t.ID ∧ n.Version ≠ t.Version)),
        ts.map (trackOne n)) := by
  induction ts generalizing c with
  | nil => simp [trackLoop]
  | cons t rest ih =>
    unfold trackLoop
    by_cases h : n.ID = t.ID ∧ n.Version ≠ t.Version
    · rw [if_pos h]
      simp only [ih, List.any_cons, List.map_cons, trackOne, if_pos h, decide_eq_true h,
        Bool.true_or, Bool.or_true]
    · rw [if_neg h]
      simp only [ih, List.any_cons, List.map_cons, trackOne, if_neg h, decide_eq_false h,
        Bool.false_or]

theorem trackOne_ID (n : Neuron) (t : Tracker) : (trackOne n t).ID = t.ID := by
  unfold trackOne
  split <;> rfl

theorem trackOne_same (n : Neuron) (t : Tracker) (h : n.ID = t.ID) :
    (trackOne n t).Version = n.Version := by
  unfold trackOne
  by_cases hv : n.Version = t.Version
  · rw [if_neg (fun hc => hc.2 hv), hv]
  · rw [if_pos ⟨h, hv⟩]

theorem trackOne_other (n : Neuron) (t : Tracker) (h : n.ID ≠ t.ID) : trackOne n t = t := by
  unfold trackOne
  rw [if_neg (fun hc => h hc.1)]

theorem trackFold_runners (l : List Neuron) :
    ∀ (c : Bool) (ts : List Tracker),
      (l.foldl (fun acc sysRunner => trackLoop sysRunner acc.2 acc.1) (c, ts)).2 =
        l.foldl (fun ts n => ts.map (trackOne n)) ts := by
  induction l with
  | nil => intro c ts; rfl
  | cons n rest ih =>
    intro c ts
    rw [List.foldl_cons]
    show (rest.foldl _ (trackLoop n ts c)).2 = _
    rw [trackLoop_eq, ih]
    rfl

theorem trackFold_true (l : List Neuron) :
    ∀ ts : List Tracker,
      (l.foldl (fun acc sysRunner => trackLoop sysRunner acc.2 acc.1) (true, ts)).1 = true := by
  induction l with
  | nil => intro ts; rfl
  | cons n rest ih =>
    intro ts
    rw [List.foldl_cons]
    show (rest.foldl _ (trackLoop n ts true)).1 = _
    rw [trackLoop_eq, Bool.true_or, ih]

theorem trackFold_quiet (l : List Neuron) (c : Bool) (ts : List Tracker)
    (h : ∀ n ∈ l, ∀ t ∈ ts, n.ID = t.ID → n.Version = t.Version) :
    l.foldl (fun acc sysRunner => trackLoop sysRunner acc.2 acc.1) (c, ts) = (c, ts) := by
  induction l with
  | nil => rfl
  | cons n rest ih =>
    have hn := h n (List.mem_cons_self _ _)
    have e1 : ts.any (fun t => decide (n.ID = t.ID ∧ n.Version ≠ t.Version)) = false := by
      rw [List.any_eq_false]
      intro t ht
      simp only [decide_eq_true_eq, not_and, not_not]
      exact hn t ht
    have e2 : ts.map (trackOne n) = ts := by
      conv_rhs => rw [← List.map_id ts]
      apply List.map_congr_left
      intro t ht
      unfold trackOne
      rw [if_neg (fun hc => hc.2 (hn t ht hc.1))]
      rfl
    rw [List.foldl_cons]
    show rest.foldl _ (trackLoop n ts c) = _
    rw [trackLoop_eq, e1, e2, Bool.or_false]
    exact ih (fun m hm => h m (List.mem_cons_of_mem _ hm))

theorem trackFold_changed (l : List Neuron) :
    ∀ (c : Bool) (ts : List Tracker),
      (∃ n ∈ l, ∃ t ∈ ts, n.ID = t.ID ∧ n.Version ≠ t.Version) →
      (l.foldl (fun acc sysRunner => trackLoop sysRunner acc.2 acc.1) (c, ts)).1 = true := by
  induction l with
  | nil =>
    intro c ts h
    obtain ⟨n, hn, _⟩ := h
    cases hn
  | cons n rest ih =>
    intro c ts h
    by_cases hd : ∃ t ∈ ts, n.ID = t.ID ∧ n.Version ≠ t.Version
    · have e1 : ts.any (fun t => decide (n.ID = t.ID ∧ n.Version ≠ t.Version)) = true := by
        rw [List.any_eq_true]
        obtain ⟨t, ht, h2⟩ := hd
        exact ⟨t, ht, decide_eq_true h2⟩
      rw [List.foldl_cons]
      show (rest.foldl _ (trackLoop n ts c)).1 = _
      rw [trackLoop_eq, e1, Bool.or_true]
      exact trackFold_true rest _
    · have hq : ∀ t ∈ ts, n.ID = t.ID → n.Version = t.Version := by
        intro t ht hid
        by_contra hv
        exact hd ⟨t, ht, hid, hv⟩
      have e := trackFold_quiet [n] c ts (by
        intro m hm
        simp only [List.mem_singleton] at hm
        subst hm
        exact hq)
      simp only [List.foldl_cons, List.foldl_nil] at e
      rw [List.foldl_cons, e]
      apply ih
      obtain ⟨m, hm, t, ht, h2⟩ := h
      rcases List.mem_cons.1 hm with rfl | hm2
      · exact absurd ⟨t, ht, h2⟩ hd
      · exact ⟨m, hm2, t, ht, h2⟩

theorem ReachedEndgame_quiet (o : Observer) (p : Poll) (h : QuietPoll o p) :
    o.ReachedEndgame p =
      (decide (o.InactiveIncrement > 5),
        if o.InactiveIncrement > 5 then o
        else { o with InactiveIncrement := o.InactiveIncrement + 1 }) := by
  obtain ⟨ha, hj, hs, hq⟩ := h
  unfold Observer.ReachedEndgame
  rw [trackFold_quiet p.searching false o.Runners hq]
  simp only [ha, Bool.not_true, Bool.false_eq_true, if_false, hj, hs, and_self, if_true]
  by_cases h5 : o.InactiveIncrement > 5
  · simp only [h5, if_true, decide_True]
  · simp only [h5, if_false, decide_False]

theorem QuietPoll_step (o : Observer) (p q : Poll) (hp : QuietPoll o p) (hq : QuietPoll o q) :
    QuietPoll (o.ReachedEndgame p).2 q := by
  rw [ReachedEndgame_quiet o p hp]
  simp only []
  split
  · exact hq
  · exact hq

theorem pollAll_quiet (polls : List Poll) :
    ∀ o : Observer, (∀ p ∈ polls, QuietPoll o p) →
      (o.pollAll polls).1 =
        (List.range polls.length).map
          (fun i : Nat => decide (o.InactiveIncrement + (i : Int) > 5)) := by
  induction polls with
  | nil => intro o _; rfl
  | cons p rest ih =>
    intro o h
    have hp := h p (List.mem_cons_self _ _)
    have hrest : ∀ q ∈ rest, QuietPoll (o.ReachedEndgame p).2 q :=
      fun q hq => QuietPoll_step o p q hp (h q (List.mem_cons_of_mem _ hq))
    unfold Observer.pollAll
    simp only [List.length_cons, List.range_succ_eq_map, List.map_cons, List.map_map]
    rw [ih _ hrest, ReachedEndgame_quiet o p hp]
    simp only [Nat.cast_zero, add_zero, List.cons.injEq, true_and]
    apply List.map_congr_left
    intro i _
    simp only [Function.comp_apply, Nat.cast_succ]
    by_cases h5 : o.InactiveIncrement > 5
    · simp only [h5, if_true]
      have e1 : o.InactiveIncrement + (i : Int) > 5 := by omega
      have e2 : o.InactiveIncrement + ((i : Int) + 1) > 5 := by omega
      simp [e1, e2]
    · simp only [h5, if_false]
      congr 1
      apply propext
      constructor <;> intro hh <;> omega

/-- C24, as stated, fails: a fresh observer with one tracked worker, polled five
times on a live store without open job on which that worker is Searching with the
tracked Version, answers false on all five polls, the fifth included, and on the
sixth; the counter is then at 5 and at 6. -/
theorem quiescence_not_on_fifth_poll :
    (∀ p ∈ List.replicate 5 quietPoll, QuietPoll (Observer.New 1 [⟨1, 3⟩]) p) ∧
    ((Observer.New 1 [⟨1, 3⟩]).pollAll (List.replicate 5 quietPoll)).1 =
      [false, false, false, false, false] ∧
    ((Observer.New 1 [⟨1, 3⟩]).pollAll (List.replicate 5 quietPoll)).2.InactiveIncrement = 5 ∧
    ((Observer.New 1 [⟨1, 3⟩]).pollAll (List.replicate 6 quietPoll)).1 =
      [false, false, false, false, false, false] ∧
    ((Observer.New 1 [⟨1, 3⟩]).pollAll (List.replicate 6 quietPoll)).2.InactiveIncrement = 6 := by
  decide

/-- C24, amended: quiescence after seven polls. From a fresh observer, when every
poll is quiet, `ReachedEndgame` answers false on the first six polls and true from
the seventh on (the answer of the poll with the index `i`, counted from 0, is
`6 ≤ i`): the counter must exceed 5 before the call that answers true, and it
starts at 0. -/
theorem quiescence_after_seven_polls (runnerAmount : Int) (neurons : List Neuron)
    (polls : List Poll) (h : ∀ p ∈ polls, QuietPoll (Observer.New runnerAmount neurons) p) :
    ((Observer.New runnerAmount neurons).pollAll polls).1 =
      (List.range polls.length).map (fun i => decide (6 ≤ i)) := by
  rw [pollAll_quiet polls _ h]
  apply List.map_congr_left
  intro i _
  show decide ((0 : Int) + (i : Int) > 5) = decide (6 ≤ i)
  congr 1
  apply propext
  constructor <;> intro hh <;> omega

theorem quiescence_after_seven_polls_witness :
    (∀ p ∈ List.replicate 7 quietPoll, QuietPoll (Observer.New 1 [⟨1, 3⟩]) p) ∧
    ((Observer.New 1 [⟨1, 3⟩]).pollAll (List.replicate 7 quietPoll)).1 =
      [false, false, false, false, false, false, true] := by
  have h : ∀ p ∈ List.replicate 7 quietPoll, QuietPoll (Observer.New 1 [⟨1, 3⟩]) p := by
    decide
  refine ⟨h, ?_⟩
  rw [quiescence_after_seven_polls 1 [⟨1, 3⟩] (List.replicate 7 quietPoll) h]
  decide

theorem trackMaps_ids (l : List Neuron) :
    ∀ ts : List Tracker,
      (l.foldl (fun ts n => ts.map (trackOne n)) ts).map Tracker.ID = ts.map Tracker.ID := by
  induction l with
  | nil => intro ts; rfl
  | cons n rest ih =>
    intro ts
    rw [List.foldl_cons, ih, List.map_map]
    apply List.map_congr_left
    intro t _
    exact trackOne_ID n t

theorem trackMaps_keep (l : List Neuron) (i v : Int) (hl : ∀ m ∈ l, m.ID ≠ i) :
    ∀ ts : List Tracker, (∀ t ∈ ts, t.ID = i → t.Version = v) →
      ∀ t ∈ l.foldl (fun ts n => ts.map (trackOne n)) ts, t.ID = i → t.Version = v := by
  induction l with
  | nil => intro ts h; exact h
  | cons n rest ih =>
    intro ts h
    rw [List.foldl_cons]
    apply ih (fun m hm => hl m (List.mem_cons_of_mem _ hm))
    intro t2 ht2 hid
    obtain ⟨t, ht, rfl⟩ := List.mem_map.1 ht2
    rw [trackOne_ID] at hid
    have hne : n.ID ≠ t.ID := by
      rw [hid]
      exact hl n (List.mem_cons_self _ _)
    rw [trackOne_other n t hne]
    exact h t ht hid

theorem trackMaps_stored (l : List Neuron) (hnd : (l.map Neuron.ID).Nodup) :
    ∀ ts : List Tracker, ∀ n ∈ l,
      ∀ t ∈ l.foldl (fun ts n => ts.map (trackOne n)) ts, t.ID = n.ID →
        t.Version = n.Version := by
  induction l with
  | nil => intro ts n hn; cases hn
  | cons n0 rest ih =>
    intro ts n hn
    simp only [List.map_cons, List.nodup_cons] at hnd
    rw [List.foldl_cons]
    rcases List.mem_cons.1 hn with rfl | hn2
    · apply trackMaps_keep rest n.ID n.Version
      · intro m hm e
        exact hnd.1 (List.mem_map.2 ⟨m, hm, e⟩)
      · intro t2 ht2 hid
        obtain ⟨t, _, rfl⟩ := List.mem_map.1 ht2
        rw [trackOne_ID] at hid
        exact trackOne_same n t hid.symm
    · exact ih hnd.2 _ n hn2

/-- C25: progress resets the quiescence counter. On a live store, a poll with an
open job, or with a number of Searching workers other than `runnerAmount`, sets
`InactiveIncrement` to 0 and answers false, and leaves the trackers alone; a poll
without open job, with `runnerAmount` Searching workers, one of which has a Version
that differs from the tracked one, sets `InactiveIncrement` to 0, answers false and
leaves in every tracker the Version of the Searching worker that has its ID (the
workers of a poll have distinct IDs). -/
theorem progress_resets_counter (o : Observer) (p : Poll) (ha : p.alive = true) :
    ((p.openJobs ≠ 0 ∨ p.searchingAmount ≠ o.runnerAmount) →
      o.ReachedEndgame p = (false, { o with InactiveIncrement := 0 })) ∧
    (p.openJobs = 0 → p.searchingAmount = o.runnerAmount →
      (∃ n ∈ p.searching, ∃ t ∈ o.Runners, n.ID = t.ID ∧ n.Version ≠ t.Version) →
      (o.ReachedEndgame p).1 = false ∧
      (o.ReachedEndgame p).2.InactiveIncrement = 0 ∧
      (o.ReachedEndgame p).2.runnerAmount = o.runnerAmount ∧
      (o.ReachedEndgame p).2.Runners.map Tracker.ID = o.Runners.map Tracker.ID ∧
      ((p.searching.map Neuron.ID).Nodup →
        ∀ n ∈ p.searching, ∀ t ∈ (o.ReachedEndgame p).2.Runners, t.ID = n.ID →
          t.Version = n.Version)) := by
  constructor
  · intro h
    unfold Observer.ReachedEndgame
    have hn : ¬ (p.openJobs = 0 ∧ p.searchingAmount = o.runnerAmount) := by
      intro hc
      rcases h with h | h
      · exact h hc.1
      · exact h hc.2
    simp only [ha, Bool.not_true, Bool.false_eq_true, if_false, hn]
  · intro hj hs hd
    have hchanged := trackFold_changed p.searching false o.Runners hd
    have hrun := trackFold_runners p.searching false o.Runners
    have e : o.ReachedEndgame p =
        (false, { o with
          Runners := p.searching.foldl (fun ts n => ts.map (trackOne n)) o.Runners
          InactiveIncrement := 0 }) := by
      unfold Observer.ReachedEndgame
      simp only [ha, Bool.not_true, Bool.false_eq_true, if_false, hj, hs, and_self, if_true,
        hchanged, hrun]
    rw [e]
    refine ⟨rfl, rfl, rfl, trackMaps_ids _ _, ?_⟩
    intro hnd n hn t ht hid
    exact trackMaps_stored p.searching hnd o.Runners n hn t ht hid

theorem progress_resets_counter_witness :
    bumpedPoll.alive = true ∧
    (∃ n ∈ bumpedPoll.searching, ∃ t ∈ (⟨4, 1, [⟨1, 3⟩]⟩ : Observer).Runners,
      n.ID = t.ID ∧ n.Version ≠ t.Version) ∧
    (⟨4, 1, [⟨1, 3⟩]⟩ : Observer).ReachedEndgame bumpedPoll = (false, ⟨0, 1, [⟨1, 4⟩]⟩) ∧
    (⟨4, 1, [⟨1, 3⟩]⟩ : Observer).ReachedEndgame ⟨true, 1, [⟨1, 3⟩], 2⟩ =
      (false, ⟨0, 1, [⟨1, 3⟩]⟩) := by
  have h := progress_resets_counter ⟨4, 1, [⟨1, 3⟩]⟩ ⟨true, 1, [⟨1, 3⟩], 2⟩ rfl
  exact ⟨rfl, by decide, by decide, h.1 (Or.inl (by decide))⟩

/-- C26: cancellation. When the alive flag of the store is cleared,
`ReachedEndgame` answers true at once, whatever the counter, the workers and the
jobs are, and leaves the observer (`InactiveIncrement` and the trackers) as it
is. -/
theorem cancellation_is_immediate (o : Observer) (p : Poll) (h : p.alive = false) :
    o.ReachedEndgame p = (true, o) := by
  unfold Observer.ReachedEndgame
  simp only [h, Bool.not_false, if_true]

theorem cancellation_is_immediate_witness :
    deadPoll.alive = false ∧
    (⟨3, 1, [⟨1, 3⟩]⟩ : Observer).ReachedEndgame deadPoll = (true, ⟨3, 1, [⟨1, 3⟩]⟩) :=
  ⟨rfl, cancellation_is_immediate ⟨3, 1, [⟨1, 3⟩]⟩ deadPoll rfl⟩

theorem Transform_fields (s : Structure) :
    s.Transform.Typ = "Structure" ∧ s.Transform.Value = s.Typ := by
  obtain ⟨ps, cs, t, pr, f, m, a⟩ := s
  unfold Structure.Transform
  exact ⟨rfl, rfl⟩

/-- C27: `Build` establishes the data-model invariant 1. The Action entity that
`Build` returns has the Value `builder.Name`; its first child is the Category
entity and its other children are the Dependency entities, one per entry of
`builder.Dependencies` and with the name of the entry as Value, so one per distinct
dependency name (the names of a Go map are distinct, and `AddDependency` under an
existing name replaces the Structure registered under it); and every Dependency
child has exactly one child relation, whose target is `Transform()` of the
registered Structure, an entity of Type Structure whose Value is the Type of the
Structure. -/
theorem build_establishes_invariant (builder : ConfigBuilder) :
    builder.Build.Typ = "Action" ∧ builder.Build.Value = builder.Name ∧
    builder.Build.Children.head? =
      some (.mk "Category" 0 builder.Category "System" [] [] []) ∧
    builder.Build.Children.tail =
      builder.Dependencies.map (fun kv => dependencyEntity kv.1 kv.2) ∧
    (builder.Build.Children.filter (fun d => d.Typ == "Dependency")).map
      TransportEntity.Value = builder.Dependencies.map Prod.fst ∧
    (∀ d ∈ builder.Build.Children, d.Typ = "Dependency" →
      ∃ kv ∈ builder.Dependencies, d.Value = kv.1 ∧ d.ChildRelations.length = 1 ∧
        d.Children = [kv.2.Transform] ∧ kv.2.Transform.Typ = "Structure" ∧
        kv.2.Transform.Value = kv.2.Typ) ∧
    ((builder.Dependencies.map Prod.fst).Nodup →
      ((builder.Build.Children.filter (fun d => d.Typ == "Dependency")).map
        TransportEntity.Value).Nodup) ∧
    (∀ (name : String) (s : Structure), (builder.Dependencies.map Prod.fst).Nodup →
      ((builder.AddDependency name s).Dependencies.map Prod.fst).Nodup ∧
      (builder.AddDependency name s).Dependencies.lookup name = some s ∧
      (∀ other, other ≠ name →
        (builder.AddDependency name s).Dependencies.lookup other =
          builder.Dependencies.lookup other) ∧
      (name ∈ builder.Dependencies.map Prod.fst →
        (builder.AddDependency name s).Dependencies.map Prod.fst =
          builder.Dependencies.map Prod.fst)) := by
  have hfilter : (builder.Build.Children.filter (fun d => d.Typ == "Dependency")).map
      TransportEntity.Value = builder.Dependencies.map Prod.fst := by
    unfold ConfigBuilder.Build TransportEntity.Children
    simp only [TransportEntity.ChildRelations, List.map_cons, List.map_map]
    rw [List.filter_cons_of_neg (by simp [TransportRelation.Target, TransportEntity.Typ])]
    have hall : ∀ l : List (String × Structure),
        ((l.map (TransportRelation.Target ∘
          fun kv => TransportRelation.mk "" [] (dependencyEntity kv.1 kv.2))).filter
            (fun d => d.Typ == "Dependency")).map TransportEntity.Value = l.map Prod.fst := by
      intro l
      induction l with
      | nil => rfl
      | cons kv rest ih =>
        simp only [List.map_cons, Function.comp_apply, TransportRelation.Target]
        rw [List.filter_cons_of_pos (by rfl)]
        simp only [List.map_cons, List.cons.injEq]
        exact ⟨rfl, ih⟩
    exact hall _
  refine ⟨rfl, rfl, rfl, ?_, hfilter, ?_, ?_, ?_⟩
  · unfold ConfigBuilder.Build TransportEntity.Children
    simp only [TransportEntity.ChildRelations, List.map_cons, List.tail_cons, List.map_map]
    rfl
  · intro d hd ht
    unfold ConfigBuilder.Build TransportEntity.Children at hd
    simp only [TransportEntity.ChildRelations, List.map_cons, List.map_map, List.mem_cons,
      List.mem_map, Function.comp_apply, TransportRelation.Target] at hd
    rcases hd with rfl | ⟨kv, hkv, rfl⟩
    · exact absurd ht (by simp [TransportEntity.Typ])
    · exact ⟨kv, hkv, rfl, rfl, rfl, Transform_fields kv.2⟩
  · intro hnd
    rw [hfilter]
    exact hnd
  · intro name s hnd
    refine ⟨mapSet_keys_nodup _ _ _ hnd, lookup_mapSet_self _ _ _,
      fun other ho => lookup_mapSet_other _ _ _ _ ho, ?_⟩
    intro hmem
    show (mapSet builder.Dependencies name s).map Prod.fst = _
    rw [mapSet_keys, if_pos hmem]

theorem build_establishes_invariant_witness :
    (relChildConfig.Dependencies.map Prod.fst).Nodup ∧
    relChildConfig.Build.Value = "ActionRelChild" ∧
    relChildConfig.Build.Children.map (fun d => (d.Typ, d.Value)) =
      [("Category", "Test"), ("Dependency", "bucketItem")] ∧
    ((relChildConfig.Build.Children.filter (fun d => d.Typ == "Dependency")).map
      TransportEntity.Value).Nodup ∧
    (relChildConfig.Build.Children.filter (fun d => d.Typ == "Dependency")).map
      (fun d => d.Children.map (fun c => (c.Typ, c.Value, c.Children.map
        (fun g => (g.Typ, g.Value, mapGet g.Properties "Type"))))) =
      [[("Structure", "Bucket", [("Structure", "Item", "Primary")])]] := by
  have hnd : (relChildConfig.Dependencies.map Prod.fst).Nodup := by decide
  exact ⟨hnd, by decide, by decide,
    (build_establishes_invariant relChildConfig).2.2.2.2.2.2.1 hnd, rfl⟩

theorem foldl_Match (F : List (String × FilterRec)) :
    ∀ (m p : String) (cs : List (String × String × String)) (t f : List Query),
      F.foldl (fun q val => q.Match val.2.1 val.2.2.1 val.2.2.2) (Query.mk m p cs t f) =
        Query.mk m p (cs ++ F.map Prod.snd) t f := by
  induction F with
  | nil => intro m p cs t f; simp
  | cons x rest ih =>
    intro m p cs t f
    rw [List.foldl_cons]
    show rest.foldl _ (Query.mk m p (cs ++ [(x.2.1, x.2.2.1, x.2.2.2)]) t f) = _
    rw [ih]
    simp

theorem rBuildQueryLoop_eq (crs : List TransportRelation) (lp : LookupPointer) :
    ∀ (m p : String) (cs : List (String × String × String)) (t f : List Query),
      rBuildQueryLoop crs lp (Query.mk m p cs t f) =
        Query.mk m p cs (t ++ crs.map (fun r => rBuildQuery r.Target lp)) f := by
  induction crs with
  | nil => intro m p cs t f; simp [rBuildQueryLoop]
  | cons r rest ih =>
    intro m p cs t f
    obtain ⟨rc, rp, tgt⟩ := r
    rw [rBuildQueryLoop]
    show rBuildQueryLoop rest lp (Query.mk m p cs (t ++ [rBuildQuery tgt lp]) f) = _
    rw [ih]
    simp [TransportRelation.Target]

/-- The query that `rBuildQuery` builds for a node: its method, pool, conditions
and sub-queries. -/
theorem rBuildQuery_eq (n : TransportEntity) (lp : LookupPointer) :
    rBuildQuery n lp =
      Query.mk "Read" n.Value
        ((if lookupHas lp.1 n.Value then [("ID", "==", Itoa (pinnedEntity lp n.Value).ID)]
          else []) ++
         (if mapGet n.Properties "Mode" = "Match" then
            (n.Properties.foldl queryFilterStep []).map Prod.snd
          else []))
        (n.ChildRelations.map (fun r => rBuildQuery r.Target lp)) [] := by
  obtain ⟨t, i, v, c, p, crs, prs⟩ := n
  have hq1 : (if lookupHas lp.1 v = true then
        (Query.Read v).Match "ID" "==" (Itoa (pinnedEntity lp v).ID)
      else Query.Read v) =
      Query.mk "Read" v
        (if lookupHas lp.1 v = true then [("ID", "==", Itoa (pinnedEntity lp v).ID)] else [])
        [] [] := by
    split <;> rfl
  rw [rBuildQuery]
  simp only [TransportEntity.Value, TransportEntity.Properties, TransportEntity.ChildRelations]
  rw [hq1]
  by_cases h2 : mapGet p "Mode" = "Match"
  · rw [if_pos h2, if_pos h2]
    unfold enrichQueryFilters
    simp only [TransportEntity.Properties]
    rw [foldl_Match, rBuildQueryLoop_eq]
    simp
  · rw [if_neg h2, if_neg h2, rBuildQueryLoop_eq]
    simp

theorem foldl_queryFilterStep_eq (p : StringMap) :
    ∀ F, p.foldl queryFilterStep F = p.foldl (slotStep queryValid) F := by
  intro F
  rfl

theorem slotValue_of_key (valid : String → Bool) (name kind key : String) (p : StringMap)
    (hp : (p.map Prod.fst).Nodup)
    (hkey : ∀ kv ∈ p, (valid kv.1 = true ∧ keyNameKind kv.1 = some (name, kind)) ↔ kv.1 = key) :
    ∀ cur, slotValue valid name kind p cur =
      if key ∈ p.map Prod.fst then mapGet p key else cur := by
  induction p with
  | nil => intro cur; rfl
  | cons kv rest ih =>
    intro cur
    obtain ⟨k, v⟩ := kv
    simp only [List.map_cons, List.nodup_cons] at hp
    have hk0 := hkey (k, v) (List.mem_cons_self _ _)
    simp only at hk0
    unfold slotValue
    rw [List.foldl_cons]
    have ih2 := ih hp.2 (fun kv2 h2 => hkey kv2 (List.mem_cons_of_mem _ h2))
    unfold slotValue at ih2
    rw [ih2]
    by_cases hk : k = key
    · subst hk
      rw [if_pos (hk0.2 rfl), if_neg hp.1, if_pos (by simp)]
      unfold mapGet
      simp [List.lookup]
    · have hc : ¬ (valid k = true ∧ keyNameKind k = some (name, kind)) :=
        fun h => hk (hk0.1 h)
      have hk2 : (key == k) = false := by
        simpa using fun e : key = k => hk e.symm
      have hk3 : ¬ key = k := fun e => hk e.symm
      simp only [hc, if_false, List.map_cons, List.mem_cons, hk3, false_or]
      unfold mapGet
      simp only [List.lookup, hk2]

theorem queryValid_filterKey (name kind : String) : queryValid (filterKey name kind) = true := by
  unfold queryValid
  have h1 : startsWith (filterKey name kind) "Filter" = true :=
    (startsWith_iff _ _).2 ⟨"." ++ name ++ "." ++ kind, by
      apply toList_inj
      rw [filterKey_toList]
      simp only [toList_append]
      have e2 : ".".toList = ['.'] := rfl
      rw [e2]
      simp⟩
  have h2 : (filterKey name kind).length > 6 := by
    unfold String.length
    show ((filterKey name kind).toList).length > 6
    rw [filterKey_toList]
    have e : "Filter".toList.length = 6 := by decide
    simp only [List.length_append, List.length_cons, e]
    omega
  simp [h1, h2]

theorem queryValid_key (name kind : String) (hn : DotFree name) (hd : DotFree kind)
    (k : String) (hwf : queryValid k = true → startsWith k "Filter." = true) :
    (queryValid k = true ∧ keyNameKind k = some (name, kind)) ↔ k = filterKey name kind := by
  constructor
  · rintro ⟨hv, hk⟩
    exact ((compileValid_keyNameKind k name kind).1 ⟨hwf hv, hk⟩).1
  · rintro rfl
    exact ⟨queryValid_filterKey name kind, keyNameKind_filterKey name kind hn hd⟩

theorem lookup_of_mem {β : Type} (m : List (String × β)) (hnd : (m.map Prod.fst).Nodup)
    (kv : String × β) (h : kv ∈ m) : m.lookup kv.1 = some kv.2 := by
  induction m with
  | nil => cases h
  | cons x rest ih =>
    obtain ⟨k, v⟩ := x
    simp only [List.map_cons, List.nodup_cons] at hnd
    rcases List.mem_cons.1 h with rfl | h2
    · simp [List.lookup]
    · have hne : kv.1 ≠ k := by
        intro e
        exact hnd.1 (e ▸ List.mem_map.2 ⟨kv, h2, rfl⟩)
      have hb : (kv.1 == k) = false := by simpa using hne
      simp only [List.lookup, hb]
      exact ih hnd.2 h2

/-- C28: query synthesis mirrors the dependency tree. The query that `rBuildQuery`
builds for a Structure node reads the Value of the node as entity type; its
conditions are the condition `ID == <pinned ID>` exactly when the Value is a key of
the batch lookup, followed, exactly when the Mode is Match, by one condition per
filter name of the node, which holds the Field, Operator and Value that the loop of
`enrichQueryFilters` left in the record of the name (for a node whose filter keys
all have the form `Filter.<name>.<kind>`: the three properties of the filter); and
its sub-queries are the queries built in the same way for the children, one per
child and in their order. -/
theorem query_mirrors_dependency (n : TransportEntity) (lp : LookupPointer) :
    rBuildQuery n lp =
      Query.mk "Read" n.Value
        ((if lookupHas lp.1 n.Value then [("ID", "==", Itoa (pinnedEntity lp n.Value).ID)]
          else []) ++
         (if mapGet n.Properties "Mode" = "Match" then
            (n.Properties.foldl queryFilterStep []).map Prod.snd
          else []))
        (n.ChildRelations.map (fun r => rBuildQuery r.Target lp)) [] ∧
    ((n.Properties.foldl queryFilterStep []).map Prod.fst).Nodup ∧
    (∀ name, name ∈ (n.Properties.foldl queryFilterStep []).map Prod.fst ↔
      ∃ kv ∈ n.Properties, queryValid kv.1 = true ∧
        ∃ kind, keyNameKind kv.1 = some (name, kind)) ∧
    (∀ kv ∈ n.Properties.foldl queryFilterStep [],
      kv.2 = (slotValue queryValid kv.1 "Field" n.Properties "",
        slotValue queryValid kv.1 "Operator" n.Properties "",
        slotValue queryValid kv.1 "Value" n.Properties "")) ∧
    ((n.Properties.map Prod.fst).Nodup →
      (∀ kv ∈ n.Properties, queryValid kv.1 = true → startsWith kv.1 "Filter." = true) →
      ∀ kv ∈ n.Properties.foldl queryFilterStep [],
        DotFree kv.1 ∧
        kv.2 = (mapGet n.Properties ("Filter." ++ kv.1 ++ ".Field"),
          mapGet n.Properties ("Filter." ++ kv.1 ++ ".Operator"),
          mapGet n.Properties ("Filter." ++ kv.1 ++ ".Value"))) := by
  have hnd : ((n.Properties.foldl queryFilterStep []).map Prod.fst).Nodup := by
    rw [foldl_queryFilterStep_eq]
    exact slot_fold_nodup queryValid n.Properties [] List.nodup_nil
  have hkeys : ∀ name, name ∈ (n.Properties.foldl queryFilterStep []).map Prod.fst ↔
      ∃ kv ∈ n.Properties, queryValid kv.1 = true ∧
        ∃ kind, keyNameKind kv.1 = some (name, kind) := by
    intro name
    rw [foldl_queryFilterStep_eq, slot_fold_keys]
    simp
  have hslot : ∀ kv ∈ n.Properties.foldl queryFilterStep [],
      kv.2 = (slotValue queryValid kv.1 "Field" n.Properties "",
        slotValue queryValid kv.1 "Operator" n.Properties "",
        slotValue queryValid kv.1 "Value" n.Properties "") := by
    intro kv hkv
    have h1 := lookup_of_mem _ hnd kv hkv
    have h2 := slot_fold queryValid kv.1 n.Properties [] "" "" "" rfl
    rw [← foldl_queryFilterStep_eq] at h2
    unfold filterGet at h2
    rw [h1] at h2
    exact h2
  refine ⟨rBuildQuery_eq n lp, hnd, hkeys, hslot, ?_⟩
  intro hpn hwf kv hkv
  have hmem : kv.1 ∈ (n.Properties.foldl queryFilterStep []).map Prod.fst :=
    List.mem_map.2 ⟨kv, hkv, rfl⟩
  obtain ⟨kv0, hkv0, hv0, kind, hk0⟩ := (hkeys kv.1).1 hmem
  have hdf : DotFree kv.1 :=
    ((compileValid_keyNameKind kv0.1 kv.1 kind).1 ⟨hwf kv0 hkv0 hv0, hk0⟩).2.1
  refine ⟨hdf, ?_⟩
  rw [hslot kv hkv]
  have hval : ∀ kd, DotFree kd →
      slotValue queryValid kv.1 kd n.Properties "" = mapGet n.Properties (filterKey kv.1 kd) := by
    intro kd hkd
    rw [slotValue_of_key queryValid kv.1 kd (filterKey kv.1 kd) n.Properties hpn
      (fun x hx => queryValid_key kv.1 kd hdf hkd x.1 (hwf x hx))]
    split
    · rfl
    · next h => rw [mapGet_of_not_mem _ _ h]
  rw [hval "Field" (by decide), hval "Operator" (by decide), hval "Value" (by decide),
    filterKey_field, filterKey_operator, filterKey_value]

theorem query_mirrors_dependency_witness :
    (deltaNode.Properties.map Prod.fst).Nodup ∧
    (∀ kv ∈ deltaNode.Properties, queryValid kv.1 = true →
      startsWith kv.1 "Filter." = true) ∧
    rBuildQuery deltaNode (rEnrichLookupAndPointer relevantUpdate ([], [])) =
      Query.mk "Read" "Delta"
        [("ID", "==", "1"), ("Value", "==", "protoX"),
          ("Properties.Transport", "==", "secure")] [] [] ∧
    (∀ kv ∈ deltaNode.Properties.foldl queryFilterStep [],
      DotFree kv.1 ∧
      kv.2 = (mapGet deltaNode.Properties ("Filter." ++ kv.1 ++ ".Field"),
        mapGet deltaNode.Properties ("Filter." ++ kv.1 ++ ".Operator"),
        mapGet deltaNode.Properties ("Filter." ++ kv.1 ++ ".Value"))) := by
  have h1 : (deltaNode.Properties.map Prod.fst).Nodup := by decide
  have h2 : ∀ kv ∈ deltaNode.Properties, queryValid kv.1 = true →
      startsWith kv.1 "Filter." = true := by decide
  refine ⟨h1, h2, ?_, (query_mirrors_dependency deltaNode ([], [])).2.2.2.2 h1 h2⟩
  rw [(query_mirrors_dependency deltaNode _).1]
  rfl

/-- C29, as stated, fails: the Match-mode node of `dottedDependency` has filter keys
that split into four parts, the dependency `aliasDependency` has two siblings with
the alias `dup` (which `hasDuplicateAliases` reports), and for either dependency
`Run` creates a job when the Alpha entity is created. -/
theorem configuration_errors_still_schedule :
    ((dependencyRoot dottedDependency).Properties.map (fun kv => (kv.1, wellFormedKey kv)) =
        [("Filter.proto.v1.Field", false), ("Filter.proto.v1.Operator", false),
          ("Filter.proto.v1.Value", false), ("AllFilters", true), ("Mode", true),
          ("Type", true)] ∧
      mapGet (dependencyRoot dottedDependency).Properties "Mode" = "Match" ∧
      (Run (storeOf dottedDependency demoAlpha) (RunState.init NewScheduler [])
        demoCreated).jobs.map (fun j => (j.Action, j.Requirement)) = [("ActionA", "alpha")]) ∧
    (hasDuplicateAliases (compilePatternNode (dependencyRoot aliasDependency)) = true ∧
      (Run (storeOf aliasDependency alphaWithChildren) (RunState.init NewScheduler [])
        demoCreated).jobs.map (fun j => (j.Action, j.Requirement)) = [("ActionA", "alpha")]) := by
  decide

theorem foldl_queryFilterStep_filter (p : StringMap) :
    ∀ F, p.foldl queryFilterStep F = (p.filter wellFormedKey).foldl queryFilterStep F := by
  induction p with
  | nil => intro F; rfl
  | cons kv rest ih =>
    intro F
    by_cases h : wellFormedKey kv = true
    · rw [List.filter_cons_of_pos h, List.foldl_cons, List.foldl_cons, ih]
    · rw [List.filter_cons_of_neg h, List.foldl_cons, ← ih]
      congr 1
      unfold wellFormedKey at h
      simp only [Bool.or_eq_true, Bool.not_eq_true', not_or, Bool.not_eq_false,
        Option.not_isSome, Option.isNone_iff_eq_none] at h
      rw [queryFilterStep_eq]
      rcases slotStep_cases queryValid F kv with ⟨he, _⟩ | ⟨n, kd, _, hk, _⟩
      · exact he
      · exact absurd (by rw [hk]; rfl) h.2

/-- What stands between a built input and its job: when the input holds the anchor
and an updated ID and the mapper reports the Memory entity as created, the job is
created. -/
theorem processInput_creates {W : Type} (C : Collaborators W) (updatedIDs : List Int)
    (anchor : TransportEntity) (ad : String × String) (requirement : TransportEntity)
    (st : RunState W) (input : TransportEntity)
    (h1 : inputContainsEntity input anchor.Typ anchor.ID = true)
    (h2 : inputContainsUpdated input updatedIDs = true)
    (h3 : mapHas (C.MapTransportDataWithContext st.world
      (witnessEntity C (C.GetName ad.1) ad.2 input requirement) "System").2.Properties
      "bMap" = true) :
    (processInput C updatedIDs anchor ad requirement st input).jobs =
      st.jobs ++ [⟨C.GetName ad.1, ad.2, input, selectAnchorForInput input requirement,
        witnessDigest C (C.GetName ad.1) ad.2 input requirement⟩] := by
  have hdup : (isDuplicateByWitness C st (C.GetName ad.1) ad.2 input requirement).2 =
      false := by
    unfold isDuplicateByWitness
    simp only [h3, if_true]
  unfold processInput
  simp only [h1, h2, Bool.not_true, Bool.false_eq_true, if_false, hdup,
    isDuplicateByWitness_jobs]

/-- C29, amended: configuration errors do not skip the dependency. A filter
property key of invalid format is passed over by the loop of `enrichQueryFilters`
and contributes nothing to the query, which is built from the other keys as usual;
a candidate that the type check and the relevance filter let through has its inputs
built and processed whatever its dependency tree looks like (a duplicate alias is
only reported by `hasDuplicateAliases`); and an input that holds the anchor and an
updated ID and whose Memory entity is new gets its job. -/
theorem configuration_errors_do_not_skip {W : Type} (C : Collaborators W) :
    (∀ (filters : List (String × FilterRec)) (kv : String × String),
      wellFormedKey kv = false → queryFilterStep filters kv = filters) ∧
    (∀ (query : Query) (t : String) (i : Int) (v c : String) (p : StringMap)
        (crs prs : List TransportRelation),
      enrichQueryFilters query (.mk t i v c p crs prs) =
        enrichQueryFilters query (.mk t i v c (p.filter wellFormedKey) crs prs)) ∧
    (∀ (batchBMapValue : String) (updatedIDs : List Int) (anchor : TransportEntity)
        (lp : LookupPointer) (st : RunState W) (ad : String × String)
        (root : TransportEntity) (rest : List TransportEntity),
      st.panicked = false →
      patternHasType
        (getOrCompilePattern st.sched (C.GetName ad.1) (C.GetDependencyByName ad.1 ad.2)).1
        anchor.Typ = true →
      (batchBMapValue = "" ∨
        hasRelevantFilter (C.GetDependencyByName ad.1 ad.2) batchBMapValue = true) →
      (C.GetDependencyByName ad.1 ad.2).Children = root :: rest →
      processCandidate C batchBMapValue updatedIDs anchor lp st ad =
        (buildInputData C st.world root lp).2.foldl
          (processInput C updatedIDs anchor ad (C.GetDependencyByName ad.1 ad.2))
          { st with
            sched := (getOrCompilePattern st.sched (C.GetName ad.1)
              (C.GetDependencyByName ad.1 ad.2)).2
            world := (buildInputData C st.world root lp).1 }) ∧
    (∀ (updatedIDs : List Int) (anchor : TransportEntity) (ad : String × String)
        (requirement : TransportEntity) (st : RunState W) (input : TransportEntity),
      inputContainsEntity input anchor.Typ anchor.ID = true →
      inputContainsUpdated input updatedIDs = true →
      mapHas (C.MapTransportDataWithContext st.world
        (witnessEntity C (C.GetName ad.1) ad.2 input requirement) "System").2.Properties
        "bMap" = true →
      (processInput C updatedIDs anchor ad requirement st input).jobs =
        st.jobs ++ [⟨C.GetName ad.1, ad.2, input, selectAnchorForInput input requirement,
          witnessDigest C (C.GetName ad.1) ad.2 input requirement⟩]) := by
  refine ⟨?_, ?_, ?_, ?_⟩
  · intro filters kv h
    have := foldl_queryFilterStep_filter [kv] filters
    rw [List.filter_cons_of_neg (by simp [h])] at this
    exact this
  · intro query t i v c p crs prs
    unfold enrichQueryFilters
    simp only [TransportEntity.Properties]
    rw [foldl_queryFilterStep_filter p []]
  · intro batchBMapValue updatedIDs anchor lp st ad root rest hp hpat hrel hch
    apply processCandidate_fold C _ _ anchor lp st ad hp _ root rest hch
    intro hskip
    rcases hskip with h | h
    · rw [hpat] at h
      cases h
    · rcases hrel with h2 | h2
      · exact h.1 h2
      · rw [h2] at h
        cases h.2
  · intro updatedIDs anchor ad requirement st input h1 h2 h3
    exact processInput_creates C updatedIDs anchor ad requirement st input h1 h2 h3

theorem configuration_errors_do_not_skip_witness :
    wellFormedKey ("Filter.proto.v1.Field", "Value") = false ∧
    queryFilterStep [] ("Filter.proto.v1.Field", "Value") = [] ∧
    inputContainsEntity alphaWithChildren "Alpha" 1 = true ∧
    inputContainsUpdated alphaWithChildren [1] = true ∧
    (processInput (storeOf aliasDependency alphaWithChildren) [1] demoCreated
      ("ActionA", "alpha") aliasDependency (RunState.init NewScheduler [])
      alphaWithChildren).jobs.map (fun j => (j.Action, j.Requirement)) =
        [("ActionA", "alpha")] := by
  have h := configuration_errors_do_not_skip (storeOf aliasDependency alphaWithChildren)
  have hw : wellFormedKey ("Filter.proto.v1.Field", "Value") = false := by decide
  refine ⟨hw, h.1 [] _ hw, by decide, by decide, ?_⟩
  rw [h.2.2.2 [1] demoCreated ("ActionA", "alpha") aliasDependency
    (RunState.init NewScheduler []) alphaWithChildren (by decide) (by decide) (by decide)]
  rfl

/-- Structural induction over a compiled pattern. -/
theorem patternNode_induct {P : PatternNode → Prop}
    (h : ∀ a t m f cs nf, (∀ c ∈ cs, P c) → P (.mk a t m f cs nf)) : ∀ n, P n := by
  intro n
  refine @PatternNode.rec P (fun l => ∀ c ∈ l, P c) ?_ ?_ ?_ n
  · intro a t m f cs nf hcs
    exact h a t m f cs nf hcs
  · intro c hc
    cases hc
  · intro hd tl h1 h2 c hc
    rcases List.mem_cons.1 hc with rfl | hc
    · exact h1
    · exact h2 c hc

theorem siblingAliases_cons (x : PatternNode) (xs : List PatternNode) :
    siblingAliases (x :: xs) =
      if x.Alias ≠ "" then x.Alias :: siblingAliases xs else siblingAliases xs := by
  unfold siblingAliases
  by_cases h : x.Alias = ""
  · simp [h]
  · simp [h]

theorem seenFold (l : List PatternNode) :
    ∀ (dup : Bool) (seen : List String),
      ((l.foldl seenStep (dup, seen)).1 = true ↔
        dup = true ∨ (∃ b ∈ siblingAliases l, b ∈ seen) ∨ ¬ (siblingAliases l).Nodup) := by
  induction l with
  | nil => intro dup seen; simp [siblingAliases]
  | cons x xs ih =>
    intro dup seen
    rw [List.foldl_cons, siblingAliases_cons]
    by_cases h : x.Alias = ""
    · have hs : seenStep (dup, seen) x = (dup, seen) := by
        unfold seenStep
        simp [h]
      rw [hs]
      simp only [h, ne_eq, not_true_eq_false, if_false]
      exact ih dup seen
    · have hs : seenStep (dup, seen) x =
          (dup || seen.contains x.Alias, seen ++ [x.Alias]) := by
        unfold seenStep
        simp [h]
      rw [hs]
      simp only [ne_eq, h, not_false_eq_true, if_true]
      rw [ih]
      simp only [Bool.or_eq_true, List.contains_iff_exists_mem_beq, beq_iff_eq,
        List.mem_append, List.mem_singleton, List.mem_cons, exists_eq_or_imp,
        List.nodup_cons, not_and, not_not, exists_eq_right']
      constructor
      · rintro ((h1 | h1) | ⟨b, hb, h2 | h2⟩ | h3)
        · exact Or.inl h1
        · exact Or.inr (Or.inl (Or.inl h1))
        · exact Or.inr (Or.inl (Or.inr ⟨b, hb, h2⟩))
        · rcases h2 with h2 | h2
          · subst h2
            right; right
            intro hn
            exact absurd hb hn
          · cases h2
        · right; right
          intro _
          exact h3
      · rintro (h1 | (h1 | ⟨b, hb, h2⟩) | h3)
        · exact Or.inl (Or.inl h1)
        · exact Or.inl (Or.inr h1)
        · exact Or.inr (Or.inl ⟨b, hb, Or.inl h2⟩)
        · by_cases hx : x.Alias ∈ siblingAliases xs
          · exact Or.inr (Or.inl ⟨x.Alias, hx, Or.inr (Or.inl rfl)⟩)
          · exact Or.inr (Or.inr (h3 hx))

theorem mem_siblingAliases (cs : List PatternNode) (x : String) :
    x ∈ siblingAliases cs ↔ x ≠ "" ∧ ∃ b ∈ cs, b.Alias = x := by
  unfold siblingAliases
  simp only [List.mem_filter, List.mem_map, bne_iff_ne, ne_eq]
  tauto

theorem not_nodup_siblingAliases (cs : List PatternNode) :
    ¬ (siblingAliases cs).Nodup ↔
      ∃ l1 a l2 b l3, cs = l1 ++ a :: (l2 ++ b :: l3) ∧ a.Alias ≠ "" ∧ a.Alias = b.Alias := by
  induction cs with
  | nil =>
    simp only [siblingAliases, List.map_nil, List.filter_nil, List.nodup_nil,
      not_true_eq_false, false_iff]
    rintro ⟨l1, a, l2, b, l3, h, _⟩
    cases l1 <;> cases h
  | cons x xs ih =>
    rw [siblingAliases_cons]
    by_cases hx : x.Alias = ""
    · simp only [hx, ne_eq, not_true_eq_false, if_false]
      rw [ih]
      constructor
      · rintro ⟨l1, a, l2, b, l3, h, h1, h2⟩
        exact ⟨x :: l1, a, l2, b, l3, by rw [h]; rfl, h1, h2⟩
      · rintro ⟨l1, a, l2, b, l3, h, h1, h2⟩
        cases l1 with
        | nil =>
          simp only [List.nil_append, List.cons.injEq] at h
          rw [← h.1] at h1
          exact absurd hx h1
        | cons y l1' =>
          simp only [List.cons_append, List.cons.injEq] at h
          exact ⟨l1', a, l2, b, l3, h.2, h1, h2⟩
    · simp only [ne_eq, hx, not_false_eq_true, if_true, List.nodup_cons, not_and, not_not]
      constructor
      · intro h
        by_cases hm : x.Alias ∈ siblingAliases xs
        · obtain ⟨_, b, hb, hba⟩ := (mem_siblingAliases xs x.Alias).1 hm
          obtain ⟨l2, l3, e⟩ := List.append_of_mem hb
          exact ⟨[], x, l2, b, l3, by rw [e]; rfl, hx, hba.symm⟩
        · have hnn : ¬ (siblingAliases xs).Nodup := h hm
          obtain ⟨l1, a, l2, b, l3, e, h1, h2⟩ := ih.1 hnn
          exact ⟨x :: l1, a, l2, b, l3, by rw [e]; rfl, h1, h2⟩
      · rintro ⟨l1, a, l2, b, l3, h, h1, h2⟩ hm
        cases l1 with
        | nil =>
          simp only [List.nil_append, List.cons.injEq] at h
          exfalso
          apply hm
          rw [mem_siblingAliases]
          refine ⟨hx, b, ?_, ?_⟩
          · rw [h.2]; simp
          · rw [← h2, h.1]
        | cons y l1' =>
          simp only [List.cons_append, List.cons.injEq] at h
          exact ih.2 ⟨l1', a, l2, b, l3, h.2, h1, h2⟩

theorem hasDuplicateAliasesLoop_iff (cs : List PatternNode)
    (hcs : ∀ c ∈ cs, ∀ dup, (hasDuplicateAliasesWalk c dup = true ↔
      dup = true ∨ ∃ m ∈ patternNodes c, ¬ (siblingAliases m.Children).Nodup)) :
    ∀ dup, (hasDuplicateAliasesLoop cs dup = true ↔
      dup = true ∨ ∃ c ∈ cs, ∃ m ∈ patternNodes c, ¬ (siblingAliases m.Children).Nodup) := by
  induction cs with
  | nil => intro dup; simp [hasDuplicateAliasesLoop]
  | cons c rest ih =>
    intro dup
    have ih2 := ih (fun c2 h2 => hcs c2 (List.mem_cons_of_mem _ h2))
    have hc := hcs c (List.mem_cons_self _ _)
    rw [hasDuplicateAliasesLoop, ih2, hc]
    simp only [List.mem_cons, exists_eq_or_imp]
    constructor
    · rintro ((h | h) | h)
      · exact Or.inl h
      · exact Or.inr (Or.inl h)
      · exact Or.inr (Or.inr h)
    · rintro (h | h | h)
      · exact Or.inl (Or.inl h)
      · exact Or.inl (Or.inr h)
      · exact Or.inr h

theorem hasDuplicateAliasesWalk_iff (n : PatternNode) :
    ∀ dup, (hasDuplicateAliasesWalk n dup = true ↔
      dup = true ∨ ∃ m ∈ patternNodes n, ¬ (siblingAliases m.Children).Nodup) := by
  induction n using patternNode_induct with
  | h a t m f cs nf ih =>
    intro dup
    rw [hasDuplicateAliasesWalk, hasDuplicateAliasesLoop_iff cs ih, seenFold, patternNodes_eq]
    simp only [List.not_mem_nil, and_false, exists_false, false_or, List.mem_cons,
      exists_eq_or_imp, List.mem_flatMap, PatternNode.Children]
    constructor
    · rintro ((h | h) | ⟨c, hc, m2, hm2, h⟩)
      · exact Or.inl h
      · exact Or.inr (Or.inl h)
      · exact Or.inr (Or.inr ⟨m2, ⟨c, hc, hm2⟩, h⟩)
    · rintro (h | h | ⟨m2, ⟨c, hc, hm2⟩, h⟩)
      · exact Or.inl (Or.inl h)
      · exact Or.inl (Or.inr h)
      · exact Or.inr ⟨c, hc, m2, hm2, h⟩

/-- C30: detection of duplicate aliases. `hasDuplicateAliases` answers true exactly
when some node of the tree, at any depth, has two children with the same non-empty
alias; so children without alias, and equal aliases under different parents, do
not make it true. -/
theorem duplicate_alias_detection (root : PatternNode) :
    (hasDuplicateAliases root = true ↔ ∃ n ∈ patternNodes root, DuplicateAlias n) ∧
    (hasDuplicateAliases root = true ↔
      ∃ n ∈ patternNodes root, ¬ (siblingAliases n.Children).Nodup) ∧
    ((∀ n ∈ patternNodes root, ∀ l1 a l2 b l3, n.Children = l1 ++ a :: (l2 ++ b :: l3) →
        a.Alias = b.Alias → a.Alias = "") →
      hasDuplicateAliases root = false) := by
  have h2 : hasDuplicateAliases root = true ↔
      ∃ n ∈ patternNodes root, ¬ (siblingAliases n.Children).Nodup := by
    unfold hasDuplicateAliases
    rw [hasDuplicateAliasesWalk_iff]
    simp
  have h1 : hasDuplicateAliases root = true ↔ ∃ n ∈ patternNodes root, DuplicateAlias n := by
    rw [h2]
    constructor
    · rintro ⟨n, hn, h⟩
      exact ⟨n, hn, (not_nodup_siblingAliases n.Children).1 h⟩
    · rintro ⟨n, hn, h⟩
      exact ⟨n, hn, (not_nodup_siblingAliases n.Children).2 h⟩
  refine ⟨h1, h2, ?_⟩
  intro h
  rw [Bool.eq_false_iff]
  intro hc
  obtain ⟨n, hn, l1, a, l2, b, l3, e, ha, hab⟩ := h1.1 hc
  exact ha (h n hn l1 a l2 b l3 e hab)

theorem duplicate_alias_detection_witness :
    hasDuplicateAliases cousinsPattern = false ∧
    hasDuplicateAliases twinsPattern = true ∧
    (∃ n ∈ patternNodes twinsPattern, DuplicateAlias n) ∧
    (hasDuplicateAliases (compilePatternNode (dependencyRoot aliasDependency)) = true) := by
  have h := (duplicate_alias_detection twinsPattern).1
  have ht : hasDuplicateAliases twinsPattern = true := by decide
  exact ⟨by decide, ht, h.1 ht, by decide⟩

theorem generateRecombinations_eq_cartesian {α : Type} :
    ∀ rows : List (List α), rows ≠ [] → (∀ r ∈ rows, r ≠ []) →
      generateRecombinations rows = cartesian rows := by
  intro rows
  induction rows with
  | nil => intro h; exact absurd rfl h
  | cons row rest ih =>
    intro hne0 hrows
    clear hne0
    by_cases hrest : rest = []
    · subst hrest
      simp only [generateRecombinations, cartesian, List.length_nil, if_true, List.map_cons,
        List.map_nil]
      clear ih hrows
      induction row with
      | nil => rfl
      | cons x xs ihx => rw [List.map_cons, List.flatMap_cons, ihx]; rfl
    · have hr : ∀ r ∈ rest, r ≠ [] := fun r hr => hrows r (List.mem_cons_of_mem _ hr)
      have hne := generateRecombinations_ne_nil rest hrest hr
      have hlen : ¬ (generateRecombinations rest).length = 0 := fun h =>
        hne (List.length_eq_zero.1 h)
      rw [generateRecombinations, if_neg hlen, ih hrest hr]
      rfl

/-- C40, as stated, fails: with an empty row after the first one the
recombinations of the remaining rows are empty, which the code takes for "no
remaining rows": it returns the elements of the first row as combinations of one
element, where the product of the row lengths is 0. With an empty first row the
result is empty. -/
theorem recombinations_with_empty_later_row :
    generateRecombinations [[1, 2], ([] : List Nat)] = [[1], [2]] ∧
    ([[1, 2], ([] : List Nat)].map List.length).prod = 0 ∧
    generateRecombinations [[1], ([] : List Nat), [3]] = [[1]] ∧
    generateRecombinations [([] : List Nat), [3]] = [] ∧
    cartesian [[1, 2], ([] : List Nat)] = [] := by
  decide

theorem cartesian_ne_nil {α : Type} :
    ∀ rows : List (List α), (∀ r ∈ rows, r ≠ []) → cartesian rows ≠ [] := by
  intro rows
  induction rows with
  | nil => intro _ h; cases h
  | cons row rest ih =>
    intro h
    have hrow := h row (List.mem_cons_self _ _)
    have hrest := ih (fun r hr => h r (List.mem_cons_of_mem _ hr))
    cases row with
    | nil => exact absurd rfl hrow
    | cons x xs =>
      cases hc : cartesian rest with
      | nil => exact absurd hc hrest
      | cons c cs =>
        rw [cartesian, hc]
        simp

theorem generateRecombinations_truncated {α : Type} (rest : List (List α)) :
    ∀ row : List α,
      generateRecombinations (row :: rest) =
        cartesian (row :: rest.takeWhile (fun r => !r.isEmpty)) := by
  induction rest with
  | nil =>
    intro row
    simp only [generateRecombinations, cartesian, List.length_nil, if_true, List.takeWhile_nil,
      List.map_cons, List.map_nil]
    induction row with
    | nil => rfl
    | cons x xs ihx => rw [List.map_cons, List.flatMap_cons, ihx]; rfl
  | cons r rest2 ih =>
    intro row
    rw [generateRecombinations, ih r]
    cases r with
    | nil =>
      have e : cartesian (([] : List α) :: rest2.takeWhile (fun r => !r.isEmpty)) = [] := rfl
      rw [e]
      simp only [List.length_nil, if_true, List.takeWhile_cons, List.isEmpty_nil, Bool.not_true,
        Bool.false_eq_true, if_false, cartesian, List.map_cons, List.map_nil]
      induction row with
      | nil => rfl
      | cons x xs ihx => rw [List.map_cons, List.flatMap_cons, ihx]; rfl
    | cons y ys =>
      have hne : cartesian ((y :: ys) :: rest2.takeWhile (fun r => !r.isEmpty)) ≠ [] := by
        apply cartesian_ne_nil
        intro q hq
        rcases List.mem_cons.1 hq with rfl | hq
        · exact List.cons_ne_nil _ _
        · have := (List.mem_takeWhile_imp hq)
          intro e
          rw [e] at this
          cases this
      have hlen : ¬ (cartesian ((y :: ys) :: rest2.takeWhile (fun r => !r.isEmpty))).length = 0 :=
        fun h => hne (List.length_eq_zero.1 h)
      rw [if_neg hlen]
      simp only [List.takeWhile_cons, List.isEmpty_cons, Bool.not_false, if_true]
      rfl

/-- C40, amended: `generateRecombinations` computes the Cartesian product of rows
that are not empty. For a non-empty list of rows none of which is empty, the result
is the product in lexicographic order: it has the product of the row lengths many
combinations, each combination has one element per row, and its i-th element is
taken from the i-th row. For every first row and every list of rows after it, the
result is the product of the first row and the rows after it up to the first
empty one: an empty first row gives no combination, and an empty later row is
taken for the end of the rows. -/
theorem recombinations_product {α : Type} (row : List α) (rest : List (List α)) :
    ((∀ r ∈ row :: rest, r ≠ []) →
      (generateRecombinations (row :: rest)).length =
        ((row :: rest).map List.length).prod ∧
      (∀ set ∈ generateRecombinations (row :: rest),
        List.Forall₂ (fun x r => x ∈ r) set (row :: rest)) ∧
      generateRecombinations (row :: rest) = cartesian (row :: rest)) ∧
    generateRecombinations (row :: rest) =
      cartesian (row :: rest.takeWhile (fun r => !r.isEmpty)) ∧
    generateRecombinations (([] : List α) :: rest) = [] := by
  refine ⟨?_, generateRecombinations_truncated rest row, ?_⟩
  · intro h
    exact ⟨generateRecombinations_length _ (List.cons_ne_nil _ _) h,
      generateRecombinations_forall₂ _ (List.cons_ne_nil _ _) h,
      generateRecombinations_eq_cartesian _ (List.cons_ne_nil _ _) h⟩
  · rw [generateRecombinations_truncated]
    rfl

theorem recombinations_product_witness :
    (∀ r ∈ [[1, 2], [3], [4, 5]], r ≠ ([] : List Nat)) ∧
    generateRecombinations [[1, 2], [3], [4, 5]] =
      [[1, 3, 4], [1, 3, 5], [2, 3, 4], [2, 3, 5]] ∧
    (generateRecombinations [[1, 2], [3], [4, 5]]).length =
      ([[1, 2], [3], [4, 5]].map List.length).prod ∧
    generateRecombinations [[1, 2], [3], [], [4, 5]] = [[1, 3], [2, 3]] :=
  ⟨by decide, by decide,
    ((recombinations_product [1, 2] [[3], [4, 5]]).1 (by decide)).1, by decide⟩

/-- C33: `Parse` never returns an empty list. For every entity `Parse e` has at
least one element, so every row that `Parse` hands to `generateRecombinations`
has at least one element, and a node with children has at least one
combination. -/
theorem parse_never_empty (e : TransportEntity) :
    1 ≤ (Parse e).length ∧
    (∀ row ∈ demuxRows e.ChildRelations, 1 ≤ row.length) ∧
    (e.ChildRelations = [] ∨
      1 ≤ (generateRecombinations (demuxRows e.ChildRelations)).length) := by
  have hrow : ∀ row ∈ demuxRows e.ChildRelations, row ≠ [] :=
    demuxRows_row_ne_nil e.ChildRelations (fun r _ => Parse_ne_nil r.Target)
  refine ⟨List.length_pos.2 (Parse_ne_nil e), fun row h => List.length_pos.2 (hrow row h), ?_⟩
  by_cases hc : e.ChildRelations = []
  · exact Or.inl hc
  · exact Or.inr (List.length_pos.2
      (generateRecombinations_ne_nil _ (demuxRows_ne_nil _ hc) hrow))
theorem flatMap_map_target (l : List TransportRelation) :
    (l.map TransportRelation.Target).flatMap Parse = l.flatMap (fun r => Parse r.Target) := by
  induction l with
  | nil => rfl
  | cons r rs ih => rw [List.flatMap_cons, List.map_cons, List.flatMap_cons, ih]

theorem demuxRows_candidates (e : TransportEntity) :
    demuxRows e.ChildRelations = (childTypes e).map (candidatesOfType e) := by
  rw [demuxRows_eq]
  unfold childTypes candidatesOfType TransportEntity.Children
  rw [List.map_map]
  refine List.map_congr_left (fun t _ => ?_)
  rw [List.filter_map]
  exact (flatMap_map_target _).symm

theorem demuxRelation_eq (x : TransportEntity) : demuxRelation x = .mk "" [] x := by
  unfold demuxRelation
  rw [deepCopyEntity_eq]

/-- C32: `Parse` emits exactly the Cartesian product, in a fixed order. For every
entity with child relations the outputs of `Parse` are the root, with its own
fields, over the combinations of the Cartesian product of the candidate lists of
its child types, in lexicographic order: the child types in the order of their
first appearance, the first one varying slowest; the candidate list of a type is
the concatenation, in source order, of `Parse c` for each child `c` of that type.
So the lists of child targets of the outputs are that product, and the number of
outputs is the product of the lengths of the candidate lists. -/
theorem parse_cartesian_product (e : TransportEntity) (h : e.ChildRelations ≠ []) :
    (Parse e).map TransportEntity.Children =
      cartesian ((childTypes e).map (candidatesOfType e)) ∧
    Parse e =
      (cartesian ((childTypes e).map (candidatesOfType e))).map (fun set =>
        .mk e.Typ e.ID e.Value e.Context e.Properties (set.map (fun x => .mk "" [] x)) []) ∧
    (Parse e).length = ((childTypes e).map (fun t => (candidatesOfType e t).length)).prod := by
  have hrows : generateRecombinations (demuxRows e.ChildRelations) =
      cartesian ((childTypes e).map (candidatesOfType e)) := by
    rw [← demuxRows_candidates]
    exact generateRecombinations_eq_cartesian _ (demuxRows_ne_nil _ h)
      (demuxRows_row_ne_nil _ (fun r _ => Parse_ne_nil r.Target))
  have hP : Parse e =
      (cartesian ((childTypes e).map (candidatesOfType e))).map (fun set =>
        .mk e.Typ e.ID e.Value e.Context e.Properties (set.map (fun x => .mk "" [] x)) []) := by
    rw [← hrows]
    cases e with
    | mk t i v c p crs prs => exact Parse_node t i v c p crs prs h
  refine ⟨?_, hP, ?_⟩
  · rw [hP, List.map_map]
    have : ∀ set : List TransportEntity,
        (TransportEntity.Children ∘ fun set =>
          TransportEntity.mk e.Typ e.ID e.Value e.Context e.Properties
            (set.map (fun x => TransportRelation.mk "" [] x)) []) set = set := by
      intro set
      simp only [Function.comp, TransportEntity.Children, TransportEntity.ChildRelations,
        List.map_map]
      exact List.map_id'' (fun x => rfl) set
    rw [List.map_congr_left (fun set _ => this set), List.map_id'']
    intro x; rfl
  · rw [hP, List.length_map, ← hrows,
      generateRecombinations_length _ (demuxRows_ne_nil _ h)
        (demuxRows_row_ne_nil _ (fun r _ => Parse_ne_nil r.Target)),
      demuxRows_candidates, List.map_map]
    rfl

theorem parse_cartesian_product_witness :
    fanoutRoot.ChildRelations ≠ [] ∧
    childTypes fanoutRoot = ["Alpha", "Beta", "Gamma"] ∧
    (Parse fanoutRoot).map (fun o => o.Children.map TransportEntity.Value) =
      [["a1", "b1", "g1"], ["a1", "b2", "g1"], ["a2", "b1", "g1"], ["a2", "b2", "g1"]] ∧
    (Parse fanoutRoot).map TransportEntity.Children =
      cartesian ((childTypes fanoutRoot).map (candidatesOfType fanoutRoot)) :=
  ⟨List.cons_ne_nil _ _, by decide, by decide,
    (parse_cartesian_product fanoutRoot (List.cons_ne_nil _ _)).1⟩
theorem firstOccurrences_of_nodup : ∀ l : List String, l.Nodup → firstOccurrences l = l := by
  intro l
  induction l with
  | nil => intro _; rfl
  | cons x xs ih =>
    intro h
    rw [List.nodup_cons] at h
    rw [firstOccurrences, ih h.2]
    congr 1
    rw [List.filter_eq_self]
    intro y hy
    simp only [bne_iff_ne, ne_eq]
    intro e
    exact h.1 (e ▸ hy)

theorem filter_key_singleton {α : Type} (f : α → String) :
    ∀ l : List α, (l.map f).Nodup → ∀ x ∈ l, l.filter (fun y => f y == f x) = [x] := by
  intro l
  induction l with
  | nil => intro _ x hx; cases hx
  | cons a as ih =>
    intro hnd x hx
    rw [List.map_cons, List.nodup_cons] at hnd
    rcases List.mem_cons.1 hx with rfl | hx
    · rw [List.filter_cons, if_pos (by simp)]
      congr 1
      rw [List.filter_eq_nil_iff]
      intro y hy
      simp only [beq_iff_eq]
      intro e
      exact hnd.1 (e ▸ List.mem_map.2 ⟨y, hy, rfl⟩)
    · have hne : (f a == f x) = false := by
        rw [beq_eq_false_iff_ne]
        intro e
        exact hnd.1 (e ▸ List.mem_map.2 ⟨x, hx, rfl⟩)
      rw [List.filter_cons, hne]
      exact ih hnd.2 x hx

theorem demuxRows_distinct (set : List TransportEntity)
    (hnd : (set.map TransportEntity.Typ).Nodup) :
    demuxRows (set.map (fun x => TransportRelation.mk "" [] x)) = set.map Parse := by
  rw [demuxRows_eq, List.map_map]
  have hT : (fun r : TransportRelation => r.Target.Typ) ∘
      (fun x => TransportRelation.mk "" [] x) = TransportEntity.Typ := rfl
  rw [hT, firstOccurrences_of_nodup _ hnd, List.map_map]
  refine List.map_congr_left (fun x hx => ?_)
  simp only [Function.comp]
  rw [List.filter_map]
  have hF : ((fun r : TransportRelation => r.Target.Typ == x.Typ) ∘
      fun x => TransportRelation.mk "" [] x) = fun y => y.Typ == x.Typ := rfl
  rw [hF, filter_key_singleton TransportEntity.Typ set hnd x hx]
  simp [TransportRelation.Target]

theorem generateRecombinations_singletons {α : Type} :
    ∀ set : List α, set ≠ [] → generateRecombinations (set.map (fun x => [x])) = [set] := by
  intro set
  induction set with
  | nil => intro h; exact absurd rfl h
  | cons x xs ih =>
    intro _
    by_cases hxs : xs = []
    · subst hxs; rfl
    · rw [List.map_cons, generateRecombinations, ih hxs]
      rfl
theorem forall₂_mem_left {α β : Type} {R : α → β → Prop} {l1 : List α} {l2 : List β}
    (h : List.Forall₂ R l1 l2) : ∀ x ∈ l1, ∃ y ∈ l2, R x y := by
  induction h with
  | nil => intro x hx; cases hx
  | cons hab _ ih =>
    intro x hx
    rcases List.mem_cons.1 hx with rfl | hx
    · exact ⟨_, List.mem_cons_self _ _, hab⟩
    · obtain ⟨y, hy, hr⟩ := ih x hx
      exact ⟨y, List.mem_cons_of_mem _ hy, hr⟩

theorem Parse_fixed (e : TransportEntity) : ∀ o ∈ Parse e, Parse o = [o] := by
  refine transportEntity_induct (P := fun e => ∀ o ∈ Parse e, Parse o = [o]) ?_ e
  intro t i v c p crs prs ihc _ o ho
  by_cases hc : crs = []
  · subst hc
    rw [Parse_leaf, List.mem_singleton] at ho
    subst ho
    exact Parse_leaf t i v c p prs
  · rw [Parse_node t i v c p crs prs hc, List.mem_map] at ho
    obtain ⟨set, hset, rfl⟩ := ho
    have hF := demuxRows_recombination crs hc set hset
    have hfix : ∀ x ∈ set, Parse x = [x] := by
      intro x hx
      obtain ⟨_, _, r, hr, _, hxr⟩ := forall₂_mem_left hF x hx
      exact ihc r hr x hxr
    have htypes : set.map TransportEntity.Typ =
        firstOccurrences (crs.map (fun r => r.Target.Typ)) := by
      refine forall₂_types_eq set _ (hF.imp ?_)
      rintro x ty ⟨r, _, hrt, hxr⟩
      rw [(Parse_root_fields r.Target x hxr).1, hrt]
    have hnd : (set.map TransportEntity.Typ).Nodup := by
      rw [htypes]
      exact firstOccurrences_nodup _
    have hne : set ≠ [] := by
      intro e
      subst e
      cases crs with
      | nil => exact hc rfl
      | cons r rs =>
        have : r.Target.Typ ∈ firstOccurrences ((r :: rs).map (fun r => r.Target.Typ)) :=
          (firstOccurrences_mem _ _).2 (List.mem_cons_self _ _)
        rw [← htypes] at this
        cases this
    have hne2 : set.map (fun x => TransportRelation.mk "" [] x) ≠ [] := by
      intro e
      exact hne (List.map_eq_nil_iff.1 e)
    rw [Parse_node t i v c p _ [] hne2, demuxRows_distinct set hnd,
      List.map_congr_left hfix, generateRecombinations_singletons set hne]
    rfl

/-- C34: demultiplexing is idempotent. Every output `o` of `Parse e` is
demultiplexed into itself alone: `Parse o` is the list of the one element `o`. So
demultiplexing the outputs of `Parse e` one by one gives `Parse e` again. -/
theorem parse_idempotent (e : TransportEntity) :
    (∀ o ∈ Parse e, Parse o = [o]) ∧ (Parse e).flatMap Parse = Parse e := by
  refine ⟨Parse_fixed e, ?_⟩
  have h := Parse_fixed e
  generalize Parse e = l at h
  induction l with
  | nil => rfl
  | cons o os ih =>
    rw [List.flatMap_cons, h o (List.mem_cons_self _ _),
      ih (fun x hx => h x (List.mem_cons_of_mem _ hx))]
    rfl

theorem parse_idempotent_witness :
    fanoutFirst ∈ Parse fanoutRoot ∧ Parse fanoutFirst = [fanoutFirst] ∧
    (Parse shelvedBucket).flatMap Parse = Parse shelvedBucket :=
  ⟨List.mem_cons_self _ _, (parse_idempotent fanoutRoot).1 fanoutFirst (List.mem_cons_self _ _),
    (parse_idempotent shelvedBucket).2⟩
theorem ReachedEndgame_counter (o : Observer) (p : Poll)
    (h : 0 ≤ o.InactiveIncrement ∧ o.InactiveIncrement ≤ 6) :
    0 ≤ (o.ReachedEndgame p).2.InactiveIncrement ∧
      (o.ReachedEndgame p).2.InactiveIncrement ≤ 6 := by
  unfold Observer.ReachedEndgame
  split
  · exact h
  · split
    · simp only []
      split
      · exact ⟨le_refl _, show (0 : Int) ≤ 6 by decide⟩
      · split
        · exact h
        · rename_i h5
          simp only []
          omega
    · exact ⟨le_refl _, show (0 : Int) ≤ 6 by decide⟩

theorem pollAll_counter (polls : List Poll) :
    ∀ o : Observer, 0 ≤ o.InactiveIncrement ∧ o.InactiveIncrement ≤ 6 →
      0 ≤ (o.pollAll polls).2.InactiveIncrement ∧ (o.pollAll polls).2.InactiveIncrement ≤ 6 := by
  induction polls with
  | nil => intro o h; exact h
  | cons p rest ih =>
    intro o h
    exact ih _ (ReachedEndgame_counter o p h)

theorem ReachedEndgame_true (o : Observer) (p : Poll) (ha : p.alive = true)
    (h : (o.ReachedEndgame p).1 = true) : o.InactiveIncrement > 5 ∧ QuietPoll o p := by
  unfold Observer.ReachedEndgame at h
  rw [ha] at h
  simp only [Bool.not_true, Bool.false_eq_true, if_false] at h
  split at h
  · rename_i hq
    split at h
    · cases h
    · rename_i hr
      split at h
      · rename_i h5
        refine ⟨h5, ha, hq.1, hq.2, ?_⟩
        intro n hn t ht hid
        by_contra hv
        exact hr (trackFold_changed p.searching false o.Runners ⟨n, hn, t, ht, hid, hv⟩)
      · cases h
  · cases h

/-- C37: the counter of the observer. In every state that a fresh observer reaches
by a sequence of polls, `InactiveIncrement` lies between 0 and 6; and for a live
store `ReachedEndgame` answers true only when the poll starts with the counter at
6 and is itself quiet: no open job, all workers Searching, no Version that
differs from the tracked one. -/
theorem observer_counter_invariant (runnerAmount : Int) (neurons : List Neuron)
    (polls : List Poll) :
    0 ≤ ((Observer.New runnerAmount neurons).pollAll polls).2.InactiveIncrement ∧
    ((Observer.New runnerAmount neurons).pollAll polls).2.InactiveIncrement ≤ 6 ∧
    ∀ p : Poll, p.alive = true →
      (((Observer.New runnerAmount neurons).pollAll polls).2.ReachedEndgame p).1 = true →
      ((Observer.New runnerAmount neurons).pollAll polls).2.InactiveIncrement = 6 ∧
        QuietPoll ((Observer.New runnerAmount neurons).pollAll polls).2 p := by
  have hinv := pollAll_counter polls (Observer.New runnerAmount neurons)
    ⟨le_refl _, show (0 : Int) ≤ 6 by decide⟩
  refine ⟨hinv.1, hinv.2, ?_⟩
  intro p ha h
  obtain ⟨h5, hq⟩ := ReachedEndgame_true _ p ha h
  exact ⟨by omega, hq⟩

theorem observer_counter_invariant_witness :
    quietPoll.alive = true ∧
    (((Observer.New 1 [⟨1, 3⟩]).pollAll (List.replicate 6 quietPoll)).2.ReachedEndgame
      quietPoll).1 = true ∧
    ((Observer.New 1 [⟨1, 3⟩]).pollAll (List.replicate 6 quietPoll)).2.InactiveIncrement = 6 ∧
    QuietPoll ((Observer.New 1 [⟨1, 3⟩]).pollAll (List.replicate 6 quietPoll)).2 quietPoll ∧
    ((Observer.New 1 [⟨1, 3⟩]).pollAll (List.replicate 9 quietPoll)).2.InactiveIncrement = 6 ∧
    ((Observer.New 1 [⟨1, 3⟩]).pollAll
      (List.replicate 4 quietPoll ++ [bumpedPoll])).2.InactiveIncrement = 0 :=
  ⟨by decide, by decide,
    ((observer_counter_invariant 1 [⟨1, 3⟩] (List.replicate 6 quietPoll)).2.2 quietPoll
      (by decide) (by decide)).1,
    ((observer_counter_invariant 1 [⟨1, 3⟩] (List.replicate 6 quietPoll)).2.2 quietPoll
      (by decide) (by decide)).2, by decide, by decide⟩
theorem SetLogLevel_in_range (fuel : Nat) (a : Archivist) (L : Int) (h1 : 1 ≤ L) (h5 : L ≤ 5) :
    a.SetLogLevel (fuel + 1) L =
      some { a with logFlags :=
        [decide (L ≤ 1), decide (L ≤ 2), decide (L ≤ 3), decide (L ≤ 4), decide (L ≤ 5)] } := by
  have h0 : ¬ (0 = L) := by omega
  have hr : (List.range 5) = [0, 1, 2, 3, 4] := by decide
  simp only [Archivist.SetLogLevel, if_neg h0, LEVEL_DEBUG, LEVEL_FATAL, ge_iff_le, h1, h5,
    and_self, if_true, hr, List.map_cons, List.map_nil]
  have e0 : decide (L - 1 ≤ ((0 : Nat) : Int)) = decide (L ≤ 1) := by
    apply decide_eq_decide.2; omega
  have e1 : decide (L - 1 ≤ ((1 : Nat) : Int)) = decide (L ≤ 2) := by
    apply decide_eq_decide.2; omega
  have e2 : decide (L - 1 ≤ ((2 : Nat) : Int)) = decide (L ≤ 3) := by
    apply decide_eq_decide.2; omega
  have e3 : decide (L - 1 ≤ ((3 : Nat) : Int)) = decide (L ≤ 4) := by
    apply decide_eq_decide.2; omega
  have e4 : decide (L - 1 ≤ ((4 : Nat) : Int)) = decide (L ≤ 5) := by
    apply decide_eq_decide.2; omega
  rw [e0, e1, e2, e3, e4]
  simp only [h5, decide_True]

theorem SetLogLevel_zero (fuel : Nat) (a : Archivist) :
    a.SetLogLevel (fuel + 1) 0 = some { a with logFlags := [false, false, true, true, true] } := by
  simp only [Archivist.SetLogLevel, if_true, LEVEL_WARNING, LEVEL_DEBUG, LEVEL_FATAL]
  rfl

theorem SetLogLevel_out_of_range (fuel : Nat) (a : Archivist) (L : Int) (h0 : L ≠ 0)
    (h : L < 1 ∨ 5 < L) :
    a.SetLogLevel (fuel + 2) L =
      some { a.Error "Given LOG_LEVEL is unknown, defaulting to LEVEL_WARNING provided was: "
          [Itoa L] with logFlags := [false, false, true, true, true] } := by
  have h0' : ¬ (0 = L) := fun e => h0 e.symm
  have hr : ¬ (L ≥ 1 ∧ L ≤ 5) := by omega
  rw [Archivist.SetLogLevel]
  simp only [if_neg h0', LEVEL_DEBUG, LEVEL_FATAL, if_neg hr]
  rw [show LEVEL_WARNING = (3 : Int) from rfl, SetLogLevel_in_range fuel _ 3 (by decide) (by decide)]
  rfl
/-- C38: the log-level threshold. With fuel for two calls `SetLogLevel` returns.
After `SetLogLevel L` with `1 ≤ L ≤ 5` the flag of the level `M` is enabled exactly
when `L ≤ M`; after `SetLogLevel 0` and after `SetLogLevel` of a value outside
1..5 the flags are those of `LEVEL_WARNING` (debug and info disabled; warning,
error and fatal enabled). `Debug` hands a line to the logger exactly when the debug
flag is enabled and the level is at most `debugLevel`; `New` takes `debugLevel`
from the configuration (a negative one as 0) when `LogLevel` is `LEVEL_DEBUG` and
leaves it 0 otherwise. -/
theorem log_level_threshold (a : Archivist) (fuel : Nat) (hfuel : 2 ≤ fuel) :
    (∀ L : Int, 1 ≤ L → L ≤ 5 →
      ∃ b, a.SetLogLevel fuel L = some b ∧ b.debugLevel = a.debugLevel ∧ b.lines = a.lines ∧
        b.logFlags.length = 5 ∧
        ∀ M : Int, 1 ≤ M → M ≤ 5 → (b.flagAt M = true ↔ L ≤ M)) ∧
    (∀ L : Int, L < 1 ∨ 5 < L →
      ∃ b, a.SetLogLevel fuel L = some b ∧ b.debugLevel = a.debugLevel ∧
        b.logFlags = [false, false, true, true, true] ∧
        (a.SetLogLevel fuel LEVEL_WARNING).map Archivist.logFlags = some b.logFlags) ∧
    (∀ (level : Int) (message : String) (params : List String),
      (a.flagAt LEVEL_DEBUG = true ∧ level ≤ a.debugLevel →
        a.Debug level message params =
          { a with lines := a.lines ++ [⟨"debug", message, params⟩] }) ∧
      (¬ (a.flagAt LEVEL_DEBUG = true ∧ level ≤ a.debugLevel) →
        a.Debug level message params = a)) ∧
    (∀ conf : Config,
      ∃ b, Archivist.New fuel conf = some b ∧
        b.debugLevel =
          if conf.LogLevel = LEVEL_DEBUG then
            (if conf.DebugLevel < 0 then 0 else conf.DebugLevel)
          else 0) := by
  obtain ⟨f, rfl⟩ : ∃ f, fuel = f + 2 := ⟨fuel - 2, by omega⟩
  have hW : ∀ x : Archivist, (x.SetLogLevel (f + 2) LEVEL_WARNING).map Archivist.logFlags =
      some [false, false, true, true, true] := by
    intro x
    rw [show LEVEL_WARNING = (3 : Int) from rfl,
      SetLogLevel_in_range (f + 1) x 3 (by decide) (by decide)]
    rfl
  have hany : ∀ (x : Archivist) (L : Int),
      ∃ b, x.SetLogLevel (f + 2) L = some b ∧ b.debugLevel = x.debugLevel := by
    intro x L
    by_cases h0 : L = 0
    · subst h0
      exact ⟨_, SetLogLevel_zero (f + 1) x, rfl⟩
    · by_cases hr : 1 ≤ L ∧ L ≤ 5
      · exact ⟨_, SetLogLevel_in_range (f + 1) x L hr.1 hr.2, rfl⟩
      · refine ⟨_, SetLogLevel_out_of_range f x L h0 (by omega), ?_⟩
        simp only [Archivist.Error, Archivist.store]
        split <;> rfl
  refine ⟨?_, ?_, ?_, ?_⟩
  · intro L h1 h5
    refine ⟨_, SetLogLevel_in_range (f + 1) a L h1 h5, rfl, rfl, rfl, ?_⟩
    intro M hM1 hM5
    have hM : M = 1 ∨ M = 2 ∨ M = 3 ∨ M = 4 ∨ M = 5 := by omega
    rcases hM with rfl | rfl | rfl | rfl | rfl <;>
      simp [Archivist.flagAt]
  · intro L hL
    by_cases h0 : L = 0
    · subst h0
      exact ⟨_, SetLogLevel_zero (f + 1) a, rfl, rfl, hW a⟩
    · refine ⟨_, SetLogLevel_out_of_range f a L h0 hL, ?_, rfl, hW a⟩
      simp only [Archivist.Error, Archivist.store]
      split <;> rfl
  · intro level message params
    constructor
    · intro h
      simp only [Archivist.Debug, h.1, h.2, decide_True, Bool.and_self, if_true, Archivist.store]
    · intro h
      simp only [Archivist.Debug, Bool.and_eq_true, decide_eq_true_eq, if_neg h]
  · intro conf
    obtain ⟨b, hb, hd⟩ := hany ⟨[false, true, true, true, true], 0, []⟩ conf.LogLevel
    simp only [Archivist.New, hb]
    by_cases hc : conf.LogLevel = LEVEL_DEBUG
    · simp only [if_pos hc]
      exact ⟨_, rfl, rfl⟩
    · simp only [if_neg hc]
      exact ⟨_, rfl, hd⟩

theorem log_level_threshold_witness :
    (2 : Nat) ≤ 2 ∧
    (Archivist.New 2 ⟨4, 3⟩).map Archivist.logFlags = some [false, false, false, true, true] ∧
    (Archivist.New 2 ⟨7, 3⟩).map Archivist.logFlags = some [false, false, true, true, true] ∧
    (Archivist.New 2 ⟨1, 3⟩).map (fun x => (x.Debug 3 "m" []).lines.length) = some 1 ∧
    (Archivist.New 2 ⟨1, 3⟩).map (fun x => (x.Debug 4 "m" []).lines.length) = some 0 ∧
    (Archivist.New 2 ⟨2, 3⟩).map Archivist.debugLevel = some 0 ∧
    (∀ L : Int, 1 ≤ L → L ≤ 5 →
      ∃ b, (Archivist.mk [false, true, true, true, true] 0 []).SetLogLevel 2 L = some b ∧
        b.debugLevel = 0 ∧ b.lines = [] ∧ b.logFlags.length = 5 ∧
        ∀ M : Int, 1 ≤ M → M ≤ 5 → (b.flagAt M = true ↔ L ≤ M)) :=
  ⟨by decide, by decide, by decide, by decide, by decide, by decide,
    (log_level_threshold ⟨[false, true, true, true, true], 0, []⟩ 2 (by decide)).1⟩
theorem signature_toList {W : Type} (C : Collaborators W) (a d : String)
    (anchor input : TransportEntity) :
    (buildWitnessSignatureString C a d anchor input).toList =
      (a.toList ++ '|' :: (d.toList ++ '|' :: (anchor.Typ.toList ++ ':' ::
        (Itoa anchor.ID).toList))) ++ '|' :: (C.GenerateSignature input).toList := by
  unfold buildWitnessSignatureString
  have e1 : "|".toList = ['|'] := by decide
  have e2 : ":".toList = [':'] := by decide
  simp only [toList_append, List.append_assoc, e1, e2, List.cons_append, List.nil_append]

/-- C39: witness signatures separate tuples. For action names, dependency names
and anchor types that contain neither `|` nor `:`, and one input, two signature
strings are equal exactly when the action names, the dependency names, the anchor
types and the anchor IDs are equal. -/
theorem witness_signature_injective {W : Type} (C : Collaborators W) (a1 d1 a2 d2 : String)
    (anchor1 anchor2 input : TransportEntity)
    (ha1 : SeparatorFree a1) (ha2 : SeparatorFree a2)
    (hd1 : SeparatorFree d1) (hd2 : SeparatorFree d2)
    (ht1 : SeparatorFree anchor1.Typ) (ht2 : SeparatorFree anchor2.Typ) :
    buildWitnessSignatureString C a1 d1 anchor1 input =
        buildWitnessSignatureString C a2 d2 anchor2 input ↔
      a1 = a2 ∧ d1 = d2 ∧ anchor1.Typ = anchor2.Typ ∧ anchor1.ID = anchor2.ID := by
  constructor
  · intro h
    have hl := congrArg String.toList h
    rw [signature_toList, signature_toList] at hl
    have h1 := List.append_cancel_right hl
    obtain ⟨e1, h2⟩ := append_cons_unique_first h1 ha1.1 ha2.1
    obtain ⟨e2, h3⟩ := append_cons_unique_first h2 hd1.1 hd2.1
    obtain ⟨e3, h4⟩ := append_cons_unique_first h3 ht1.2 ht2.2
    exact ⟨toList_inj e1, toList_inj e2, toList_inj e3, Itoa_inj _ _ (toList_inj h4)⟩
  · rintro ⟨rfl, rfl, e3, e4⟩
    unfold buildWitnessSignatureString
    rw [e3, e4]

theorem witness_signature_injective_witness :
    SeparatorFree "ActionA" ∧ SeparatorFree "alpha" ∧ SeparatorFree demoAlpha.Typ ∧
    buildWitnessSignatureString demoStore "ActionA" "alpha" demoAlpha demoAlpha =
      "ActionA|alpha|Alpha:1|Alpha:a1" ∧
    (buildWitnessSignatureString demoStore "ActionA" "alpha" demoAlpha demoAlpha =
        buildWitnessSignatureString demoStore "ActionA" "alpha" betaOne demoAlpha ↔
      "ActionA" = "ActionA" ∧ "alpha" = "alpha" ∧ demoAlpha.Typ = betaOne.Typ ∧
        demoAlpha.ID = betaOne.ID) ∧
    buildWitnessSignatureString demoStore "A|b" "c" demoAlpha demoAlpha =
      buildWitnessSignatureString demoStore "A" "b|c" demoAlpha demoAlpha :=
  ⟨by decide, by decide, by decide, by decide,
    witness_signature_injective demoStore "ActionA" "alpha" "ActionA" "alpha" demoAlpha betaOne
      demoAlpha (by decide) (by decide) (by decide) (by decide) (by decide) (by decide),
    by decide⟩
theorem markedEntities_eq (t : String) (i : Int) (v c : String) (p : StringMap)
    (crs prs : List TransportRelation) :
    markedEntities (.mk t i v c p crs prs) =
      (if mapHas p "bMap" then [.mk t i v c p crs prs] else []) ++
        crs.flatMap (fun r => markedEntities r.Target) := by
  unfold markedEntities
  rw [walkChildren_eq, List.filter_cons]
  have : List.filter (fun m => mapHas m.Properties "bMap")
      (crs.flatMap (fun r => walkChildren r.Target)) =
      crs.flatMap (fun r =>
        List.filter (fun m => mapHas m.Properties "bMap") (walkChildren r.Target)) := by
    induction crs with
    | nil => rfl
    | cons r rs ih => rw [List.flatMap_cons, List.filter_append, ih, List.flatMap_cons]
  show (if mapHas p "bMap" = true then
      TransportEntity.mk t i v c p crs prs ::
        List.filter (fun m => mapHas m.Properties "bMap")
          (crs.flatMap (fun r => walkChildren r.Target))
    else List.filter (fun m => mapHas m.Properties "bMap")
      (crs.flatMap (fun r => walkChildren r.Target))) = _
  rw [this]
  split <;> rfl

theorem rEnrich_fold (e : TransportEntity) :
    ∀ lp, rEnrichLookupAndPointer e lp = (markedEntities e).foldl enrichStep lp := by
  refine transportEntity_induct
    (P := fun e => ∀ lp, rEnrichLookupAndPointer e lp = (markedEntities e).foldl enrichStep lp)
    ?_ e
  intro t i v c p crs prs ihc _ lp
  rw [rEnrichLookupAndPointer, rEnrichLoop_eq, markedEntities_eq, List.foldl_append]
  have h1 : (if mapHas p "bMap" = true then
        if lookupHas lp.1 t = true then lp
        else (mapSet lp.1 t lp.2.length, lp.2 ++ [[TransportEntity.mk t i v c p crs prs]])
      else lp) =
      List.foldl enrichStep lp
        (if mapHas p "bMap" = true then [TransportEntity.mk t i v c p crs prs] else []) := by
    by_cases hm : mapHas p "bMap" = true
    · rw [if_pos hm, if_pos hm]
      rfl
    · rw [if_neg hm, if_neg hm]
      rfl
  show List.foldl (fun acc r => rEnrichLookupAndPointer r.Target acc)
      (if mapHas p "bMap" = true then
        if lookupHas lp.1 t = true then lp
        else (mapSet lp.1 t lp.2.length, lp.2 ++ [[TransportEntity.mk t i v c p crs prs]])
      else lp) crs = _
  rw [h1]
  generalize List.foldl enrichStep lp
    (if mapHas p "bMap" = true then [TransportEntity.mk t i v c p crs prs] else []) = lp1
  clear h1
  induction crs generalizing lp1 with
  | nil => rfl
  | cons r rs ih =>
    rw [List.foldl_cons, List.flatMap_cons, List.foldl_append,
      ihc r (List.mem_cons_self _ _)]
    exact ih (fun r hr => ihc r (List.mem_cons_of_mem _ hr)) _
theorem enrich_fold_inv (ms : List TransportEntity) :
    (∀ t m, ms.find? (fun x => x.Typ == t) = some m →
      ∃ idx, (ms.foldl enrichStep ([], [])).1.lookup t = some idx ∧
        (ms.foldl enrichStep ([], [])).2[idx]? = some [m]) ∧
    (∀ t, ms.find? (fun x => x.Typ == t) = none →
      (ms.foldl enrichStep ([], [])).1.lookup t = none) := by
  induction ms using List.reverseRecOn with
  | nil =>
    refine ⟨?_, ?_⟩
    · intro t m h; cases h
    · intro t _; rfl
  | append_singleton ms x ih =>
    obtain ⟨ih1, ih2⟩ := ih
    rw [List.foldl_append, List.foldl_cons, List.foldl_nil]
    generalize ms.foldl enrichStep ([], []) = lp at ih1 ih2 ⊢
    have hfx : ∀ t, [x].find? (fun y => y.Typ == t) = if x.Typ = t then some x else none := by
      intro t
      by_cases e : x.Typ = t
      · simp [e]
      · simp [e]
    by_cases hh : lookupHas lp.1 x.Typ = true
    · have hstep : enrichStep lp x = lp := by
        unfold enrichStep
        rw [if_pos hh]
      rw [hstep]
      refine ⟨?_, ?_⟩
      · intro t m hf
        rw [List.find?_append] at hf
        cases hms : ms.find? (fun y => y.Typ == t) with
        | some m0 =>
          rw [hms] at hf
          cases hf
          exact ih1 t m hms
        | none =>
          rw [hms, Option.none_or, hfx] at hf
          have hl := ih2 t hms
          by_cases e : x.Typ = t
          · subst e
            unfold lookupHas at hh
            rw [hl] at hh
            cases hh
          · rw [if_neg e] at hf
            cases hf
      · intro t hf
        rw [List.find?_append] at hf
        cases hms : ms.find? (fun y => y.Typ == t) with
        | some m0 =>
          rw [hms] at hf
          cases hf
        | none => exact ih2 t hms
    · have hstep : enrichStep lp x = (mapSet lp.1 x.Typ lp.2.length, lp.2 ++ [[x]]) := by
        unfold enrichStep
        rw [if_neg hh]
      have hnone : lp.1.lookup x.Typ = none := by
        unfold lookupHas at hh
        cases hl : lp.1.lookup x.Typ with
        | none => rfl
        | some _ => rw [hl] at hh; exact absurd rfl hh
      rw [hstep]
      refine ⟨?_, ?_⟩
      · intro t m hf
        rw [List.find?_append] at hf
        by_cases e : x.Typ = t
        · subst e
          cases hms : ms.find? (fun y => y.Typ == x.Typ) with
          | some m0 =>
            obtain ⟨idx, hidx, _⟩ := ih1 _ m0 hms
            rw [hnone] at hidx
            cases hidx
          | none =>
            rw [hms, Option.none_or, hfx, if_pos rfl] at hf
            cases hf
            refine ⟨lp.2.length, lookup_mapSet_self _ _ _, ?_⟩
            simp
        · cases hms : ms.find? (fun y => y.Typ == t) with
          | some m0 =>
            rw [hms] at hf
            cases hf
            obtain ⟨idx, hidx, hp⟩ := ih1 t m hms
            refine ⟨idx, ?_, ?_⟩
            · show (mapSet lp.1 x.Typ lp.2.length).lookup t = some idx
              rw [lookup_mapSet_other _ _ _ _ (fun h => e h.symm)]
              exact hidx
            · show (lp.2 ++ [[x]])[idx]? = some [m]
              have hlt : idx < lp.2.length := by
                by_contra hge
                rw [List.getElem?_eq_none (by omega)] at hp
                cases hp
              rw [List.getElem?_append_left hlt]
              exact hp
          | none =>
            rw [hms, Option.none_or, hfx, if_neg e] at hf
            cases hf
      · intro t hf
        rw [List.find?_append] at hf
        cases hms : ms.find? (fun y => y.Typ == t) with
        | some m0 =>
          rw [hms] at hf
          cases hf
        | none =>
          rw [hms, Option.none_or, hfx] at hf
          by_cases e : x.Typ = t
          · rw [if_pos e] at hf
            cases hf
          · show (mapSet lp.1 x.Typ lp.2.length).lookup t = none
            rw [lookup_mapSet_other _ _ _ _ (fun h => e h.symm)]
            exact ih2 t hms

/-- C36: the batch lookup is well formed. For the pair `(lookup, pointer)` that
`rEnrichLookupAndPointer` builds from an empty pair: the keys of `lookup` are
exactly the Types of the marked entities reached through child relations; for
every key, `lookup[key]` is an index into `pointer`, and `pointer` holds there a
list of one element, the first marked entity of that Type in pre-order. So the
access `pointer[lookup[type]][0]` of `rBuildQuery`, made for the types that are
keys, is in range and yields that entity. -/
theorem batch_lookup_well_formed (e : TransportEntity) :
    (∀ t, lookupHas (rEnrichLookupAndPointer e ([], [])).1 t = true ↔
      ∃ m ∈ markedEntities e, m.Typ = t) ∧
    (∀ t, lookupHas (rEnrichLookupAndPointer e ([], [])).1 t = true →
      lookupGet (rEnrichLookupAndPointer e ([], [])).1 t <
        (rEnrichLookupAndPointer e ([], [])).2.length ∧
      ∃ m, firstMarked e t = some m ∧
        (rEnrichLookupAndPointer e ([], [])).2[lookupGet
          (rEnrichLookupAndPointer e ([], [])).1 t]? = some [m] ∧
        pinnedEntity (rEnrichLookupAndPointer e ([], [])) t = m) := by
  rw [rEnrich_fold]
  obtain ⟨h1, h2⟩ := enrich_fold_inv (markedEntities e)
  generalize (markedEntities e).foldl enrichStep ([], []) = lp at h1 h2 ⊢
  have key : ∀ t, lookupHas lp.1 t = true →
      ∃ m idx, firstMarked e t = some m ∧ lp.1.lookup t = some idx ∧ lp.2[idx]? = some [m] := by
    intro t ht
    cases hf : (markedEntities e).find? (fun x => x.Typ == t) with
    | none =>
      unfold lookupHas at ht
      rw [h2 t hf] at ht
      cases ht
    | some m =>
      obtain ⟨idx, hi, hp⟩ := h1 t m hf
      exact ⟨m, idx, hf, hi, hp⟩
  refine ⟨?_, ?_⟩
  · intro t
    constructor
    · intro ht
      obtain ⟨m, _, hf, _, _⟩ := key t ht
      refine ⟨m, List.mem_of_find?_eq_some hf, ?_⟩
      have := List.find?_some hf
      simpa using this
    · rintro ⟨m, hm, hmt⟩
      cases hf : (markedEntities e).find? (fun x => x.Typ == t) with
      | none =>
        have := List.find?_eq_none.1 hf m hm
        simp [hmt] at this
      | some m0 =>
        obtain ⟨idx, hi, _⟩ := h1 t m0 hf
        unfold lookupHas
        rw [hi]
        rfl
  · intro t ht
    obtain ⟨m, idx, hf, hi, hp⟩ := key t ht
    have hg : lookupGet lp.1 t = idx := by
      unfold lookupGet
      rw [hi]
      rfl
    have hlt : idx < lp.2.length := by
      by_contra hge
      rw [List.getElem?_eq_none (by omega)] at hp
      cases hp
    rw [hg]
    refine ⟨hlt, m, hf, hp, ?_⟩
    unfold pinnedEntity
    rw [hg, List.getD_eq_getElem?_getD, hp]
    rfl

theorem batch_lookup_well_formed_witness :
    lookupHas (rEnrichLookupAndPointer pairBatch ([], [])).1 "Beta" = true ∧
    (rEnrichLookupAndPointer pairBatch ([], [])).1 = [("Alpha", 0), ("Beta", 1)] ∧
    (rEnrichLookupAndPointer pairBatch ([], [])).2.length = 2 ∧
    (firstMarked pairBatch "Beta").map (fun m => (m.Typ, m.ID)) = some ("Beta", 2) ∧
    (pinnedEntity (rEnrichLookupAndPointer pairBatch ([], [])) "Beta").ID = 2 ∧
    lookupGet (rEnrichLookupAndPointer pairBatch ([], [])).1 "Beta" <
      (rEnrichLookupAndPointer pairBatch ([], [])).2.length :=
  ⟨by decide, by decide, by decide, by decide, by decide,
    ((batch_lookup_well_formed pairBatch).2 "Beta" (by decide)).1⟩
theorem transformAll_eq (l : List Structure) :
    transformAll l = l.map (fun s => TransportRelation.mk "" [] s.Transform) := by
  induction l with
  | nil => rw [transformAll]; rfl
  | cons s rest ih => rw [transformAll, ih]; rfl

theorem Transform_eq (s : Structure) :
    s.Transform =
      .mk "Structure" (-1) s.Typ "System" (transformProperties s)
        (s.Children.map (fun c => TransportRelation.mk "" [] c.Transform))
        (s.Parents.map (fun c => TransportRelation.mk "" [] c.Transform)) := by
  cases s with
  | mk parents children typ priority filter mode al =>
    rw [Structure.Transform, transformAll_eq, transformAll_eq]
    rfl

theorem transformFilterStep_fst (acc : StringMap × String) (kv : String × FilterRec) :
    (transformFilterStep acc kv).1 =
      mapSet (mapSet (mapSet acc.1 (filterKey kv.1 "Field") kv.2.1)
        (filterKey kv.1 "Operator") kv.2.2.1) (filterKey kv.1 "Value") kv.2.2.2 := by
  unfold transformFilterStep
  simp only [filterKey_field, filterKey_operator, filterKey_value]

theorem transformFold_keys (filter : List (String × FilterRec)) (k : String) :
    ∀ acc : StringMap × String,
      (k ∈ (filter.foldl transformFilterStep acc).1.map Prod.fst ↔
        k ∈ acc.1.map Prod.fst ∨ ∃ kv ∈ filter, k = filterKey kv.1 "Field" ∨
          k = filterKey kv.1 "Operator" ∨ k = filterKey kv.1 "Value") := by
  induction filter with
  | nil => intro acc; simp
  | cons x xs ih =>
    intro acc
    rw [List.foldl_cons, ih, transformFilterStep_fst]
    simp only [mem_mapSet_keys, List.mem_cons, exists_eq_or_imp]
    constructor
    · rintro ((h | h | h | h) | h)
      · exact Or.inr (Or.inl (Or.inr (Or.inr h)))
      · exact Or.inr (Or.inl (Or.inr (Or.inl h)))
      · exact Or.inr (Or.inl (Or.inl h))
      · exact Or.inl h
      · exact Or.inr (Or.inr h)
    · rintro (h | (h | h | h) | h)
      · exact Or.inl (Or.inr (Or.inr (Or.inr h)))
      · exact Or.inl (Or.inr (Or.inr (Or.inl h)))
      · exact Or.inl (Or.inr (Or.inl h))
      · exact Or.inl (Or.inl h)
      · exact Or.inr h

theorem transformFold_nodup (filter : List (String × FilterRec)) :
    ∀ acc : StringMap × String, (acc.1.map Prod.fst).Nodup →
      ((filter.foldl transformFilterStep acc).1.map Prod.fst).Nodup := by
  induction filter with
  | nil => intro acc h; exact h
  | cons x xs ih =>
    intro acc h
    rw [List.foldl_cons]
    apply ih
    rw [transformFilterStep_fst]
    exact mapSet_keys_nodup _ _ _ (mapSet_keys_nodup _ _ _ (mapSet_keys_nodup _ _ _ h))

theorem transformFold_other (filter : List (String × FilterRec)) (k : String)
    (hk : ∀ kv ∈ filter, k ≠ filterKey kv.1 "Field" ∧ k ≠ filterKey kv.1 "Operator" ∧
      k ≠ filterKey kv.1 "Value") :
    ∀ acc : StringMap × String,
      mapGet (filter.foldl transformFilterStep acc).1 k = mapGet acc.1 k := by
  induction filter with
  | nil => intro acc; rfl
  | cons x xs ih =>
    intro acc
    obtain ⟨h1, h2, h3⟩ := hk x (List.mem_cons_self _ _)
    rw [List.foldl_cons, ih (fun kv hkv => hk kv (List.mem_cons_of_mem _ hkv)),
      transformFilterStep_fst, mapGet_mapSet_other _ _ _ _ h3, mapGet_mapSet_other _ _ _ _ h2,
      mapGet_mapSet_other _ _ _ _ h1]

theorem filterKey_kind_ne (n1 n2 k1 k2 : String) (h1 : DotFree n1) (h2 : DotFree n2)
    (h : n1 ≠ n2 ∨ k1 ≠ k2) : filterKey n1 k1 ≠ filterKey n2 k2 := by
  intro e
  obtain ⟨e1, e2⟩ := filterKey_inj n1 k1 n2 k2 h1 h2 e
  rcases h with h | h
  · exact h e1
  · exact h e2

theorem transformFold_values (filter : List (String × FilterRec))
    (hdot : ∀ kv ∈ filter, DotFree kv.1) (hnd : (filter.map Prod.fst).Nodup) :
    ∀ acc : StringMap × String, ∀ kv ∈ filter,
      mapGet (filter.foldl transformFilterStep acc).1 (filterKey kv.1 "Field") = kv.2.1 ∧
      mapGet (filter.foldl transformFilterStep acc).1 (filterKey kv.1 "Operator") = kv.2.2.1 ∧
      mapGet (filter.foldl transformFilterStep acc).1 (filterKey kv.1 "Value") = kv.2.2.2 := by
  induction filter with
  | nil => intro acc kv h; cases h
  | cons x xs ih =>
    intro acc kv hkv
    rw [List.map_cons, List.nodup_cons] at hnd
    rw [List.foldl_cons]
    rcases List.mem_cons.1 hkv with rfl | hkv
    · have hx := hdot kv (List.mem_cons_self _ _)
      have hother : ∀ kind, ∀ y ∈ xs, filterKey kv.1 kind ≠ filterKey y.1 "Field" ∧
          filterKey kv.1 kind ≠ filterKey y.1 "Operator" ∧
          filterKey kv.1 kind ≠ filterKey y.1 "Value" := by
        intro kind y hy
        have hne : kv.1 ≠ y.1 := fun e => hnd.1 (e ▸ List.mem_map.2 ⟨y, hy, rfl⟩)
        have hy2 := hdot y (List.mem_cons_of_mem _ hy)
        exact ⟨filterKey_kind_ne _ _ _ _ hx hy2 (Or.inl hne),
          filterKey_kind_ne _ _ _ _ hx hy2 (Or.inl hne),
          filterKey_kind_ne _ _ _ _ hx hy2 (Or.inl hne)⟩
      rw [transformFold_other xs _ (hother "Field"), transformFold_other xs _ (hother "Operator"),
        transformFold_other xs _ (hother "Value"), transformFilterStep_fst]
      have hFO : filterKey kv.1 "Field" ≠ filterKey kv.1 "Operator" :=
        filterKey_kind_ne _ _ _ _ hx hx (Or.inr (by decide))
      have hFV : filterKey kv.1 "Field" ≠ filterKey kv.1 "Value" :=
        filterKey_kind_ne _ _ _ _ hx hx (Or.inr (by decide))
      have hOV : filterKey kv.1 "Operator" ≠ filterKey kv.1 "Value" :=
        filterKey_kind_ne _ _ _ _ hx hx (Or.inr (by decide))
      refine ⟨?_, ?_, ?_⟩
      · rw [mapGet_mapSet_other _ _ _ _ hFV, mapGet_mapSet_other _ _ _ _ hFO,
          mapGet_mapSet_self]
      · rw [mapGet_mapSet_other _ _ _ _ hOV, mapGet_mapSet_self]
      · rw [mapGet_mapSet_self]
    · exact ih (fun y hy => hdot y (List.mem_cons_of_mem _ hy)) hnd.2 _ kv hkv
theorem filterKey_startsWith (name kind : String) :
    startsWith (filterKey name kind) "Filter." = true := by
  rw [startsWith_iff]
  exact ⟨name ++ "." ++ kind, by simp only [filterKey, String.append_assoc]⟩

theorem compileFilters_get (P : StringMap) (hnd : (P.map Prod.fst).Nodup) (name : String)
    (hn : DotFree name) :
    filterGet (compileFilters P).1 name =
      (mapGet P (filterKey name "Field"), mapGet P (filterKey name "Operator"),
        mapGet P (filterKey name "Value")) := by
  have hslot : ∀ kind, DotFree kind →
      slotValue compileValid name kind P "" = mapGet P (filterKey name kind) := by
    intro kind hk
    rw [slotValue_compile name kind hn hk P hnd]
    split
    · rfl
    · rename_i h
      exact (mapGet_of_not_mem _ _ h).symm
  rw [compileFilters_fst, slot_fold compileValid name P [] "" "" "" rfl,
    hslot "Field" (by decide), hslot "Operator" (by decide), hslot "Value" (by decide)]

theorem compileFilters_keys (P : StringMap) (name : String) :
    name ∈ (compileFilters P).1.map Prod.fst ↔
      ∃ kv ∈ P, ∃ kind, kv.1 = filterKey name kind ∧ DotFree name ∧ DotFree kind := by
  rw [compileFilters_fst, slot_fold_keys]
  constructor
  · rintro (h | ⟨kv, hkv, hv, kind, hk⟩)
    · cases h
    · exact ⟨kv, hkv, kind, (compileValid_keyNameKind kv.1 name kind).1 ⟨hv, hk⟩⟩
  · rintro ⟨kv, hkv, kind, h⟩
    have := (compileValid_keyNameKind kv.1 name kind).2 h
    exact Or.inr ⟨kv, hkv, this.1, kind, this.2⟩

theorem lookup_eq_filterGet (m : List (String × FilterRec)) (k : String)
    (h : k ∈ m.map Prod.fst) : m.lookup k = some (filterGet m k) := by
  have := (lookup_isSome_iff_mem_keys m k).2 h
  unfold filterGet
  cases hl : m.lookup k with
  | none => rw [hl] at this; cases this
  | some r => rfl

theorem lookup_eq_none_of_not_mem {β : Type} (m : List (String × β)) (k : String)
    (h : k ∉ m.map Prod.fst) : m.lookup k = none := by
  cases hl : m.lookup k with
  | none => rfl
  | some r =>
    exact absurd ((lookup_isSome_iff_mem_keys m k).1 (by rw [hl]; rfl)) h

theorem transformProperties_nodup (s : Structure) :
    ((transformProperties s).map Prod.fst).Nodup := by
  have h0 : (((if s.Alias ≠ "" then [("Alias", s.Alias)] else [] : StringMap)).map
      Prod.fst).Nodup := by
    by_cases ha : s.Alias ≠ ""
    · rw [if_pos ha]
      exact List.nodup_singleton _
    · rw [if_neg ha]
      exact List.nodup_nil
  have hr := transformFold_nodup s.Filter
    ((if s.Alias ≠ "" then [("Alias", s.Alias)] else [] : StringMap), "") h0
  unfold transformProperties
  apply mapSet_keys_nodup
  apply mapSet_keys_nodup
  generalize s.Filter.foldl transformFilterStep
    ((if s.Alias ≠ "" then [("Alias", s.Alias)] else [] : StringMap), "") = r at hr ⊢
  by_cases hA : r.2 ≠ ""
  · rw [if_pos hA]
    exact mapSet_keys_nodup _ _ _ hr
  · rw [if_neg hA]
    exact hr

theorem transformProperties_get (s : Structure) (k : String)
    (hk : startsWith k "Filter." = true) :
    mapGet (transformProperties s) k =
      mapGet (s.Filter.foldl transformFilterStep
        ((if s.Alias ≠ "" then [("Alias", s.Alias)] else [] : StringMap), "")).1 k := by
  have h1 : k ≠ "Type" := by
    intro e; rw [e] at hk; revert hk; decide
  have h2 : k ≠ "Mode" := by
    intro e; rw [e] at hk; revert hk; decide
  have h3 : k ≠ "AllFilters" := by
    intro e; rw [e] at hk; revert hk; decide
  unfold transformProperties
  rw [mapGet_mapSet_other _ _ _ _ h1, mapGet_mapSet_other _ _ _ _ h2]
  generalize s.Filter.foldl transformFilterStep
    ((if s.Alias ≠ "" then [("Alias", s.Alias)] else [] : StringMap), "") = r
  by_cases hA : r.2 ≠ ""
  · rw [if_pos hA, mapGet_mapSet_other _ _ _ _ h3]
  · rw [if_neg hA]

theorem transformProperties_keys (s : Structure) (k : String)
    (hk : startsWith k "Filter." = true) :
    k ∈ (transformProperties s).map Prod.fst ↔
      ∃ kv ∈ s.Filter, k = filterKey kv.1 "Field" ∨ k = filterKey kv.1 "Operator" ∨
        k = filterKey kv.1 "Value" := by
  have h1 : k ≠ "Type" := by
    intro e; rw [e] at hk; revert hk; decide
  have h2 : k ≠ "Mode" := by
    intro e; rw [e] at hk; revert hk; decide
  have h3 : k ≠ "AllFilters" := by
    intro e; rw [e] at hk; revert hk; decide
  have h4 : k ≠ "Alias" := by
    intro e; rw [e] at hk; revert hk; decide
  have h0 : k ∉ ((if s.Alias ≠ "" then [("Alias", s.Alias)] else [] : StringMap)).map
      Prod.fst := by
    by_cases ha : s.Alias ≠ ""
    · rw [if_pos ha]
      simp [h4]
    · rw [if_neg ha]
      simp
  have hr := transformFold_keys s.Filter k
    ((if s.Alias ≠ "" then [("Alias", s.Alias)] else [] : StringMap), "")
  have hr2 : k ∈ (s.Filter.foldl transformFilterStep
      ((if s.Alias ≠ "" then [("Alias", s.Alias)] else [] : StringMap), "")).1.map Prod.fst ↔
      ∃ kv ∈ s.Filter, k = filterKey kv.1 "Field" ∨ k = filterKey kv.1 "Operator" ∨
        k = filterKey kv.1 "Value" := by
    rw [hr]
    constructor
    · rintro (h | h)
      · exact absurd h h0
      · exact h
    · exact fun h => Or.inr h
  clear hr
  unfold transformProperties
  rw [mem_mapSet_keys, mem_mapSet_keys]
  generalize s.Filter.foldl transformFilterStep
    ((if s.Alias ≠ "" then [("Alias", s.Alias)] else [] : StringMap), "") = r at hr2 ⊢
  rw [← hr2]
  by_cases hA : r.2 ≠ ""
  · rw [if_pos hA, mem_mapSet_keys]
    constructor
    · rintro (h | h | h | h)
      · exact absurd h h1
      · exact absurd h h2
      · exact absurd h h3
      · exact h
    · exact fun h => Or.inr (Or.inr (Or.inr h))
  · rw [if_neg hA]
    constructor
    · rintro (h | h | h)
      · exact absurd h h1
      · exact absurd h h2
      · exact h
    · exact fun h => Or.inr (Or.inr h)

theorem transformProperties_alias (s : Structure) :
    mapGet (transformProperties s) "Alias" = s.Alias := by
  have hne : ∀ kv ∈ s.Filter, "Alias" ≠ filterKey kv.1 "Field" ∧
      "Alias" ≠ filterKey kv.1 "Operator" ∧ "Alias" ≠ filterKey kv.1 "Value" := by
    intro kv _
    have hA : ∀ kind, "Alias" ≠ filterKey kv.1 kind := by
      intro kind e
      have := filterKey_startsWith kv.1 kind
      rw [← e] at this
      revert this
      decide
    exact ⟨hA _, hA _, hA _⟩
  have hr := transformFold_other s.Filter "Alias" hne
    ((if s.Alias ≠ "" then [("Alias", s.Alias)] else [] : StringMap), "")
  have h0 : mapGet (if s.Alias ≠ "" then [("Alias", s.Alias)] else [] : StringMap) "Alias" =
      s.Alias := by
    by_cases ha : s.Alias = ""
    · rw [if_neg (not_not.2 ha), ha]
      rfl
    · rw [if_pos ha]
      simp [mapGet, List.lookup]
  rw [show ((if s.Alias ≠ "" then [("Alias", s.Alias)] else [] : StringMap), "").1 =
    (if s.Alias ≠ "" then [("Alias", s.Alias)] else [] : StringMap) from rfl, h0] at hr
  unfold transformProperties
  rw [mapGet_mapSet_other _ _ _ _ (by decide), mapGet_mapSet_other _ _ _ _ (by decide)]
  generalize s.Filter.foldl transformFilterStep
    ((if s.Alias ≠ "" then [("Alias", s.Alias)] else [] : StringMap), "") = r at hr ⊢
  by_cases hA : r.2 ≠ ""
  · rw [if_pos hA, mapGet_mapSet_other _ _ _ _ (by decide), hr]
  · rw [if_neg hA, hr]

theorem transformProperties_mode (s : Structure) :
    mapGet (transformProperties s) "Mode" = s.Mode := by
  unfold transformProperties
  rw [mapGet_mapSet_other _ _ _ _ (by decide), mapGet_mapSet_self]
/-- C35: the round trip through the builder and the compiler. For a `Structure`
whose filter names contain no dot (the names are the keys of a map, so they are
pairwise different), the compiled form of its transform has the Type, the Mode
and the Alias of the `Structure`, and its filters are those of the `Structure`:
the same names with the same triples of Field, Operator and Value. Its children
are the compiled transforms of the children of the `Structure`, in canonical
order. A `Structure` made by `NewStructure` compiles to the mode Set, without
filter, alias or child. -/
theorem builder_compiler_round_trip (s : Structure)
    (hdot : ∀ kv ∈ s.Filter, DotFree kv.1) (hnd : (s.Filter.map Prod.fst).Nodup) :
    (compilePatternNode s.Transform).Typ = s.Typ ∧
    (compilePatternNode s.Transform).Mode = s.Mode ∧
    (compilePatternNode s.Transform).Alias = s.Alias ∧
    (∀ name, (compilePatternNode s.Transform).Filters.lookup name = s.Filter.lookup name) ∧
    (∀ name, name ∈ (compilePatternNode s.Transform).Filters.map Prod.fst ↔
      name ∈ s.Filter.map Prod.fst) ∧
    ((compilePatternNode s.Transform).Filters.map Prod.fst).Nodup ∧
    (compilePatternNode s.Transform).Children.Perm
      (s.Children.map (fun c => compilePatternNode c.Transform)) ∧
    (compilePatternNode s.Transform).Children.Pairwise canonicalBefore ∧
    (∀ nodeType : String,
      compilePatternNode (NewStructure nodeType).Transform =
        .mk "" nodeType "Set" [] [] []) := by
  obtain ⟨hA, hT, hM, hF, _⟩ := compilePatternNode_fields s.Transform
  have hP : s.Transform.Properties = transformProperties s := by
    rw [Transform_eq]; rfl
  have hV : s.Transform.Value = s.Typ := by
    rw [Transform_eq]; rfl
  have hC : s.Transform.Children = s.Children.map Structure.Transform := by
    rw [Transform_eq]
    simp only [TransportEntity.Children, TransportEntity.ChildRelations, List.map_map]
    rfl
  have hPnd := transformProperties_nodup s
  have hvals := transformFold_values s.Filter hdot hnd
    ((if s.Alias ≠ "" then [("Alias", s.Alias)] else [] : StringMap), "")
  have hkeys : ∀ name, name ∈ (compileFilters (transformProperties s)).1.map Prod.fst ↔
      name ∈ s.Filter.map Prod.fst := by
    intro name
    rw [compileFilters_keys]
    constructor
    · rintro ⟨kv, hkv, kind, hk, hn, _⟩
      have hmem : kv.1 ∈ (transformProperties s).map Prod.fst := List.mem_map.2 ⟨kv, hkv, rfl⟩
      rw [transformProperties_keys s kv.1 (hk ▸ filterKey_startsWith name kind)] at hmem
      obtain ⟨f, hf, hfk⟩ := hmem
      have hfdot := hdot f hf
      have : name = f.1 := by
        rcases hfk with e | e | e
        · exact (filterKey_inj _ _ _ _ hn hfdot (hk.symm.trans e)).1
        · exact (filterKey_inj _ _ _ _ hn hfdot (hk.symm.trans e)).1
        · exact (filterKey_inj _ _ _ _ hn hfdot (hk.symm.trans e)).1
      rw [this]
      exact List.mem_map.2 ⟨f, hf, rfl⟩
    · intro hname
      obtain ⟨f, hf, rfl⟩ := List.mem_map.1 hname
      have hmem : filterKey f.1 "Field" ∈ (transformProperties s).map Prod.fst :=
        (transformProperties_keys s _ (filterKey_startsWith _ _)).2 ⟨f, hf, Or.inl rfl⟩
      obtain ⟨kv, hkv, hk⟩ := List.mem_map.1 hmem
      exact ⟨kv, hkv, "Field", hk, hdot f hf, by decide⟩
  have hlook : ∀ name, (compileFilters (transformProperties s)).1.lookup name =
      s.Filter.lookup name := by
    intro name
    by_cases hname : name ∈ s.Filter.map Prod.fst
    · obtain ⟨f, hf, rfl⟩ := List.mem_map.1 hname
      rw [lookup_eq_filterGet _ _ ((hkeys f.1).2 hname), lookup_of_mem s.Filter hnd f hf,
        compileFilters_get _ hPnd f.1 (hdot f hf),
        transformProperties_get s _ (filterKey_startsWith _ _),
        transformProperties_get s _ (filterKey_startsWith _ _),
        transformProperties_get s _ (filterKey_startsWith _ _),
        (hvals f hf).1, (hvals f hf).2.1, (hvals f hf).2.2]
    · rw [lookup_eq_none_of_not_mem _ _ hname,
        lookup_eq_none_of_not_mem _ _ (fun h => hname ((hkeys name).1 h))]
  refine ⟨?_, ?_, ?_, ?_, ?_, ?_, ?_, ?_, ?_⟩
  · rw [hT, hV]
  · rw [hM, hP, transformProperties_mode]
  · rw [hA, hP, transformProperties_alias]
  · intro name
    rw [hF, hP]
    exact hlook name
  · intro name
    rw [hF, hP]
    exact hkeys name
  · rw [hF, compileFilters_fst]
    exact slot_fold_nodup compileValid _ [] List.nodup_nil
  · rw [compilePatternNode_children]
    have h := (sortedChildren_perm s.Transform).map (fun cw => compilePatternNode cw.e)
    have e : (withIdx 0 s.Transform.Children).map (fun cw => compilePatternNode cw.e) =
        s.Children.map (fun c => compilePatternNode c.Transform) := by
      have e1 : s.Children.map (fun c => compilePatternNode c.Transform) =
          (s.Children.map Structure.Transform).map compilePatternNode := by
        rw [List.map_map]; rfl
      rw [e1, ← hC]
      conv_rhs => rw [← withIdx_map_e 0 s.Transform.Children]
      rw [List.map_map]
      rfl
    rwa [e] at h
  · exact compilePatternNode_canonical s.Transform _
      (by rw [patternNodes_eq]; exact List.mem_cons_self _ _)
  · intro nodeType
    rfl

theorem builder_compiler_round_trip_witness :
    (∀ kv ∈ deltaStructure.Filter, DotFree kv.1) ∧
    (deltaStructure.Filter.map Prod.fst).Nodup ∧
    deltaStructure.Filter =
      [("proto", ("Value", "==", "protoX")),
        ("transport", ("Properties.Transport", "==", "secure"))] ∧
    (compilePatternNode deltaStructure.Transform).Filters = deltaStructure.Filter ∧
    (compilePatternNode deltaStructure.Transform).Mode = "Match" ∧
    (∀ name, (compilePatternNode deltaStructure.Transform).Filters.lookup name =
      deltaStructure.Filter.lookup name) :=
  ⟨by decide, by decide, by decide, by decide, by decide,
    (builder_compiler_round_trip deltaStructure (by decide) (by decide)).2.2.2.1⟩
theorem collectFilterStep_iff (filters : List String) (kv : String × String) (x : String) :
    x ∈ collectFilterStep filters kv ↔ x ∈ filters ∨ Collects kv x := by
  unfold collectFilterStep Collects
  by_cases h1 : startsWith kv.1 "Filter." = true
  · by_cases h2 : endsWith kv.1 ".Field" = true
    · by_cases h3 : startsWith kv.2 "Properties." = true
      · by_cases h4 : trimStart kv.2 "Properties." = ""
        · simp only [h1, h2, h3, h4, Bool.and_self, if_true, ne_eq, not_true_eq_false, if_false,
            List.mem_append, List.mem_singleton, true_and, false_and, and_false, or_false]
        · simp only [h1, h2, h3, h4, Bool.and_self, if_true, ne_eq, not_false_eq_true,
            List.mem_append, List.mem_singleton, true_and]
          tauto
      · simp only [h1, h2, h3, Bool.and_self, if_true, Bool.false_eq_true, if_false,
          List.mem_append, List.mem_singleton, true_and, false_and, or_false]
    · simp only [h1, h2, Bool.and_false, Bool.false_eq_true, if_false, true_and, false_and,
        or_false]
  · simp only [h1, Bool.false_and, Bool.false_eq_true, if_false, false_and, or_false]

theorem foldl_collectFilterStep_iff (p : StringMap) (x : String) :
    ∀ filters, x ∈ p.foldl collectFilterStep filters ↔
      x ∈ filters ∨ ∃ kv ∈ p, Collects kv x := by
  induction p with
  | nil => intro filters; simp
  | cons kv rest ih =>
    intro filters
    rw [List.foldl_cons, ih, collectFilterStep_iff]
    simp only [List.mem_cons, exists_eq_or_imp]
    tauto

theorem rCollectFiltersLoop_iff (rs : List TransportRelation) (x : String)
    (hrs : ∀ r ∈ rs, ∀ filters, (x ∈ rCollectFilters (TransportRelation.Target r) filters ↔
      x ∈ filters ∨ ∃ n ∈ rWalkInput r.Target, ∃ kv ∈ n.Properties, Collects kv x)) :
    ∀ filters, (x ∈ rCollectFiltersLoop rs filters ↔
      x ∈ filters ∨ ∃ r ∈ rs, ∃ n ∈ rWalkInput r.Target, ∃ kv ∈ n.Properties,
        Collects kv x) := by
  induction rs with
  | nil => intro filters; rw [rCollectFiltersLoop]; simp
  | cons r rest ih =>
    intro filters
    cases r with
    | mk rc rp tgt =>
      have h0 := hrs _ (List.mem_cons_self _ _) filters
      rw [show (TransportRelation.mk rc rp tgt).Target = tgt from rfl] at h0
      rw [rCollectFiltersLoop, ih (fun r hr => hrs r (List.mem_cons_of_mem _ hr)), h0]
      simp only [List.mem_cons, exists_eq_or_imp, TransportRelation.Target]
      constructor
      · rintro ((h | h) | h)
        · exact Or.inl h
        · exact Or.inr (Or.inl h)
        · exact Or.inr (Or.inr h)
      · rintro (h | h | h)
        · exact Or.inl (Or.inl h)
        · exact Or.inl (Or.inr h)
        · exact Or.inr h

theorem rCollectFilters_iff (e : TransportEntity) (x : String) :
    ∀ filters, (x ∈ rCollectFilters e filters ↔
      x ∈ filters ∨ ∃ n ∈ rWalkInput e, ∃ kv ∈ n.Properties, Collects kv x) := by
  induction e using transportEntity_induct with
  | h t i v c p crs prs ihc ihp =>
    intro filters
    rw [rCollectFilters, rCollectFiltersLoop_iff prs x ihp, rCollectFiltersLoop_iff crs x ihc,
      foldl_collectFilterStep_iff, rWalkInput_eq]
    simp only [List.mem_cons, List.mem_append, List.mem_flatMap, exists_eq_or_imp,
      TransportEntity.Properties, TransportEntity.ChildRelations,
      TransportEntity.ParentRelations]
    constructor
    · rintro (((h | h) | ⟨r, hr, n, hn, h⟩) | ⟨r, hr, n, hn, h⟩)
      · exact Or.inl h
      · exact Or.inr (Or.inl h)
      · exact Or.inr (Or.inr ⟨n, Or.inl ⟨r, hr, hn⟩, h⟩)
      · exact Or.inr (Or.inr ⟨n, Or.inr ⟨r, hr, hn⟩, h⟩)
    · rintro (h | h | ⟨n, ⟨r, hr, hn⟩ | ⟨r, hr, hn⟩, h⟩)
      · exact Or.inl (Or.inl (Or.inl h))
      · exact Or.inl (Or.inl (Or.inr h))
      · exact Or.inl (Or.inr ⟨r, hr, n, hn, h⟩)
      · exact Or.inr ⟨r, hr, n, hn, h⟩

theorem rWalkInput_no_parents (e : TransportEntity) :
    (∀ n ∈ walkChildren e, n.ParentRelations = []) → rWalkInput e = walkChildren e := by
  induction e using transportEntity_induct with
  | h t i v c p crs prs ihc _ =>
    intro h
    have hp : prs = [] :=
      h (.mk t i v c p crs prs) (by rw [walkChildren_eq]; exact List.mem_cons_self _ _)
    subst hp
    rw [rWalkInput_eq, walkChildren_eq]
    simp only [TransportEntity.ChildRelations, TransportEntity.ParentRelations,
      List.flatMap_nil, List.append_nil]
    congr 1
    have : ∀ r ∈ crs, rWalkInput r.Target = walkChildren r.Target := by
      intro r hr
      apply ihc r hr
      intro n hn
      apply h
      rw [walkChildren_eq]
      exact List.mem_cons_of_mem _ (List.mem_flatMap.2 ⟨r, hr, hn⟩)
    clear ihc h
    induction crs with
    | nil => rfl
    | cons r rs ih =>
      rw [List.flatMap_cons, List.flatMap_cons, this r (List.mem_cons_self _ _),
        ih (fun r hr => this r (List.mem_cons_of_mem _ hr))]

theorem patternNodes_compile (e : TransportEntity) (pn : PatternNode) :
    pn ∈ patternNodes (compilePatternNode e) ↔
      ∃ n ∈ walkChildren e, pn = compilePatternNode n := by
  induction e using transportEntity_induct generalizing pn with
  | h t i v c p crs prs ihc _ =>
    rw [patternNodes_eq, compilePatternNode_children, walkChildren_eq]
    simp only [List.mem_cons, List.mem_flatMap, List.mem_map, exists_eq_or_imp,
      TransportEntity.ChildRelations]
    constructor
    · rintro (h | ⟨k, ⟨cw, hcw, rfl⟩, hpn⟩)
      · exact Or.inl h
      · have hmem := sortedChildren_mem _ cw hcw
        obtain ⟨r, hr, hrt⟩ := List.mem_map.1 hmem
        rw [← hrt] at hpn
        obtain ⟨n, hn, hpn2⟩ := (ihc r hr pn).1 hpn
        exact Or.inr ⟨n, ⟨r, hr, hn⟩, hpn2⟩
    · rintro (h | ⟨n, ⟨r, hr, hn⟩, hpn⟩)
      · exact Or.inl h
      · have hin : r.Target ∈ (sortedChildren (.mk t i v c p crs prs)).map (fun cw => cw.e) :=
          (sortedChildren_entities_perm _).mem_iff.2 (List.mem_map.2 ⟨r, hr, rfl⟩)
        obtain ⟨cw, hcw, hcwe⟩ := List.mem_map.1 hin
        refine Or.inr ⟨compilePatternNode cw.e, ⟨cw, hcw, rfl⟩, ?_⟩
        rw [hcwe]
        exact (ihc r hr pn).2 ⟨n, hn, hpn⟩
theorem endsWith_filterKey (name kind : String)
    (hk : kind = "Field" ∨ kind = "Operator" ∨ kind = "Value") :
    endsWith (filterKey name kind) ".Field" = true ↔ kind = "Field" := by
  have hrev : ∀ k : String, (filterKey name k).toList.reverse =
      k.toList.reverse ++ '.' :: (name.toList.reverse ++ '.' :: "Filter".toList.reverse) := by
    intro k
    rw [filterKey_toList]
    simp only [List.reverse_append, List.reverse_cons, List.append_assoc, List.singleton_append,
      List.cons_append, List.nil_append]
  have hp : ".Field".toList.reverse = ['d', 'l', 'e', 'i', 'F', '.'] := by decide
  unfold endsWith
  rw [hrev, hp]
  rcases hk with rfl | rfl | rfl
  · have : "Field".toList.reverse = ['d', 'l', 'e', 'i', 'F'] := by decide
    rw [this]
    simp [List.isPrefixOf]
  · have : "Operator".toList.reverse = ['r', 'o', 't', 'a', 'r', 'e', 'p', 'O'] := by decide
    rw [this]
    simp [List.isPrefixOf]
  · have : "Value".toList.reverse = ['e', 'u', 'l', 'a', 'V'] := by decide
    rw [this]
    simp [List.isPrefixOf]
theorem mapGet_of_mem (P : StringMap) (hnd : (P.map Prod.fst).Nodup) (kv : String × String)
    (h : kv ∈ P) : mapGet P kv.1 = kv.2 := by
  unfold mapGet
  rw [lookup_of_mem P hnd kv h]

theorem filterGet_of_mem (m : List (String × FilterRec)) (hnd : (m.map Prod.fst).Nodup)
    (f : String × FilterRec) (h : f ∈ m) : filterGet m f.1 = f.2 := by
  unfold filterGet
  rw [lookup_of_mem m hnd f h]

theorem node_mentions_iff (P : StringMap) (hnd : (P.map Prod.fst).Nodup)
    (hform : ∀ kv ∈ P, startsWith kv.1 "Filter." = true → FilterKeyForm kv.1)
    (hfield : ∀ name, DotFree name →
      (filterKey name "Operator" ∈ P.map Prod.fst ∨ filterKey name "Value" ∈ P.map Prod.fst) →
      filterKey name "Field" ∈ P.map Prod.fst)
    (key : String) :
    ((∃ f ∈ (compileFilters P).1, f.2.1 = key) ∨ key ∈ (compileFilters P).2.map Prod.fst) ↔
      ∃ kv ∈ P, Collects kv key := by
  have hFnd : ((compileFilters P).1.map Prod.fst).Nodup := by
    rw [compileFilters_fst]
    exact slot_fold_nodup compileValid _ [] List.nodup_nil
  have hN : key ∈ (compileFilters P).2.map Prod.fst ↔ ∃ kv ∈ P, normalizedKey kv = some key := by
    unfold compileFilters
    rw [foldl_compileFilterStep_keys key P ([], [])]
    constructor
    · rintro (h | h)
      · cases h
      · exact h
    · exact fun h => Or.inr h
  constructor
  · rintro (⟨f, hf, hfk⟩ | h)
    · have hname : f.1 ∈ (compileFilters P).1.map Prod.fst := List.mem_map.2 ⟨f, hf, rfl⟩
      obtain ⟨kv, hkv, kind, hk, hn, _⟩ := (compileFilters_keys P f.1).1 hname
      obtain ⟨name2, kind2, hn2, hkind2, hk2⟩ :=
        hform kv hkv (hk ▸ filterKey_startsWith f.1 kind)
      obtain ⟨e1, e2⟩ := filterKey_inj _ _ _ _ hn hn2 (hk.symm.trans hk2)
      subst e2
      have hFk : filterKey f.1 "Field" ∈ P.map Prod.fst := by
        rcases hkind2 with e | e | e
        · rw [← e, ← hk]
          exact List.mem_map.2 ⟨kv, hkv, rfl⟩
        · apply hfield f.1 hn
          left
          rw [← e, ← hk]
          exact List.mem_map.2 ⟨kv, hkv, rfl⟩
        · apply hfield f.1 hn
          right
          rw [← e, ← hk]
          exact List.mem_map.2 ⟨kv, hkv, rfl⟩
      obtain ⟨kvF, hkvF, hkF⟩ := List.mem_map.1 hFk
      have hget := compileFilters_get P hnd f.1 hn
      rw [filterGet_of_mem _ hFnd f hf] at hget
      have hval : mapGet P (filterKey f.1 "Field") = kvF.2 := by
        rw [← hkF]
        exact mapGet_of_mem P hnd kvF hkvF
      refine ⟨kvF, hkvF, ?_, ?_, Or.inl ?_⟩
      · rw [hkF]; exact filterKey_startsWith _ _
      · rw [hkF]; exact (endsWith_filterKey _ _ (Or.inl rfl)).2 rfl
      · rw [← hfk, hget, hval]
    · obtain ⟨kv, hkv, hnk⟩ := hN.1 h
      obtain ⟨hne, ⟨name, _, hk⟩, hv⟩ := (normalizedKey_iff kv key).1 hnk
      refine ⟨kv, hkv, ?_, ?_, Or.inr ⟨?_, ?_, ?_⟩⟩
      · rw [hk]; exact filterKey_startsWith _ _
      · rw [hk]; exact (endsWith_filterKey _ _ (Or.inl rfl)).2 rfl
      · rw [hv]; exact (startsWith_iff _ _).2 ⟨key, rfl⟩
      · rw [hv, trimStart_append]; exact hne
      · rw [hv, trimStart_append]
  · rintro ⟨kv, hkv, h1, h2, h3⟩
    obtain ⟨name, kind, hn, hkind, hk⟩ := hform kv hkv h1
    have hF : kind = "Field" := by
      rw [hk] at h2
      exact (endsWith_filterKey name kind hkind).1 h2
    subst hF
    rcases h3 with h3 | ⟨h4, h5, h6⟩
    · left
      have hname : name ∈ (compileFilters P).1.map Prod.fst :=
        (compileFilters_keys P name).2 ⟨kv, hkv, "Field", hk, hn, by decide⟩
      obtain ⟨f, hf, hfn⟩ := List.mem_map.1 hname
      refine ⟨f, hf, ?_⟩
      have hget := compileFilters_get P hnd name hn
      rw [← hfn, filterGet_of_mem _ hFnd f hf, hfn, ← hk, mapGet_of_mem P hnd kv hkv] at hget
      rw [hget, h3]
    · right
      obtain ⟨t, ht⟩ := (startsWith_iff _ _).1 h4
      rw [ht, trimStart_append] at h5 h6
      subst h6
      exact hN.2 ⟨kv, hkv, (normalizedKey_iff kv key).2
        ⟨h5, ⟨name, hn, hk⟩, ht⟩⟩
theorem filterKeyForm_of_check (k : String) (h1 : startsWith k "Filter." = true)
    (h2 : keyFormCheck k = true) : FilterKeyForm k := by
  unfold keyFormCheck at h2
  cases hk : keyNameKind k with
  | none => rw [hk] at h2; cases h2
  | some nk =>
    rw [hk] at h2
    simp only [Bool.or_eq_true, beq_iff_eq] at h2
    obtain ⟨name, kind⟩ := nk
    obtain ⟨e, hn, _⟩ := (compileValid_keyNameKind k name kind).1 ⟨h1, hk⟩
    refine ⟨name, kind, hn, ?_, e⟩
    rcases h2 with (h | h) | h
    · exact Or.inl h
    · exact Or.inr (Or.inl h)
    · exact Or.inr (Or.inr h)

theorem plainDependency_of_checks (dep : TransportEntity) (h1 : dep.Typ = "Dependency")
    (h2 : dep.ChildRelations.length = 1)
    (h3 : ∀ kv ∈ dep.Properties, startsWith kv.1 "Filter." = false)
    (h4 : ∀ n ∈ walkChildren dep, n.ParentRelations.isEmpty = true)
    (h5 : ∀ n ∈ walkChildren dep, ∀ kv ∈ n.Properties,
      startsWith kv.1 "Filter." = true → keyFormCheck kv.1 = true)
    (h6 : ∀ n ∈ walkChildren dep, (n.Properties.map Prod.fst).Nodup) :
    PlainDependency dep :=
  ⟨h1, h2, h3, fun n hn => List.isEmpty_iff.1 (h4 n hn),
    fun n hn kv hkv h => filterKeyForm_of_check kv.1 h (h5 n hn kv hkv h), h6⟩

theorem filtersHaveField_of_checks (dep : TransportEntity)
    (h : ∀ n ∈ walkChildren dep, ∀ kv ∈ n.Properties,
      startsWith kv.1 "Filter." = true → fieldCheck n.Properties kv.1 = true) :
    FiltersHaveField dep := by
  intro n hn name hname hor
  have key : ∀ kind, DotFree kind → filterKey name kind ∈ n.Properties.map Prod.fst →
      filterKey name "Field" ∈ n.Properties.map Prod.fst := by
    intro kind hkind hmem
    obtain ⟨kv, hkv, hk⟩ := List.mem_map.1 hmem
    have hc := h n hn kv hkv (hk ▸ filterKey_startsWith name kind)
    unfold fieldCheck at hc
    rw [hk, keyNameKind_filterKey name kind hname hkind] at hc
    simpa using hc
  rcases hor with h1 | h1
  · exact key "Operator" (by decide) h1
  · exact key "Value" (by decide) h1

/-- C31, as stated, fails: `fieldlessDependency` meets the conditions of the
claim, its root has the filter `x` with an Operator and no Field, so the compiled
pattern holds the filter `x` with the empty Field; the markers `""` and `"Tag,"`
list the empty key, which the compiled pattern mentions, and the relevance check
is false for both. -/
theorem relevance_misses_fieldless_filter :
    PlainDependency fieldlessDependency ∧
    (compilePatternNode (dependencyRoot fieldlessDependency)).Filters =
      [("x", ("", "==", ""))] ∧
    markerKeys "" = [""] ∧ markerKeys "Tag," = ["Tag", ""] ∧
    PatternMentions (compilePatternNode (dependencyRoot fieldlessDependency)) "" ∧
    hasRelevantFilter fieldlessDependency "" = false ∧
    hasRelevantFilter fieldlessDependency "Tag," = false ∧
    ¬ FiltersHaveField fieldlessDependency := by
  refine ⟨plainDependency_of_checks _ (by decide) (by decide) (by decide) (by decide)
    (by decide) (by decide), by decide, by decide, by decide, by decide, by decide, by decide,
    ?_⟩
  intro h
  have hmem : dependencyRoot fieldlessDependency ∈ walkChildren fieldlessDependency := by
    show _ ∈ [fieldlessDependency, dependencyRoot fieldlessDependency]
    exact List.mem_cons_of_mem _ (List.mem_cons_self _ _)
  have := h (dependencyRoot fieldlessDependency) hmem "x" (by decide) (Or.inl (by decide))
  revert this
  decide

/-- C31, amended: the relevance check agrees with the compiled pattern when every
filter has a Field. For a Dependency entity with exactly one child, without a
filter property of its own and without a parent relation in its tree, whose filter
property keys have the form `Filter.<name>.<Field|Operator|Value>` with a dot-free
name, and in which a node that has the Operator or the Value key of a filter name
also has its Field key: `hasRelevantFilter` is true for a marker exactly when one
of the comma-separated, trimmed keys of the marker is the Field of a filter in
`Filters`, or a key of `NormalizedFilterFields`, of some node of the compiled
pattern of the dependency. -/
theorem relevance_agrees_with_pattern (dep : TransportEntity) (keys : String)
    (h : PlainDependency dep) (hF : FiltersHaveField dep) :
    hasRelevantFilter dep keys = true ↔
      ∃ key ∈ markerKeys keys,
        PatternMentions (compilePatternNode (dependencyRoot dep)) key := by
  have hL : hasRelevantFilter dep keys = true ↔
      ∃ key ∈ markerKeys keys, ∃ n ∈ walkChildren dep, ∃ kv ∈ n.Properties,
        Collects kv key := by
    unfold hasRelevantFilter markerKeys
    simp only [List.any_eq_true, List.contains_iff_exists_mem_beq, beq_iff_eq, List.mem_map]
    constructor
    · rintro ⟨raw, hraw, x, hx, hxk⟩
      rw [rCollectFilters_iff, rWalkInput_no_parents dep h.no_parents] at hx
      rcases hx with hx | hx
      · cases hx
      · exact ⟨x, ⟨raw, hraw, hxk⟩, hx⟩
    · rintro ⟨key, ⟨raw, hraw, hk⟩, hx⟩
      refine ⟨raw, hraw, key, ?_, hk⟩
      rw [rCollectFilters_iff, rWalkInput_no_parents dep h.no_parents]
      exact Or.inr hx
  rw [hL]
  obtain ⟨htyp, hone, hown, _, hform, hnd⟩ := h
  cases dep with
  | mk t i v c p crs prs =>
    cases crs with
    | nil => cases hone
    | cons r rest =>
      cases rest with
      | cons r2 rest2 => cases hone
      | nil =>
        have hroot : dependencyRoot (.mk t i v c p [r] prs) = r.Target := by
          unfold dependencyRoot
          rw [if_pos htyp]
          rfl
        have hwalk : walkChildren (.mk t i v c p [r] prs) =
            .mk t i v c p [r] prs :: walkChildren r.Target := by
          rw [walkChildren_eq]
          simp [TransportEntity.ChildRelations]
        rw [hroot]
        have hsub : ∀ n ∈ walkChildren r.Target, n ∈ walkChildren (.mk t i v c p [r] prs) := by
          intro n hn
          rw [hwalk]
          exact List.mem_cons_of_mem _ hn
        have hnode : ∀ n ∈ walkChildren r.Target, ∀ key,
            ((∃ f ∈ (compilePatternNode n).Filters, f.2.1 = key) ∨
              key ∈ (compilePatternNode n).NormalizedFilterFields.map Prod.fst) ↔
            ∃ kv ∈ n.Properties, Collects kv key := by
          intro n hn key
          obtain ⟨_, _, _, hFi, hNo⟩ := compilePatternNode_fields n
          rw [hFi, hNo]
          exact node_mentions_iff n.Properties (hnd n (hsub n hn)) (hform n (hsub n hn))
            (hF n (hsub n hn)) key
        constructor
        · rintro ⟨key, hkey, n, hn, kv, hkv, hc⟩
          refine ⟨key, hkey, ?_⟩
          rw [hwalk] at hn
          rcases List.mem_cons.1 hn with rfl | hn
          · have := hown kv hkv
            rw [hc.1] at this
            cases this
          · exact ⟨compilePatternNode n, (patternNodes_compile _ _).2 ⟨n, hn, rfl⟩,
              (hnode n hn key).2 ⟨kv, hkv, hc⟩⟩
        · rintro ⟨key, hkey, m, hm, hment⟩
          obtain ⟨n, hn, rfl⟩ := (patternNodes_compile _ _).1 hm
          obtain ⟨kv, hkv, hc⟩ := (hnode n hn key).1 hment
          exact ⟨key, hkey, n, hsub n hn, kv, hkv, hc⟩

theorem relevance_agrees_with_pattern_witness :
    PlainDependency matchDependency ∧ FiltersHaveField matchDependency ∧
    hasRelevantFilter matchDependency "Tag, Transport" = true ∧
    (∃ key ∈ markerKeys "Tag, Transport",
      PatternMentions (compilePatternNode (dependencyRoot matchDependency)) key) ∧
    hasRelevantFilter matchDependency "Tag" = false :=
  ⟨plainDependency_of_checks _ (by decide) (by decide) (by decide) (by decide) (by decide)
      (by decide),
    filtersHaveField_of_checks _ (by decide), by decide,
    (relevance_agrees_with_pattern matchDependency "Tag, Transport"
      (plainDependency_of_checks _ (by decide) (by decide) (by decide) (by decide) (by decide)
        (by decide))
      (filtersHaveField_of_checks _ (by decide))).1 (by decide),
    by decide⟩

end Cyberbrain
